import Mathlib

/-!
# stslua: the MessagePack, JSON and Base64 codecs
(`sts_msgpack.c`, `sts_json.c`, `sts_base64.c`)

A shallow embedding of the C sources of the repository.  The C functions keep
their names.  The host is the reference Lua 5.4 on an LP64 little-endian
IEEE 754 machine: `lua_Integer` is a 64-bit two's-complement integer,
`lua_Number` is a binary64 float, `int` has 32 bits and `size_t` has 64 bits.
Narrowing conversions wrap modulo `2^w`, and so does the overflow of an `int`
counter.  Memory and the Lua stack are taken to be unbounded, so
`luaL_checkstack` and the allocations of the Lua API succeed.  The C library
runs in the C locale.
-/

set_option autoImplicit false

/-! ## Machine integers -/

namespace C

/-- Conversion of an integer to `uint8_t`. -/
def to_uint8 (x : Int) : UInt8 := UInt8.ofNat (x % 256).toNat

/-- Conversion of an integer to `uint16_t`. -/
def to_uint16 (x : Int) : Nat := (x % 2 ^ 16).toNat

/-- Conversion of an integer to `uint32_t`. -/
def to_uint32 (x : Int) : Nat := (x % 2 ^ 32).toNat

/-- Conversion of an integer to `uint64_t` (also `size_t`). -/
def to_uint64 (x : Int) : Nat := (x % 2 ^ 64).toNat

/-- Conversion of an integer to `int8_t`. -/
def to_int8 (x : Int) : Int := (x + 2 ^ 7) % 2 ^ 8 - 2 ^ 7

/-- Conversion of an integer to `int16_t`. -/
def to_int16 (x : Int) : Int := (x + 2 ^ 15) % 2 ^ 16 - 2 ^ 15

/-- Conversion of an integer to `int32_t`, which is also `int`. -/
def to_int32 (x : Int) : Int := (x + 2 ^ 31) % 2 ^ 32 - 2 ^ 31

/-- Conversion of an integer to `int64_t`, which is also `lua_Integer`. -/
def to_int64 (x : Int) : Int := (x + 2 ^ 63) % 2 ^ 64 - 2 ^ 63

end C

/-! ## IEEE 754 numbers, as bit patterns -/

namespace Float754

/-- Number of bits of a natural number (0 for 0). -/
def bit_length (n : Nat) : Nat := if n = 0 then 0 else Nat.log2 n + 1

/-- The integer `floor (log2 (p / q))` for positive `p` and `q`. -/
def floor_log2 (p q : Nat) : Int :=
  let l : Int := (Nat.log2 p : Int) - (Nat.log2 q : Int)
  if l ≥ 0 then (if q * 2 ^ l.toNat ≤ p then l else l - 1)
  else (if q ≤ p * 2 ^ (-l).toNat then l else l - 1)

/-- Round the rational `p / q` (with `q > 0`) to the nearest number `m * 2^e`
with `m < 2^prec` (or `m = 2^prec` after a carry) and `e ≥ emin`, ties to even.
The result is the pair `(m, e)`. -/
def round_nearest_even (p q : Nat) (prec : Nat) (emin : Int) : Nat × Int :=
  if p = 0 then (0, emin)
  else
    let e : Int := max emin (floor_log2 p q - ((prec : Int) - 1))
    let num : Nat := if e ≥ 0 then p else p * 2 ^ (-e).toNat
    let den : Nat := if e ≥ 0 then q * 2 ^ e.toNat else q
    let n := num / den
    let r := num % den
    if 2 * r > den ∨ (2 * r = den ∧ n % 2 = 1) then (n + 1, e) else (n, e)

/-- Pack sign, significand and exponent (the value is `m * 2^e`, as produced by
`round_nearest_even` with precision `mbits + 1` and least exponent
`2 - 2^(ebits-1) - mbits`) into an IEEE 754 bit pattern with `ebits` exponent
bits and `mbits` stored significand bits.  Overflow gives an infinity. -/
def pack (ebits mbits : Nat) (neg : Bool) (m : Nat) (e : Int) : Nat :=
  let sign : Nat := if neg then 2 ^ (ebits + mbits) else 0
  let bias : Int := 2 ^ (ebits - 1) - 1
  let inf : Nat := (2 ^ ebits - 1) * 2 ^ mbits
  if m < 2 ^ mbits then sign + m
  else
    let (m, e) := if m = 2 ^ (mbits + 1) then (2 ^ mbits, e + 1) else (m, e)
    let field : Int := e + mbits + bias
    if field ≥ 2 ^ ebits - 1 then sign + inf
    else sign + field.toNat * 2 ^ mbits + (m - 2 ^ mbits)

/-- Sign bit of a pattern. -/
def sign_of (ebits mbits : Nat) (bits : Nat) : Bool := bits / 2 ^ (ebits + mbits) % 2 = 1

/-- Exponent field of a pattern. -/
def exp_of (ebits mbits : Nat) (bits : Nat) : Nat := bits / 2 ^ mbits % 2 ^ ebits

/-- Stored significand field of a pattern. -/
def frac_of (mbits : Nat) (bits : Nat) : Nat := bits % 2 ^ mbits

/-- Is the pattern a NaN? -/
def is_nan (ebits mbits : Nat) (bits : Nat) : Bool :=
  exp_of ebits mbits bits = 2 ^ ebits - 1 ∧ frac_of mbits bits ≠ 0

/-- Is the pattern an infinity? -/
def is_inf (ebits mbits : Nat) (bits : Nat) : Bool :=
  exp_of ebits mbits bits = 2 ^ ebits - 1 ∧ frac_of mbits bits = 0

/-- Magnitude of a finite pattern, as `m * 2^e`. -/
def magnitude (ebits mbits : Nat) (bits : Nat) : Nat × Int :=
  let bias : Int := 2 ^ (ebits - 1) - 1
  let ex := exp_of ebits mbits bits
  if ex = 0 then (frac_of mbits bits, 1 - bias - mbits)
  else (2 ^ mbits + frac_of mbits bits, (ex : Int) - bias - mbits)

/-- The C conversion `(float)f64`: binary64 pattern to binary32 pattern, rounding
to nearest, ties to even. -/
def f64_to_f32 (bits : Nat) : Nat :=
  let sign : Nat := if sign_of 11 52 bits then 2 ^ 31 else 0
  if is_nan 11 52 bits then sign + 0x7fc00000 + frac_of 52 bits / 2 ^ 29 % 2 ^ 22
  else if is_inf 11 52 bits then sign + 0x7f800000
  else
    let (m, e) := magnitude 11 52 bits
    let (p, q) : Nat × Nat := if e ≥ 0 then (m * 2 ^ e.toNat, 1) else (m, 2 ^ (-e).toNat)
    let (m32, e32) := round_nearest_even p q 24 (-149)
    pack 8 23 (sign_of 11 52 bits) m32 e32

/-- The C conversion of a `float` to `double`: binary32 pattern to binary64
pattern (exact; a NaN becomes a quiet NaN). -/
def f32_to_f64 (bits : Nat) : Nat :=
  let sign : Nat := if sign_of 8 23 bits then 2 ^ 63 else 0
  if is_nan 8 23 bits then sign + 0x7ff8000000000000 + frac_of 23 bits % 2 ^ 22 * 2 ^ 29
  else if is_inf 8 23 bits then sign + 0x7ff0000000000000
  else
    let (m, e) := magnitude 8 23 bits
    let (p, q) : Nat × Nat := if e ≥ 0 then (m * 2 ^ e.toNat, 1) else (m, 2 ^ (-e).toNat)
    let (m64, e64) := round_nearest_even p q 53 (-1074)
    pack 11 52 (sign_of 8 23 bits) m64 e64

/-- The C comparison `a == b` of two binary64 patterns. -/
def f64_eq (a b : Nat) : Bool :=
  if is_nan 11 52 a ∨ is_nan 11 52 b then false
  else if a % 2 ^ 63 = 0 ∧ b % 2 ^ 63 = 0 then true
  else a = b

/-- The integer a finite binary64 pattern denotes, when it denotes one. -/
def f64_to_int_exact (bits : Nat) : Option Int :=
  if exp_of 11 52 bits = 2047 then none
  else
    let (m, e) := magnitude 11 52 bits
    let s : Int := if sign_of 11 52 bits then -1 else 1
    if e ≥ 0 then some (s * (m * 2 ^ e.toNat))
    else if m % 2 ^ (-e).toNat = 0 then some (s * (m / 2 ^ (-e).toNat : Nat)) else none

/-- The bytes of a `w`-byte object holding `bits`, in memory order. -/
def to_memory : (w : Nat) → (bits : Nat) → List UInt8
  | 0, _ => []
  | w + 1, bits => UInt8.ofNat (bits % 256) :: to_memory w (bits / 256)

/-- The value of an object whose bytes are given in memory order. -/
def of_memory : List UInt8 → Nat
  | [] => 0
  | b :: rest => b.toNat + 256 * of_memory rest

end Float754

/-! ## Lua values and the part of the Lua 5.4 C API the codecs use -/

namespace Lua

/-- The Lua types the codecs cannot encode. -/
inductive OtherType where
  | lightuserdata
  | function
  | userdata
  | thread
  deriving DecidableEq, Repr

/-- A Lua value.  A float is its binary64 bit pattern, a string is its bytes,
and a table is the list of its key/value pairs in the order in which `lua_next`
enumerates them. -/
inductive LuaValue where
  | nil
  | boolean (b : Bool)
  | integer (i : Int)
  | float (bits : Nat)
  | string (s : List UInt8)
  | table (entries : List (LuaValue × LuaValue))
  | other (t : OtherType)
  deriving Repr

/-- The character class `lisspace` of `lctype.h`. -/
def lisspace (c : UInt8) : Bool := (9 ≤ c.toNat ∧ c.toNat ≤ 13) ∨ c.toNat = 32

/-- The character class `lisdigit`. -/
def lisdigit (c : UInt8) : Bool := 48 ≤ c.toNat ∧ c.toNat ≤ 57

/-- The character class `lisxdigit`. -/
def lisxdigit (c : UInt8) : Bool :=
  lisdigit c ∨ (97 ≤ c.toNat ∧ c.toNat ≤ 102) ∨ (65 ≤ c.toNat ∧ c.toNat ≤ 70)

/-- The function `luaO_hexavalue`. -/
def luaO_hexavalue (c : UInt8) : Nat :=
  if lisdigit c then c.toNat - 48
  else if 97 ≤ c.toNat then c.toNat - 97 + 10 else c.toNat - 65 + 10

/-- Skip leading white space. -/
def skip_spaces : List UInt8 → List UInt8
  | [] => []
  | c :: cs => if lisspace c then skip_spaces cs else c :: cs

/-- The helper `isneg` of `lobject.c`: an optional sign. -/
def isneg : List UInt8 → Bool × List UInt8
  | 45 :: cs => (true, cs)
  | 43 :: cs => (false, cs)
  | s => (false, s)

/-- The hexadecimal loop of `l_str2int`: value modulo `2^64`, whether no digit
was read, and the rest of the input. -/
def str2int_hex : List UInt8 → Nat → Bool → Nat × Bool × List UInt8
  | [], a, empty => (a, empty, [])
  | c :: cs, a, empty =>
    if lisxdigit c then str2int_hex cs ((a * 16 + luaO_hexavalue c) % 2 ^ 64) false
    else (a, empty, c :: cs)

/-- The decimal loop of `l_str2int`; `none` on overflow. -/
def str2int_dec (neg : Bool) : List UInt8 → Nat → Bool → Option (Nat × Bool × List UInt8)
  | [], a, empty => some (a, empty, [])
  | c :: cs, a, empty =>
    if lisdigit c then
      let d := c.toNat - 48
      if a > 922337203685477580 ∨ (a = 922337203685477580 ∧ d > 7 + (if neg then 1 else 0)) then
        none
      else str2int_dec neg cs (a * 10 + d) false
    else some (a, empty, c :: cs)

/-- The function `l_str2int` of `lobject.c`, on the bytes of a Lua string. -/
def l_str2int (s : List UInt8) : Option Int :=
  let s := skip_spaces s
  let (neg, s) := isneg s
  let r : Option (Nat × Bool × List UInt8) :=
    match s with
    | 48 :: 120 :: cs => some (str2int_hex cs 0 true)
    | 48 :: 88 :: cs => some (str2int_hex cs 0 true)
    | _ => str2int_dec neg s 0 true
  match r with
  | none => none
  | some (a, empty, rest) =>
    if empty ∨ skip_spaces rest ≠ [] then none
    else some (C.to_int64 (if neg then 0 - (a : Int) else a))

/-- A maximal run of characters of a class, and the rest. -/
def take_class (p : UInt8 → Bool) : List UInt8 → List UInt8 × List UInt8
  | [] => ([], [])
  | c :: cs => if p c then (c :: (take_class p cs).1, (take_class p cs).2) else ([], c :: cs)

/-- The number a run of digits denotes in the given base. -/
def digits_value (base : Nat) (ds : List UInt8) : Nat :=
  ds.foldl (fun a c => a * base + luaO_hexavalue c) 0

/-- The optional exponent part of a numeral of `strtod`: the marker (`e`, `E` or
`p`, `P`), an optional sign and at least one decimal digit.  Gives the exponent
and the rest; an incomplete exponent part is not consumed. -/
def strtod_exponent (lower upper : UInt8) (s : List UInt8) : Int × List UInt8 :=
  match s with
  | [] => (0, [])
  | c :: cs =>
    if c = lower ∨ c = upper then
      let (neg, t) := isneg cs
      let (ds, rest) := take_class lisdigit t
      if ds = [] then (0, s)
      else ((if neg then -(digits_value 10 ds : Int) else (digits_value 10 ds : Int)), rest)
    else (0, s)

/-- The digits of a numeral of `strtod`: integer digits, an optional point and
fraction digits, with at least one digit in all.  Gives the digits before and
after the point and the rest. -/
def strtod_digits (p : UInt8 → Bool) (s : List UInt8) :
    Option (List UInt8 × List UInt8 × List UInt8) :=
  let (ip, t) := take_class p s
  match t with
  | 46 :: u =>
    let (fp, rest) := take_class p u
    if ip = [] ∧ fp = [] then none else some (ip, fp, rest)
  | _ => if ip = [] then none else some (ip, [], t)

/-- The value of a binary64 number given as sign and the rational `p / q`,
rounded to nearest: the result of `strtod` for that numeral. -/
def f64_of_ratio (neg : Bool) (p q : Nat) : Nat :=
  let (m, e) := Float754.round_nearest_even p q 53 (-1074)
  Float754.pack 11 52 neg m e

/-- The C99 function `strtod` in the C locale, without the `inf` and `nan`
forms (which `l_str2d` rejects beforehand): the binary64 pattern of the longest
numeral at the start of the input, and the rest.  `none` when there is no
numeral. -/
def strtod (s : List UInt8) : Option (Nat × List UInt8) :=
  let s := skip_spaces s
  let (neg, s) := isneg s
  let hex : Option (Nat × List UInt8) :=
    match s with
    | 48 :: x :: cs =>
      if x = 120 ∨ x = 88 then
        match strtod_digits lisxdigit cs with
        | none => none
        | some (ip, fp, t) =>
          let (ex, rest) := strtod_exponent 112 80 t
          let e2 : Int := ex - 4 * (fp.length : Int)
          let m := digits_value 16 (ip ++ fp)
          some (if e2 ≥ 0 then f64_of_ratio neg (m * 2 ^ e2.toNat) 1
                else f64_of_ratio neg m (2 ^ (-e2).toNat), rest)
      else none
    | _ => none
  match hex with
  | some r => some r
  | none =>
    match strtod_digits lisdigit s with
    | none => none
    | some (ip, fp, t) =>
      let (ex, rest) := strtod_exponent 101 69 t
      let e10 : Int := ex - (fp.length : Int)
      let m := digits_value 10 (ip ++ fp)
      some (if e10 ≥ 0 then f64_of_ratio neg (m * 10 ^ e10.toNat) 1
            else f64_of_ratio neg m (10 ^ (-e10).toNat), rest)

/-- The function `l_str2d` of `lobject.c`: a numeral with a point, an exponent
or a hexadecimal mantissa, read as a float.  A string whose first character
among `.xXnN` is `n` or `N` is rejected. -/
def l_str2d (s : List UInt8) : Option Nat :=
  match s.find? (fun c => c = 46 ∨ c = 120 ∨ c = 88 ∨ c = 110 ∨ c = 78) with
  | some 110 => none
  | some 78 => none
  | _ =>
    match strtod s with
    | none => none
    | some (bits, rest) => if skip_spaces rest = [] then some bits else none

/-- The function `luaO_str2num` of `lobject.c`, as used by `l_strton`: the
number a whole Lua string denotes, an integer when it reads as one and a float
otherwise. -/
def luaO_str2num (s : List UInt8) : Option LuaValue :=
  match l_str2int s with
  | some i => some (.integer i)
  | none =>
    match l_str2d s with
    | some bits => some (.float bits)
    | none => none

/-- The function `luaV_flttointns` with mode `F2Ieq`: the integer a float is
equal to, when there is one in the range of `lua_Integer`. -/
def luaV_flttointns (bits : Nat) : Option Int :=
  match Float754.f64_to_int_exact bits with
  | some i => if -2 ^ 63 ≤ i ∧ i < 2 ^ 63 then some i else none
  | none => none

/-- The API function `lua_tointeger`: the value converted to an integer, where
an integer, a float with an exact integer value and a string that
`luaO_str2num` reads as such a number are convertible, and 0 otherwise. -/
def lua_tointeger : LuaValue → Int
  | .integer i => i
  | .float bits => (luaV_flttointns bits).getD 0
  | .string s =>
    match luaO_str2num s with
    | some (.integer i) => i
    | some (.float bits) => (luaV_flttointns bits).getD 0
    | _ => 0
  | _ => 0

/-- The API function `lua_isinteger`. -/
def lua_isinteger : LuaValue → Bool
  | .integer _ => true
  | _ => false

/-- Raw equality of a stored key with a key being assigned.  Tables and the
other reference types are compared by identity; the codecs only ever assign
with freshly created tables, which are equal to no stored key. -/
def lua_rawequal : LuaValue → LuaValue → Bool
  | .nil, .nil => true
  | .boolean a, .boolean b => a = b
  | .integer a, .integer b => a = b
  | .float a, .float b => Float754.f64_eq a b
  | .string a, .string b => a = b
  | _, _ => false

/-- The key under which a table stores a given key: a float with an exact
integer value is stored as that integer. -/
def normalize_key : LuaValue → LuaValue
  | .float bits =>
    match luaV_flttointns bits with
    | some i => .integer i
    | none => .float bits
  | k => k

/-- The table after the raw assignment `t[k] = v`, for a key that is neither
nil nor NaN: assigning nil removes the entry, assigning to a stored key replaces
its value, and a new key is entered.  The list holds the entries of the table,
in the order of entry.  That is the order in which `lua_next` visits them when
the keys entered are `1, 2, .., n` in turn (they lie in the array part, which
is visited first and in order of the index) and when the table has one entry
only.  Two or more keys in the hash part are visited in the order of their
nodes, which depends on the hashes of the keys and on the size of the table:
the list does not give that order, and a table built here is enumerated again
only where the order is determined (`Msgpack.order_stable`). -/
def table_set (t : List (LuaValue × LuaValue)) (k v : LuaValue) : List (LuaValue × LuaValue) :=
  let k := normalize_key k
  match v with
  | .nil => t.filter (fun e => !lua_rawequal e.1 k)
  | _ =>
    if t.any (fun e => lua_rawequal e.1 k) then
      t.map (fun e => if lua_rawequal e.1 k then (e.1, v) else e)
    else t ++ [(k, v)]

/-- Errors the Lua API raises in the codecs (they are not caught by the
checkpoint of the codec and propagate to the caller of the library function). -/
inductive LuaError where
  /-- The message is: table index is nil. -/
  | index_is_nil
  /-- The message is: table index is NaN. -/
  | index_is_nan
  /-- Raised by `luaL_argcheck`; the message is: invalid starting position. -/
  | invalid_starting_position
  deriving DecidableEq, Repr

/-- The API function `lua_rawset` on a table given by its entries. -/
def lua_rawset (t : List (LuaValue × LuaValue)) (k v : LuaValue) :
    Except LuaError (List (LuaValue × LuaValue)) :=
  match k with
  | .nil => .error .index_is_nil
  | .float bits => if Float754.is_nan 11 52 bits then .error .index_is_nan else .ok (table_set t k v)
  | _ => .ok (table_set t k v)

/-- The API function `lua_rawseti`. -/
def lua_rawseti (t : List (LuaValue × LuaValue)) (i : Int) (v : LuaValue) :
    List (LuaValue × LuaValue) :=
  table_set t (.integer i) v

end Lua

/-! ## `sts_msgpack.c` -/

namespace Msgpack

open Lua

/-- The failures of the codec.  The first three are reported through
`msg_error` (the library function returns nil and the message), a `lua` error
is raised by the Lua API, and `out_of_fuel` is the end of the recursion budget
of the embedding, which the library functions never reach. -/
inductive MsgError where
  /-- The message is: required more bytes to decode messagepack. -/
  | more_bytes
  /-- The message is: invalid messagepack code: 0x%x. -/
  | invalid_code (code : UInt8)
  /-- The message is: cannot encode Lua value of type %s. -/
  | cannot_encode (t : OtherType)
  | lua (e : LuaError)
  | out_of_fuel
  deriving DecidableEq, Repr

/-- The codec state `msg_t`.  `input` stands for the fields `input` and
`length`; `buffer` is the array `buffer[1024 * 16]`, of which only the first
`position` bytes are meaningful; `table` lists the chunks stored in the Lua
table `msg->table` at the indices `1 .. index - 1`, so the field `index` is
`table.length + 1`.  The `int` field `index` is not kept by itself: it stays
below `2^31 - 1` as long as the output has at most `16384 * (2^31 - 3)` bytes,
more than `2^44`, which the arguments of the library function do not reach. -/
structure msg_t where
  position : Nat
  input : List UInt8
  buffer : List UInt8
  table : List (List UInt8)

/-- The table `table[256]` of `valid_utf8`. -/
def utf8_table (b : UInt8) : Nat :=
  if b.toNat ≤ 0x7f then 0
  else if b.toNat ≤ 0xbf then 8
  else if b.toNat ≤ 0xc1 then 9
  else if b.toNat ≤ 0xdf then 1
  else if b.toNat ≤ 0xef then 2
  else if b.toNat ≤ 0xf4 then 3
  else 9

/-- The inner `for` loop of `valid_utf8`: `code` continuation bytes are
expected at the start of `str`; gives the rest of the string, or `none` when a
byte is not a continuation byte. -/
def valid_utf8_cont : (code : Nat) → (str : List UInt8) → Option (List UInt8)
  | 0, str => some str
  | _ + 1, [] => none
  | code + 1, b :: str => if utf8_table b ≠ 8 then none else valid_utf8_cont code str

/-- The outer loop of `valid_utf8`, with the `length` bytes that are left as a
list; `fuel` bounds the number of iterations. -/
def valid_utf8_loop : (fuel : Nat) → (str : List UInt8) → Bool
  | _, [] => true
  | 0, _ :: _ => false
  | fuel + 1, b :: str =>
    let code := utf8_table b
    if code > 3 ∨ code > str.length then false
    else
      match valid_utf8_cont code str with
      | none => false
      | some rest => valid_utf8_loop fuel rest

/-- The function `valid_utf8`. -/
def valid_utf8 (str : List UInt8) : Bool := valid_utf8_loop str.length str

/-- The loop of `count_table`: the state is `index` and `array`. -/
def count_table_loop : List (LuaValue × LuaValue) → Int → Bool → Int × Bool
  | [], index, array => (index, array)
  | (key, _) :: rest, index, array =>
    let array := if array && (lua_tointeger key != index) then false else array
    count_table_loop rest (C.to_int32 (index + 1)) array

/-- The function `count_table`, on the entries of the table on the stack. -/
def count_table (entries : List (LuaValue × LuaValue)) : Int :=
  let (index, array) := count_table_loop entries 1 true
  if array then C.to_int32 (index - 1) else C.to_int32 (-(C.to_int32 (index - 1)))

/-- The function `msg_flush`. -/
def msg_flush (msg : msg_t) : msg_t :=
  if msg.position > 0 then
    { msg with table := msg.table ++ [msg.buffer.take msg.position], position := 0 }
  else msg

/-- The function `msg_write`. -/
def msg_write (msg : msg_t) (value : UInt8) : msg_t :=
  let msg := if msg.position ≥ 1024 * 16 then msg_flush msg else msg
  { msg with buffer := msg.buffer.take msg.position ++ [value], position := msg.position + 1 }

/-- The function `msg_write_str`. -/
def msg_write_str (msg : msg_t) : (str : List UInt8) → msg_t
  | [] => msg
  | b :: str => msg_write_str (msg_write msg b) str

/-- The function `msg_write_int`; `value` is a `uint64_t`. -/
def msg_write_int (msg : msg_t) (value : Nat) : (length : Nat) → msg_t
  | 0 => msg
  | length + 1 =>
    msg_write_int (msg_write msg (UInt8.ofNat ((value >>> (length * 8)) &&& 255))) value length

/-- The function `msg_read`. -/
def msg_read (msg : msg_t) : Except MsgError (UInt8 × msg_t) :=
  if msg.position ≥ msg.input.length then .error .more_bytes
  else .ok (msg.input.getD msg.position 0, { msg with position := msg.position + 1 })

/-- The function `msg_read_bin`: the `length` bytes read, in order. -/
def msg_read_bin (msg : msg_t) : (length : Nat) → Except MsgError (List UInt8 × msg_t)
  | 0 => .ok ([], msg)
  | length + 1 =>
    match msg_read msg with
    | .error e => .error e
    | .ok (b, msg) =>
      match msg_read_bin msg length with
      | .error e => .error e
      | .ok (bs, msg) => .ok (b :: bs, msg)

/-- The function `msg_read_str`: the Lua string of the `length` bytes read. -/
def msg_read_str (msg : msg_t) (length : Nat) : Except MsgError (LuaValue × msg_t) :=
  match msg_read_bin msg length with
  | .error e => .error e
  | .ok (bs, msg) => .ok (.string bs, msg)

/-- The loop of `msg_read_int`, from the accumulated `value`. -/
def msg_read_int_loop (msg : msg_t) (value : Nat) : (length : Nat) → Except MsgError (Nat × msg_t)
  | 0 => .ok (value, msg)
  | length + 1 =>
    match msg_read msg with
    | .error e => .error e
    | .ok (b, msg) => msg_read_int_loop msg (((value <<< 8) ||| b.toNat) % 2 ^ 64) length

/-- The function `msg_read_int`. -/
def msg_read_int (msg : msg_t) (length : Nat) : Except MsgError (Nat × msg_t) :=
  msg_read_int_loop msg 0 length

/-- The integer branch of `msg_encode_number`. -/
def msg_encode_integer (msg : msg_t) (i : Int) : msg_t :=
  if i ≥ 0 then
    if i ≤ 0x7f then msg_write msg (C.to_uint8 i)
    else if i ≤ 0xff then msg_write_int (msg_write msg 0xcc) (C.to_uint64 i) 1
    else if i ≤ 0xffff then msg_write_int (msg_write msg 0xcd) (C.to_uint64 i) 2
    else if i ≤ 0xffffffff then msg_write_int (msg_write msg 0xce) (C.to_uint64 i) 4
    else msg_write_int (msg_write msg 0xcf) (C.to_uint64 i) 8
  else
    if i ≥ -32 then msg_write msg (C.to_uint8 i)
    else if i ≥ -128 then msg_write_int (msg_write msg 0xd0) (C.to_uint8 i).toNat 1
    else if i ≥ -32768 then msg_write_int (msg_write msg 0xd1) (C.to_uint16 i) 2
    else if i ≥ -2147483648 then msg_write_int (msg_write msg 0xd2) (C.to_uint32 i) 4
    else msg_write_int (msg_write msg 0xd3) (C.to_uint64 i) 8

/-- The float branch of `msg_encode_number`. -/
def msg_encode_float (msg : msg_t) (f64 : Nat) : msg_t :=
  let f32 := Float754.f64_to_f32 f64
  if Float754.f64_eq f64 (Float754.f32_to_f64 f32) then
    msg_write_str (msg_write msg 0xca) (Float754.to_memory 4 f32)
  else
    msg_write_str (msg_write msg 0xcb) (Float754.to_memory 8 f64)

/-- The function `msg_encode_string`, on the bytes of the string on the stack. -/
def msg_encode_string (msg : msg_t) (str : List UInt8) : msg_t :=
  let length := str.length
  let msg :=
    if valid_utf8 str then
      if length ≤ 0x1f then msg_write msg (C.to_uint8 (0xa0 + length))
      else if length ≤ 0xff then msg_write_int (msg_write msg 0xd9) length 1
      else if length ≤ 0xffff then msg_write_int (msg_write msg 0xda) length 2
      else msg_write_int (msg_write msg 0xdb) length 4
    else
      if length ≤ 0xff then msg_write_int (msg_write msg 0xc4) length 1
      else if length ≤ 0xffff then msg_write_int (msg_write msg 0xc5) length 2
      else msg_write_int (msg_write msg 0xc6) length 4
  msg_write_str msg str

/-- The count header of `msg_encode_table`, for the result `items` of
`count_table`: the tag family of arrays when `items >= 0`, and the one of maps,
with `-items`, otherwise. -/
def msg_encode_table_header (msg : msg_t) (items : Int) : msg_t :=
  if items ≥ 0 then
    if items ≤ 0x0f then msg_write msg (C.to_uint8 (0x90 + items))
    else if items ≤ 0xffff then msg_write_int (msg_write msg 0xdc) (C.to_uint64 items) 2
    else msg_write_int (msg_write msg 0xdd) (C.to_uint64 items) 4
  else
    let items := C.to_int32 (-items)
    if items ≤ 0x0f then msg_write msg (C.to_uint8 (0x80 + items))
    else if items ≤ 0xffff then msg_write_int (msg_write msg 0xde) (C.to_uint64 items) 2
    else msg_write_int (msg_write msg 0xdf) (C.to_uint64 items) 4

mutual
/-- The function `msg_encode`, on the value on top of the stack.  The case of
a table is the body of `msg_encode_table`. -/
def msg_encode : LuaValue → msg_t → Except MsgError msg_t
  | .nil, msg => .ok (msg_write msg 0xc0)
  | .boolean b, msg => .ok (msg_write msg (if b then 0xc3 else 0xc2))
  | .integer i, msg => .ok (msg_encode_integer msg i)
  | .float bits, msg => .ok (msg_encode_float msg bits)
  | .string s, msg => .ok (msg_encode_string msg s)
  | .table entries, msg =>
    let items := count_table entries
    if items ≥ 0 then msg_encode_values entries (msg_encode_table_header msg items)
    else msg_encode_pairs entries (msg_encode_table_header msg items)
  | .other t, _ => .error (.cannot_encode t)
/-- The loop `while (lua_next(msg->L, -2)) msg_encode(msg);` of the array
branch of `msg_encode_table`. -/
def msg_encode_values : List (LuaValue × LuaValue) → msg_t → Except MsgError msg_t
  | [], msg => .ok msg
  | (_, value) :: rest, msg =>
    match msg_encode value msg with
    | .error e => .error e
    | .ok msg => msg_encode_values rest msg
/-- The loop of the map branch of `msg_encode_table`: the key, then the
value. -/
def msg_encode_pairs : List (LuaValue × LuaValue) → msg_t → Except MsgError msg_t
  | [], msg => .ok msg
  | (key, value) :: rest, msg =>
    match msg_encode key msg with
    | .error e => .error e
    | .ok msg =>
      match msg_encode value msg with
      | .error e => .error e
      | .ok msg => msg_encode_pairs rest msg
end

/-- The function `msg_encode_table`. -/
def msg_encode_table (msg : msg_t) (entries : List (LuaValue × LuaValue)) :
    Except MsgError msg_t :=
  msg_encode (.table entries) msg

/-- The loop of `decode_array`, with `decode` for the recursive call of
`msg_decode`: `remaining` iterations are left, the next index is `i`, and
`table` is the table under construction. -/
def decode_array_loop (decode : msg_t → Except MsgError (LuaValue × msg_t)) :
    (remaining : Nat) → (i : Int) → (table : List (LuaValue × LuaValue)) → msg_t →
    Except MsgError (LuaValue × msg_t)
  | 0, _, table, msg => .ok (.table table, msg)
  | remaining + 1, i, table, msg =>
    match decode msg with
    | .error e => .error e
    | .ok (value, msg) => decode_array_loop decode remaining (i + 1) (lua_rawseti table i value) msg

/-- The function `decode_array`; `items` is an `int`, and the loop
`for (i = 1; i <= items; ++i)` runs `items` times when `items` is positive and
not at all otherwise. -/
def decode_array (decode : msg_t → Except MsgError (LuaValue × msg_t)) (msg : msg_t)
    (items : Int) : Except MsgError (LuaValue × msg_t) :=
  decode_array_loop decode items.toNat 1 [] msg

/-- The loop of `decode_map`, with `decode` for the recursive call of
`msg_decode`. -/
def decode_map_loop (decode : msg_t → Except MsgError (LuaValue × msg_t)) :
    (items : Nat) → (table : List (LuaValue × LuaValue)) → msg_t →
    Except MsgError (LuaValue × msg_t)
  | 0, table, msg => .ok (.table table, msg)
  | items + 1, table, msg =>
    match decode msg with
    | .error e => .error e
    | .ok (key, msg) =>
      match decode msg with
      | .error e => .error e
      | .ok (value, msg) =>
        match lua_rawset table key value with
        | .error e => .error (.lua e)
        | .ok table => decode_map_loop decode items table msg

/-- The function `decode_map`; `items` is an `int`, and the loop
`for (; items > 0; --items)` runs `items` times when `items` is positive and
not at all otherwise. -/
def decode_map (decode : msg_t → Except MsgError (LuaValue × msg_t)) (msg : msg_t)
    (items : Int) : Except MsgError (LuaValue × msg_t) :=
  decode_map_loop decode items.toNat [] msg

/-- Read a length with `msg_read_int` and then a string with `msg_read_str`. -/
def msg_decode_str (msg : msg_t) (width : Nat) : Except MsgError (LuaValue × msg_t) :=
  match msg_read_int msg width with
  | .error e => .error e
  | .ok (length, msg) => msg_read_str msg length

/-- Read an integer with `msg_read_int` and push it after the conversion
`conv` to `lua_Integer`. -/
def msg_decode_int (msg : msg_t) (width : Nat) (conv : Int → Int) :
    Except MsgError (LuaValue × msg_t) :=
  match msg_read_int msg width with
  | .error e => .error e
  | .ok (value, msg) => .ok (.integer (conv value), msg)

/-- Read a float of `width` bytes with `msg_read_bin` and push it. -/
def msg_decode_float (msg : msg_t) (width : Nat) : Except MsgError (LuaValue × msg_t) :=
  match msg_read_bin msg width with
  | .error e => .error e
  | .ok (bytes, msg) =>
    let bits := Float754.of_memory bytes
    .ok (.float (if width = 4 then Float754.f32_to_f64 bits else bits), msg)

/-- The `switch` of `msg_decode` on the code that was read, with `decode` for
the recursive calls of `msg_decode`. -/
def msg_decode_switch (decode : msg_t → Except MsgError (LuaValue × msg_t)) (byte : UInt8)
    (msg : msg_t) : Except MsgError (LuaValue × msg_t) :=
  let code := byte.toNat
  if code = 0xc0 then .ok (.nil, msg)
  else if code = 0xc2 then .ok (.boolean false, msg)
  else if code = 0xc3 then .ok (.boolean true, msg)
  else if code = 0xc4 ∨ code = 0xd9 then msg_decode_str msg 1
  else if code = 0xc5 ∨ code = 0xda then msg_decode_str msg 2
  else if code = 0xc6 ∨ code = 0xdb then msg_decode_str msg 4
  else if code = 0xca then msg_decode_float msg 4
  else if code = 0xcb then msg_decode_float msg 8
  else if code = 0xcc then msg_decode_int msg 1 C.to_int64
  else if code = 0xcd then msg_decode_int msg 2 C.to_int64
  else if code = 0xce then msg_decode_int msg 4 C.to_int64
  else if code = 0xcf then msg_decode_int msg 8 C.to_int64
  else if code = 0xd0 then msg_decode_int msg 1 C.to_int8
  else if code = 0xd1 then msg_decode_int msg 2 C.to_int16
  else if code = 0xd2 then msg_decode_int msg 4 C.to_int32
  else if code = 0xd3 then msg_decode_int msg 8 C.to_int64
  else if code = 0xdc then
    match msg_read_int msg 2 with
    | .error e => .error e
    | .ok (n, msg) => decode_array decode msg (C.to_int32 (C.to_uint16 n))
  else if code = 0xdd then
    match msg_read_int msg 4 with
    | .error e => .error e
    | .ok (n, msg) => decode_array decode msg (C.to_int32 (C.to_uint32 n))
  else if code = 0xde then
    match msg_read_int msg 2 with
    | .error e => .error e
    | .ok (n, msg) => decode_map decode msg (C.to_int32 (C.to_uint16 n))
  else if code = 0xdf then
    match msg_read_int msg 4 with
    | .error e => .error e
    | .ok (n, msg) => decode_map decode msg (C.to_int32 (C.to_uint32 n))
  else if code ≤ 0x7f then .ok (.integer code, msg)
  else if code ≤ 0x8f then decode_map decode msg (code - 0x80 : Int)
  else if code ≤ 0x9f then decode_array decode msg (code - 0x90 : Int)
  else if code ≤ 0xbf then msg_read_str msg (code - 0xa0)
  else if code ≥ 0xe0 then .ok (.integer (C.to_int8 code), msg)
  else .error (.invalid_code byte)

/-- The function `msg_decode`: the value pushed and the state after it.  The
recursion of the C function is bounded by `fuel`, the number of nested calls
that are allowed. -/
def msg_decode : (fuel : Nat) → msg_t → Except MsgError (LuaValue × msg_t)
  | 0, _ => .error .out_of_fuel
  | fuel + 1, msg =>
    match msg_read msg with
    | .error e => .error e
    | .ok (byte, msg) => msg_decode_switch (msg_decode fuel) byte msg

/-- The initial state of `f_encode`. -/
def msg_init : msg_t := { position := 0, input := [], buffer := [], table := [] }

/-- The loop of `f_encode` over the arguments. -/
def f_encode_loop : List LuaValue → msg_t → Except MsgError msg_t
  | [], msg => .ok msg
  | v :: rest, msg =>
    match msg_encode v msg with
    | .error e => .error e
    | .ok msg => f_encode_loop rest msg

/-- The output loop of `f_encode`: the values `rawgeti(table, i)` for
`i = 1 .. index` added to the result buffer; a nil adds nothing. -/
def f_encode_output (msg : msg_t) : List UInt8 :=
  ((List.range (msg.table.length + 1)).map (fun i => msg.table.getD i [])).flatten

/-- The library function `msgpack.encode` (`f_encode`) on its arguments: the
string it returns, or the failure it reports. -/
def f_encode (args : List LuaValue) : Except MsgError (List UInt8) :=
  match f_encode_loop args msg_init with
  | .error e => .error e
  | .ok msg => .ok (f_encode_output (msg_flush msg))

/-- The loop of `f_decode`: `remaining` is `count - items`, `values` are the
values pushed so far. -/
def f_decode_loop (fuel : Nat) : (remaining : Nat) → msg_t → List LuaValue →
    Except MsgError (List LuaValue × msg_t)
  | 0, msg, values => .ok (values, msg)
  | remaining + 1, msg, values =>
    if msg.position < msg.input.length then
      match msg_decode fuel msg with
      | .error e => .error e
      | .ok (v, msg) => f_decode_loop fuel remaining msg (values ++ [v])
    else .ok (values, msg)

/-- The library function `msgpack.decode` (`f_decode`) on the input string, the
starting position (1 when the argument is absent) and the maximal number of
items (`1024 * 64` when absent): the decoded values with the next offset, or the
failure. -/
def f_decode (input : List UInt8) (start : Int) (count : Int) :
    Except MsgError (List LuaValue × Int) :=
  let position := C.to_uint64 start
  if ¬ (position ≥ 1 ∧ position ≤ input.length) then .error (.lua .invalid_starting_position)
  else
    let msg : msg_t := { position := position - 1, input := input, buffer := [], table := [] }
    let count := C.to_int32 count
    match f_decode_loop (input.length + 1) count.toNat msg [] with
    | .error e => .error e
    | .ok (values, msg) => .ok (values, (msg.position : Int) + 1)

end Msgpack

/-! ## More of the Lua 5.4 C API and of the C library -/

namespace Lua

/-- The conversion `cast_num` of a `lua_Integer` to a `lua_Number`: the nearest
binary64 number, ties to even. -/
def cast_num (i : Int) : Nat := f64_of_ratio (decide (i < 0)) i.natAbs 1

/-- The API function `lua_tonumberx`: the value converted to a float, where a
number and a string that `luaO_str2num` reads as a number are convertible;
`none` stands for `isnum = 0`. -/
def lua_tonumberx : LuaValue → Option Nat
  | .float bits => some bits
  | .integer i => some (cast_num i)
  | .string s =>
    match luaO_str2num s with
    | some (.integer i) => some (cast_num i)
    | some (.float bits) => some bits
    | _ => none
  | _ => none

/-- The API function `lua_tonumber`. -/
def lua_tonumber (v : LuaValue) : Nat := (lua_tonumberx v).getD 0

/-- The decimal digits of a natural number, as characters. -/
def decimal (n : Nat) : List UInt8 := (Nat.toDigits 10 n).map (fun c => UInt8.ofNat c.toNat)

/-- The text of an integer, as `lua_integer2str` (the format `%lld`) writes it. -/
def lua_integer2str (i : Int) : List UInt8 :=
  if i < 0 then 45 :: decimal i.natAbs else decimal i.natAbs

/-- Remove the zeros at the end of a run of digits. -/
def strip_zeros (ds : List UInt8) : List UInt8 :=
  (ds.reverse.dropWhile (fun c => c = 48)).reverse

/-- The text of a float, as `lua_number2str` (the C format `%.14g`) writes it:
14 significant digits, rounded to nearest with ties to even, in the style `f`
when the decimal exponent is in `-4 .. 13` and in the style `e` otherwise,
without the zeros at the end of the fraction. -/
def lua_number2str (bits : Nat) : List UInt8 :=
  let sign : List UInt8 := if Float754.sign_of 11 52 bits then [45] else []
  if Float754.is_nan 11 52 bits then sign ++ [110, 97, 110]
  else if Float754.is_inf 11 52 bits then sign ++ [105, 110, 102]
  else
    let me := Float754.magnitude 11 52 bits
    let m := me.1
    let e := me.2
    if m = 0 then sign ++ [48]
    else
      let p : Nat := if e ≥ 0 then m * 2 ^ e.toNat else m
      let q : Nat := if e ≥ 0 then 1 else 2 ^ (-e).toNat
      let x0 : Int :=
        if q ≤ p then (Nat.log 10 (p / q) : Int) else -(Nat.clog 10 ((q + p - 1) / p) : Int)
      let num : Nat := if x0 ≤ 13 then p * 10 ^ (13 - x0).toNat else p
      let den : Nat := if x0 ≤ 13 then q else q * 10 ^ (x0 - 13).toNat
      let n := num / den
      let r := num % den
      let d0 : Nat := if 2 * r > den ∨ (2 * r = den ∧ n % 2 = 1) then n + 1 else n
      let d : Nat := if d0 = 10 ^ 14 then 10 ^ 13 else d0
      let x : Int := if d0 = 10 ^ 14 then x0 + 1 else x0
      let ds := decimal d
      if -4 ≤ x ∧ x < 14 then
        if 0 ≤ x then
          let frac := strip_zeros (ds.drop (x.toNat + 1))
          sign ++ ds.take (x.toNat + 1) ++ (if frac = [] then [] else 46 :: frac)
        else
          sign ++ [48, 46] ++ List.replicate ((-x).toNat - 1) 48 ++ strip_zeros ds
      else
        let frac := strip_zeros (ds.drop 1)
        let ex := decimal x.natAbs
        sign ++ ds.take 1 ++ (if frac = [] then [] else 46 :: frac) ++
          [101, if x < 0 then 45 else 43] ++ (if ex.length < 2 then 48 :: ex else ex)

/-- The text of a float as `lua_pushvfstring` writes it for `%f` (the function
`tostringbuff` of `lobject.c`): the text of `lua_number2str`, followed by `.0`
when it looks like an integer. -/
def tostringbuff (bits : Nat) : List UInt8 :=
  let buff := lua_number2str bits
  if buff.all (fun c => c = 45 ∨ lisdigit c) then buff ++ [46, 48] else buff

/-- The C function `isspace` in the C locale: space, `\t`, `\n`, `\v`, `\f`
and `\r`. -/
def isspace (c : UInt8) : Bool := c.toNat = 32 ∨ (9 ≤ c.toNat ∧ c.toNat ≤ 13)

end Lua

/-! ## `sts_json.c`

Characters are given by their codes: `"` is 34, `,` is 44, `-` is 45, `.` is
46, `/` is 47, the digits are 48 .. 57, `:` is 58, `E` is 69, `[` is 91, `\` is
92, `]` is 93, `b` is 98, `e` is 101, `f` is 102, `n` is 110, `r` is 114, `t` is
116, an opening brace is 123 and a closing brace is 125.  A C string is the
list of its characters; the NUL that ends it is not in the list, and a NUL
inside the list ends the string as well, as it does in C. -/

namespace Json

open Lua

/-- The failures of the codec.  Those up to `cannot_encode` are reported
through `json_error` (the library function returns fail and the message),
`lua` and `value_expected` are errors the Lua API raises, and `out_of_fuel` is
the end of the recursion budget of the embedding, which the library functions
never reach. -/
inductive JsonError where
  /-- The message is: expected token '%s'. -/
  | expected_token (token : List UInt8)
  /-- The message is: number expected. -/
  | number_expected
  /-- The message is: invalid string escape '%c'. -/
  | invalid_escape (code : UInt8)
  /-- The message is: invalid character '%c' found. -/
  | invalid_character (c : UInt8)
  /-- The message is: cannot encode non-string keys for object. -/
  | non_string_key
  /-- The message is: cannot encode Lua type '%s'. -/
  | cannot_encode (t : OtherType)
  | lua (e : LuaError)
  /-- Raised by `luaL_checkany`; the message is: value expected. -/
  | value_expected
  | out_of_fuel
  deriving DecidableEq, Repr

/-- The encoder part of the codec state `json_t`.  `output` is the array
`output[8]`, of which only the first `position` characters are meaningful;
`table` is the Lua table `json->table`, as the list of the assignments
`lua_rawseti(table, key, chunk)` made to it, the latest first; `index` is the
`int` field `index`, the key of the next chunk.  The field `input`, a pointer
into a NUL-terminated string, is the list of characters the decoding functions
take and give back. -/
structure json_t where
  output : List UInt8
  position : Nat
  table : List (Int × List UInt8)
  index : Int

/-- The loop of `valid_array`, from `index` on. -/
def valid_array_loop : List (LuaValue × LuaValue) → Int → Bool
  | [], _ => true
  | (key, _) :: rest, index =>
    if lua_tointeger key != index then false else valid_array_loop rest (C.to_int32 (index + 1))

/-- The function `valid_array`, on the entries of the table on the stack. -/
def valid_array (entries : List (LuaValue × LuaValue)) : Bool := valid_array_loop entries 1

/-- The function `json_flush`: the filled part of the buffer is stored in the
table at the key `index`, and `index++` wraps as an `int` does. -/
def json_flush (json : json_t) : json_t :=
  if json.position > 0 then
    { json with
      table := (json.index, json.output.take json.position) :: json.table
      index := C.to_int32 (json.index + 1)
      position := 0 }
  else json

/-- The function `json_write`. -/
def json_write (json : json_t) (ch : UInt8) : json_t :=
  let json := if json.position ≥ 8 then json_flush json else json
  { json with output := json.output.take json.position ++ [ch], position := json.position + 1 }

/-- The function `json_write_str`, on a C string. -/
def json_write_str (json : json_t) : (str : List UInt8) → json_t
  | [] => json
  | ch :: str => if ch = 0 then json else json_write_str (json_write json ch) str

/-- The function `encode_number`, on the number on the stack: the call of
`json_write_strf` with `%I` for an integer and with `%f` otherwise. -/
def encode_number (json : json_t) (v : LuaValue) : json_t :=
  if lua_isinteger v then json_write_str json (lua_integer2str (lua_tointeger v))
  else json_write_str json (tostringbuff (lua_tonumber v))

/-- The loop of `encode_string` over the C string `str`. -/
def encode_string_loop (json : json_t) : (str : List UInt8) → json_t
  | [] => json
  | ch :: str =>
    if ch = 0 then json
    else
      encode_string_loop
        (if ch = 92 then json_write_str json [92, 92]
         else if ch = 34 then json_write_str json [92, 34]
         else if ch = 8 then json_write_str json [92, 98]
         else if ch = 12 then json_write_str json [92, 102]
         else if ch = 10 then json_write_str json [92, 110]
         else if ch = 13 then json_write_str json [92, 114]
         else if ch = 9 then json_write_str json [92, 116]
         else json_write json ch) str

/-- The function `encode_string`, on the bytes of the string on the stack. -/
def encode_string (json : json_t) (s : List UInt8) : json_t :=
  json_write (encode_string_loop (json_write json 34) s) 34

/-- The test `lua_type(json->L, -1) != LUA_TSTRING` of `encode_table`, negated. -/
def is_string : LuaValue → Bool
  | .string _ => true
  | _ => false

mutual
/-- The function `encode_value`, on the value on top of the stack.  The case of
a table is the body of `encode_table`. -/
def encode_value : LuaValue → json_t → Except JsonError json_t
  | .nil, json => .ok (json_write_str json [110, 117, 108, 108])
  | .boolean b, json =>
    .ok (json_write_str json (if b then [116, 114, 117, 101] else [102, 97, 108, 115, 101]))
  | .integer i, json => .ok (encode_number json (.integer i))
  | .float bits, json => .ok (encode_number json (.float bits))
  | .string s, json => .ok (encode_string json s)
  | .table entries, json =>
    if valid_array entries then
      match encode_array_loop entries false (json_write json 91) with
      | .error e => .error e
      | .ok json => .ok (json_write json 93)
    else
      match encode_object_loop entries false (json_write json 123) with
      | .error e => .error e
      | .ok json => .ok (json_write json 125)
  | .other t, _ => .error (.cannot_encode t)
/-- The loop of the array branch of `encode_table`. -/
def encode_array_loop : List (LuaValue × LuaValue) → (more : Bool) → json_t →
    Except JsonError json_t
  | [], _, json => .ok json
  | (_, value) :: rest, more, json =>
    match encode_value value (if more then json_write json 44 else json) with
    | .error e => .error e
    | .ok json => encode_array_loop rest true json
/-- The loop of the object branch of `encode_table`. -/
def encode_object_loop : List (LuaValue × LuaValue) → (more : Bool) → json_t →
    Except JsonError json_t
  | [], _, json => .ok json
  | (key, value) :: rest, more, json =>
    if is_string key then
      match encode_value key (if more then json_write json 44 else json) with
      | .error e => .error e
      | .ok json =>
        match encode_value value (json_write json 58) with
        | .error e => .error e
        | .ok json => encode_object_loop rest true json
    else .error .non_string_key
end

/-- The function `encode_table`. -/
def encode_table (json : json_t) (entries : List (LuaValue × LuaValue)) :
    Except JsonError json_t :=
  encode_value (.table entries) json

/-- The initial state of `f_encode`: an empty buffer, a new table and the
index 1. -/
def json_init : json_t := { output := [], position := 0, table := [], index := 1 }

/-- The value `lua_rawgeti(table, i)` of the table of chunks: the chunk stored
last at the key `i`, or nil (`none`) if none was. -/
def lua_rawgeti (table : List (Int × List UInt8)) (i : Int) : Option (List UInt8) :=
  table.lookup i

/-- The output loop of `f_encode`, `for (i = 1; i < json.index; ++i)`: the
values `lua_rawgeti(table, i)` added to the result buffer in turn; a nil adds
nothing.  The loop has no turn when `index` is not above 1. -/
def f_encode_output (json : json_t) : List UInt8 :=
  ((List.range (json.index - 1).toNat).map
    (fun (i : Nat) => (lua_rawgeti json.table ((i : Int) + 1)).getD [])).flatten

/-- The library function `json.encode` (`f_encode`) on its arguments: the
string it returns, or the failure it reports.  Only the first argument is
encoded. -/
def f_encode (args : List LuaValue) : Except JsonError (List UInt8) :=
  match args with
  | [] => .error .value_expected
  | v :: _ =>
    match encode_value v json_init with
    | .error e => .error e
    | .ok json => .ok (f_encode_output (json_flush json))

/-- The character `*json->input`: the NUL at the end of the string. -/
def peek (input : List UInt8) : UInt8 := input.headD 0

/-- The function `parse_whitespace`. -/
def parse_whitespace : (input : List UInt8) → List UInt8
  | [] => []
  | c :: input => if c ≠ 0 ∧ isspace c then parse_whitespace input else c :: input

/-- The loop of `parse_token`: do the characters of the token match? -/
def match_token : (token input : List UInt8) → Bool
  | [], _ => true
  | _ :: _, [] => false
  | t :: token, c :: input => if c ≠ t then false else match_token token input

/-- The function `parse_token`. -/
def parse_token (input : List UInt8) (token : List UInt8) : Except JsonError (List UInt8) :=
  if match_token token (parse_whitespace input) then
    .ok ((parse_whitespace input).drop token.length)
  else .error (.expected_token token)

/-- The characters the loop of `decode_number` copies. -/
def is_number_char (c : UInt8) : Bool := lisdigit c ∨ c = 46 ∨ c = 101 ∨ c = 69

/-- The loop of `decode_number`: the characters copied to the buffer, which has
room for `room` more, and the input that is left. -/
def decode_number_loop : (room : Nat) → (input : List UInt8) → List UInt8 × List UInt8
  | 0, input => ([], input)
  | _ + 1, [] => ([], [])
  | room + 1, c :: input =>
    if c ≠ 0 ∧ is_number_char c then
      ((c :: (decode_number_loop room input).1), (decode_number_loop room input).2)
    else ([], c :: input)

/-- The function `decode_number`. -/
def decode_number (input : List UInt8) : Except JsonError (LuaValue × List UInt8) :=
  match lua_tonumberx (.string (decode_number_loop 256 (parse_whitespace input)).1) with
  | none => .error .number_expected
  | some num => .ok (.float num, (decode_number_loop 256 (parse_whitespace input)).2)

/-- The `switch` of `decode_string` on the character after a backslash. -/
def decode_string_escape (code : UInt8) : Option UInt8 :=
  if code = 34 then some 34
  else if code = 92 then some 92
  else if code = 47 then some 47
  else if code = 98 then some 8
  else if code = 102 then some 12
  else if code = 110 then some 10
  else if code = 114 then some 13
  else if code = 116 then some 9
  else none

/-- The loop of `decode_string`: the buffer and the input at the end of the
loop. -/
def decode_string_loop : (input : List UInt8) → (buffer : List UInt8) →
    Except JsonError (List UInt8 × List UInt8)
  | [], buffer => .ok (buffer, [])
  | code :: input, buffer =>
    if code = 0 then .ok (buffer, code :: input)
    else if code = 34 then .ok (buffer, code :: input)
    else if code = 92 then
      match input with
      | [] => .error (.invalid_escape 0)
      | code :: input =>
        match decode_string_escape code with
        | some c => decode_string_loop input (buffer ++ [c])
        | none => .error (.invalid_escape code)
    else decode_string_loop input (buffer ++ [code])

/-- The function `decode_string`. -/
def decode_string (input : List UInt8) : Except JsonError (LuaValue × List UInt8) :=
  match parse_token input [34] with
  | .error e => .error e
  | .ok input =>
    match decode_string_loop input [] with
    | .error e => .error e
    | .ok (buffer, input) =>
      match parse_token input [34] with
      | .error e => .error e
      | .ok input => .ok (.string buffer, input)

/-- The loop of `decode_array`, with `decode` for the call of `decode_value`:
the next index is `i`, an `int`, and `table` is the table under construction.
`fuel` bounds the number of iterations. -/
def decode_array_loop (decode : List UInt8 → Except JsonError (LuaValue × List UInt8)) :
    (fuel : Nat) → (i : Int) → (table : List (LuaValue × LuaValue)) → (input : List UInt8) →
    Except JsonError (List (LuaValue × LuaValue) × List UInt8)
  | 0, _, _, _ => .error .out_of_fuel
  | fuel + 1, i, table, input =>
    if peek input = 0 then .ok (table, input)
    else
      match decode input with
      | .error e => .error e
      | .ok (value, input) =>
        if peek (parse_whitespace input) = 93 then
          .ok (lua_rawseti table i value, parse_whitespace input)
        else
          match parse_token (parse_whitespace input) [44] with
          | .error e => .error e
          | .ok input =>
            decode_array_loop decode fuel (C.to_int32 (i + 1)) (lua_rawseti table i value) input

/-- The function `decode_array`. -/
def decode_array (decode : List UInt8 → Except JsonError (LuaValue × List UInt8)) (fuel : Nat)
    (input : List UInt8) : Except JsonError (LuaValue × List UInt8) :=
  match parse_token input [91] with
  | .error e => .error e
  | .ok input =>
    if peek (parse_whitespace input) = 93 then
      match parse_token (parse_whitespace input) [93] with
      | .error e => .error e
      | .ok input => .ok (.table [], input)
    else
      match decode_array_loop decode fuel 1 [] (parse_whitespace input) with
      | .error e => .error e
      | .ok (table, input) =>
        match parse_token input [93] with
        | .error e => .error e
        | .ok input => .ok (.table table, input)

/-- The loop of `decode_object`, with `decode` for the call of `decode_value`.
`fuel` bounds the number of iterations. -/
def decode_object_loop (decode : List UInt8 → Except JsonError (LuaValue × List UInt8)) :
    (fuel : Nat) → (table : List (LuaValue × LuaValue)) → (input : List UInt8) →
    Except JsonError (List (LuaValue × LuaValue) × List UInt8)
  | 0, _, _ => .error .out_of_fuel
  | fuel + 1, table, input =>
    if peek input = 0 then .ok (table, input)
    else
      match decode_string input with
      | .error e => .error e
      | .ok (key, input) =>
        match parse_token input [58] with
        | .error e => .error e
        | .ok input =>
          match decode input with
          | .error e => .error e
          | .ok (value, input) =>
            match lua_rawset table key value with
            | .error e => .error (.lua e)
            | .ok table =>
              if peek (parse_whitespace input) = 125 then .ok (table, parse_whitespace input)
              else
                match parse_token (parse_whitespace input) [44] with
                | .error e => .error e
                | .ok input => decode_object_loop decode fuel table input

/-- The function `decode_object`. -/
def decode_object (decode : List UInt8 → Except JsonError (LuaValue × List UInt8)) (fuel : Nat)
    (input : List UInt8) : Except JsonError (LuaValue × List UInt8) :=
  match parse_token input [123] with
  | .error e => .error e
  | .ok input =>
    if peek (parse_whitespace input) = 125 then
      match parse_token (parse_whitespace input) [125] with
      | .error e => .error e
      | .ok input => .ok (.table [], input)
    else
      match decode_object_loop decode fuel [] (parse_whitespace input) with
      | .error e => .error e
      | .ok (table, input) =>
        match parse_token input [125] with
        | .error e => .error e
        | .ok input => .ok (.table table, input)

/-- The `switch` of `decode_value` on the character `c`, with `decode` for the
recursive calls of `decode_value` and `fuel` for the loops. -/
def decode_value_switch (decode : List UInt8 → Except JsonError (LuaValue × List UInt8))
    (fuel : Nat) (c : UInt8) (input : List UInt8) : Except JsonError (LuaValue × List UInt8) :=
  if c = 110 then
    match parse_token input [110, 117, 108, 108] with
    | .error e => .error e
    | .ok input => .ok (.nil, input)
  else if c = 102 then
    match parse_token input [102, 97, 108, 115, 101] with
    | .error e => .error e
    | .ok input => .ok (.boolean false, input)
  else if c = 116 then
    match parse_token input [116, 114, 117, 101] with
    | .error e => .error e
    | .ok input => .ok (.boolean true, input)
  else if lisdigit c ∨ c = 45 then decode_number input
  else if c = 34 then decode_string input
  else if c = 91 then decode_array decode fuel input
  else if c = 123 then decode_object decode fuel input
  else .error (.invalid_character c)

/-- The function `decode_value`: the value pushed and the input after it.  The
recursion of the C function and its loops are bounded by `fuel`. -/
def decode_value : (fuel : Nat) → (input : List UInt8) → Except JsonError (LuaValue × List UInt8)
  | 0, _ => .error .out_of_fuel
  | fuel + 1, input =>
    decode_value_switch (decode_value fuel) fuel (peek (parse_whitespace input))
      (parse_whitespace input)

/-- The library function `json.decode` (`f_decode`) on its string argument: the
value it returns, or the failure it reports.  What follows the value in the
input is not looked at. -/
def f_decode (input : List UInt8) : Except JsonError LuaValue :=
  match decode_value (input.length + 1) input with
  | .error e => .error e
  | .ok (v, _) => .ok v

end Json

/-! ## `sts_base64.c`

The variable `value` of `f_encode` and of `f_decode` is an `int` that is shifted
to the left and never masked.  It is kept here as its 32-bit two's-complement
pattern, a natural number below `2^32`: a shift to the left drops the bits above
the 32nd, and a shift to the right is the arithmetic shift of the `int`. -/

namespace Base64

/-- The failure of `f_decode`; the message is: invalid base64 string. -/
inductive Base64Error where
  | invalid_base64_string
  deriving DecidableEq, Repr

/-- The expression `value >> n` for the `int` with the pattern `value`: the
pattern of the arithmetic shift. -/
def shift_right (value n : Nat) : Nat := C.to_uint32 (C.to_int32 value / 2 ^ n)

/-- The string `table` of `f_encode`: the letters `A` to `Z` and `a` to `z`, the
digits, `+` and `/`. -/
def encode_table : List UInt8 :=
  [65, 66, 67, 68, 69, 70, 71, 72, 73, 74, 75, 76, 77, 78, 79, 80,
   81, 82, 83, 84, 85, 86, 87, 88, 89, 90, 97, 98, 99, 100, 101, 102,
   103, 104, 105, 106, 107, 108, 109, 110, 111, 112, 113, 114, 115, 116, 117, 118,
   119, 120, 121, 122, 48, 49, 50, 51, 52, 53, 54, 55, 56, 57, 43, 47]

/-- The array `table[256]` of `f_decode`. -/
def decode_table : List Nat :=
  [65, 65, 65, 65, 65, 65, 65, 65, 65, 65, 65, 65, 65, 65, 65, 65, 65, 65, 65, 65, 65, 65, 65, 65, 65, 65, 65, 65, 65, 65, 65, 65,
   65, 65, 65, 65, 65, 65, 65, 65, 65, 65, 65, 62, 65, 65, 65, 63, 52, 53, 54, 55, 56, 57, 58, 59, 60, 61, 65, 65, 65, 64, 65, 65,
   65,  0,  1,  2,  3,  4,  5,  6,  7,  8,  9, 10, 11, 12, 13, 14, 15, 16, 17, 18, 19, 20, 21, 22, 23, 24, 25, 65, 65, 65, 65, 65,
   65, 26, 27, 28, 29, 30, 31, 32, 33, 34, 35, 36, 37, 38, 39, 40, 41, 42, 43, 44, 45, 46, 47, 48, 49, 50, 51, 65, 65, 65, 65, 65,
   65, 65, 65, 65, 65, 65, 65, 65, 65, 65, 65, 65, 65, 65, 65, 65, 65, 65, 65, 65, 65, 65, 65, 65, 65, 65, 65, 65, 65, 65, 65, 65,
   65, 65, 65, 65, 65, 65, 65, 65, 65, 65, 65, 65, 65, 65, 65, 65, 65, 65, 65, 65, 65, 65, 65, 65, 65, 65, 65, 65, 65, 65, 65, 65,
   65, 65, 65, 65, 65, 65, 65, 65, 65, 65, 65, 65, 65, 65, 65, 65, 65, 65, 65, 65, 65, 65, 65, 65, 65, 65, 65, 65, 65, 65, 65, 65,
   65, 65, 65, 65, 65, 65, 65, 65, 65, 65, 65, 65, 65, 65, 65, 65, 65, 65, 65, 65, 65, 65, 65, 65, 65, 65, 65, 65, 65, 65, 65, 65]

/-- The variables `value`, `bits` and `written` of `f_encode` and its result
buffer. -/
structure encode_t where
  value : Nat
  bits : Nat
  buffer : List UInt8
  written : Nat

/-- The inner loop of `f_encode`, `for (; bits >= 6; bits -= 6)`, which runs
`n = bits / 6` times. -/
def encode_emit : (n : Nat) → encode_t → encode_t
  | 0, s => s
  | n + 1, s =>
    encode_emit n { s with
      buffer := s.buffer ++ [encode_table.getD (shift_right s.value (s.bits - 6) &&& 63) 0]
      written := s.written + 1
      bits := s.bits - 6 }

/-- The outer loop of `f_encode` over the bytes of the argument. -/
def encode_loop : (data : List UInt8) → encode_t → encode_t
  | [], s => s
  | d :: data, s =>
    let s := { s with value := ((s.value <<< 8) ||| d.toNat) % 2 ^ 32, bits := s.bits + 8 }
    encode_loop data (encode_emit (s.bits / 6) s)

/-- The statement `if (bits > 0)` of `f_encode`, for the bits that are left. -/
def encode_rest (s : encode_t) : encode_t :=
  if s.bits > 0 then
    let value := (s.value <<< 8) % 2 ^ 32
    let bits := s.bits + 8
    { value := value, bits := bits,
      buffer := s.buffer ++ [encode_table.getD (shift_right value (bits - 6) &&& 63) 0],
      written := s.written + 1 }
  else s

/-- The loop `while (written % 4)` of `f_encode`, which runs at most three
times; `fuel` bounds the number of iterations. -/
def encode_pad : (fuel : Nat) → encode_t → encode_t
  | 0, s => s
  | fuel + 1, s =>
    if s.written % 4 ≠ 0 then
      encode_pad fuel { s with buffer := s.buffer ++ [61], written := s.written + 1 }
    else s

/-- The library function `base64.encode` (`f_encode`) on its string argument. -/
def f_encode (data : List UInt8) : List UInt8 :=
  (encode_pad 3 (encode_rest (encode_loop data
    { value := 0, bits := 0, buffer := [], written := 0 }))).buffer

/-- The loops `for (; bits >= 8; bits -= 8)` of `f_decode`, which run
`n = bits / 8` times: the bits that are left and the buffer. -/
def decode_emit (value : Nat) : (n : Nat) → (bits : Nat) → (buffer : List UInt8) →
    Nat × List UInt8
  | 0, bits, buffer => (bits, buffer)
  | n + 1, bits, buffer =>
    decode_emit value n (bits - 8)
      (buffer ++ [UInt8.ofNat (shift_right value (bits - 8) &&& 255)])

/-- The loop of `f_decode` over the bytes of the argument, with the loop after
it. -/
def decode_loop : (data : List UInt8) → (value bits : Nat) → (buffer : List UInt8) →
    Except Base64Error (List UInt8)
  | [], value, bits, buffer => .ok (decode_emit value (bits / 8) bits buffer).2
  | d :: data, value, bits, buffer =>
    let code := decode_table.getD d.toNat 65
    if code < 64 then
      let value := ((value <<< 6) ||| code) % 2 ^ 32
      let bits := bits + 6
      decode_loop data value (decode_emit value (bits / 8) bits buffer).1
        (decode_emit value (bits / 8) bits buffer).2
    else if code = 64 then .ok (decode_emit value (bits / 8) bits buffer).2
    else .error .invalid_base64_string

/-- The library function `base64.decode` (`f_decode`) on its string argument:
the string it returns, or the failure it reports. -/
def f_decode (data : List UInt8) : Except Base64Error (List UInt8) := decode_loop data 0 0 []

end Base64

/-! ## Definitions used to state the properties -/

namespace Msgpack

open Lua

/-- The bytes written so far: the flushed chunks, then the filled part of the buffer. -/
def msg_t.contents (msg : msg_t) : List UInt8 :=
  msg.table.flatten ++ msg.buffer.take msg.position

/-- The `length` low bytes of `value`, most significant first. -/
def big_endian (value : Nat) : (length : Nat) → List UInt8
  | 0 => []
  | length + 1 => UInt8.ofNat (value / 256 ^ length % 256) :: big_endian value length

/-- The bytes `msg_encode_integer` writes. -/
def integer_bytes (i : Int) : List UInt8 := (msg_encode_integer msg_init i).contents

/-- The bytes `msg_encode_float` writes. -/
def float_bytes (bits : Nat) : List UInt8 := (msg_encode_float msg_init bits).contents

/-- The bytes `msg_encode_string` writes. -/
def string_bytes (s : List UInt8) : List UInt8 := (msg_encode_string msg_init s).contents

/-- The bytes `msg_encode_table_header` writes. -/
def table_header (items : Int) : List UInt8 := (msg_encode_table_header msg_init items).contents

mutual
/-- The bytes `msg_encode` writes for a value. -/
def encoding : LuaValue → Except MsgError (List UInt8)
  | .nil => .ok [0xc0]
  | .boolean b => .ok [if b then 0xc3 else 0xc2]
  | .integer i => .ok (integer_bytes i)
  | .float bits => .ok (float_bytes bits)
  | .string s => .ok (string_bytes s)
  | .table entries =>
    let items := count_table entries
    match (if items ≥ 0 then encoding_values entries else encoding_pairs entries) with
    | .error e => .error e
    | .ok bs => .ok (table_header items ++ bs)
  | .other t => .error (.cannot_encode t)
/-- The bytes written for the values of a list of entries. -/
def encoding_values : List (LuaValue × LuaValue) → Except MsgError (List UInt8)
  | [] => .ok []
  | (_, value) :: rest =>
    match encoding value with
    | .error e => .error e
    | .ok b =>
      match encoding_values rest with
      | .error e => .error e
      | .ok bs => .ok (b ++ bs)
/-- The bytes written for the keys and values of a list of entries. -/
def encoding_pairs : List (LuaValue × LuaValue) → Except MsgError (List UInt8)
  | [] => .ok []
  | (key, value) :: rest =>
    match encoding key with
    | .error e => .error e
    | .ok bk =>
      match encoding value with
      | .error e => .error e
      | .ok bv =>
        match encoding_pairs rest with
        | .error e => .error e
        | .ok bs => .ok (bk ++ bv ++ bs)
end

/-- The result of writing bytes that were computed with a possible failure. -/
def write_result (msg : msg_t) : Except MsgError (List UInt8) → Except MsgError msg_t
  | .error e => .error e
  | .ok bs => .ok (msg_write_str msg bs)

/-- The bytes written for a list of arguments. -/
def encoding_list : List LuaValue → Except MsgError (List UInt8)
  | [] => .ok []
  | v :: rest =>
    match encoding v with
    | .error e => .error e
    | .ok b =>
      match encoding_list rest with
      | .error e => .error e
      | .ok bs => .ok (b ++ bs)

/-- The input that is left to read. -/
def msg_t.remaining (msg : msg_t) : List UInt8 := msg.input.drop msg.position

/-- The state after `n` more bytes were read. -/
def msg_t.advance (msg : msg_t) (n : Nat) : msg_t := { msg with position := msg.position + n }

/-- The number big-endian bytes denote. -/
def unsigned_value (bytes : List UInt8) : Nat := bytes.foldl (fun a b => a * 256 + b.toNat) 0

/-- The two's-complement reading of a `width`-byte unsigned number. -/
def twos_complement (width : Nat) (n : Nat) : Int :=
  if n < 2 ^ (8 * width - 1) then (n : Int) else (n : Int) - 2 ^ (8 * width)

/-- The state `msg'` is `msg` after `n` bytes were read, all of them inside the
input. -/
def Reads (msg msg' : msg_t) (n : Nat) : Prop :=
  msg' = msg.advance n ∧ (n = 0 ∨ msg.position + n ≤ msg.input.length)

/-- A decoder reads at least one byte whenever it succeeds. -/
def Progress (decode : msg_t → Except MsgError (LuaValue × msg_t)) : Prop :=
  ∀ msg v msg', decode msg = .ok (v, msg') → ∃ n, 0 < n ∧ Reads msg msg' n

/-- Read a count with `msg_read_int`, convert it to `int` and decode an array
of that many items. -/
def msg_decode_array (decode : msg_t → Except MsgError (LuaValue × msg_t)) (msg : msg_t)
    (width : Nat) : Except MsgError (LuaValue × msg_t) :=
  match msg_read_int msg width with
  | .error e => .error e
  | .ok (n, msg) =>
    decode_array decode msg (C.to_int32 (if width = 2 then C.to_uint16 n else C.to_uint32 n))

/-- Read a count with `msg_read_int`, convert it to `int` and decode a map of
that many pairs. -/
def msg_decode_map (decode : msg_t → Except MsgError (LuaValue × msg_t)) (msg : msg_t)
    (width : Nat) : Except MsgError (LuaValue × msg_t) :=
  match msg_read_int msg width with
  | .error e => .error e
  | .ok (n, msg) =>
    decode_map decode msg (C.to_int32 (if width = 2 then C.to_uint16 n else C.to_uint32 n))

/-- A UTF-8 continuation byte, `80 .. bf`. -/
def is_continuation (b : UInt8) : Prop := 0x80 ≤ b.toNat ∧ b.toNat ≤ 0xbf

/-- A byte string that is a concatenation of units, each unit being a byte
`00 .. 7f`, or a lead byte `c2 .. df` and one continuation byte, or a lead byte
`e0 .. ef` and two continuation bytes, or a lead byte `f0 .. f4` and three
continuation bytes. -/
inductive Utf8Units : List UInt8 → Prop where
  | nil : Utf8Units []
  | one (b : UInt8) (rest : List UInt8) : b.toNat ≤ 0x7f → Utf8Units rest → Utf8Units (b :: rest)
  | two (b c1 : UInt8) (rest : List UInt8) : 0xc2 ≤ b.toNat → b.toNat ≤ 0xdf →
      is_continuation c1 → Utf8Units rest → Utf8Units (b :: c1 :: rest)
  | three (b c1 c2 : UInt8) (rest : List UInt8) : 0xe0 ≤ b.toNat → b.toNat ≤ 0xef →
      is_continuation c1 → is_continuation c2 → Utf8Units rest →
      Utf8Units (b :: c1 :: c2 :: rest)
  | four (b c1 c2 c3 : UInt8) (rest : List UInt8) : 0xf0 ≤ b.toNat → b.toNat ≤ 0xf4 →
      is_continuation c1 → is_continuation c2 → is_continuation c3 → Utf8Units rest →
      Utf8Units (b :: c1 :: c2 :: c3 :: rest)

/-- Is the byte in the range `lo .. hi`? -/
def in_range (lo hi : Nat) (b : UInt8) : Bool := lo ≤ b.toNat ∧ b.toNat ≤ hi

/-- Well-formed UTF-8 in the sense of RFC 3629 (section 4) and of the Unicode
standard (table 3-7): no overlong forms, no surrogates, nothing above
U+10FFFF. -/
def well_formed_utf8 : List UInt8 → Bool
  | [] => true
  | [b] => in_range 0x00 0x7f b
  | [b, c1] => (in_range 0x00 0x7f b && well_formed_utf8 [c1]) ||
      (in_range 0xc2 0xdf b && in_range 0x80 0xbf c1)
  | [b, c1, c2] => (in_range 0x00 0x7f b && well_formed_utf8 [c1, c2]) ||
      (in_range 0xc2 0xdf b && in_range 0x80 0xbf c1 && well_formed_utf8 [c2]) ||
      (((in_range 0xe0 0xe0 b && in_range 0xa0 0xbf c1) ||
        (in_range 0xe1 0xec b && in_range 0x80 0xbf c1) ||
        (in_range 0xed 0xed b && in_range 0x80 0x9f c1) ||
        (in_range 0xee 0xef b && in_range 0x80 0xbf c1)) && in_range 0x80 0xbf c2)
  | b :: c1 :: c2 :: c3 :: rest =>
      (in_range 0x00 0x7f b && well_formed_utf8 (c1 :: c2 :: c3 :: rest)) ||
      (in_range 0xc2 0xdf b && in_range 0x80 0xbf c1 && well_formed_utf8 (c2 :: c3 :: rest)) ||
      (((in_range 0xe0 0xe0 b && in_range 0xa0 0xbf c1) ||
        (in_range 0xe1 0xec b && in_range 0x80 0xbf c1) ||
        (in_range 0xed 0xed b && in_range 0x80 0x9f c1) ||
        (in_range 0xee 0xef b && in_range 0x80 0xbf c1)) && in_range 0x80 0xbf c2 &&
        well_formed_utf8 (c3 :: rest)) ||
      (((in_range 0xf0 0xf0 b && in_range 0x90 0xbf c1) ||
        (in_range 0xf1 0xf3 b && in_range 0x80 0xbf c1) ||
        (in_range 0xf4 0xf4 b && in_range 0x80 0x8f c1)) && in_range 0x80 0xbf c2 &&
        in_range 0x80 0xbf c3 && well_formed_utf8 rest)

/-- The count header of an array of `n` elements, as the format lays it down. -/
def array_header (n : Nat) : List UInt8 :=
  if n ≤ 15 then [UInt8.ofNat (0x90 + n)]
  else if n ≤ 65535 then 0xdc :: big_endian n 2
  else 0xdd :: big_endian n 4

/-- The count header of a map of `n` pairs, as the format lays it down. -/
def map_header (n : Nat) : List UInt8 :=
  if n ≤ 15 then [UInt8.ofNat (0x80 + n)]
  else if n ≤ 65535 then 0xde :: big_endian n 2
  else 0xdf :: big_endian n 4

/-- A table with the `n` entries `[i] = true` for `i = 1 .. n`, enumerated in
the order of the keys. -/
def sequence_of_true (n : Nat) : List (LuaValue × LuaValue) :=
  (List.range n).map (fun (i : Nat) => (LuaValue.integer ((i : Int) + 1), LuaValue.boolean true))

/-- A decoder that does not run out of fuel on the given input from the given
position on. -/
def Fueled (decode : msg_t → Except MsgError (LuaValue × msg_t)) (input : List UInt8)
    (p : Nat) : Prop :=
  ∀ m : msg_t, m.input = input → p ≤ m.position → m.position ≤ input.length →
    decode m ≠ .error .out_of_fuel

/-- The state in which `f_decode` starts on an input with the default starting
position 1. -/
def msg_start (input : List UInt8) : msg_t :=
  { position := 0, input := input, buffer := [], table := [] }

mutual
/-- Does `p` hold of a value and of all the keys and values inside it? -/
def all_values (p : LuaValue → Bool) : LuaValue → Bool
  | .table entries => p (.table entries) && all_entries p entries
  | .nil => p .nil
  | .boolean b => p (.boolean b)
  | .integer i => p (.integer i)
  | .float bits => p (.float bits)
  | .string s => p (.string s)
  | .other t => p (.other t)
/-- Does `p` hold of all the keys and values of the entries, and inside them? -/
def all_entries (p : LuaValue → Bool) : List (LuaValue × LuaValue) → Bool
  | [] => true
  | (key, value) :: rest => all_values p key && all_values p value && all_entries p rest
end

/-- Is the value nil? -/
def is_nil : LuaValue → Bool
  | .nil => true
  | _ => false

/-- A value of the kinds the round trip is stated for: nil, a boolean, an
integer, a string or a table; no float and none of the other Lua types. -/
def is_plain : LuaValue → Bool
  | .float _ => false
  | .other _ => false
  | _ => true

/-- What Lua itself guarantees of a value: an integer is a 64-bit signed
integer, and a table has no nil key, no nil value and no two equal keys. -/
def lua_invariant : LuaValue → Bool
  | .integer i => decide (-2 ^ 63 ≤ i ∧ i < 2 ^ 63)
  | .table entries =>
    entries.all (fun e => !is_nil e.1 && !is_nil e.2) &&
    decide (entries.Pairwise (fun a b => lua_rawequal a.1 b.1 = false))
  | _ => true

/-- The sizes the format and the C types of the codec can hold: a string of
fewer than `2^32` bytes, a table of fewer than `2^31` entries. -/
def within_limits : LuaValue → Bool
  | .string s => decide (s.length < 2 ^ 32)
  | .table entries => decide (entries.length < 2 ^ 31)
  | _ => true

/-- A table that `count_table` takes for an array has integer keys only. -/
def array_keys_exact : LuaValue → Bool
  | .table entries => decide (count_table entries < 0) || entries.all (fun e => lua_isinteger e.1)
  | _ => true

/-- The four conditions of the round trip together. -/
def round_trip_local (v : LuaValue) : Bool :=
  is_plain v && lua_invariant v && within_limits v && array_keys_exact v

/-- The keys of the entries are the integers `i`, `i + 1`, and so on. -/
def keys_from : List (LuaValue × LuaValue) → Int → Prop
  | [], _ => True
  | (key, _) :: rest, i => key = .integer i ∧ keys_from rest (i + 1)
/-- The codes `msg_decode` has no case for: the code `c1`, which the format
never uses, and the codes of the extension types. -/
def unsupported_codes : List UInt8 := [0xc1, 0xc7, 0xc8, 0xc9, 0xd4, 0xd5, 0xd6, 0xd7, 0xd8]

/-- The codes of the arrays and of the maps: `80 .. 9f` and `dc .. df`. -/
def is_container_code (t : UInt8) : Prop :=
  (0x80 ≤ t.toNat ∧ t.toNat ≤ 0x9f) ∨ t.toNat = 0xdc ∨ t.toNat = 0xdd ∨ t.toNat = 0xde ∨
    t.toNat = 0xdf

/-- The errors of a value inside an array or a map: a code inside that is not
supported, and a key that is nil or NaN, which `lua_rawset` does not take. -/
def NestedError (e : MsgError) : Prop :=
  (∃ c ∈ unsupported_codes, e = .invalid_code c) ∨ e = .lua .index_is_nil ∨
    e = .lua .index_is_nan

/-- The number of continuation bytes a lead byte asks for: one after `c2 .. df`,
two after `e0 .. ef`, three after `f0 .. f4`; 0 for every other byte. -/
def continuation_count (b : UInt8) : Nat :=
  if 0xc2 ≤ b.toNat ∧ b.toNat ≤ 0xdf then 1
  else if 0xe0 ≤ b.toNat ∧ b.toNat ≤ 0xef then 2
  else if 0xf0 ≤ b.toNat ∧ b.toNat ≤ 0xf4 then 3
  else 0

/-- The chunks in the table are full, and the buffer holds the bytes not yet
flushed. -/
def ChunksFull (msg : msg_t) : Prop :=
  (∀ chunk ∈ msg.table, chunk.length = 1024 * 16) ∧ msg.position ≤ 1024 * 16 ∧
    msg.position ≤ msg.buffer.length

/-- The state on the first `c` bytes of the input only. -/
def msg_t.cut (msg : msg_t) (c : Nat) : msg_t := { msg with input := msg.input.take c }

/-- What a reader that succeeds on the whole input does on the first `c` bytes
of it, from a position `start` on: the same when it stays inside them, and the
truncated-input error when it begins inside them and goes beyond them.  `r1` is
the reader on the whole input, `r2` the one on the first `c` bytes. -/
def CutTo {α : Type} (c : Nat) (r1 r2 : msg_t → Except MsgError (α × msg_t)) (start : Nat) : Prop :=
  ∀ msg x m', start ≤ msg.position → r1 msg = .ok (x, m') →
    (m'.position ≤ c → r2 (msg.cut c) = .ok (x, m'.cut c)) ∧
    (msg.position ≤ c → c < m'.position → r2 (msg.cut c) = .error .more_bytes)

/-- Is the value a float that is a NaN? -/
def is_nan_float : LuaValue → Bool
  | .float bits => Float754.is_nan 11 52 bits
  | _ => false

/-- A value of a kind the codec encodes: none of the other Lua types. -/
def is_encodable : LuaValue → Bool
  | .other _ => false
  | _ => true

/-- No key of the table is a NaN, which Lua guarantees as well. -/
def keys_not_nan : LuaValue → Bool
  | .table entries => entries.all (fun e => !is_nan_float e.1)
  | _ => true

/-- The conditions of the truncation property: a value of a kind the codec
encodes, as Lua guarantees it, within the sizes the format can hold. -/
def truncation_local (v : LuaValue) : Bool :=
  is_encodable v && lua_invariant v && keys_not_nan v && within_limits v

end Msgpack

namespace Json

open Lua

/-- The chunks flushed so far, the first one first. -/
def json_t.chunks (json : json_t) : List (List UInt8) := json.table.reverse.map Prod.snd

/-- The characters written so far: the flushed chunks, then the filled part of
the buffer. -/
def json_t.contents (json : json_t) : List UInt8 :=
  json.chunks.flatten ++ json.output.take json.position

/-- Write all the characters of a list with `json_write`. -/
def json_write_all (json : json_t) : List UInt8 → json_t
  | [] => json
  | ch :: str => json_write_all (json_write json ch) str

/-- The characters of a C string: those before the first NUL. -/
def c_string (s : List UInt8) : List UInt8 := s.takeWhile (fun ch => ch ≠ 0)

/-- What stands for a byte of a string in the text: the two-character escape
for a backslash, a double quote, a backspace, a form feed, a newline, a
carriage return and a tab, and the byte itself for every other byte. -/
def escape_sequence (b : UInt8) : List UInt8 :=
  if b = 92 then [92, 92]
  else if b = 34 then [92, 34]
  else if b = 8 then [92, 98]
  else if b = 12 then [92, 102]
  else if b = 10 then [92, 110]
  else if b = 13 then [92, 114]
  else if b = 9 then [92, 116]
  else [b]

/-- The text of a string: its characters up to the first NUL, escaped, between
double quotes. -/
def string_text (s : List UInt8) : List UInt8 :=
  [34] ++ (c_string s).flatMap escape_sequence ++ [34]

/-- The text `encode_number` writes for a number. -/
def number_text (v : LuaValue) : List UInt8 :=
  if lua_isinteger v then c_string (lua_integer2str (lua_tointeger v))
  else c_string (tostringbuff (lua_tonumber v))

mutual
/-- The text `encode_value` writes for a value. -/
def text : LuaValue → Except JsonError (List UInt8)
  | .nil => .ok [110, 117, 108, 108]
  | .boolean b => .ok (if b then [116, 114, 117, 101] else [102, 97, 108, 115, 101])
  | .integer i => .ok (number_text (.integer i))
  | .float bits => .ok (number_text (.float bits))
  | .string s => .ok (string_text s)
  | .table entries =>
    if valid_array entries then
      match text_values entries false with
      | .error e => .error e
      | .ok t => .ok ([91] ++ t ++ [93])
    else
      match text_pairs entries false with
      | .error e => .error e
      | .ok t => .ok ([123] ++ t ++ [125])
  | .other t => .error (.cannot_encode t)
/-- The text written for the values of a list of entries, with commas between
them, and before the first one when `more` is set. -/
def text_values : List (LuaValue × LuaValue) → Bool → Except JsonError (List UInt8)
  | [], _ => .ok []
  | (_, value) :: rest, more =>
    match text value with
    | .error e => .error e
    | .ok t =>
      match text_values rest true with
      | .error e => .error e
      | .ok ts => .ok ((if more then [44] else []) ++ t ++ ts)
/-- The text written for a list of entries as the members of an object. -/
def text_pairs : List (LuaValue × LuaValue) → Bool → Except JsonError (List UInt8)
  | [], _ => .ok []
  | (key, value) :: rest, more =>
    if is_string key then
      match text key with
      | .error e => .error e
      | .ok tk =>
        match text value with
        | .error e => .error e
        | .ok tv =>
          match text_pairs rest true with
          | .error e => .error e
          | .ok ts => .ok ((if more then [44] else []) ++ tk ++ [58] ++ tv ++ ts)
    else .error .non_string_key
end

/-- The result of writing a text that was computed with a possible failure. -/
def write_text (json : json_t) : Except JsonError (List UInt8) → Except JsonError json_t
  | .error e => .error e
  | .ok t => .ok (json_write_all json t)

/-- A decoder that takes at least one character whenever it succeeds. -/
def Shorter (decode : List UInt8 → Except JsonError (LuaValue × List UInt8)) : Prop :=
  ∀ x v r, decode x = .ok (v, r) → r.length < x.length

/-- The second decoder gives what the first one gives, wherever the first one
does not run out of fuel. -/
def Extends (decode1 decode2 : List UInt8 → Except JsonError (LuaValue × List UInt8)) : Prop :=
  ∀ x r, decode1 x = r → r ≠ .error .out_of_fuel → decode2 x = r

/-- The function `decode_value` with the fuel `f_decode` gives it for the input. -/
def decode (input : List UInt8) : Except JsonError (LuaValue × List UInt8) :=
  decode_value (input.length + 1) input

/-- The input consists of one or more values that `decode_value` accepts, with
a comma between one and the next, and it ends after the last of them (white
space may stand around the commas and at the end). -/
inductive ValueList : List UInt8 → Prop where
  | last (input : List UInt8) (v : LuaValue) (rest : List UInt8) :
      decode input = .ok (v, rest) → peek (parse_whitespace rest) = 0 → ValueList input
  | more (input : List UInt8) (v : LuaValue) (rest tail : List UInt8) :
      decode input = .ok (v, rest) → parse_whitespace rest = 44 :: tail → ValueList tail →
      ValueList input

/-- A value of a kind the codec supports: none of the Lua types it cannot
encode. -/
def is_supported : LuaValue → Bool
  | .other _ => false
  | _ => true

mutual
/-- Is there, among the value itself and the values of the entries of its
tables at any depth, a table that `valid_array` does not take for an array and
that has a key which is not a string? -/
def non_string_key_inside : LuaValue → Bool
  | .table entries =>
    (!valid_array entries && entries.any (fun e => !is_string e.1)) || any_value_inside entries
  | _ => false
/-- Is there such a table in the value of one of the entries? -/
def any_value_inside : List (LuaValue × LuaValue) → Bool
  | [] => false
  | (_, value) :: rest => non_string_key_inside value || any_value_inside rest
end

/-- Are the keys of the entries the integers `i`, `i + 1`, and so on, so that
the entries are those of an array? -/
def is_sequence : List (LuaValue × LuaValue) → Int → Bool
  | [], _ => true
  | (key, _) :: rest, i => lua_isinteger key && lua_tointeger key == i && is_sequence rest (i + 1)

/-- Is the value a string without a zero byte? -/
def is_text_key : LuaValue → Bool
  | .string s => s.all (fun ch => ch != 0)
  | _ => false

mutual
/-- The values of the text round trip: nil, a boolean, a string without a zero
byte, an array (a table whose keys are the integers `1 .. n` in order, with
`n < 2^31`) and a map (a table whose keys are distinct strings without a zero
byte, and which `valid_array` does not take for an array), where the values
inside an array and a map are of the same kinds and not nil. -/
def text_domain : LuaValue → Bool
  | .nil => true
  | .boolean _ => true
  | .string s => s.all (fun ch => ch != 0)
  | .table entries =>
    ((is_sequence entries 1 && decide (entries.length < 2 ^ 31)) ||
      (!valid_array entries && entries.all (fun e => is_text_key e.1) &&
        decide (entries.Pairwise (fun a b => lua_rawequal a.1 b.1 = false)))) &&
    values_domain entries
  | _ => false
/-- Are the values of the entries of these kinds and not nil? -/
def values_domain : List (LuaValue × LuaValue) → Bool
  | [] => true
  | (_, value) :: rest => !Msgpack.is_nil value && text_domain value && values_domain rest
end

/-- A text that starts with a character at which a value can start: not the
NUL, not white space and none of `]`, the closing brace and `,`. -/
def Starts (t : List UInt8) : Prop :=
  ∃ c t', t = c :: t' ∧ c ≠ 0 ∧ isspace c = false ∧ c ≠ 93 ∧ c ≠ 125 ∧ c ≠ 44

/-- What `decode_array_loop` does after an element: the test for `]`, the
comma and the next iteration. -/
def array_continue (decode : List UInt8 → Except JsonError (LuaValue × List UInt8)) (fuel : Nat)
    (i : Int) (table : List (LuaValue × LuaValue)) (input : List UInt8) :
    Except JsonError (List (LuaValue × LuaValue) × List UInt8) :=
  if peek (parse_whitespace input) = 93 then .ok (table, parse_whitespace input)
  else
    match parse_token (parse_whitespace input) [44] with
    | .error e => .error e
    | .ok input => decode_array_loop decode fuel i table input

/-- What `decode_object_loop` does after a member: the test for the closing
brace, the comma and the next iteration. -/
def object_continue (decode : List UInt8 → Except JsonError (LuaValue × List UInt8))
    (fuel : Nat) (table : List (LuaValue × LuaValue)) (input : List UInt8) :
    Except JsonError (List (LuaValue × LuaValue) × List UInt8) :=
  if peek (parse_whitespace input) = 125 then .ok (table, parse_whitespace input)
  else
    match parse_token (parse_whitespace input) [44] with
    | .error e => .error e
    | .ok input => decode_object_loop decode fuel table input

/-- The chunks in the table of the JSON writer are full, and the buffer holds
the characters not yet flushed. -/
def ChunksFull (json : json_t) : Prop :=
  (∀ chunk ∈ json.chunks, chunk.length = 8) ∧ json.position ≤ 8 ∧
    json.position ≤ json.output.length

/-- The assignments to the table of chunks were made at the keys
`1, 2, .., n` in turn. -/
def Numbered : List (Int × List UInt8) → Prop
  | [] => True
  | (key, _) :: table => key = (table.length : Int) + 1 ∧ Numbered table

/-- The counter of the JSON writer has not overflowed: the chunks are stored at
the keys `1 .. index - 1`. -/
def Counted (json : json_t) : Prop :=
  Numbered json.table ∧ json.index = (json.table.length : Int) + 1

/-- The longest text for which the `int` counter of the chunks of `json.encode`
does not overflow: `2^31 - 2` chunks of 8 characters. -/
def text_limit : Nat := 8 * (2 ^ 31 - 2)

/-- The characters after an opening double quote hold no closing one: every
double quote among them stands right after a backslash that escapes it.  A
backslash takes the character after it, whatever it is. -/
inductive Unterminated : List UInt8 → Prop where
  | nil : Unterminated []
  | backslash : Unterminated [92]
  | plain (c : UInt8) (rest : List UInt8) : c ≠ 34 → c ≠ 92 → Unterminated rest →
      Unterminated (c :: rest)
  | escaped (c : UInt8) (rest : List UInt8) : Unterminated rest → Unterminated (92 :: c :: rest)

/-- A decoder that gives the same value when `t` is put after the input,
wherever it succeeds and either leaves some of the input or gives no number. -/
def Appends (t : List UInt8)
    (decode : List UInt8 → Except JsonError (LuaValue × List UInt8)) : Prop :=
  ∀ x v r, decode x = .ok (v, r) → (r ≠ [] ∨ ∀ bits, v ≠ .float bits) →
    decode (x ++ t) = .ok (v, r ++ t)

end Json

namespace Base64

open Lua

/-- The character of the alphabet for six bits. -/
def digit (i : Nat) : UInt8 := encode_table.getD i 0

/-- Base64 by groups of three bytes: four characters for a group, and for the
one or two bytes that are left two or three characters and the padding. -/
def groups : List UInt8 → List UInt8
  | [] => []
  | [a] => [digit (a.toNat / 4), digit (a.toNat % 4 * 16), 61, 61]
  | [a, b] => [digit (a.toNat / 4), digit (a.toNat % 4 * 16 + b.toNat / 16),
      digit (b.toNat % 16 * 4), 61]
  | a :: b :: c :: rest =>
    digit (a.toNat / 4) :: digit (a.toNat % 4 * 16 + b.toNat / 16) ::
      digit (b.toNat % 16 * 4 + c.toNat / 64) :: digit (c.toNat % 64) :: groups rest

end Base64

/-! ## Theorems -/

namespace Msgpack

open Lua

theorem contents_flush (msg : msg_t) : (msg_flush msg).contents = msg.contents := by
  unfold msg_flush msg_t.contents
  split
  · simp
  · rfl

theorem contents_write (msg : msg_t) (b : UInt8) :
    (msg_write msg b).contents = msg.contents ++ [b] := by
  have key : ∀ m : msg_t, (msg_t.mk (m.position + 1) m.input
      (m.buffer.take m.position ++ [b]) m.table).contents = m.contents ++ [b] := by
    intro m
    simp only [msg_t.contents]
    rw [List.take_of_length_le (by simp)]
    simp
  unfold msg_write
  simp only []
  split
  · rw [key, contents_flush]
  · rw [key]

theorem input_flush (msg : msg_t) : (msg_flush msg).input = msg.input := by
  unfold msg_flush; split <;> rfl

theorem contents_write_str (str : List UInt8) (msg : msg_t) :
    (msg_write_str msg str).contents = msg.contents ++ str := by
  induction str generalizing msg with
  | nil => simp [msg_write_str]
  | cons b str ih => simp [msg_write_str, ih, contents_write]

theorem write_str_append (a b : List UInt8) (msg : msg_t) :
    msg_write_str msg (a ++ b) = msg_write_str (msg_write_str msg a) b := by
  induction a generalizing msg with
  | nil => rfl
  | cons x a ih => simp [msg_write_str, ih]

theorem output_flush (msg : msg_t) : f_encode_output (msg_flush msg) = msg.contents := by
  have h : ∀ t : List (List UInt8),
      ((List.range (t.length + 1)).map (fun i => t.getD i [])).flatten = t.flatten := by
    intro t
    rw [List.range_succ, List.map_append, List.flatten_append]
    have : (List.range t.length).map (fun i => t.getD i []) = t := by
      apply List.ext_getElem
      · simp
      · intro n h1 h2
        simp at h1
        simp [List.getD_eq_getElem?_getD, h1]
    rw [this]
    simp
  unfold f_encode_output
  rw [h, ← contents_flush msg]
  unfold msg_flush msg_t.contents
  split <;> simp_all

theorem shift_and_eq (value length : Nat) :
    (value >>> (length * 8)) &&& 255 = value / 256 ^ length % 256 := by
  rw [Nat.shiftRight_eq_div_pow, show (255 : Nat) = 2 ^ 8 - 1 from rfl,
    Nat.and_pow_two_sub_one_eq_mod, Nat.mul_comm, Nat.pow_mul]

theorem write_int_eq (value length : Nat) (msg : msg_t) :
    msg_write_int msg value length = msg_write_str msg (big_endian value length) := by
  induction length generalizing msg with
  | zero => rfl
  | succ n ih => simp [msg_write_int, big_endian, msg_write_str, ih, shift_and_eq]

theorem big_endian_length (value length : Nat) : (big_endian value length).length = length := by
  induction length with
  | zero => rfl
  | succ n ih => simp [big_endian, ih]

theorem contents_init : msg_init.contents = [] := rfl

theorem write_str_one (msg : msg_t) (b : UInt8) : msg_write msg b = msg_write_str msg [b] := rfl

theorem write_str_cons (msg : msg_t) (b : UInt8) (bs : List UInt8) :
    msg_write_str (msg_write msg b) bs = msg_write_str msg (b :: bs) := rfl

theorem contents_write_init (bs : List UInt8) : (msg_write_str msg_init bs).contents = bs := by
  rw [contents_write_str, contents_init, List.nil_append]

theorem encode_integer_eq (msg : msg_t) (i : Int) :
    msg_encode_integer msg i = msg_write_str msg (integer_bytes i) := by
  unfold integer_bytes msg_encode_integer
  simp only [write_int_eq, write_str_one, ← write_str_append]
  repeat' split
  all_goals simp only [← write_str_append, contents_write_init]

theorem encode_float_eq (msg : msg_t) (bits : Nat) :
    msg_encode_float msg bits = msg_write_str msg (float_bytes bits) := by
  unfold float_bytes msg_encode_float
  simp only [write_str_one, ← write_str_append]
  repeat' split
  all_goals simp only [← write_str_append, contents_write_init]

theorem encode_string_eq (msg : msg_t) (s : List UInt8) :
    msg_encode_string msg s = msg_write_str msg (string_bytes s) := by
  unfold string_bytes msg_encode_string
  simp only [write_int_eq, write_str_one, ← write_str_append]
  repeat' split
  all_goals simp only [← write_str_append, contents_write_init]

theorem encode_table_header_eq (msg : msg_t) (items : Int) :
    msg_encode_table_header msg items = msg_write_str msg (table_header items) := by
  unfold table_header msg_encode_table_header
  simp only [write_int_eq, write_str_one, ← write_str_append]
  repeat' split
  all_goals simp only [← write_str_append, contents_write_init]

mutual
theorem encode_eq : ∀ (v : LuaValue) (msg : msg_t),
    msg_encode v msg = write_result msg (encoding v)
  | .nil, msg => rfl
  | .boolean b, msg => rfl
  | .integer i, msg => by simp [msg_encode, encoding, write_result, encode_integer_eq]
  | .float bits, msg => by simp [msg_encode, encoding, write_result, encode_float_eq]
  | .string s, msg => by simp [msg_encode, encoding, write_result, encode_string_eq]
  | .other t, msg => rfl
  | .table entries, msg => by
    unfold msg_encode encoding
    simp only [encode_table_header_eq]
    split
    · rw [encode_values_eq entries]
      cases encoding_values entries <;> simp [write_result, write_str_append]
    · rw [encode_pairs_eq entries]
      cases encoding_pairs entries <;> simp [write_result, write_str_append]
theorem encode_values_eq : ∀ (es : List (LuaValue × LuaValue)) (msg : msg_t),
    msg_encode_values es msg = write_result msg (encoding_values es)
  | [], msg => rfl
  | (k, v) :: rest, msg => by
    unfold msg_encode_values encoding_values
    rw [encode_eq v]
    cases encoding v with
    | error e => rfl
    | ok b =>
      simp only [write_result]
      rw [encode_values_eq rest]
      cases encoding_values rest <;> simp [write_result, write_str_append]
theorem encode_pairs_eq : ∀ (es : List (LuaValue × LuaValue)) (msg : msg_t),
    msg_encode_pairs es msg = write_result msg (encoding_pairs es)
  | [], msg => rfl
  | (k, v) :: rest, msg => by
    unfold msg_encode_pairs encoding_pairs
    rw [encode_eq k]
    cases encoding k with
    | error e => rfl
    | ok bk =>
      simp only [write_result]
      rw [encode_eq v]
      cases encoding v with
      | error e => rfl
      | ok bv =>
        simp only [write_result]
        rw [encode_pairs_eq rest]
        cases encoding_pairs rest <;> simp [write_result, write_str_append]
end

theorem f_encode_loop_eq (args : List LuaValue) (msg : msg_t) :
    f_encode_loop args msg = write_result msg (encoding_list args) := by
  induction args generalizing msg with
  | nil => rfl
  | cons v rest ih =>
    unfold f_encode_loop encoding_list
    rw [encode_eq v]
    cases encoding v with
    | error e => rfl
    | ok b =>
      simp only [write_result]
      rw [ih]
      cases encoding_list rest <;> simp [write_result, write_str_append]

theorem f_encode_eq (args : List LuaValue) : f_encode args = encoding_list args := by
  unfold f_encode
  rw [f_encode_loop_eq]
  cases encoding_list args with
  | error e => rfl
  | ok bs => simp [write_result, output_flush, contents_write_init]

theorem integer_bytes_eq (i : Int) : integer_bytes i =
    if i ≥ 0 then
      if i ≤ 0x7f then [C.to_uint8 i]
      else if i ≤ 0xff then 0xcc :: big_endian (C.to_uint64 i) 1
      else if i ≤ 0xffff then 0xcd :: big_endian (C.to_uint64 i) 2
      else if i ≤ 0xffffffff then 0xce :: big_endian (C.to_uint64 i) 4
      else 0xcf :: big_endian (C.to_uint64 i) 8
    else
      if i ≥ -32 then [C.to_uint8 i]
      else if i ≥ -128 then 0xd0 :: big_endian (C.to_uint8 i).toNat 1
      else if i ≥ -32768 then 0xd1 :: big_endian (C.to_uint16 i) 2
      else if i ≥ -2147483648 then 0xd2 :: big_endian (C.to_uint32 i) 4
      else 0xd3 :: big_endian (C.to_uint64 i) 8 := by
  unfold integer_bytes msg_encode_integer
  simp only [write_int_eq, write_str_one, ← write_str_append]
  repeat' split
  all_goals simp only [contents_write_init, List.singleton_append]

theorem uint8_toNat_ofNat (n : Nat) : (UInt8.ofNat n).toNat = n % 256 := by
  simp [UInt8.ofNat, UInt8.toNat, Fin.ofNat]

theorem uint8_ofNat_toNat (b : UInt8) : UInt8.ofNat b.toNat = b := by
  cases b with
  | mk v => simp [UInt8.ofNat, UInt8.toNat]

theorem uint8_toNat_lt (b : UInt8) : b.toNat < 256 := UInt8.toNat_lt_size b

theorem uint8_eq_of_toNat_eq {a b : UInt8} (h : a.toNat = b.toNat) : a = b := by
  rw [← uint8_ofNat_toNat a, ← uint8_ofNat_toNat b, h]

/-- Claim C2.  What `msgpack.encode` returns for a 64-bit signed integer `i`: the
single byte `i mod 256` when `-32 <= i <= 127`; for a larger `i` the tag `cc`,
`cd`, `ce` or `cf` and the 1, 2, 4 or 8 big-endian bytes of `i`, with the
smallest of these widths that holds `i`; for `i < -32` the tag `d0`, `d1`, `d2`
or `d3` and the 1, 2, 4 or 8 big-endian bytes of the two's complement of `i`,
with the smallest width that holds `i`; and the five examples. -/
theorem integer_encoding_minimal (i : Int) (hlo : -2 ^ 63 ≤ i) (hhi : i < 2 ^ 63) :
    (-32 ≤ i ∧ i ≤ 127 → f_encode [.integer i] = .ok [UInt8.ofNat (i % 256).toNat]) ∧
    (127 < i ∧ i ≤ 0xff → f_encode [.integer i] = .ok (0xcc :: big_endian i.toNat 1)) ∧
    (0xff < i ∧ i ≤ 0xffff → f_encode [.integer i] = .ok (0xcd :: big_endian i.toNat 2)) ∧
    (0xffff < i ∧ i ≤ 0xffffffff → f_encode [.integer i] = .ok (0xce :: big_endian i.toNat 4)) ∧
    (0xffffffff < i → f_encode [.integer i] = .ok (0xcf :: big_endian i.toNat 8)) ∧
    (-128 ≤ i ∧ i < -32 → f_encode [.integer i] = .ok (0xd0 :: big_endian (i + 2 ^ 8).toNat 1)) ∧
    (-32768 ≤ i ∧ i < -128 →
      f_encode [.integer i] = .ok (0xd1 :: big_endian (i + 2 ^ 16).toNat 2)) ∧
    (-2147483648 ≤ i ∧ i < -32768 →
      f_encode [.integer i] = .ok (0xd2 :: big_endian (i + 2 ^ 32).toNat 4)) ∧
    (i < -2147483648 → f_encode [.integer i] = .ok (0xd3 :: big_endian (i + 2 ^ 64).toNat 8)) ∧
    f_encode [.integer 0] = .ok [0x00] ∧ f_encode [.integer 127] = .ok [0x7f] ∧
    f_encode [.integer (-1)] = .ok [0xff] ∧ f_encode [.integer 128] = .ok [0xcc, 0x80] ∧
    f_encode [.integer (-33)] = .ok [0xd0, 0xdf] := by
  have h : f_encode [.integer i] = .ok (integer_bytes i) := by
    rw [f_encode_eq]; simp [encoding_list, encoding]
  rw [h, integer_bytes_eq]
  have e64 : 0 ≤ i → C.to_uint64 i = i.toNat := by intro _; unfold C.to_uint64; omega
  have n64 : i < 0 → C.to_uint64 i = (i + 2 ^ 64).toNat := by intro _; unfold C.to_uint64; omega
  have n32 : -2147483648 ≤ i → i < 0 → C.to_uint32 i = (i + 2 ^ 32).toNat := by
    intro _ _; unfold C.to_uint32; omega
  have n16 : -32768 ≤ i → i < 0 → C.to_uint16 i = (i + 2 ^ 16).toNat := by
    intro _ _; unfold C.to_uint16; omega
  have n8 : -128 ≤ i → i < 0 → (C.to_uint8 i).toNat = (i + 2 ^ 8).toNat := by
    intro _ _; unfold C.to_uint8; rw [uint8_toNat_ofNat]; omega
  refine ⟨?_, ?_, ?_, ?_, ?_, ?_, ?_, ?_, ?_, rfl, rfl, rfl, rfl, rfl⟩
  · rintro ⟨h1, h2⟩
    by_cases h0 : i ≥ 0
    · simp [h0, h2, C.to_uint8]
    · simp [h0, h1, C.to_uint8]
  · rintro ⟨h1, h2⟩
    rw [if_pos (by omega), if_neg (by omega), if_pos (by omega), e64 (by omega)]
  · rintro ⟨h1, h2⟩
    rw [if_pos (by omega), if_neg (by omega), if_neg (by omega), if_pos (by omega), e64 (by omega)]
  · rintro ⟨h1, h2⟩
    rw [if_pos (by omega), if_neg (by omega), if_neg (by omega), if_neg (by omega),
      if_pos (by omega), e64 (by omega)]
  · rintro h1
    rw [if_pos (by omega), if_neg (by omega), if_neg (by omega), if_neg (by omega),
      if_neg (by omega), e64 (by omega)]
  · rintro ⟨h1, h2⟩
    rw [if_neg (by omega), if_neg (by omega), if_pos (by omega), n8 (by omega) (by omega)]
  · rintro ⟨h1, h2⟩
    rw [if_neg (by omega), if_neg (by omega), if_neg (by omega), if_pos (by omega),
      n16 (by omega) (by omega)]
  · rintro ⟨h1, h2⟩
    rw [if_neg (by omega), if_neg (by omega), if_neg (by omega), if_neg (by omega),
      if_pos (by omega), n32 (by omega) (by omega)]
  · rintro h1
    rw [if_neg (by omega), if_neg (by omega), if_neg (by omega), if_neg (by omega),
      if_neg (by omega), n64 (by omega)]

/-- The integer 128 is written as `cc 80`. -/
theorem integer_encoding_minimal_witness :
    f_encode [.integer 128] = .ok (0xcc :: big_endian (128 : Int).toNat 1) :=
  (integer_encoding_minimal 128 (by decide) (by decide)).2.1 ⟨by decide, by decide⟩

theorem advance_zero (msg : msg_t) : msg.advance 0 = msg := rfl

theorem advance_advance (msg : msg_t) (a b : Nat) :
    (msg.advance a).advance b = msg.advance (a + b) := by
  simp [msg_t.advance, Nat.add_assoc]

theorem remaining_advance (msg : msg_t) (n : Nat) :
    (msg.advance n).remaining = msg.remaining.drop n := by
  simp [msg_t.advance, msg_t.remaining, List.drop_drop, Nat.add_comm]

theorem advance_input (msg : msg_t) (n : Nat) : (msg.advance n).input = msg.input := rfl

theorem read_cons {msg : msg_t} {b : UInt8} {rest : List UInt8}
    (h : msg.remaining = b :: rest) : msg_read msg = .ok (b, msg.advance 1) := by
  unfold msg_t.remaining at h
  have hlt : msg.position < msg.input.length := by
    by_contra hc
    rw [List.drop_eq_nil_of_le (by omega)] at h
    cases h
  have hb : msg.input.getD msg.position 0 = b := by
    rw [List.getD_eq_getElem?_getD, List.getElem?_eq_getElem hlt]
    have h2 := List.drop_eq_getElem_cons hlt
    rw [h] at h2
    injection h2 with h3 _
    simpa using h3.symm
  unfold msg_read
  rw [if_neg (by omega), hb]
  rfl

theorem read_nil {msg : msg_t} (h : msg.remaining = []) : msg_read msg = .error .more_bytes := by
  unfold msg_t.remaining at h
  unfold msg_read
  rw [if_pos]
  simpa using h

theorem remaining_cons_advance {msg : msg_t} {b : UInt8} {rest : List UInt8}
    (h : msg.remaining = b :: rest) : (msg.advance 1).remaining = rest := by
  rw [remaining_advance, h]; rfl

theorem read_bin_append (bytes : List UInt8) : ∀ (msg : msg_t) (post : List UInt8),
    msg.remaining = bytes ++ post →
    msg_read_bin msg bytes.length = .ok (bytes, msg.advance bytes.length) := by
  induction bytes with
  | nil => intro msg post _; rfl
  | cons b bytes ih =>
    intro msg post h
    simp only [List.length_cons, msg_read_bin]
    rw [read_cons (by simpa using h)]
    simp only []
    rw [ih (msg.advance 1) post (by rw [remaining_advance, h]; rfl)]
    simp [advance_advance, Nat.add_comm]

theorem read_bin_short (n : Nat) : ∀ (msg : msg_t), msg.remaining.length < n →
    msg_read_bin msg n = .error .more_bytes := by
  induction n with
  | zero => intro msg h; omega
  | succ n ih =>
    intro msg h
    simp only [msg_read_bin]
    cases hr : msg.remaining with
    | nil => rw [read_nil hr]
    | cons b rest =>
      rw [read_cons hr]
      simp only []
      rw [ih (msg.advance 1) (by rw [remaining_cons_advance hr]; rw [hr] at h; simpa using h)]

theorem unsigned_value_lt (bytes : List UInt8) : unsigned_value bytes < 256 ^ bytes.length := by
  unfold unsigned_value
  suffices h : ∀ (a : Nat) (k : Nat), a < 256 ^ k →
      bytes.foldl (fun a b => a * 256 + b.toNat) a < 256 ^ (k + bytes.length) from by
    simpa using h 0 0 (by simp)
  induction bytes with
  | nil => intro a k h; simpa using h
  | cons b bytes ih =>
    intro a k h
    simp only [List.foldl_cons, List.length_cons]
    have := ih (a * 256 + b.toNat) (k + 1) (by
      have := uint8_toNat_lt b
      rw [Nat.pow_succ]
      nlinarith)
    rw [show k + (bytes.length + 1) = k + 1 + bytes.length by omega]
    exact this

theorem read_int_loop_append (bytes : List UInt8) : ∀ (msg : msg_t) (post : List UInt8) (v k : Nat),
    msg.remaining = bytes ++ post → v < 256 ^ k → k + bytes.length ≤ 8 →
    msg_read_int_loop msg v bytes.length =
      .ok (bytes.foldl (fun a b => a * 256 + b.toNat) v, msg.advance bytes.length) := by
  induction bytes with
  | nil => intro msg post v k _ _ _; rfl
  | cons b bytes ih =>
    intro msg post v k h hv hk
    simp only [List.length_cons, msg_read_int_loop, List.foldl_cons]
    rw [read_cons (by simpa using h)]
    simp only []
    have hb := uint8_toNat_lt b
    have e1 : (v <<< 8) ||| b.toNat = v * 256 + b.toNat := by
      rw [Nat.shiftLeft_eq, Nat.mul_comm, ← Nat.mul_add_lt_is_or (by simpa using hb)]
    have hlt : v * 256 + b.toNat < 256 ^ (k + 1) := by
      rw [Nat.pow_succ]; nlinarith
    have e2 : (v * 256 + b.toNat) % 2 ^ 64 = v * 256 + b.toNat := by
      apply Nat.mod_eq_of_lt
      calc v * 256 + b.toNat < 256 ^ (k + 1) := hlt
        _ ≤ 256 ^ 8 := Nat.pow_le_pow_right (by norm_num) (by simp at hk; omega)
        _ = 2 ^ 64 := by norm_num
    rw [e1, e2, ih (msg.advance 1) post _ (k + 1) (by rw [remaining_advance, h]; rfl) hlt
      (by simp at hk; omega)]
    simp [advance_advance, Nat.add_comm]

theorem read_int_append {msg : msg_t} (bytes post : List UInt8)
    (h : msg.remaining = bytes ++ post) (hl : bytes.length ≤ 8) :
    msg_read_int msg bytes.length = .ok (unsigned_value bytes, msg.advance bytes.length) :=
  read_int_loop_append bytes msg post 0 0 h (by simp) (by omega)

theorem read_int_loop_short (n : Nat) : ∀ (msg : msg_t) (v : Nat), msg.remaining.length < n →
    msg_read_int_loop msg v n = .error .more_bytes := by
  induction n with
  | zero => intro msg v h; omega
  | succ n ih =>
    intro msg v h
    simp only [msg_read_int_loop]
    cases hr : msg.remaining with
    | nil => rw [read_nil hr]
    | cons b rest =>
      rw [read_cons hr]
      simp only []
      rw [ih (msg.advance 1) _ (by rw [remaining_cons_advance hr]; rw [hr] at h; simpa using h)]

theorem decode_int_append {msg : msg_t} (bytes post : List UInt8) (conv : Int → Int)
    (h : msg.remaining = bytes ++ post) (hl : bytes.length ≤ 8) :
    msg_decode_int msg bytes.length conv =
      .ok (.integer (conv (unsigned_value bytes)), msg.advance bytes.length) := by
  unfold msg_decode_int
  rw [read_int_append bytes post h hl]

theorem to_int64_eq (n : Nat) (h : n < 2 ^ 64) : C.to_int64 n = twos_complement 8 n := by
  unfold C.to_int64 twos_complement
  norm_num
  split <;> omega

theorem to_int64_small (n : Nat) (h : n < 2 ^ 63) : C.to_int64 n = n := by
  unfold C.to_int64; omega

theorem to_int32_eq (n : Nat) (h : n < 2 ^ 32) : C.to_int32 n = twos_complement 4 n := by
  unfold C.to_int32 twos_complement
  norm_num
  split <;> omega

theorem to_int16_eq (n : Nat) (h : n < 2 ^ 16) : C.to_int16 n = twos_complement 2 n := by
  unfold C.to_int16 twos_complement
  norm_num
  split <;> omega

theorem to_int8_eq (n : Nat) (h : n < 2 ^ 8) : C.to_int8 n = twos_complement 1 n := by
  unfold C.to_int8 twos_complement
  norm_num
  split <;> omega

theorem switch_fixint (decode : msg_t → Except MsgError (LuaValue × msg_t)) (b : UInt8)
    (msg : msg_t) (h : b.toNat ≤ 0x7f) :
    msg_decode_switch decode b msg = .ok (.integer b.toNat, msg) := by
  have hc : ∀ k, 128 ≤ k → ¬ (b.toNat = k) := by intro k hk; omega
  have h1 : b.toNat ≤ 127 := h
  simp [msg_decode_switch, hc, h1]

theorem switch_fixmap (decode : msg_t → Except MsgError (LuaValue × msg_t)) (b : UInt8)
    (msg : msg_t) (h1 : 0x80 ≤ b.toNat) (h2 : b.toNat ≤ 0x8f) :
    msg_decode_switch decode b msg = decode_map decode msg ((b.toNat : Int) - 0x80) := by
  have hc : ∀ k, 144 ≤ k → ¬ (b.toNat = k) := by intro k hk; omega
  have h3 : ¬ b.toNat ≤ 127 := by omega
  have h4 : b.toNat ≤ 143 := h2
  simp [msg_decode_switch, hc, h3, h4]

theorem switch_fixarray (decode : msg_t → Except MsgError (LuaValue × msg_t)) (b : UInt8)
    (msg : msg_t) (h1 : 0x90 ≤ b.toNat) (h2 : b.toNat ≤ 0x9f) :
    msg_decode_switch decode b msg = decode_array decode msg ((b.toNat : Int) - 0x90) := by
  have hc : ∀ k, 160 ≤ k → ¬ (b.toNat = k) := by intro k hk; omega
  have h3 : ¬ b.toNat ≤ 127 := by omega
  have h4 : ¬ b.toNat ≤ 143 := by omega
  have h5 : b.toNat ≤ 159 := h2
  simp [msg_decode_switch, hc, h3, h4, h5]

theorem switch_fixstr (decode : msg_t → Except MsgError (LuaValue × msg_t)) (b : UInt8)
    (msg : msg_t) (h1 : 0xa0 ≤ b.toNat) (h2 : b.toNat ≤ 0xbf) :
    msg_decode_switch decode b msg = msg_read_str msg (b.toNat - 0xa0) := by
  have hc : ∀ k, 192 ≤ k → ¬ (b.toNat = k) := by intro k hk; omega
  have h3 : ¬ b.toNat ≤ 127 := by omega
  have h4 : ¬ b.toNat ≤ 143 := by omega
  have h5 : ¬ b.toNat ≤ 159 := by omega
  have h6 : b.toNat ≤ 191 := h2
  simp [msg_decode_switch, hc, h3, h4, h5, h6]

theorem switch_negint (decode : msg_t → Except MsgError (LuaValue × msg_t)) (b : UInt8)
    (msg : msg_t) (h : 0xe0 ≤ b.toNat) :
    msg_decode_switch decode b msg = .ok (.integer ((b.toNat : Int) - 256), msg) := by
  have hc : ∀ k, k ≤ 223 → ¬ (b.toNat = k) := by intro k hk; omega
  have h256 := uint8_toNat_lt b
  have h2 : C.to_int8 (b.toNat : Int) = (b.toNat : Int) - 256 := by unfold C.to_int8; omega
  have h3 : ¬ b.toNat ≤ 127 := by omega
  have h4 : ¬ b.toNat ≤ 143 := by omega
  have h5 : ¬ b.toNat ≤ 159 := by omega
  have h6 : ¬ b.toNat ≤ 191 := by omega
  have h7 : 224 ≤ b.toNat := h
  simp [msg_decode_switch, hc, h2, h3, h4, h5, h6, h7]

/-- The decoding of the integer tags. -/
theorem decode_integer_tags (fuel : Nat) (msg : msg_t) (t : UInt8) (bytes post : List UInt8)
    (h : msg.remaining = t :: (bytes ++ post)) :
    (t = 0xcc → bytes.length = 1 →
      msg_decode (fuel + 1) msg = .ok (.integer (unsigned_value bytes), msg.advance 2)) ∧
    (t = 0xcd → bytes.length = 2 →
      msg_decode (fuel + 1) msg = .ok (.integer (unsigned_value bytes), msg.advance 3)) ∧
    (t = 0xce → bytes.length = 4 →
      msg_decode (fuel + 1) msg = .ok (.integer (unsigned_value bytes), msg.advance 5)) ∧
    (t = 0xcf → bytes.length = 8 →
      msg_decode (fuel + 1) msg =
        .ok (.integer (twos_complement 8 (unsigned_value bytes)), msg.advance 9)) ∧
    (t = 0xd0 → bytes.length = 1 →
      msg_decode (fuel + 1) msg =
        .ok (.integer (twos_complement 1 (unsigned_value bytes)), msg.advance 2)) ∧
    (t = 0xd1 → bytes.length = 2 →
      msg_decode (fuel + 1) msg =
        .ok (.integer (twos_complement 2 (unsigned_value bytes)), msg.advance 3)) ∧
    (t = 0xd2 → bytes.length = 4 →
      msg_decode (fuel + 1) msg =
        .ok (.integer (twos_complement 4 (unsigned_value bytes)), msg.advance 5)) ∧
    (t = 0xd3 → bytes.length = 8 →
      msg_decode (fuel + 1) msg =
        .ok (.integer (twos_complement 8 (unsigned_value bytes)), msg.advance 9)) ∧
    (t.toNat ≤ 0x7f → msg_decode (fuel + 1) msg = .ok (.integer t.toNat, msg.advance 1)) ∧
    (0xe0 ≤ t.toNat →
      msg_decode (fuel + 1) msg = .ok (.integer ((t.toNat : Int) - 256), msg.advance 1)) := by
  have hr : (msg.advance 1).remaining = bytes ++ post := remaining_cons_advance h
  have hv := unsigned_value_lt bytes
  have key : ∀ (w : Nat) (conv : Int → Int), bytes.length = w → w ≤ 8 →
      msg_decode_int (msg.advance 1) w conv =
        .ok (.integer (conv (unsigned_value bytes)), msg.advance (1 + w)) := by
    intro w conv hw hw8
    subst hw
    rw [decode_int_append bytes post conv hr hw8, advance_advance]
  unfold msg_decode
  rw [read_cons h]
  simp only []
  refine ⟨?_, ?_, ?_, ?_, ?_, ?_, ?_, ?_, ?_, ?_⟩
  · intro ht hl; subst ht
    rw [hl] at hv
    rw [show msg_decode_switch (msg_decode fuel) 0xcc (msg.advance 1) =
      msg_decode_int (msg.advance 1) 1 C.to_int64 from rfl, key 1 _ hl (by omega),
      to_int64_small _ (by omega)]
  · intro ht hl; subst ht
    rw [hl] at hv
    rw [show msg_decode_switch (msg_decode fuel) 0xcd (msg.advance 1) =
      msg_decode_int (msg.advance 1) 2 C.to_int64 from rfl, key 2 _ hl (by omega),
      to_int64_small _ (by omega)]
  · intro ht hl; subst ht
    rw [hl] at hv
    rw [show msg_decode_switch (msg_decode fuel) 0xce (msg.advance 1) =
      msg_decode_int (msg.advance 1) 4 C.to_int64 from rfl, key 4 _ hl (by omega),
      to_int64_small _ (by omega)]
  · intro ht hl; subst ht
    rw [hl] at hv
    rw [show msg_decode_switch (msg_decode fuel) 0xcf (msg.advance 1) =
      msg_decode_int (msg.advance 1) 8 C.to_int64 from rfl, key 8 _ hl (by omega),
      to_int64_eq _ (by omega)]
  · intro ht hl; subst ht
    rw [hl] at hv
    rw [show msg_decode_switch (msg_decode fuel) 0xd0 (msg.advance 1) =
      msg_decode_int (msg.advance 1) 1 C.to_int8 from rfl, key 1 _ hl (by omega),
      to_int8_eq _ (by omega)]
  · intro ht hl; subst ht
    rw [hl] at hv
    rw [show msg_decode_switch (msg_decode fuel) 0xd1 (msg.advance 1) =
      msg_decode_int (msg.advance 1) 2 C.to_int16 from rfl, key 2 _ hl (by omega),
      to_int16_eq _ (by omega)]
  · intro ht hl; subst ht
    rw [hl] at hv
    rw [show msg_decode_switch (msg_decode fuel) 0xd2 (msg.advance 1) =
      msg_decode_int (msg.advance 1) 4 C.to_int32 from rfl, key 4 _ hl (by omega),
      to_int32_eq _ (by omega)]
  · intro ht hl; subst ht
    rw [hl] at hv
    rw [show msg_decode_switch (msg_decode fuel) 0xd3 (msg.advance 1) =
      msg_decode_int (msg.advance 1) 8 C.to_int64 from rfl, key 8 _ hl (by omega),
      to_int64_eq _ (by omega)]
  · intro ht
    rw [switch_fixint _ _ _ ht]
  · intro ht
    rw [switch_negint _ _ _ ht]
theorem reads_refl (msg : msg_t) : Reads msg msg 0 := ⟨rfl, Or.inl rfl⟩

/-- Claim C3, amended.  At a value position, the tag `cc`, `cd` or `ce` followed
by 1, 2 or 4 bytes decodes to the unsigned big-endian number of these bytes;
the tag `cf` followed by 8 bytes decodes to that number read as a 64-bit
two's-complement integer, so a number from `2^63` on comes out negative; the
tags `d0`, `d1`, `d2`, `d3` followed by 1, 2, 4 or 8 bytes decode to the
two's-complement reading of these bytes; a tag `00 .. 7f` decodes to itself and
a tag `e0 .. ff` to itself minus 256. -/
theorem integer_tags_decode (fuel : Nat) (msg : msg_t) (t : UInt8) (bytes post : List UInt8)
    (h : msg.remaining = t :: (bytes ++ post)) :
    (t = 0xcc → bytes.length = 1 →
      msg_decode (fuel + 1) msg = .ok (.integer (unsigned_value bytes), msg.advance 2)) ∧
    (t = 0xcd → bytes.length = 2 →
      msg_decode (fuel + 1) msg = .ok (.integer (unsigned_value bytes), msg.advance 3)) ∧
    (t = 0xce → bytes.length = 4 →
      msg_decode (fuel + 1) msg = .ok (.integer (unsigned_value bytes), msg.advance 5)) ∧
    (t = 0xcf → bytes.length = 8 →
      msg_decode (fuel + 1) msg =
        .ok (.integer (twos_complement 8 (unsigned_value bytes)), msg.advance 9)) ∧
    (t = 0xd0 → bytes.length = 1 →
      msg_decode (fuel + 1) msg =
        .ok (.integer (twos_complement 1 (unsigned_value bytes)), msg.advance 2)) ∧
    (t = 0xd1 → bytes.length = 2 →
      msg_decode (fuel + 1) msg =
        .ok (.integer (twos_complement 2 (unsigned_value bytes)), msg.advance 3)) ∧
    (t = 0xd2 → bytes.length = 4 →
      msg_decode (fuel + 1) msg =
        .ok (.integer (twos_complement 4 (unsigned_value bytes)), msg.advance 5)) ∧
    (t = 0xd3 → bytes.length = 8 →
      msg_decode (fuel + 1) msg =
        .ok (.integer (twos_complement 8 (unsigned_value bytes)), msg.advance 9)) ∧
    (t.toNat ≤ 0x7f → msg_decode (fuel + 1) msg = .ok (.integer t.toNat, msg.advance 1)) ∧
    (0xe0 ≤ t.toNat →
      msg_decode (fuel + 1) msg = .ok (.integer ((t.toNat : Int) - 256), msg.advance 1)) :=
  decode_integer_tags fuel msg t bytes post h

theorem reads_trans {a b c : msg_t} {n m : Nat} (h1 : Reads a b n) (h2 : Reads b c m) :
    Reads a c (n + m) := by
  obtain ⟨e1, b1⟩ := h1
  obtain ⟨e2, b2⟩ := h2
  subst e1
  refine ⟨by rw [e2, advance_advance], ?_⟩
  simp only [msg_t.advance] at b2
  omega

theorem read_ok {msg msg' : msg_t} {b : UInt8} (h : msg_read msg = .ok (b, msg')) :
    Reads msg msg' 1 := by
  unfold msg_read at h
  split at h
  · cases h
  · injection h with h
    injection h with _ h2
    exact ⟨h2.symm, Or.inr (by omega)⟩

theorem read_bin_ok (n : Nat) : ∀ {msg msg' : msg_t} {bs : List UInt8},
    msg_read_bin msg n = .ok (bs, msg') → Reads msg msg' n ∧ bs.length = n := by
  induction n with
  | zero =>
    intro msg msg' bs h
    simp only [msg_read_bin] at h
    injection h with h; injection h with h1 h2
    subst h1 h2
    exact ⟨reads_refl _, rfl⟩
  | succ n ih =>
    intro msg msg' bs h
    simp only [msg_read_bin] at h
    cases h1 : msg_read msg with
    | error e => rw [h1] at h; cases h
    | ok r =>
      obtain ⟨b, m1⟩ := r
      rw [h1] at h
      simp only [] at h
      cases h2 : msg_read_bin m1 n with
      | error e => rw [h2] at h; cases h
      | ok r2 =>
        obtain ⟨bs2, m2⟩ := r2
        rw [h2] at h
        simp only [] at h
        injection h with h; injection h with h3 h4
        subst h3 h4
        obtain ⟨r, l⟩ := ih h2
        refine ⟨?_, by simp [l]⟩
        have := reads_trans (read_ok h1) r
        rwa [Nat.add_comm] at this

theorem read_str_ok {n : Nat} {msg msg' : msg_t} {v : LuaValue}
    (h : msg_read_str msg n = .ok (v, msg')) : Reads msg msg' n := by
  unfold msg_read_str at h
  cases h1 : msg_read_bin msg n with
  | error e => rw [h1] at h; cases h
  | ok r =>
    obtain ⟨bs, m1⟩ := r
    rw [h1] at h
    injection h with h; injection h with _ h3
    subst h3
    exact (read_bin_ok n h1).1

theorem read_int_loop_ok (n : Nat) : ∀ {msg msg' : msg_t} {v v' : Nat},
    msg_read_int_loop msg v n = .ok (v', msg') → Reads msg msg' n := by
  induction n with
  | zero =>
    intro msg msg' v v' h
    simp only [msg_read_int_loop] at h
    injection h with h; injection h with h1 h2
    subst h2
    exact reads_refl _
  | succ n ih =>
    intro msg msg' v v' h
    simp only [msg_read_int_loop] at h
    cases h1 : msg_read msg with
    | error e => rw [h1] at h; cases h
    | ok r =>
      obtain ⟨b, m1⟩ := r
      rw [h1] at h
      simp only [] at h
      have := reads_trans (read_ok h1) (ih h)
      rwa [Nat.add_comm] at this

theorem read_int_ok {n : Nat} {msg msg' : msg_t} {v : Nat}
    (h : msg_read_int msg n = .ok (v, msg')) : Reads msg msg' n :=
  read_int_loop_ok n h

theorem decode_str_ok {w : Nat} {msg msg' : msg_t} {v : LuaValue}
    (h : msg_decode_str msg w = .ok (v, msg')) : ∃ n, Reads msg msg' (w + n) := by
  unfold msg_decode_str at h
  cases h1 : msg_read_int msg w with
  | error e => rw [h1] at h; cases h
  | ok r =>
    obtain ⟨len, m1⟩ := r
    rw [h1] at h
    exact ⟨len, reads_trans (read_int_ok h1) (read_str_ok h)⟩

theorem decode_int_ok {w : Nat} {conv : Int → Int} {msg msg' : msg_t} {v : LuaValue}
    (h : msg_decode_int msg w conv = .ok (v, msg')) : Reads msg msg' w := by
  unfold msg_decode_int at h
  cases h1 : msg_read_int msg w with
  | error e => rw [h1] at h; cases h
  | ok r =>
    obtain ⟨len, m1⟩ := r
    rw [h1] at h
    injection h with h; injection h with _ h3
    subst h3
    exact read_int_ok h1

theorem decode_float_ok {w : Nat} {msg msg' : msg_t} {v : LuaValue}
    (h : msg_decode_float msg w = .ok (v, msg')) : Reads msg msg' w := by
  unfold msg_decode_float at h
  cases h1 : msg_read_bin msg w with
  | error e => rw [h1] at h; cases h
  | ok r =>
    obtain ⟨bs, m1⟩ := r
    rw [h1] at h
    injection h with h; injection h with _ h3
    subst h3
    exact (read_bin_ok w h1).1

theorem decode_array_loop_ok {decode : msg_t → Except MsgError (LuaValue × msg_t)}
    (hd : Progress decode) (r : Nat) : ∀ {i : Int} {t : List (LuaValue × LuaValue)}
    {msg msg' : msg_t} {v : LuaValue},
    decode_array_loop decode r i t msg = .ok (v, msg') → ∃ n, r ≤ n ∧ Reads msg msg' n := by
  induction r with
  | zero =>
    intro i t msg msg' v h
    simp only [decode_array_loop] at h
    injection h with h; injection h with _ h2
    subst h2
    exact ⟨0, Nat.le_refl _, reads_refl _⟩
  | succ r ih =>
    intro i t msg msg' v h
    simp only [decode_array_loop] at h
    cases h1 : decode msg with
    | error e => rw [h1] at h; cases h
    | ok p =>
      obtain ⟨v1, m1⟩ := p
      rw [h1] at h
      simp only [] at h
      obtain ⟨n1, hn1, r1⟩ := hd _ _ _ h1
      obtain ⟨n2, hn2, r2⟩ := ih h
      exact ⟨n1 + n2, by omega, reads_trans r1 r2⟩

theorem decode_map_loop_ok {decode : msg_t → Except MsgError (LuaValue × msg_t)}
    (hd : Progress decode) (r : Nat) : ∀ {t : List (LuaValue × LuaValue)}
    {msg msg' : msg_t} {v : LuaValue},
    decode_map_loop decode r t msg = .ok (v, msg') → ∃ n, 2 * r ≤ n ∧ Reads msg msg' n := by
  induction r with
  | zero =>
    intro t msg msg' v h
    simp only [decode_map_loop] at h
    injection h with h; injection h with _ h2
    subst h2
    exact ⟨0, Nat.le_refl _, reads_refl _⟩
  | succ r ih =>
    intro t msg msg' v h
    simp only [decode_map_loop] at h
    cases h1 : decode msg with
    | error e => rw [h1] at h; cases h
    | ok p =>
      obtain ⟨k1, m1⟩ := p
      rw [h1] at h
      simp only [] at h
      cases h2 : decode m1 with
      | error e => rw [h2] at h; cases h
      | ok p2 =>
        obtain ⟨v2, m2⟩ := p2
        rw [h2] at h
        simp only [] at h
        cases h3 : lua_rawset t k1 v2 with
        | error e => rw [h3] at h; cases h
        | ok t2 =>
          rw [h3] at h
          simp only [] at h
          obtain ⟨n1, hn1, r1⟩ := hd _ _ _ h1
          obtain ⟨n2, hn2, r2⟩ := hd _ _ _ h2
          obtain ⟨n3, hn3, r3⟩ := ih h
          exact ⟨n1 + n2 + n3, by omega, reads_trans (reads_trans r1 r2) r3⟩
theorem switch_cases (decode : msg_t → Except MsgError (LuaValue × msg_t)) (b : UInt8)
    (msg : msg_t) :
    (∃ v, msg_decode_switch decode b msg = .ok (v, msg)) ∨
    (∃ w, msg_decode_switch decode b msg = msg_decode_str msg w) ∨
    (∃ w, msg_decode_switch decode b msg = msg_decode_float msg w) ∨
    (∃ w conv, msg_decode_switch decode b msg = msg_decode_int msg w conv) ∨
    (∃ n, msg_decode_switch decode b msg = msg_read_str msg n) ∨
    (∃ items, msg_decode_switch decode b msg = decode_array decode msg items) ∨
    (∃ items, msg_decode_switch decode b msg = decode_map decode msg items) ∨
    (∃ w, (w = 2 ∨ w = 4) ∧ msg_decode_switch decode b msg = msg_decode_array decode msg w) ∨
    (∃ w, (w = 2 ∨ w = 4) ∧ msg_decode_switch decode b msg = msg_decode_map decode msg w) ∨
    msg_decode_switch decode b msg = .error (.invalid_code b) := by
  unfold msg_decode_switch
  simp only []
  by_cases h0 : b.toNat = 0xc0
  · rw [if_pos h0]; exact Or.inl ⟨_, rfl⟩
  rw [if_neg h0]
  by_cases h1 : b.toNat = 0xc2
  · rw [if_pos h1]; exact Or.inl ⟨_, rfl⟩
  rw [if_neg h1]
  by_cases h2 : b.toNat = 0xc3
  · rw [if_pos h2]; exact Or.inl ⟨_, rfl⟩
  rw [if_neg h2]
  by_cases h3 : b.toNat = 0xc4 ∨ b.toNat = 0xd9
  · rw [if_pos h3]; exact Or.inr (Or.inl ⟨_, rfl⟩)
  rw [if_neg h3]
  by_cases h4 : b.toNat = 0xc5 ∨ b.toNat = 0xda
  · rw [if_pos h4]; exact Or.inr (Or.inl ⟨_, rfl⟩)
  rw [if_neg h4]
  by_cases h5 : b.toNat = 0xc6 ∨ b.toNat = 0xdb
  · rw [if_pos h5]; exact Or.inr (Or.inl ⟨_, rfl⟩)
  rw [if_neg h5]
  by_cases h6 : b.toNat = 0xca
  · rw [if_pos h6]; exact Or.inr (Or.inr (Or.inl ⟨_, rfl⟩))
  rw [if_neg h6]
  by_cases h7 : b.toNat = 0xcb
  · rw [if_pos h7]; exact Or.inr (Or.inr (Or.inl ⟨_, rfl⟩))
  rw [if_neg h7]
  by_cases h8 : b.toNat = 0xcc
  · rw [if_pos h8]; exact Or.inr (Or.inr (Or.inr (Or.inl ⟨_, _, rfl⟩)))
  rw [if_neg h8]
  by_cases h9 : b.toNat = 0xcd
  · rw [if_pos h9]; exact Or.inr (Or.inr (Or.inr (Or.inl ⟨_, _, rfl⟩)))
  rw [if_neg h9]
  by_cases h10 : b.toNat = 0xce
  · rw [if_pos h10]; exact Or.inr (Or.inr (Or.inr (Or.inl ⟨_, _, rfl⟩)))
  rw [if_neg h10]
  by_cases h11 : b.toNat = 0xcf
  · rw [if_pos h11]; exact Or.inr (Or.inr (Or.inr (Or.inl ⟨_, _, rfl⟩)))
  rw [if_neg h11]
  by_cases h12 : b.toNat = 0xd0
  · rw [if_pos h12]; exact Or.inr (Or.inr (Or.inr (Or.inl ⟨_, _, rfl⟩)))
  rw [if_neg h12]
  by_cases h13 : b.toNat = 0xd1
  · rw [if_pos h13]; exact Or.inr (Or.inr (Or.inr (Or.inl ⟨_, _, rfl⟩)))
  rw [if_neg h13]
  by_cases h14 : b.toNat = 0xd2
  · rw [if_pos h14]; exact Or.inr (Or.inr (Or.inr (Or.inl ⟨_, _, rfl⟩)))
  rw [if_neg h14]
  by_cases h15 : b.toNat = 0xd3
  · rw [if_pos h15]; exact Or.inr (Or.inr (Or.inr (Or.inl ⟨_, _, rfl⟩)))
  rw [if_neg h15]
  by_cases h16 : b.toNat = 0xdc
  · rw [if_pos h16]; exact Or.inr (Or.inr (Or.inr (Or.inr (Or.inr (Or.inr (Or.inr (Or.inl ⟨_, Or.inl rfl, rfl⟩)))))))
  rw [if_neg h16]
  by_cases h17 : b.toNat = 0xdd
  · rw [if_pos h17]; exact Or.inr (Or.inr (Or.inr (Or.inr (Or.inr (Or.inr (Or.inr (Or.inl ⟨_, Or.inr rfl, rfl⟩)))))))
  rw [if_neg h17]
  by_cases h18 : b.toNat = 0xde
  · rw [if_pos h18]; exact Or.inr (Or.inr (Or.inr (Or.inr (Or.inr (Or.inr (Or.inr (Or.inr (Or.inl ⟨_, Or.inl rfl, rfl⟩))))))))
  rw [if_neg h18]
  by_cases h19 : b.toNat = 0xdf
  · rw [if_pos h19]; exact Or.inr (Or.inr (Or.inr (Or.inr (Or.inr (Or.inr (Or.inr (Or.inr (Or.inl ⟨_, Or.inr rfl, rfl⟩))))))))
  rw [if_neg h19]
  by_cases h20 : b.toNat ≤ 0x7f
  · rw [if_pos h20]; exact Or.inl ⟨_, rfl⟩
  rw [if_neg h20]
  by_cases h21 : b.toNat ≤ 0x8f
  · rw [if_pos h21]; exact Or.inr (Or.inr (Or.inr (Or.inr (Or.inr (Or.inr (Or.inl ⟨_, rfl⟩))))))
  rw [if_neg h21]
  by_cases h22 : b.toNat ≤ 0x9f
  · rw [if_pos h22]; exact Or.inr (Or.inr (Or.inr (Or.inr (Or.inr (Or.inl ⟨_, rfl⟩)))))
  rw [if_neg h22]
  by_cases h23 : b.toNat ≤ 0xbf
  · rw [if_pos h23]; exact Or.inr (Or.inr (Or.inr (Or.inr (Or.inl ⟨_, rfl⟩))))
  rw [if_neg h23]
  by_cases h24 : b.toNat ≥ 0xe0
  · rw [if_pos h24]; exact Or.inl ⟨_, rfl⟩
  rw [if_neg h24]
  exact Or.inr (Or.inr (Or.inr (Or.inr (Or.inr (Or.inr (Or.inr (Or.inr (Or.inr rfl))))))))
theorem ok_inj {α : Type} {a b : α} (h : (Except.ok a : Except MsgError α) = .ok b) : a = b := by
  injection h

theorem decode_array_ok {decode : msg_t → Except MsgError (LuaValue × msg_t)}
    (hd : Progress decode) {items : Int} {msg msg' : msg_t} {v : LuaValue}
    (h : decode_array decode msg items = .ok (v, msg')) :
    ∃ n, items.toNat ≤ n ∧ Reads msg msg' n :=
  decode_array_loop_ok hd _ h

theorem decode_map_ok {decode : msg_t → Except MsgError (LuaValue × msg_t)}
    (hd : Progress decode) {items : Int} {msg msg' : msg_t} {v : LuaValue}
    (h : decode_map decode msg items = .ok (v, msg')) :
    ∃ n, 2 * items.toNat ≤ n ∧ Reads msg msg' n :=
  decode_map_loop_ok hd _ h

theorem msg_decode_array_ok {decode : msg_t → Except MsgError (LuaValue × msg_t)}
    (hd : Progress decode) {w : Nat} {msg msg' : msg_t} {v : LuaValue}
    (h : msg_decode_array decode msg w = .ok (v, msg')) : ∃ n, Reads msg msg' (w + n) := by
  unfold msg_decode_array at h
  cases h1 : msg_read_int msg w with
  | error e => rw [h1] at h; cases h
  | ok r =>
    obtain ⟨len, m1⟩ := r
    rw [h1] at h
    obtain ⟨n, _, r⟩ := decode_array_ok hd h
    exact ⟨n, reads_trans (read_int_ok h1) r⟩

theorem msg_decode_map_ok {decode : msg_t → Except MsgError (LuaValue × msg_t)}
    (hd : Progress decode) {w : Nat} {msg msg' : msg_t} {v : LuaValue}
    (h : msg_decode_map decode msg w = .ok (v, msg')) : ∃ n, Reads msg msg' (w + n) := by
  unfold msg_decode_map at h
  cases h1 : msg_read_int msg w with
  | error e => rw [h1] at h; cases h
  | ok r =>
    obtain ⟨len, m1⟩ := r
    rw [h1] at h
    obtain ⟨n, _, r⟩ := decode_map_ok hd h
    exact ⟨n, reads_trans (read_int_ok h1) r⟩

theorem switch_ok {decode : msg_t → Except MsgError (LuaValue × msg_t)}
    (hd : Progress decode) {b : UInt8} {msg msg' : msg_t} {v : LuaValue}
    (h : msg_decode_switch decode b msg = .ok (v, msg')) : ∃ n, Reads msg msg' n := by
  rcases switch_cases decode b msg with ⟨v0, e⟩ | ⟨w, e⟩ | ⟨w, e⟩ | ⟨w, conv, e⟩ | ⟨n, e⟩ |
    ⟨items, e⟩ | ⟨items, e⟩ | ⟨w, _, e⟩ | ⟨w, _, e⟩ | e <;> rw [e] at h
  · exact ⟨0, by rw [← (Prod.mk.inj (ok_inj h)).2]; exact reads_refl _⟩
  · exact ⟨_, (decode_str_ok h).choose_spec⟩
  · exact ⟨_, decode_float_ok h⟩
  · exact ⟨_, decode_int_ok h⟩
  · exact ⟨_, read_str_ok h⟩
  · obtain ⟨n, _, r⟩ := decode_array_ok hd h; exact ⟨_, r⟩
  · obtain ⟨n, _, r⟩ := decode_map_ok hd h; exact ⟨_, r⟩
  · exact ⟨_, (msg_decode_array_ok hd h).choose_spec⟩
  · exact ⟨_, (msg_decode_map_ok hd h).choose_spec⟩
  · cases h

theorem decode_progress (fuel : Nat) : Progress (msg_decode fuel) := by
  induction fuel with
  | zero => intro msg v msg' h; cases h
  | succ fuel ih =>
    intro msg v msg' h
    simp only [msg_decode] at h
    cases h1 : msg_read msg with
    | error e => rw [h1] at h; cases h
    | ok p =>
      obtain ⟨b, m1⟩ := p
      rw [h1] at h
      simp only [] at h
      obtain ⟨n, r⟩ := switch_ok ih h
      exact ⟨1 + n, by omega, reads_trans (read_ok h1) r⟩
theorem loop_acc (fuel n : Nat) : ∀ (msg : msg_t) (acc : List LuaValue),
    f_decode_loop fuel n msg acc =
      match f_decode_loop fuel n msg [] with
      | .error e => .error e
      | .ok (vs, m) => .ok (acc ++ vs, m) := by
  induction n with
  | zero => intro msg acc; simp [f_decode_loop]
  | succ n ih =>
    intro msg acc
    simp only [f_decode_loop]
    split
    · cases h1 : msg_decode fuel msg with
      | error e => rfl
      | ok p =>
        obtain ⟨v, m1⟩ := p
        simp only []
        rw [ih m1 (acc ++ [v]), ih m1 ([] ++ [v])]
        cases f_decode_loop fuel n m1 [] with
        | error e => rfl
        | ok q => simp
    · simp

theorem loop_add (fuel a c : Nat) : ∀ (msg : msg_t) (acc : List LuaValue),
    f_decode_loop fuel (a + c) msg acc =
      match f_decode_loop fuel a msg acc with
      | .error e => .error e
      | .ok (vs, m) => f_decode_loop fuel c m vs := by
  induction a with
  | zero => intro msg acc; simp [f_decode_loop]
  | succ a ih =>
    intro msg acc
    rw [show a + 1 + c = (a + c) + 1 by omega]
    simp only [f_decode_loop]
    split
    · cases h1 : msg_decode fuel msg with
      | error e => rfl
      | ok p =>
        obtain ⟨v, m1⟩ := p
        simp only []
        rw [ih]
    · rename_i hpos
      cases c with
      | zero => rfl
      | succ c => simp [f_decode_loop, hpos]

theorem loop_reads (fuel n : Nat) : ∀ {msg m' : msg_t} {acc vs : List LuaValue},
    f_decode_loop fuel n msg acc = .ok (vs, m') → ∃ k, Reads msg m' k := by
  induction n with
  | zero =>
    intro msg m' acc vs h
    simp only [f_decode_loop] at h
    rw [← (Prod.mk.inj (ok_inj h)).2]
    exact ⟨0, reads_refl _⟩
  | succ n ih =>
    intro msg m' acc vs h
    simp only [f_decode_loop] at h
    split at h
    · cases h1 : msg_decode fuel msg with
      | error e => rw [h1] at h; cases h
      | ok p =>
        obtain ⟨v, m1⟩ := p
        rw [h1] at h
        simp only [] at h
        obtain ⟨k1, _, r1⟩ := decode_progress fuel _ _ _ h1
        obtain ⟨k2, r2⟩ := ih h
        exact ⟨_, reads_trans r1 r2⟩
    · rw [← (Prod.mk.inj (ok_inj h)).2]
      exact ⟨0, reads_refl _⟩

/-- Claim C9, amended.  For an input of fewer than `2^64` bytes and counts
`k, m >= 0` with `k + m < 2^31` (the count is converted to a C `int`): when
`msgpack.decode(b, s, k)` returns the values `V1` and a next offset
`o <= length(b)`, then `msgpack.decode(b, s, k + m)` is what continuing from `o`
gives: `V1` followed by the values of `msgpack.decode(b, o, m)` and its next
offset, or its failure. -/
theorem resumable_decoding (b : List UInt8) (s k m : Int) (V1 : List LuaValue) (o : Int)
    (hb : b.length < 2 ^ 64) (hk : 0 ≤ k) (hm : 0 ≤ m) (hkm : k + m < 2 ^ 31)
    (h1 : f_decode b s k = .ok (V1, o)) (ho : o ≤ b.length) :
    f_decode b s (k + m) =
      match f_decode b o m with
      | .ok (V2, o2) => .ok (V1 ++ V2, o2)
      | .error e => .error e := by
  unfold f_decode at h1 ⊢
  simp only [] at h1 ⊢
  split at h1
  · cases h1
  rename_i hs
  rw [if_neg hs]
  have ek : (C.to_int32 k).toNat = k.toNat := by unfold C.to_int32; omega
  have em : (C.to_int32 m).toNat = m.toNat := by unfold C.to_int32; omega
  have ekm : (C.to_int32 (k + m)).toNat = k.toNat + m.toNat := by unfold C.to_int32; omega
  rw [ek] at h1
  rw [ekm, em, loop_add]
  cases hl : f_decode_loop (b.length + 1) k.toNat
      { position := C.to_uint64 s - 1, input := b, buffer := [], table := [] } [] with
  | error e => rw [hl] at h1; cases h1
  | ok p =>
    obtain ⟨vs, m1⟩ := p
    rw [hl] at h1
    simp only [] at h1 ⊢
    obtain ⟨hv, hpos⟩ := Prod.mk.inj (ok_inj h1)
    have hpos : (m1.position : Int) + 1 = o := hpos
    have hv : vs = V1 := hv
    subst hv
    obtain ⟨n, e1, _⟩ := loop_reads _ _ hl
    have hm1 : m1 = { position := m1.position, input := b, buffer := [], table := [] } := by
      rw [e1]; rfl
    have eo : C.to_uint64 o = m1.position + 1 := by unfold C.to_uint64; omega
    rw [eo, if_neg (by omega)]
    simp only [Nat.add_sub_cancel]
    rw [← hm1, loop_acc _ _ m1 vs]
    cases f_decode_loop (b.length + 1) m.toNat m1 [] with
    | error e => rfl
    | ok q => rfl

/-- Decoding two items of `01 02 03` is decoding one item and then one more. -/
theorem resumable_decoding_witness :
    f_decode [1, 2, 3] 1 (1 + 1) =
      match f_decode [1, 2, 3] 2 1 with
      | .ok (V2, o2) => .ok ([.integer 1] ++ V2, o2)
      | .error e => .error e :=
  resumable_decoding [1, 2, 3] 1 1 1 [.integer 1] 2 (by decide) (by decide) (by decide)
    (by decide) rfl (by decide)

/-- With `k = 1` and `m = 2^31 - 1` the count `k + m` is `-2^31` as an `int`, and nothing is decoded. -/
theorem resumable_decoding_counterexample :
    f_decode [1, 2] 1 1 = .ok ([.integer 1], 2) ∧
    f_decode [1, 2] 2 2147483647 = .ok ([.integer 2], 3) ∧
    f_decode [1, 2] 1 (1 + 2147483647) = .ok ([], 1) ∧
    f_decode [1, 2] 1 (1 + 2147483647) ≠ .ok ([.integer 1] ++ [.integer 2], 3) := by
  refine ⟨rfl, rfl, rfl, ?_⟩
  rw [show f_decode [1, 2] 1 (1 + 2147483647) = .ok ([], 1) from rfl]
  simp
/-- Claim C10, amended.  The arguments `1, "a", true` encode to `01 a1 61 c3`;
decoding these bytes from position 1 with at most 2 items returns exactly `1`
and `"a"` and the next offset 4, which is the position of the byte `c3` that
encodes `true` (not of the byte before it): decoding from position 4 returns
`true`. -/
theorem bounded_decode_next_offset :
    f_encode [.integer 1, .string [0x61], .boolean true] = .ok [0x01, 0xa1, 0x61, 0xc3] ∧
    f_decode [0x01, 0xa1, 0x61, 0xc3] 1 2 = .ok ([.integer 1, .string [0x61]], 4) ∧
    [0x01, 0xa1, 0x61, 0xc3].drop (4 - 1) = [(0xc3 : UInt8)] ∧
    f_decode [0x01, 0xa1, 0x61, 0xc3] 4 65536 = .ok ([.boolean true], 5) :=
  ⟨rfl, rfl, rfl, rfl⟩

/-- The next offset is not 3, the position of the byte before the encoding of `true`. -/
theorem bounded_decode_counterexample :
    f_encode [.boolean true] = .ok [0xc3] ∧
    [0x01, 0xa1, 0x61, 0xc3].drop (3 - 1) = [(0x61 : UInt8), 0xc3] ∧
    f_decode [0x01, 0xa1, 0x61, 0xc3] 1 2 ≠ .ok ([.integer 1, .string [0x61]], 3) := by
  refine ⟨rfl, rfl, ?_⟩
  rw [show f_decode [0x01, 0xa1, 0x61, 0xc3] 1 2 = .ok ([.integer 1, .string [0x61]], 4) from rfl]
  simp
theorem encoding_of_f_encode {v : LuaValue} {b : List UInt8} (h : f_encode [v] = .ok b) :
    encoding v = .ok b := by
  rw [f_encode_eq] at h
  simp only [encoding_list] at h
  cases h1 : encoding v with
  | error e => rw [h1] at h; cases h
  | ok b1 =>
    rw [h1] at h
    simp only [List.append_nil] at h
    exact h

theorem f_encode_single (v : LuaValue) : f_encode [v] = encoding v := by
  rw [f_encode_eq]
  simp only [encoding_list]
  cases encoding v with
  | error e => rfl
  | ok b => simp

/-- Claim C8.  When every one of the arguments `v1 .. vn` (with `n >= 0`) encodes
on its own, to `b1 .. bn`, then `msgpack.encode(v1, .., vn)` returns the
concatenation of `b1 .. bn`, and nothing else. -/
theorem encode_is_concatenation (vs : List LuaValue) (bs : List (List UInt8))
    (h : List.Forall₂ (fun v b => f_encode [v] = .ok b) vs bs) :
    f_encode vs = .ok bs.flatten := by
  rw [f_encode_eq]
  induction h with
  | nil => rfl
  | cons h1 _ ih =>
    simp only [encoding_list, encoding_of_f_encode h1, ih, List.flatten_cons]

/-- The encoding of `1, "a", true` is the concatenation of the three encodings. -/
theorem encode_is_concatenation_witness :
    f_encode [.integer 1, .string [0x61], .boolean true] =
      .ok [[0x01], [0xa1, 0x61], [0xc3]].flatten :=
  encode_is_concatenation [.integer 1, .string [0x61], .boolean true]
    [[0x01], [0xa1, 0x61], [0xc3]]
    (List.Forall₂.cons rfl (List.Forall₂.cons rfl (List.Forall₂.cons rfl List.Forall₂.nil)))

theorem string_bytes_eq (s : List UInt8) : string_bytes s =
    (if valid_utf8 s then
      if s.length ≤ 0x1f then [C.to_uint8 (0xa0 + s.length)]
      else if s.length ≤ 0xff then 0xd9 :: big_endian s.length 1
      else if s.length ≤ 0xffff then 0xda :: big_endian s.length 2
      else 0xdb :: big_endian s.length 4
    else
      if s.length ≤ 0xff then 0xc4 :: big_endian s.length 1
      else if s.length ≤ 0xffff then 0xc5 :: big_endian s.length 2
      else 0xc6 :: big_endian s.length 4) ++ s := by
  unfold string_bytes msg_encode_string
  simp only [write_int_eq, write_str_one, ← write_str_append]
  repeat' split
  all_goals simp only [← write_str_append, contents_write_init, List.singleton_append]

theorem unsigned_value_append (a b : List UInt8) :
    unsigned_value (a ++ b) = unsigned_value a * 256 ^ b.length + unsigned_value b := by
  unfold unsigned_value
  suffices h : ∀ (x : Nat), b.foldl (fun a b => a * 256 + b.toNat) x =
      x * 256 ^ b.length + b.foldl (fun a b => a * 256 + b.toNat) 0 by
    rw [List.foldl_append, h]
  induction b with
  | nil => intro x; simp
  | cons c b ih =>
    intro x
    simp only [List.foldl_cons, List.length_cons]
    rw [ih (x * 256 + c.toNat), ih (0 * 256 + c.toNat), Nat.pow_succ]
    ring

theorem unsigned_value_big_endian (value length : Nat) :
    unsigned_value (big_endian value length) = value % 256 ^ length := by
  induction length with
  | zero => simp [big_endian, unsigned_value, Nat.mod_one]
  | succ n ih =>
    rw [big_endian, show UInt8.ofNat (value / 256 ^ n % 256) :: big_endian value n =
      [UInt8.ofNat (value / 256 ^ n % 256)] ++ big_endian value n from rfl,
      unsigned_value_append, ih, big_endian_length]
    simp only [unsigned_value, List.foldl_cons, List.foldl_nil, uint8_toNat_ofNat]
    rw [Nat.zero_mul, Nat.zero_add, Nat.mod_mod, Nat.pow_succ, Nat.mod_mul, Nat.add_comm,
      Nat.mul_comm]

/-- Claim C6.  For a string `s` of `n < 2^32` bytes, `msgpack.encode(s)` is a
header followed by the bytes of `s`.  When `valid_utf8(s)`, the header is the
byte `a0 + n` for `n <= 31`, `d9` and `n` in 1 byte for `n <= 255`, `da` and `n`
in 2 big-endian bytes for `n <= 65535`, and `db` and `n` in 4 big-endian bytes
otherwise; when not, it is `c4` and 1 byte, `c5` and 2 bytes, or `c6` and 4
bytes.  The length field read back as a big-endian number is `n`. -/
theorem string_encoding (s : List UInt8) (hn : s.length < 2 ^ 32) :
    f_encode [.string s] = .ok (
      (if valid_utf8 s then
        if s.length ≤ 31 then [UInt8.ofNat (0xa0 + s.length)]
        else if s.length ≤ 255 then 0xd9 :: big_endian s.length 1
        else if s.length ≤ 65535 then 0xda :: big_endian s.length 2
        else 0xdb :: big_endian s.length 4
      else
        if s.length ≤ 255 then 0xc4 :: big_endian s.length 1
        else if s.length ≤ 65535 then 0xc5 :: big_endian s.length 2
        else 0xc6 :: big_endian s.length 4) ++ s) ∧
    (s.length ≤ 255 → unsigned_value (big_endian s.length 1) = s.length) ∧
    (s.length ≤ 65535 → unsigned_value (big_endian s.length 2) = s.length) ∧
    unsigned_value (big_endian s.length 4) = s.length := by
  refine ⟨?_, ?_, ?_, ?_⟩
  · rw [f_encode_single]
    simp only [encoding, string_bytes_eq]
    have : C.to_uint8 (0xa0 + (s.length : Int)) = UInt8.ofNat (0xa0 + s.length) := by
      unfold C.to_uint8
      apply uint8_eq_of_toNat_eq
      rw [uint8_toNat_ofNat, uint8_toNat_ofNat]
      omega
    rw [this]
  · intro h
    rw [unsigned_value_big_endian]
    exact Nat.mod_eq_of_lt (by norm_num; omega)
  · intro h
    rw [unsigned_value_big_endian]
    exact Nat.mod_eq_of_lt (by norm_num; omega)
  · rw [unsigned_value_big_endian]
    exact Nat.mod_eq_of_lt (by norm_num; omega)

/-- The string `a` is written as `a1 61`. -/
theorem string_encoding_witness :
    [(0x61 : UInt8)].length < 2 ^ 32 ∧ f_encode [.string [0x61]] = .ok ([0xa1] ++ [0x61]) :=
  ⟨by decide, (string_encoding [0x61] (by decide)).1⟩
theorem utf8_table_cont (b : UInt8) : utf8_table b = 8 ↔ is_continuation b := by
  unfold utf8_table is_continuation
  repeat' split
  all_goals omega

theorem utf8_table_cases (b : UInt8) (h : ¬ utf8_table b > 3) :
    (utf8_table b = 0 ∧ b.toNat ≤ 0x7f) ∨
    (utf8_table b = 1 ∧ 0xc2 ≤ b.toNat ∧ b.toNat ≤ 0xdf) ∨
    (utf8_table b = 2 ∧ 0xe0 ≤ b.toNat ∧ b.toNat ≤ 0xef) ∨
    (utf8_table b = 3 ∧ 0xf0 ≤ b.toNat ∧ b.toNat ≤ 0xf4) := by
  unfold utf8_table at h ⊢
  repeat' split
  all_goals first | omega | (split at h <;> omega)

theorem valid_utf8_cont_some (code : Nat) : ∀ (str rest : List UInt8),
    valid_utf8_cont code str = some rest →
    ∃ conts, str = conts ++ rest ∧ conts.length = code ∧ ∀ c ∈ conts, is_continuation c := by
  induction code with
  | zero =>
    intro str rest h
    simp only [valid_utf8_cont] at h
    injection h with h
    exact ⟨[], by simp [h], rfl, by simp⟩
  | succ code ih =>
    intro str rest h
    cases str with
    | nil => simp [valid_utf8_cont] at h
    | cons c str =>
      simp only [valid_utf8_cont] at h
      split at h
      · cases h
      rename_i k
      obtain ⟨conts, e, l, a⟩ := ih str rest h
      refine ⟨c :: conts, by simp [e], by simp [l], ?_⟩
      intro x hx
      rcases List.mem_cons.1 hx with rfl | hx
      · exact (utf8_table_cont x).1 (by simpa using k)
      · exact a x hx

theorem valid_utf8_loop_units (fuel : Nat) : ∀ (str : List UInt8),
    valid_utf8_loop fuel str = true → Utf8Units str := by
  induction fuel with
  | zero =>
    intro str h
    cases str with
    | nil => exact Utf8Units.nil
    | cons b str => simp [valid_utf8_loop] at h
  | succ fuel ih =>
    intro str h
    cases str with
    | nil => exact Utf8Units.nil
    | cons b str =>
      simp only [valid_utf8_loop] at h
      split at h
      · cases h
      rename_i hc
      have hc1 : ¬ utf8_table b > 3 := fun h3 => hc (Or.inl h3)
      cases hk : valid_utf8_cont (utf8_table b) str with
      | none => rw [hk] at h; cases h
      | some rest =>
        rw [hk] at h
        simp only [] at h
        have hu := ih rest h
        obtain ⟨conts, e, l, a⟩ := valid_utf8_cont_some _ _ _ hk
        subst e
        rcases utf8_table_cases b hc1 with ⟨e, h1⟩ | ⟨e, h1, h2⟩ | ⟨e, h1, h2⟩ | ⟨e, h1, h2⟩
        · rw [e] at l
          match conts, l, a with
          | [], _, _ => exact Utf8Units.one b _ h1 hu
        · rw [e] at l
          match conts, l, a with
          | [c1], _, a => exact Utf8Units.two b c1 _ h1 h2 (a c1 (by simp)) hu
        · rw [e] at l
          match conts, l, a with
          | [c1, c2], _, a =>
            exact Utf8Units.three b c1 c2 _ h1 h2 (a c1 (by simp)) (a c2 (by simp)) hu
        · rw [e] at l
          match conts, l, a with
          | [c1, c2, c3], _, a =>
            exact Utf8Units.four b c1 c2 c3 _ h1 h2 (a c1 (by simp)) (a c2 (by simp))
              (a c3 (by simp)) hu
theorem units_valid_utf8_loop {str : List UInt8} (hu : Utf8Units str) :
    ∀ (fuel : Nat), str.length ≤ fuel → valid_utf8_loop fuel str = true := by
  induction hu with
  | nil => intro fuel _; cases fuel <;> rfl
  | one b rest h1 _ ih =>
    intro fuel hf
    cases fuel with
    | zero => simp at hf
    | succ fuel =>
      have e : utf8_table b = 0 := by unfold utf8_table; rw [if_pos h1]
      simp only [valid_utf8_loop, e, valid_utf8_cont]
      rw [if_neg (by omega)]
      exact ih fuel (by simp at hf; omega)
  | two b c1 rest h1 h2 k1 _ ih =>
    intro fuel hf
    cases fuel with
    | zero => simp at hf
    | succ fuel =>
      have e : utf8_table b = 1 := by
        unfold utf8_table
        rw [if_neg (by omega), if_neg (by omega), if_neg (by omega), if_pos h2]
      simp only [valid_utf8_loop, e, valid_utf8_cont, (utf8_table_cont c1).2 k1]
      rw [if_neg (by simp)]
      simp only [ne_eq, not_true_eq_false, ↓reduceIte]
      exact ih fuel (by simp at hf; omega)
  | three b c1 c2 rest h1 h2 k1 k2 _ ih =>
    intro fuel hf
    cases fuel with
    | zero => simp at hf
    | succ fuel =>
      have e : utf8_table b = 2 := by
        unfold utf8_table
        rw [if_neg (by omega), if_neg (by omega), if_neg (by omega), if_neg (by omega),
          if_pos h2]
      simp only [valid_utf8_loop, e, valid_utf8_cont, (utf8_table_cont c1).2 k1,
        (utf8_table_cont c2).2 k2]
      rw [if_neg (by simp)]
      simp only [ne_eq, not_true_eq_false, ↓reduceIte]
      exact ih fuel (by simp at hf; omega)
  | four b c1 c2 c3 rest h1 h2 k1 k2 k3 _ ih =>
    intro fuel hf
    cases fuel with
    | zero => simp at hf
    | succ fuel =>
      have e : utf8_table b = 3 := by
        unfold utf8_table
        rw [if_neg (by omega), if_neg (by omega), if_neg (by omega), if_neg (by omega),
          if_neg (by omega), if_pos h2]
      simp only [valid_utf8_loop, e, valid_utf8_cont, (utf8_table_cont c1).2 k1,
        (utf8_table_cont c2).2 k2, (utf8_table_cont c3).2 k3]
      rw [if_neg (by simp)]
      simp only [ne_eq, not_true_eq_false, ↓reduceIte]
      exact ih fuel (by simp at hf; omega)

theorem valid_utf8_iff_units (s : List UInt8) : valid_utf8 s = true ↔ Utf8Units s :=
  ⟨valid_utf8_loop_units _ _, fun h => units_valid_utf8_loop h _ (Nat.le_refl _)⟩

theorem in_range_iff (lo hi : Nat) (b : UInt8) :
    in_range lo hi b = true ↔ lo ≤ b.toNat ∧ b.toNat ≤ hi := by
  simp [in_range]

theorem well_formed_units : ∀ (s : List UInt8), well_formed_utf8 s = true → Utf8Units s
  | [], _ => Utf8Units.nil
  | [b], h => by
    simp only [well_formed_utf8, in_range_iff] at h
    exact Utf8Units.one b [] h.2 Utf8Units.nil
  | [b, c1], h => by
    simp only [well_formed_utf8, Bool.or_eq_true, Bool.and_eq_true, in_range_iff] at h
    rcases h with ⟨h1, h2⟩ | ⟨h1, h2⟩
    · exact Utf8Units.one b _ h1.2 (Utf8Units.one c1 [] h2.2 Utf8Units.nil)
    · exact Utf8Units.two b c1 [] h1.1 h1.2 h2 Utf8Units.nil
  | [b, c1, c2], h => by
    have ih1 := well_formed_units [c1, c2]
    have ih2 := well_formed_units [c2]
    simp only [well_formed_utf8, Bool.or_eq_true, Bool.and_eq_true, in_range_iff] at h ih1 ih2
    rcases h with (⟨h1, h2⟩ | ⟨⟨h1, h2⟩, h3⟩) | ⟨h1, h2⟩
    · exact Utf8Units.one b _ h1.2 (ih1 h2)
    · exact Utf8Units.two b c1 _ h1.1 h1.2 h2 (ih2 h3)
    · refine Utf8Units.three b c1 c2 [] ?_ ?_ ⟨?_, ?_⟩ h2 Utf8Units.nil <;>
        rcases h1 with ((h1 | h1) | h1) | h1 <;> omega
  | b :: c1 :: c2 :: c3 :: rest, h => by
    have ih1 := well_formed_units (c1 :: c2 :: c3 :: rest)
    have ih2 := well_formed_units (c2 :: c3 :: rest)
    have ih3 := well_formed_units (c3 :: rest)
    have ih4 := well_formed_units rest
    rw [well_formed_utf8] at h
    simp only [Bool.or_eq_true, Bool.and_eq_true, in_range_iff] at h
    rcases h with ((⟨h1, h2⟩ | ⟨⟨h1, h2⟩, h3⟩) | ⟨⟨h1, h2⟩, h3⟩) | ⟨⟨⟨h1, h2⟩, h3⟩, h4⟩
    · exact Utf8Units.one b _ h1.2 (ih1 h2)
    · exact Utf8Units.two b c1 _ h1.1 h1.2 h2 (ih2 h3)
    · refine Utf8Units.three b c1 c2 _ ?_ ?_ ⟨?_, ?_⟩ h2 (ih3 h3) <;>
        rcases h1 with ((h1 | h1) | h1) | h1 <;> omega
    · refine Utf8Units.four b c1 c2 c3 _ ?_ ?_ ⟨?_, ?_⟩ h2 h3 (ih4 h4) <;>
        rcases h1 with (h1 | h1) | h1 <;> omega

/-- Claim C5, amended.  A string that is not a concatenation of units (a byte
`00 .. 7f`, or a lead byte `c2 .. df`, `e0 .. ef`, `f0 .. f4` followed by
exactly 1, 2, 3 continuation bytes `80 .. bf`) is not well-formed UTF-8, and
`msgpack.encode` writes it with one of the bin tags `c4`, `c5`, `c6` as the
first byte. -/
theorem invalid_string_is_bin (s : List UInt8) (h : ¬ Utf8Units s) :
    well_formed_utf8 s = false ∧
    ∃ tag rest, f_encode [.string s] = .ok (tag :: rest) ∧
      (tag = 0xc4 ∨ tag = 0xc5 ∨ tag = 0xc6) := by
  refine ⟨?_, ?_⟩
  · cases hw : well_formed_utf8 s with
    | false => rfl
    | true => exact absurd (well_formed_units s hw) h
  have hv : ¬ (valid_utf8 s = true) := fun hv => h ((valid_utf8_iff_units s).1 hv)
  rw [f_encode_single]
  simp only [encoding, string_bytes_eq, if_neg hv]
  by_cases h1 : s.length ≤ 0xff
  · exact ⟨0xc4, _, by rw [if_pos h1]; rfl, Or.inl rfl⟩
  · by_cases h2 : s.length ≤ 0xffff
    · exact ⟨0xc5, _, by rw [if_neg h1, if_pos h2]; rfl, Or.inr (Or.inl rfl)⟩
    · exact ⟨0xc6, _, by rw [if_neg h1, if_neg h2]; rfl, Or.inr (Or.inr rfl)⟩

theorem not_units_ff : ¬ Utf8Units [0xff] := by
  intro h
  cases h with
  | one _ _ h1 _ => exact absurd h1 (by decide)

/-- The string of the single byte `ff` is written with a bin tag. -/
theorem invalid_string_is_bin_witness :
    ¬ Utf8Units [0xff] ∧ well_formed_utf8 [0xff] = false ∧
    ∃ tag rest, f_encode [.string [0xff]] = .ok (tag :: rest) ∧
      (tag = 0xc4 ∨ tag = 0xc5 ∨ tag = 0xc6) :=
  ⟨not_units_ff, invalid_string_is_bin [0xff] not_units_ff⟩

/-- The overlong form `e0 80 80` is not well-formed UTF-8 and is written with the str tag `a3`. -/
theorem invalid_string_counterexample :
    well_formed_utf8 [0xe0, 0x80, 0x80] = false ∧
    f_encode [.string [0xe0, 0x80, 0x80]] = .ok [0xa3, 0xe0, 0x80, 0x80] :=
  ⟨rfl, rfl⟩
theorem to_int32_add (x y : Int) : C.to_int32 (C.to_int32 x + y) = C.to_int32 (x + y) := by
  unfold C.to_int32; omega

theorem count_loop_append (es es' : List (LuaValue × LuaValue)) : ∀ (index : Int) (array : Bool),
    count_table_loop (es ++ es') index array =
      count_table_loop es' (count_table_loop es index array).1
        (count_table_loop es index array).2 := by
  induction es with
  | nil => intro index array; rfl
  | cons e es ih =>
    intro index array
    obtain ⟨k, v⟩ := e
    simp only [List.cons_append, count_table_loop]
    exact ih _ _

theorem count_loop_index (es : List (LuaValue × LuaValue)) : ∀ (index : Int) (array : Bool),
    C.to_int32 (count_table_loop es index array).1 = C.to_int32 (index + es.length) := by
  induction es with
  | nil => intro index array; simp [count_table_loop]
  | cons e es ih =>
    intro index array
    obtain ⟨k, v⟩ := e
    simp only [count_table_loop, List.length_cons]
    rw [ih]
    unfold C.to_int32
    push_cast
    omega

theorem count_table_eq (es : List (LuaValue × LuaValue)) :
    count_table es =
      if (count_table_loop es 1 true).2 then C.to_int32 es.length
      else C.to_int32 (-(C.to_int32 es.length)) := by
  have h : C.to_int32 ((count_table_loop es 1 true).1 - 1) = C.to_int32 es.length := by
    have h1 := count_loop_index es 1 true
    unfold C.to_int32 at h1 ⊢
    omega
  unfold count_table
  simp only []
  rw [h]

theorem count_loop_nil_flag (es : List (LuaValue × LuaValue)) (index : Int) :
    (count_table_loop es index false).2 = false := by
  induction es generalizing index with
  | nil => rfl
  | cons e es ih =>
    obtain ⟨k, v⟩ := e
    simp only [count_table_loop]
    exact ih _

/-- The size of a table `count_table` finds: the number of entries, negated
for a map. -/
theorem count_table_abs (es : List (LuaValue × LuaValue)) (hn : es.length < 2 ^ 31) :
    (count_table es = es.length ∧ (count_table_loop es 1 true).2 = true) ∨
    (count_table es = -(es.length : Int) ∧ (count_table_loop es 1 true).2 = false ∧
      0 < es.length) := by
  rw [count_table_eq]
  have e1 : C.to_int32 (es.length : Int) = es.length := by unfold C.to_int32; omega
  have e2 : C.to_int32 (-(es.length : Int)) = -(es.length : Int) := by unfold C.to_int32; omega
  cases hf : (count_table_loop es 1 true).2 with
  | true => left; simp [e1]
  | false =>
    right
    refine ⟨by simp [e1, e2], rfl, ?_⟩
    cases es with
    | nil => simp [count_table_loop] at hf
    | cons e es => simp

theorem table_header_eq (items : Int) : table_header items =
    if items ≥ 0 then
      if items ≤ 0x0f then [C.to_uint8 (0x90 + items)]
      else if items ≤ 0xffff then 0xdc :: big_endian (C.to_uint64 items) 2
      else 0xdd :: big_endian (C.to_uint64 items) 4
    else
      if C.to_int32 (-items) ≤ 0x0f then [C.to_uint8 (0x80 + C.to_int32 (-items))]
      else if C.to_int32 (-items) ≤ 0xffff then
        0xde :: big_endian (C.to_uint64 (C.to_int32 (-items))) 2
      else 0xdf :: big_endian (C.to_uint64 (C.to_int32 (-items))) 4 := by
  unfold table_header msg_encode_table_header
  simp only [write_int_eq, write_str_one, ← write_str_append]
  repeat' split
  all_goals simp only [contents_write_init, List.singleton_append]

theorem table_header_array (n : Nat) (hn : n < 2 ^ 31) :
    table_header (n : Int) = array_header n := by
  rw [table_header_eq, if_pos (by omega)]
  unfold array_header
  have e64 : C.to_uint64 (n : Int) = n := by unfold C.to_uint64; omega
  have e8 : n ≤ 15 → C.to_uint8 (0x90 + (n : Int)) = UInt8.ofNat (0x90 + n) := by
    intro h
    unfold C.to_uint8
    apply uint8_eq_of_toNat_eq
    rw [uint8_toNat_ofNat, uint8_toNat_ofNat]
    omega
  by_cases h1 : n ≤ 15
  · rw [if_pos (by omega), if_pos h1, e8 h1]
  · rw [if_neg (by omega), if_neg h1, e64]
    by_cases h2 : n ≤ 65535
    · rw [if_pos (by omega), if_pos h2]
    · rw [if_neg (by omega), if_neg h2]

theorem table_header_map (n : Nat) (h0 : 0 < n) (hn : n < 2 ^ 31) :
    table_header (-(n : Int)) = map_header n := by
  rw [table_header_eq, if_neg (by omega)]
  unfold map_header
  have e32 : C.to_int32 (- -(n : Int)) = n := by unfold C.to_int32; omega
  have e64 : C.to_uint64 (n : Int) = n := by unfold C.to_uint64; omega
  have e8 : n ≤ 15 → C.to_uint8 (0x80 + (n : Int)) = UInt8.ofNat (0x80 + n) := by
    intro h
    unfold C.to_uint8
    apply uint8_eq_of_toNat_eq
    rw [uint8_toNat_ofNat, uint8_toNat_ofNat]
    omega
  rw [e32]
  by_cases h1 : n ≤ 15
  · rw [if_pos (by omega), if_pos h1, e8 h1]
  · rw [if_neg (by omega), if_neg h1, e64]
    by_cases h2 : n ≤ 65535
    · rw [if_pos (by omega), if_pos h2]
    · rw [if_neg (by omega), if_neg h2]

theorem encoding_values_of_forall (es : List (LuaValue × LuaValue)) (bs : List (List UInt8))
    (h : List.Forall₂ (fun e b => f_encode [e.2] = .ok b) es bs) :
    encoding_values es = .ok bs.flatten := by
  induction h with
  | nil => rfl
  | @cons e b es bs h1 _ ih =>
    obtain ⟨k, v⟩ := e
    simp only [encoding_values, encoding_of_f_encode h1, ih, List.flatten_cons]

theorem encoding_pairs_of_forall (es : List (LuaValue × LuaValue)) (bs : List (List UInt8))
    (h : List.Forall₂ (fun e b => ∃ bk bv, f_encode [e.1] = .ok bk ∧ f_encode [e.2] = .ok bv ∧
      b = bk ++ bv) es bs) :
    encoding_pairs es = .ok bs.flatten := by
  induction h with
  | nil => rfl
  | @cons e b es bs h1 _ ih =>
    obtain ⟨k, v⟩ := e
    obtain ⟨bk, bv, hk, hv, e⟩ := h1
    subst e
    simp only [encoding_pairs, encoding_of_f_encode hk, encoding_of_f_encode hv, ih,
      List.flatten_cons]

/-- Claim C7, amended.  For a table of `n < 2^31` entries (the count is a C
`int`): when `count_table` takes it for an array, `msgpack.encode` returns the
array header for `n` (`90 + n`, or `dc` and 2 bytes, or `dd` and 4 bytes)
followed by the encodings of the values in the order of enumeration; otherwise
it returns the map header for `n` (`80 + n`, `de`, `df`) followed, for each
entry in that order, by the encoding of the key and then of the value.  The
table `{1, 2, 3}` encodes to `93 01 02 03`. -/
theorem container_encoding (es : List (LuaValue × LuaValue)) (hn : es.length < 2 ^ 31) :
    (0 ≤ count_table es → ∀ bs : List (List UInt8),
      List.Forall₂ (fun e b => f_encode [e.2] = .ok b) es bs →
      f_encode [.table es] = .ok (array_header es.length ++ bs.flatten)) ∧
    (count_table es < 0 → ∀ bs : List (List UInt8),
      List.Forall₂ (fun e b => ∃ bk bv, f_encode [e.1] = .ok bk ∧ f_encode [e.2] = .ok bv ∧
        b = bk ++ bv) es bs →
      f_encode [.table es] = .ok (map_header es.length ++ bs.flatten)) ∧
    f_encode [.table [(.integer 1, .integer 1), (.integer 2, .integer 2),
      (.integer 3, .integer 3)]] = .ok [0x93, 0x01, 0x02, 0x03] := by
  refine ⟨?_, ?_, rfl⟩
  · intro h0 bs hbs
    have hc : count_table es = es.length := by
      rcases count_table_abs es hn with ⟨h, _⟩ | ⟨h, _, _⟩
      · exact h
      · omega
    rw [f_encode_single]
    simp only [encoding, if_pos h0, encoding_values_of_forall es bs hbs]
    rw [hc, table_header_array _ hn]
  · intro h0 bs hbs
    have hc : count_table es = -(es.length : Int) ∧ 0 < es.length := by
      rcases count_table_abs es hn with ⟨h, _⟩ | ⟨h, _, h2⟩
      · omega
      · exact ⟨h, h2⟩
    rw [f_encode_single]
    simp only [encoding, if_neg (show ¬ (count_table es ≥ 0) by omega),
      encoding_pairs_of_forall es bs hbs]
    rw [hc.1, table_header_map _ hc.2 hn]
/-- The table with the single entry `[1] = true` is written as `91 c3`. -/
theorem container_encoding_witness :
    [(LuaValue.integer 1, LuaValue.boolean true)].length < 2 ^ 31 ∧
    0 ≤ count_table [(.integer 1, .boolean true)] ∧
    f_encode [.table [(.integer 1, .boolean true)]] = .ok (array_header 1 ++ [[0xc3]].flatten) :=
  ⟨by decide, by decide,
    (container_encoding [(.integer 1, .boolean true)] (by decide)).1 (by decide) [[0xc3]]
      (List.Forall₂.cons rfl List.Forall₂.nil)⟩

theorem sequence_length (n : Nat) : (sequence_of_true n).length = n := by
  unfold sequence_of_true
  rw [List.length_map, List.length_range]

theorem sequence_succ (n : Nat) : sequence_of_true (n + 1) =
    sequence_of_true n ++ [(.integer ((n : Int) + 1), .boolean true)] := by
  unfold sequence_of_true
  rw [List.range_succ, List.map_append]
  rfl

theorem count_loop_index_exact (es : List (LuaValue × LuaValue)) :
    ∀ (index : Int) (array : Bool), C.to_int32 index = index →
    (count_table_loop es index array).1 = C.to_int32 (index + es.length) := by
  induction es with
  | nil => intro index array h; simpa [count_table_loop] using h.symm
  | cons e es ih =>
    intro index array _
    obtain ⟨k, v⟩ := e
    simp only [count_table_loop, List.length_cons]
    rw [ih _ _ (by unfold C.to_int32; omega)]
    unfold C.to_int32
    push_cast
    omega

/-- A table whose entry number `2^31` has the integer key `2^31` is counted as
`-2^31`: the `int` index has wrapped around by then. -/
theorem count_table_overflow (init : List (LuaValue × LuaValue)) (v : LuaValue)
    (hl : init.length = 2147483647) :
    count_table (init ++ [(.integer 2147483648, v)]) = -2147483648 := by
  have hidx : (count_table_loop init 1 true).1 = -2147483648 := by
    rw [count_loop_index_exact init 1 true (by unfold C.to_int32; omega), hl]
    unfold C.to_int32
    norm_num
  have hflag : (count_table_loop (init ++ [(.integer 2147483648, v)]) 1 true).2 = false := by
    rw [count_loop_append, hidx]
    cases (count_table_loop init 1 true).2 <;> rfl
  rw [count_table_eq, hflag, List.length_append, hl]
  simp only [List.length_cons, List.length_nil]
  unfold C.to_int32
  norm_num

theorem encoding_pairs_ok (es : List (LuaValue × LuaValue))
    (h : ∀ e ∈ es, (∃ b, encoding e.1 = .ok b) ∧ (∃ b, encoding e.2 = .ok b)) :
    ∃ bs, encoding_pairs es = .ok bs := by
  induction es with
  | nil => exact ⟨[], rfl⟩
  | cons e es ih =>
    obtain ⟨k, v⟩ := e
    obtain ⟨⟨bk, hk⟩, ⟨bv, hv⟩⟩ := h (k, v) (by simp)
    obtain ⟨bs, hbs⟩ := ih (fun e he => h e (by simp [he]))
    exact ⟨bk ++ bv ++ bs, by simp only [encoding_pairs, hk, hv, hbs]⟩

theorem sequence_pairs_ok (n : Nat) : ∃ bs, encoding_pairs (sequence_of_true n) = .ok bs := by
  apply encoding_pairs_ok
  intro e he
  unfold sequence_of_true at he
  obtain ⟨i, _, rfl⟩ := List.mem_map.1 he
  exact ⟨⟨_, rfl⟩, ⟨_, rfl⟩⟩

/-- What `f_encode` writes for a table that `count_table` counts as `-2^31`. -/
theorem encode_overflowed (es : List (LuaValue × LuaValue)) (bs : List UInt8)
    (hc : count_table es = -2147483648) (hb : encoding_pairs es = .ok bs) :
    f_encode [.table es] = .ok (0x80 :: bs) := by
  rw [f_encode_single]
  unfold encoding
  simp only []
  rw [hc, if_neg (show ¬ ((-2147483648 : Int) ≥ 0) by decide), hb]
  rfl

theorem count_table_big : count_table (sequence_of_true (2147483647 + 1)) = -2147483648 := by
  rw [sequence_succ]
  exact count_table_overflow _ _ (sequence_length _)

theorem encode_big_sequence :
    ∃ rest, f_encode [.table (sequence_of_true (2147483647 + 1))] = .ok (0x80 :: rest) := by
  obtain ⟨bs, hbs⟩ := sequence_pairs_ok (2147483647 + 1)
  exact ⟨bs, encode_overflowed _ bs count_table_big hbs⟩

/-- A sequence of `2^31` entries is written with the first byte `80`, the header of an empty map, and neither with the array header nor with the map header for `2^31`. -/
theorem container_encoding_counterexample :
    (sequence_of_true (2 ^ 31)).length = 2 ^ 31 ∧
    array_header (2 ^ 31) = [0xdd, 0x80, 0x00, 0x00, 0x00] ∧
    map_header (2 ^ 31) = [0xdf, 0x80, 0x00, 0x00, 0x00] ∧
    (∃ rest, f_encode [.table (sequence_of_true (2 ^ 31))] = .ok (0x80 :: rest)) ∧
    (∀ bs, f_encode [.table (sequence_of_true (2 ^ 31))] ≠ .ok (array_header (2 ^ 31) ++ bs)) ∧
    (∀ bs, f_encode [.table (sequence_of_true (2 ^ 31))] ≠ .ok (map_header (2 ^ 31) ++ bs)) := by
  have ha : array_header (2 ^ 31) = [0xdd, 0x80, 0x00, 0x00, 0x00] := by decide
  have hm : map_header (2 ^ 31) = [0xdf, 0x80, 0x00, 0x00, 0x00] := by decide
  have h31 : (2 : Nat) ^ 31 = 2147483647 + 1 := by norm_num
  obtain ⟨rest, h⟩ := encode_big_sequence
  rw [← h31] at h
  refine ⟨sequence_length _, ha, hm, ⟨rest, h⟩, ?_, ?_⟩
  · intro bs hb
    rw [h, ha] at hb
    injection hb with hb
    injection hb with hb _
    exact absurd hb (by decide)
  · intro bs hb
    rw [h, hm] at hb
    injection hb with hb
    injection hb with hb _
    exact absurd hb (by decide)
theorem read_error {msg : msg_t} {e : MsgError} (h : msg_read msg = .error e) :
    e = .more_bytes := by
  unfold msg_read at h
  split at h
  · injection h with h; exact h.symm
  · cases h

theorem read_bin_error (n : Nat) : ∀ {msg : msg_t} {e : MsgError},
    msg_read_bin msg n = .error e → e = .more_bytes := by
  induction n with
  | zero => intro msg e h; cases h
  | succ n ih =>
    intro msg e h
    simp only [msg_read_bin] at h
    cases h1 : msg_read msg with
    | error e1 => rw [h1] at h; injection h with h; rw [← h]; exact read_error h1
    | ok p =>
      obtain ⟨b, m1⟩ := p
      rw [h1] at h
      simp only [] at h
      cases h2 : msg_read_bin m1 n with
      | error e2 => rw [h2] at h; injection h with h; rw [← h]; exact ih h2
      | ok q => rw [h2] at h; cases h

theorem read_int_loop_error (n : Nat) : ∀ {msg : msg_t} {v : Nat} {e : MsgError},
    msg_read_int_loop msg v n = .error e → e = .more_bytes := by
  induction n with
  | zero => intro msg v e h; cases h
  | succ n ih =>
    intro msg v e h
    simp only [msg_read_int_loop] at h
    cases h1 : msg_read msg with
    | error e1 => rw [h1] at h; injection h with h; rw [← h]; exact read_error h1
    | ok p =>
      obtain ⟨b, m1⟩ := p
      rw [h1] at h
      exact ih h

theorem read_int_error {n : Nat} {msg : msg_t} {e : MsgError}
    (h : msg_read_int msg n = .error e) : e = .more_bytes :=
  read_int_loop_error n h

theorem read_str_error {n : Nat} {msg : msg_t} {e : MsgError}
    (h : msg_read_str msg n = .error e) : e = .more_bytes := by
  unfold msg_read_str at h
  cases h1 : msg_read_bin msg n with
  | error e1 => rw [h1] at h; injection h with h; rw [← h]; exact read_bin_error n h1
  | ok q => rw [h1] at h; cases h

theorem decode_str_error {w : Nat} {msg : msg_t} {e : MsgError}
    (h : msg_decode_str msg w = .error e) : e = .more_bytes := by
  unfold msg_decode_str at h
  cases h1 : msg_read_int msg w with
  | error e1 => rw [h1] at h; injection h with h; rw [← h]; exact read_int_error h1
  | ok q =>
    obtain ⟨len, m1⟩ := q
    rw [h1] at h
    exact read_str_error h

theorem decode_int_error {w : Nat} {conv : Int → Int} {msg : msg_t} {e : MsgError}
    (h : msg_decode_int msg w conv = .error e) : e = .more_bytes := by
  unfold msg_decode_int at h
  cases h1 : msg_read_int msg w with
  | error e1 => rw [h1] at h; injection h with h; rw [← h]; exact read_int_error h1
  | ok q => rw [h1] at h; cases h

theorem decode_float_error {w : Nat} {msg : msg_t} {e : MsgError}
    (h : msg_decode_float msg w = .error e) : e = .more_bytes := by
  unfold msg_decode_float at h
  cases h1 : msg_read_bin msg w with
  | error e1 => rw [h1] at h; injection h with h; rw [← h]; exact read_bin_error w h1
  | ok q => rw [h1] at h; cases h

theorem reads_input {a b : msg_t} {n : Nat} (h : Reads a b n) : b.input = a.input := by
  rw [h.1]; rfl

theorem reads_position {a b : msg_t} {n : Nat} (h : Reads a b n) :
    b.position = a.position + n := by
  rw [h.1]; rfl

theorem reads_bound {a b : msg_t} {n : Nat} (h : Reads a b n) (ha : a.position ≤ a.input.length) :
    b.position ≤ b.input.length := by
  rw [reads_input h, reads_position h]
  rcases h.2 with h0 | h1
  · omega
  · exact h1

theorem fueled_array_loop {decode : msg_t → Except MsgError (LuaValue × msg_t)}
    {input : List UInt8} {p : Nat} (hp : Progress decode) (hf : Fueled decode input p)
    (r : Nat) : ∀ (i : Int) (t : List (LuaValue × LuaValue)) (msg : msg_t),
    msg.input = input → p ≤ msg.position → msg.position ≤ msg.input.length →
    decode_array_loop decode r i t msg ≠ .error .out_of_fuel := by
  induction r with
  | zero => intro i t msg _ _ _ h; cases h
  | succ r ih =>
    intro i t msg hi hpos hb h
    simp only [decode_array_loop] at h
    cases h1 : decode msg with
    | error e =>
      rw [h1] at h; injection h with h; rw [h] at h1
      exact hf msg hi hpos (by rw [← hi]; exact hb) h1
    | ok q =>
      obtain ⟨v, m1⟩ := q
      rw [h1] at h
      obtain ⟨n, _, rd⟩ := hp _ _ _ h1
      exact ih _ _ m1 (by rw [reads_input rd, hi]) (by rw [reads_position rd]; omega)
        (reads_bound rd hb) h

theorem fueled_map_loop {decode : msg_t → Except MsgError (LuaValue × msg_t)}
    {input : List UInt8} {p : Nat} (hp : Progress decode) (hf : Fueled decode input p)
    (r : Nat) : ∀ (t : List (LuaValue × LuaValue)) (msg : msg_t),
    msg.input = input → p ≤ msg.position → msg.position ≤ msg.input.length →
    decode_map_loop decode r t msg ≠ .error .out_of_fuel := by
  induction r with
  | zero => intro t msg _ _ _ h; cases h
  | succ r ih =>
    intro t msg hi hpos hb h
    simp only [decode_map_loop] at h
    cases h1 : decode msg with
    | error e =>
      rw [h1] at h; injection h with h; rw [h] at h1
      exact hf msg hi hpos (by rw [← hi]; exact hb) h1
    | ok q =>
      obtain ⟨k, m1⟩ := q
      rw [h1] at h
      simp only [] at h
      obtain ⟨n1, _, rd1⟩ := hp _ _ _ h1
      have hi1 : m1.input = input := by rw [reads_input rd1, hi]
      have hp1 : p ≤ m1.position := by rw [reads_position rd1]; omega
      have hb1 := reads_bound rd1 hb
      cases h2 : decode m1 with
      | error e =>
        rw [h2] at h; injection h with h; rw [h] at h2
        exact hf m1 hi1 hp1 (by rw [← hi1]; exact hb1) h2
      | ok q2 =>
        obtain ⟨v, m2⟩ := q2
        rw [h2] at h
        simp only [] at h
        obtain ⟨n2, _, rd2⟩ := hp _ _ _ h2
        cases h3 : lua_rawset t k v with
        | error e => rw [h3] at h; cases h
        | ok t2 =>
          rw [h3] at h
          exact ih _ m2 (by rw [reads_input rd2, hi1]) (by rw [reads_position rd2]; omega)
            (reads_bound rd2 hb1) h

theorem fueled_switch {decode : msg_t → Except MsgError (LuaValue × msg_t)}
    {input : List UInt8} {p : Nat} (hp : Progress decode) (hf : Fueled decode input p)
    (b : UInt8) (msg : msg_t) (hi : msg.input = input) (hpos : p ≤ msg.position)
    (hb : msg.position ≤ msg.input.length) :
    msg_decode_switch decode b msg ≠ .error .out_of_fuel := by
  intro h
  rcases switch_cases decode b msg with ⟨v0, e⟩ | ⟨w, e⟩ | ⟨w, e⟩ | ⟨w, conv, e⟩ | ⟨n, e⟩ |
    ⟨items, e⟩ | ⟨items, e⟩ | ⟨w, _, e⟩ | ⟨w, _, e⟩ | e <;> rw [e] at h
  · cases h
  · cases decode_str_error h
  · cases decode_float_error h
  · cases decode_int_error h
  · cases read_str_error h
  · exact fueled_array_loop hp hf _ _ _ _ hi hpos hb h
  · exact fueled_map_loop hp hf _ _ _ hi hpos hb h
  · unfold msg_decode_array at h
    cases h1 : msg_read_int msg w with
    | error e1 => rw [h1] at h; injection h with h; rw [h] at h1; cases read_int_error h1
    | ok q =>
      obtain ⟨len, m1⟩ := q
      rw [h1] at h
      have rd := read_int_ok h1
      exact fueled_array_loop hp hf _ _ _ m1 (by rw [reads_input rd, hi])
        (by rw [reads_position rd]; omega) (reads_bound rd hb) h
  · unfold msg_decode_map at h
    cases h1 : msg_read_int msg w with
    | error e1 => rw [h1] at h; injection h with h; rw [h] at h1; cases read_int_error h1
    | ok q =>
      obtain ⟨len, m1⟩ := q
      rw [h1] at h
      have rd := read_int_ok h1
      exact fueled_map_loop hp hf _ _ m1 (by rw [reads_input rd, hi])
        (by rw [reads_position rd]; omega) (reads_bound rd hb) h
  · cases h

/-- With more fuel than there are bytes left, `msg_decode` does not run out of
fuel. -/
theorem decode_fueled (fuel : Nat) : ∀ (msg : msg_t), msg.position ≤ msg.input.length →
    msg.input.length < fuel + msg.position → msg_decode fuel msg ≠ .error .out_of_fuel := by
  induction fuel with
  | zero => intro msg hb hl; omega
  | succ fuel ih =>
    intro msg hb hl h
    simp only [msg_decode] at h
    cases h1 : msg_read msg with
    | error e => rw [h1] at h; injection h with h; rw [h] at h1; cases read_error h1
    | ok q =>
      obtain ⟨b, m1⟩ := q
      rw [h1] at h
      simp only [] at h
      have rd := read_ok h1
      refine fueled_switch (decode_progress fuel) (p := m1.position) ?_ b m1 rfl
        (Nat.le_refl _) (reads_bound rd hb) h
      intro m hmi hmp hmb
      apply ih
      · rw [hmi]; exact hmb
      · rw [hmi, reads_input rd]
        rw [reads_position rd] at hmp
        omega
/-- The bytes `cc 80` decode to 128. -/
theorem integer_tags_decode_witness :
    msg_decode 1 { position := 0, input := [0xcc, 0x80], buffer := [], table := [] } =
      .ok (.integer (unsigned_value [0x80]),
        ({ position := 0, input := [0xcc, 0x80], buffer := [], table := [] } : msg_t).advance 2) :=
  (integer_tags_decode 0 { position := 0, input := [0xcc, 0x80], buffer := [], table := [] }
    0xcc [0x80] [] rfl).1 rfl rfl

/-- The tag `cf` followed by eight bytes `ff` denotes `2^64 - 1` and decodes to -1. -/
theorem integer_tags_counterexample :
    unsigned_value [0xff, 0xff, 0xff, 0xff, 0xff, 0xff, 0xff, 0xff] = 18446744073709551615 ∧
    f_decode [0xcf, 0xff, 0xff, 0xff, 0xff, 0xff, 0xff, 0xff, 0xff] 1 65536 =
      .ok ([.integer (-1)], 10) ∧
    f_decode [0xcf, 0xff, 0xff, 0xff, 0xff, 0xff, 0xff, 0xff, 0xff] 1 65536 ≠
      .ok ([.integer (unsigned_value [0xff, 0xff, 0xff, 0xff, 0xff, 0xff, 0xff, 0xff])], 10) := by
  refine ⟨by decide, rfl, ?_⟩
  rw [show f_decode [0xcf, 0xff, 0xff, 0xff, 0xff, 0xff, 0xff, 0xff, 0xff] 1 65536 =
    .ok ([.integer (-1)], 10) from rfl,
    show unsigned_value [0xff, 0xff, 0xff, 0xff, 0xff, 0xff, 0xff, 0xff] = 18446744073709551615
      from by decide]
  simp
theorem remaining_start (input : List UInt8) : (msg_start input).remaining = input := rfl

theorem remaining_length (msg : msg_t) :
    msg.remaining.length = msg.input.length - msg.position := by
  simp [msg_t.remaining]

theorem loop_succ (fuel n : Nat) (msg : msg_t) (acc : List LuaValue) :
    f_decode_loop fuel (n + 1) msg acc =
      if msg.position < msg.input.length then
        match msg_decode fuel msg with
        | .error e => .error e
        | .ok (v, msg) => f_decode_loop fuel n msg (acc ++ [v])
      else .ok (acc, msg) := rfl

theorem f_decode_of_error {input : List UInt8} {e : MsgError} (hne : input ≠ [])
    (h : msg_decode (input.length + 1) (msg_start input) = .error e) :
    f_decode input 1 65536 = .error e := by
  have hl : 0 < input.length := List.length_pos.2 hne
  unfold f_decode
  simp only []
  rw [show C.to_uint64 1 = 1 from rfl, if_neg (by omega),
    show (C.to_int32 65536).toNat = 65535 + 1 from rfl]
  rw [loop_succ, if_pos (by simpa using hl)]
  unfold msg_start at h
  simp only [Nat.sub_self]
  rw [h]

theorem decode_step {fuel : Nat} {msg : msg_t} {t : UInt8} {rest : List UInt8}
    (h : msg.remaining = t :: rest) :
    msg_decode (fuel + 1) msg = msg_decode_switch (msg_decode fuel) t (msg.advance 1) := by
  simp only [msg_decode]
  rw [read_cons h]

theorem read_str_short {msg : msg_t} {n : Nat} (h : msg.remaining.length < n) :
    msg_read_str msg n = .error .more_bytes := by
  unfold msg_read_str
  rw [read_bin_short n msg h]

theorem decode_str_short {msg : msg_t} (lenbytes rest : List UInt8)
    (h : msg.remaining = lenbytes ++ rest) (hl : lenbytes.length ≤ 8)
    (hs : rest.length < unsigned_value lenbytes) :
    msg_decode_str msg lenbytes.length = .error .more_bytes := by
  unfold msg_decode_str
  rw [read_int_append lenbytes rest h hl]
  simp only []
  apply read_str_short
  rw [remaining_advance, h]
  simpa using hs

theorem array_short {decode : msg_t → Except MsgError (LuaValue × msg_t)}
    (hp : Progress decode) {msg msg' : msg_t} {items : Int} {v : LuaValue}
    (h : decode_array decode msg items = .ok (v, msg')) :
    items.toNat ≤ msg.remaining.length := by
  obtain ⟨n, hn, rd⟩ := decode_array_ok hp h
  rw [remaining_length]
  rcases rd.2 with h0 | h1 <;> omega

theorem map_short {decode : msg_t → Except MsgError (LuaValue × msg_t)}
    (hp : Progress decode) {msg msg' : msg_t} {items : Int} {v : LuaValue}
    (h : decode_map decode msg items = .ok (v, msg')) :
    2 * items.toNat ≤ msg.remaining.length := by
  obtain ⟨n, hn, rd⟩ := decode_map_ok hp h
  rw [remaining_length]
  rcases rd.2 with h0 | h1 <;> omega

theorem f_decode_fails {input : List UInt8} (hne : input ≠ [])
    (h : ∀ v m, msg_decode (input.length + 1) (msg_start input) ≠ .ok (v, m)) :
    ∃ e, f_decode input 1 65536 = .error e ∧ e ≠ .out_of_fuel := by
  cases hd : msg_decode (input.length + 1) (msg_start input) with
  | ok q => exact absurd hd (h q.1 q.2)
  | error e =>
    refine ⟨e, f_decode_of_error hne hd, ?_⟩
    intro he
    rw [he] at hd
    exact decode_fueled _ (msg_start input) (Nat.zero_le _) (by simp [msg_start]) hd

theorem msg_decode_array_short {decode : msg_t → Except MsgError (LuaValue × msg_t)}
    (hp : Progress decode) {msg msg' : msg_t} {v : LuaValue} (lenbytes rest : List UInt8)
    (h : msg.remaining = lenbytes ++ rest) (hw : lenbytes.length = 2 ∨ lenbytes.length = 4)
    (h31 : unsigned_value lenbytes < 2 ^ 31)
    (hd : msg_decode_array decode msg lenbytes.length = .ok (v, msg')) :
    unsigned_value lenbytes ≤ rest.length := by
  unfold msg_decode_array at hd
  rw [read_int_append lenbytes rest h (by omega)] at hd
  simp only [] at hd
  have hs := array_short hp hd
  rw [remaining_advance, h] at hs
  have hv := unsigned_value_lt lenbytes
  have e : (C.to_int32 (if lenbytes.length = 2 then C.to_uint16 (unsigned_value lenbytes)
      else C.to_uint32 (unsigned_value lenbytes))).toNat = unsigned_value lenbytes := by
    rcases hw with hw | hw
    · rw [hw] at hv
      rw [if_pos hw]
      unfold C.to_int32 C.to_uint16
      omega
    · rw [if_neg (by omega)]
      unfold C.to_int32 C.to_uint32
      omega
  rw [e] at hs
  simpa using hs

theorem msg_decode_map_short {decode : msg_t → Except MsgError (LuaValue × msg_t)}
    (hp : Progress decode) {msg msg' : msg_t} {v : LuaValue} (lenbytes rest : List UInt8)
    (h : msg.remaining = lenbytes ++ rest) (hw : lenbytes.length = 2 ∨ lenbytes.length = 4)
    (h31 : unsigned_value lenbytes < 2 ^ 31)
    (hd : msg_decode_map decode msg lenbytes.length = .ok (v, msg')) :
    2 * unsigned_value lenbytes ≤ rest.length := by
  unfold msg_decode_map at hd
  rw [read_int_append lenbytes rest h (by omega)] at hd
  simp only [] at hd
  have hs := map_short hp hd
  rw [remaining_advance, h] at hs
  have hv := unsigned_value_lt lenbytes
  have e : (C.to_int32 (if lenbytes.length = 2 then C.to_uint16 (unsigned_value lenbytes)
      else C.to_uint32 (unsigned_value lenbytes))).toNat = unsigned_value lenbytes := by
    rcases hw with hw | hw
    · rw [hw] at hv
      rw [if_pos hw]
      unfold C.to_int32 C.to_uint16
      omega
    · rw [if_neg (by omega)]
      unfold C.to_int32 C.to_uint32
      omega
  rw [e] at hs
  simpa using hs
/-- Claim C4, amended.  An input whose first byte is a string or binary tag and
whose declared length (5, 8, 16 or 32 bits) exceeds the number of bytes that
follow fails with the truncated-input error.  An input whose first byte is an
array or map tag with a declared count `N` (4 or 16 bits, or 32 bits with
`N < 2^31`) and with fewer than `N` bytes, for a map fewer than `2 N` bytes,
after the header fails: `msgpack.decode` reports an error of the decoder (the
truncated input, or what is wrong with an element that is present) and returns
no value. -/
theorem truncated_input_fails (t : UInt8) (lenbytes rest : List UInt8) :
    (0xa0 ≤ t.toNat → t.toNat ≤ 0xbf → rest.length < t.toNat - 0xa0 →
      f_decode (t :: rest) 1 65536 = .error .more_bytes) ∧
    (t = 0xd9 ∨ t = 0xc4 → lenbytes.length = 1 → rest.length < unsigned_value lenbytes →
      f_decode (t :: (lenbytes ++ rest)) 1 65536 = .error .more_bytes) ∧
    (t = 0xda ∨ t = 0xc5 → lenbytes.length = 2 → rest.length < unsigned_value lenbytes →
      f_decode (t :: (lenbytes ++ rest)) 1 65536 = .error .more_bytes) ∧
    (t = 0xdb ∨ t = 0xc6 → lenbytes.length = 4 → rest.length < unsigned_value lenbytes →
      f_decode (t :: (lenbytes ++ rest)) 1 65536 = .error .more_bytes) ∧
    (0x90 ≤ t.toNat → t.toNat ≤ 0x9f → rest.length < t.toNat - 0x90 →
      ∃ e, f_decode (t :: rest) 1 65536 = .error e ∧ e ≠ .out_of_fuel) ∧
    (t = 0xdc → lenbytes.length = 2 → rest.length < unsigned_value lenbytes →
      ∃ e, f_decode (t :: (lenbytes ++ rest)) 1 65536 = .error e ∧ e ≠ .out_of_fuel) ∧
    (t = 0xdd → lenbytes.length = 4 → unsigned_value lenbytes < 2 ^ 31 →
      rest.length < unsigned_value lenbytes →
      ∃ e, f_decode (t :: (lenbytes ++ rest)) 1 65536 = .error e ∧ e ≠ .out_of_fuel) ∧
    (0x80 ≤ t.toNat → t.toNat ≤ 0x8f → rest.length < 2 * (t.toNat - 0x80) →
      ∃ e, f_decode (t :: rest) 1 65536 = .error e ∧ e ≠ .out_of_fuel) ∧
    (t = 0xde → lenbytes.length = 2 → rest.length < 2 * unsigned_value lenbytes →
      ∃ e, f_decode (t :: (lenbytes ++ rest)) 1 65536 = .error e ∧ e ≠ .out_of_fuel) ∧
    (t = 0xdf → lenbytes.length = 4 → unsigned_value lenbytes < 2 ^ 31 →
      rest.length < 2 * unsigned_value lenbytes →
      ∃ e, f_decode (t :: (lenbytes ++ rest)) 1 65536 = .error e ∧ e ≠ .out_of_fuel) := by
  have hstr : ∀ (w : Nat) (c : UInt8), lenbytes.length = w → w ≤ 8 →
      rest.length < unsigned_value lenbytes →
      (∀ d m, msg_decode_switch d c m = msg_decode_str m w) →
      f_decode (c :: (lenbytes ++ rest)) 1 65536 = .error .more_bytes := by
    intro w c hw hw8 hs hsw
    apply f_decode_of_error (by simp)
    rw [decode_step (remaining_start _), hsw, ← hw]
    exact decode_str_short lenbytes rest (remaining_cons_advance (remaining_start _))
      (by omega) hs
  have harr : ∀ (c : UInt8), (lenbytes.length = 2 ∨ lenbytes.length = 4) →
      unsigned_value lenbytes < 2 ^ 31 → rest.length < unsigned_value lenbytes →
      (∀ d m, msg_decode_switch d c m = msg_decode_array d m lenbytes.length) →
      ∃ e, f_decode (c :: (lenbytes ++ rest)) 1 65536 = .error e ∧ e ≠ .out_of_fuel := by
    intro c hw h31 hs hsw
    apply f_decode_fails (by simp)
    intro v m hd
    rw [decode_step (remaining_start _), hsw] at hd
    have := msg_decode_array_short (decode_progress _) lenbytes rest
      (remaining_cons_advance (remaining_start _)) hw h31 hd
    omega
  have hmap : ∀ (c : UInt8), (lenbytes.length = 2 ∨ lenbytes.length = 4) →
      unsigned_value lenbytes < 2 ^ 31 → rest.length < 2 * unsigned_value lenbytes →
      (∀ d m, msg_decode_switch d c m = msg_decode_map d m lenbytes.length) →
      ∃ e, f_decode (c :: (lenbytes ++ rest)) 1 65536 = .error e ∧ e ≠ .out_of_fuel := by
    intro c hw h31 hs hsw
    apply f_decode_fails (by simp)
    intro v m hd
    rw [decode_step (remaining_start _), hsw] at hd
    have := msg_decode_map_short (decode_progress _) lenbytes rest
      (remaining_cons_advance (remaining_start _)) hw h31 hd
    omega
  refine ⟨?_, ?_, ?_, ?_, ?_, ?_, ?_, ?_, ?_, ?_⟩
  · intro h1 h2 hs
    apply f_decode_of_error (by simp)
    rw [decode_step (remaining_start _), switch_fixstr _ _ _ h1 h2]
    apply read_str_short
    rw [remaining_cons_advance (remaining_start _)]
    omega
  · intro ht hl hs
    rcases ht with rfl | rfl
    · exact hstr 1 _ hl (by omega) hs (fun _ _ => rfl)
    · exact hstr 1 _ hl (by omega) hs (fun _ _ => rfl)
  · intro ht hl hs
    rcases ht with rfl | rfl
    · exact hstr 2 _ hl (by omega) hs (fun _ _ => rfl)
    · exact hstr 2 _ hl (by omega) hs (fun _ _ => rfl)
  · intro ht hl hs
    rcases ht with rfl | rfl
    · exact hstr 4 _ hl (by omega) hs (fun _ _ => rfl)
    · exact hstr 4 _ hl (by omega) hs (fun _ _ => rfl)
  · intro h1 h2 hs
    apply f_decode_fails (by simp)
    intro v m hd
    rw [decode_step (remaining_start _), switch_fixarray _ _ _ h1 h2] at hd
    have := array_short (decode_progress _) hd
    rw [remaining_cons_advance (remaining_start _)] at this
    omega
  · intro ht hl hs
    subst ht
    have hv := unsigned_value_lt lenbytes
    rw [hl] at hv
    exact harr _ (Or.inl hl) (by omega) hs (fun _ _ => by rw [hl]; rfl)
  · intro ht hl h31 hs
    subst ht
    exact harr _ (Or.inr hl) h31 hs (fun _ _ => by rw [hl]; rfl)
  · intro h1 h2 hs
    apply f_decode_fails (by simp)
    intro v m hd
    rw [decode_step (remaining_start _), switch_fixmap _ _ _ h1 h2] at hd
    have := map_short (decode_progress _) hd
    rw [remaining_cons_advance (remaining_start _)] at this
    omega
  · intro ht hl hs
    subst ht
    have hv := unsigned_value_lt lenbytes
    rw [hl] at hv
    exact hmap _ (Or.inl hl) (by omega) hs (fun _ _ => by rw [hl]; rfl)
  · intro ht hl h31 hs
    subst ht
    exact hmap _ (Or.inr hl) h31 hs (fun _ _ => by rw [hl]; rfl)

/-- An array of 2 with one element and a string of 5 with one byte both fail. -/
theorem truncated_input_fails_witness :
    (∃ e, f_decode (0xdc :: ([0x00, 0x02] ++ [0x01])) 1 65536 = .error e ∧ e ≠ .out_of_fuel) ∧
    f_decode (0xd9 :: ([0x05] ++ [0x61])) 1 65536 = .error .more_bytes :=
  ⟨(truncated_input_fails 0xdc [0x00, 0x02] [0x01]).2.2.2.2.2.1 rfl rfl (by decide),
    (truncated_input_fails 0xd9 [0x05] [0x61]).2.1 (Or.inl rfl) rfl (by decide)⟩

/-- An array of 2 whose first element is the invalid code `c1` fails with the invalid-code error, a map whose first key is nil raises a Lua error, and an array or a map with the declared count `2^31` and no element at all is decoded as an empty table. -/
theorem truncated_input_counterexample :
    f_decode [0x92, 0xc1] 1 65536 = .error (.invalid_code 0xc1) ∧
    f_decode [0x82, 0xc0, 0x01] 1 65536 = .error (.lua .index_is_nil) ∧
    unsigned_value [0x80, 0x00, 0x00, 0x00] = 2147483648 ∧
    f_decode [0xdd, 0x80, 0x00, 0x00, 0x00] 1 65536 = .ok ([.table []], 6) ∧
    f_decode [0xdf, 0x80, 0x00, 0x00, 0x00] 1 65536 = .ok ([.table []], 6) :=
  ⟨rfl, rfl, by decide, rfl, rfl⟩
theorem big_endian_unsigned (n w : Nat) (h : n < 256 ^ w) :
    unsigned_value (big_endian n w) = n := by
  rw [unsigned_value_big_endian, Nat.mod_eq_of_lt h]

theorem twos_complement_neg (w : Nat) (i : Int) (hw : 0 < w) (h1 : -(2 ^ (8 * w - 1)) ≤ i)
    (_ : i < 0) : twos_complement w (i + 2 ^ (8 * w)).toNat = i := by
  unfold twos_complement
  have e : (2 : Int) ^ (8 * w) = 2 * 2 ^ (8 * w - 1) := by
    rw [show 8 * w = (8 * w - 1) + 1 by omega, pow_succ]
    simp
    ring
  have p : (0 : Int) < 2 ^ (8 * w - 1) := by positivity
  have ec : (((2 : Nat) ^ (8 * w - 1) : Nat) : Int) = (2 : Int) ^ (8 * w - 1) := by push_cast; rfl
  have hn : ((i + 2 ^ (8 * w)).toNat : Int) = i + 2 ^ (8 * w) := Int.toNat_of_nonneg (by omega)
  rw [if_neg, hn]
  · ring
  · intro hlt
    have : ((i + 2 ^ (8 * w)).toNat : Int) < (((2 : Nat) ^ (8 * w - 1) : Nat) : Int) := by
      exact_mod_cast hlt
    rw [hn, ec] at this
    omega

theorem decode_integer_bytes (i : Int) (hlo : -2 ^ 63 ≤ i) (hhi : i < 2 ^ 63) (fuel : Nat)
    (msg : msg_t) (post : List UInt8) (h : msg.remaining = integer_bytes i ++ post) :
    msg_decode (fuel + 1) msg = .ok (.integer i, msg.advance (integer_bytes i).length) := by
  rw [integer_bytes_eq] at h ⊢
  have e64 : 0 ≤ i → C.to_uint64 i = i.toNat := by intro _; unfold C.to_uint64; omega
  have n64 : i < 0 → C.to_uint64 i = (i + 2 ^ 64).toNat := by intro _; unfold C.to_uint64; omega
  have n32 : -2147483648 ≤ i → i < 0 → C.to_uint32 i = (i + 2 ^ 32).toNat := by
    intro _ _; unfold C.to_uint32; omega
  have n16 : -32768 ≤ i → i < 0 → C.to_uint16 i = (i + 2 ^ 16).toNat := by
    intro _ _; unfold C.to_uint16; omega
  have n8 : -128 ≤ i → i < 0 → (C.to_uint8 i).toNat = (i + 2 ^ 8).toNat := by
    intro _ _; unfold C.to_uint8; rw [uint8_toNat_ofNat]; omega
  have key : ∀ (t : UInt8) (n w : Nat), msg.remaining = (t :: big_endian n w) ++ post →
      msg.remaining = t :: (big_endian n w ++ post) := fun _ _ _ h => h
  by_cases h0 : i ≥ 0
  · rw [if_pos h0] at h ⊢
    by_cases h1 : i ≤ 0x7f
    · rw [if_pos h1] at h ⊢
      have ht : (C.to_uint8 i).toNat = i.toNat := by
        unfold C.to_uint8; rw [uint8_toNat_ofNat]; omega
      have := (decode_integer_tags fuel msg (C.to_uint8 i) [] post h).2.2.2.2.2.2.2.2.1
        (by rw [ht]; omega)
      rw [this, ht, Int.toNat_of_nonneg h0]
      rfl
    rw [if_neg h1] at h ⊢
    by_cases h2 : i ≤ 0xff
    · rw [if_pos h2] at h ⊢
      rw [e64 h0] at h ⊢
      have := (decode_integer_tags fuel msg 0xcc _ post (key _ _ _ h)).1 rfl
        (big_endian_length _ _)
      rw [this, big_endian_unsigned _ _ (by omega), Int.toNat_of_nonneg h0]
      simp [big_endian_length]
    rw [if_neg h2] at h ⊢
    by_cases h3 : i ≤ 0xffff
    · rw [if_pos h3] at h ⊢
      rw [e64 h0] at h ⊢
      have := (decode_integer_tags fuel msg 0xcd _ post (key _ _ _ h)).2.1 rfl
        (big_endian_length _ _)
      rw [this, big_endian_unsigned _ _ (by omega), Int.toNat_of_nonneg h0]
      simp [big_endian_length]
    rw [if_neg h3] at h ⊢
    by_cases h4 : i ≤ 0xffffffff
    · rw [if_pos h4] at h ⊢
      rw [e64 h0] at h ⊢
      have := (decode_integer_tags fuel msg 0xce _ post (key _ _ _ h)).2.2.1 rfl
        (big_endian_length _ _)
      rw [this, big_endian_unsigned _ _ (by omega), Int.toNat_of_nonneg h0]
      simp [big_endian_length]
    rw [if_neg h4] at h ⊢
    rw [e64 h0] at h ⊢
    have := (decode_integer_tags fuel msg 0xcf _ post (key _ _ _ h)).2.2.2.1 rfl
      (big_endian_length _ _)
    rw [this, big_endian_unsigned _ _ (by omega)]
    have : twos_complement 8 i.toNat = i := by unfold twos_complement; rw [if_pos (by omega)]; omega
    rw [this]
    simp [big_endian_length]
  · rw [if_neg h0] at h ⊢
    have hneg : i < 0 := by omega
    by_cases h1 : i ≥ -32
    · rw [if_pos h1] at h ⊢
      have ht : ((C.to_uint8 i).toNat : Int) = i + 256 := by
        unfold C.to_uint8; rw [uint8_toNat_ofNat]; omega
      have := (decode_integer_tags fuel msg (C.to_uint8 i) [] post h).2.2.2.2.2.2.2.2.2
        (by omega)
      rw [this, ht]
      simp
    rw [if_neg h1] at h ⊢
    by_cases h2 : i ≥ -128
    · rw [if_pos h2] at h ⊢
      rw [n8 h2 hneg] at h ⊢
      have := (decode_integer_tags fuel msg 0xd0 _ post (key _ _ _ h)).2.2.2.2.1 rfl
        (big_endian_length _ _)
      rw [this, big_endian_unsigned _ _ (by omega),
        twos_complement_neg 1 i (by omega) (by norm_num; omega) hneg]
      simp [big_endian_length]
    rw [if_neg h2] at h ⊢
    by_cases h3 : i ≥ -32768
    · rw [if_pos h3] at h ⊢
      rw [n16 h3 hneg] at h ⊢
      have := (decode_integer_tags fuel msg 0xd1 _ post (key _ _ _ h)).2.2.2.2.2.1 rfl
        (big_endian_length _ _)
      rw [this, big_endian_unsigned _ _ (by omega),
        twos_complement_neg 2 i (by omega) (by norm_num; omega) hneg]
      simp [big_endian_length]
    rw [if_neg h3] at h ⊢
    by_cases h4 : i ≥ -2147483648
    · rw [if_pos h4] at h ⊢
      rw [n32 h4 hneg] at h ⊢
      have := (decode_integer_tags fuel msg 0xd2 _ post (key _ _ _ h)).2.2.2.2.2.2.1 rfl
        (big_endian_length _ _)
      rw [this, big_endian_unsigned _ _ (by omega),
        twos_complement_neg 4 i (by omega) (by norm_num; omega) hneg]
      simp [big_endian_length]
    rw [if_neg h4] at h ⊢
    rw [n64 hneg] at h ⊢
    have := (decode_integer_tags fuel msg 0xd3 _ post (key _ _ _ h)).2.2.2.2.2.2.2.1 rfl
      (big_endian_length _ _)
    rw [this, big_endian_unsigned _ _ (by omega),
      twos_complement_neg 8 i (by omega) (by norm_num; omega) hneg]
    simp [big_endian_length]
theorem read_str_append {msg : msg_t} (s post : List UInt8) (h : msg.remaining = s ++ post) :
    msg_read_str msg s.length = .ok (.string s, msg.advance s.length) := by
  unfold msg_read_str
  rw [read_bin_append s msg post h]

theorem decode_str_header (w : Nat) (s post : List UInt8) (m : msg_t)
    (hm : m.remaining = big_endian s.length w ++ (s ++ post)) (hn : s.length < 256 ^ w)
    (hw : w ≤ 8) :
    msg_decode_str m w = .ok (.string s, m.advance (w + s.length)) := by
  unfold msg_decode_str
  have h1 := @read_int_append m (big_endian s.length w) (s ++ post) hm
    (by rw [big_endian_length]; exact hw)
  rw [big_endian_length, big_endian_unsigned _ _ hn] at h1
  rw [h1]
  simp only []
  have hd : List.drop w (big_endian s.length w ++ (s ++ post)) = s ++ post := by
    have := List.drop_left (big_endian s.length w) (s ++ post)
    rwa [big_endian_length] at this
  rw [read_str_append s post (by rw [remaining_advance, hm, hd]), advance_advance]

theorem decode_string_bytes (s : List UInt8) (hl : s.length < 2 ^ 32) (fuel : Nat)
    (msg : msg_t) (post : List UInt8) (h : msg.remaining = string_bytes s ++ post) :
    msg_decode (fuel + 1) msg = .ok (.string s, msg.advance (string_bytes s).length) := by
  rw [string_bytes_eq] at h ⊢
  have tagged : ∀ (t : UInt8) (w : Nat), w ≤ 8 → s.length < 256 ^ w →
      (∀ d m, msg_decode_switch d t m = msg_decode_str m w) →
      msg.remaining = (t :: big_endian s.length w) ++ s ++ post →
      msg_decode (fuel + 1) msg =
        .ok (.string s, msg.advance ((t :: big_endian s.length w) ++ s).length) := by
    intro t w hw hn hsw hr
    have hr2 : msg.remaining = t :: (big_endian s.length w ++ (s ++ post)) := by
      rw [hr]; simp
    have e : 1 + (w + s.length) = ((t :: big_endian s.length w) ++ s).length := by
      simp [big_endian_length]; omega
    rw [decode_step hr2, hsw, decode_str_header w s post _ (remaining_cons_advance hr2) hn hw,
      advance_advance, e]
  by_cases hv : valid_utf8 s = true
  · rw [if_pos hv] at h ⊢
    by_cases h1 : s.length ≤ 0x1f
    · rw [if_pos h1] at h ⊢
      have ht : (C.to_uint8 (0xa0 + (s.length : Int))).toNat = 0xa0 + s.length := by
        unfold C.to_uint8; rw [uint8_toNat_ofNat]; omega
      have hr2 : msg.remaining = C.to_uint8 (0xa0 + (s.length : Int)) :: (s ++ post) := by
        rw [h]; simp
      rw [decode_step hr2, switch_fixstr _ _ _ (by rw [ht]; omega) (by rw [ht]; omega), ht,
        show 0xa0 + s.length - 0xa0 = s.length by omega,
        read_str_append s post (remaining_cons_advance hr2), advance_advance,
        show 1 + s.length = ([C.to_uint8 (0xa0 + (s.length : Int))] ++ s).length by simp; omega]
    rw [if_neg h1] at h ⊢
    by_cases h2 : s.length ≤ 0xff
    · rw [if_pos h2] at h ⊢
      exact tagged 0xd9 1 (by omega) (by norm_num; omega) (fun _ _ => rfl) h
    rw [if_neg h2] at h ⊢
    by_cases h3 : s.length ≤ 0xffff
    · rw [if_pos h3] at h ⊢
      exact tagged 0xda 2 (by omega) (by norm_num; omega) (fun _ _ => rfl) h
    rw [if_neg h3] at h ⊢
    exact tagged 0xdb 4 (by omega) (by norm_num; omega) (fun _ _ => rfl) h
  · rw [if_neg hv] at h ⊢
    by_cases h2 : s.length ≤ 0xff
    · rw [if_pos h2] at h ⊢
      exact tagged 0xc4 1 (by omega) (by norm_num; omega) (fun _ _ => rfl) h
    rw [if_neg h2] at h ⊢
    by_cases h3 : s.length ≤ 0xffff
    · rw [if_pos h3] at h ⊢
      exact tagged 0xc5 2 (by omega) (by norm_num; omega) (fun _ _ => rfl) h
    rw [if_neg h3] at h ⊢
    exact tagged 0xc6 4 (by omega) (by norm_num; omega) (fun _ _ => rfl) h
theorem decode_array_header (n : Nat) (hn : n < 2 ^ 31) (fuel : Nat) (msg : msg_t)
    (rest : List UInt8) (h : msg.remaining = array_header n ++ rest) :
    msg_decode (fuel + 1) msg =
      decode_array (msg_decode fuel) (msg.advance (array_header n).length) (n : Int) := by
  unfold array_header at h ⊢
  have tagged : ∀ (t : UInt8) (w : Nat), (w = 2 ∨ w = 4) → n < 256 ^ w →
      (∀ d m, msg_decode_switch d t m = msg_decode_array d m w) →
      msg.remaining = (t :: big_endian n w) ++ rest →
      msg_decode (fuel + 1) msg =
        decode_array (msg_decode fuel) (msg.advance (t :: big_endian n w).length) (n : Int) := by
    intro t w hw hnw hsw hr
    have hr2 : msg.remaining = t :: (big_endian n w ++ rest) := hr
    have h1 := @read_int_append (msg.advance 1) (big_endian n w) rest
      (remaining_cons_advance hr2) (by rw [big_endian_length]; omega)
    rw [big_endian_length, big_endian_unsigned _ _ hnw] at h1
    rw [decode_step hr2, hsw]
    unfold msg_decode_array
    rw [h1]
    simp only []
    have e : C.to_int32 (if w = 2 then C.to_uint16 (n : Int) else C.to_uint32 (n : Int)) = n := by
      rcases hw with hw | hw
      · rw [if_pos hw]; subst hw
        have : n < 65536 := by simpa using hnw
        unfold C.to_int32 C.to_uint16; omega
      · rw [if_neg (by omega)]
        unfold C.to_int32 C.to_uint32; omega
    rw [e, advance_advance, show (t :: big_endian n w).length = 1 + w by
      simp [big_endian_length]; omega]
  by_cases h1 : n ≤ 15
  · rw [if_pos h1] at h ⊢
    have ht : (UInt8.ofNat (0x90 + n)).toNat = 0x90 + n := by rw [uint8_toNat_ofNat]; omega
    have hr2 : msg.remaining = UInt8.ofNat (0x90 + n) :: rest := h
    rw [decode_step hr2, switch_fixarray _ _ _ (by rw [ht]; omega) (by rw [ht]; omega), ht]
    simp
  rw [if_neg h1] at h ⊢
  by_cases h2 : n ≤ 65535
  · rw [if_pos h2] at h ⊢
    exact tagged 0xdc 2 (Or.inl rfl) (by norm_num; omega) (fun _ _ => rfl) h
  rw [if_neg h2] at h ⊢
  exact tagged 0xdd 4 (Or.inr rfl) (by norm_num; omega) (fun _ _ => rfl) h

theorem decode_map_header (n : Nat) (hn : n < 2 ^ 31) (fuel : Nat) (msg : msg_t)
    (rest : List UInt8) (h : msg.remaining = map_header n ++ rest) :
    msg_decode (fuel + 1) msg =
      decode_map (msg_decode fuel) (msg.advance (map_header n).length) (n : Int) := by
  unfold map_header at h ⊢
  have tagged : ∀ (t : UInt8) (w : Nat), (w = 2 ∨ w = 4) → n < 256 ^ w →
      (∀ d m, msg_decode_switch d t m = msg_decode_map d m w) →
      msg.remaining = (t :: big_endian n w) ++ rest →
      msg_decode (fuel + 1) msg =
        decode_map (msg_decode fuel) (msg.advance (t :: big_endian n w).length) (n : Int) := by
    intro t w hw hnw hsw hr
    have hr2 : msg.remaining = t :: (big_endian n w ++ rest) := hr
    have h1 := @read_int_append (msg.advance 1) (big_endian n w) rest
      (remaining_cons_advance hr2) (by rw [big_endian_length]; omega)
    rw [big_endian_length, big_endian_unsigned _ _ hnw] at h1
    rw [decode_step hr2, hsw]
    unfold msg_decode_map
    rw [h1]
    simp only []
    have e : C.to_int32 (if w = 2 then C.to_uint16 (n : Int) else C.to_uint32 (n : Int)) = n := by
      rcases hw with hw | hw
      · rw [if_pos hw]; subst hw
        have : n < 65536 := by simpa using hnw
        unfold C.to_int32 C.to_uint16; omega
      · rw [if_neg (by omega)]
        unfold C.to_int32 C.to_uint32; omega
    rw [e, advance_advance, show (t :: big_endian n w).length = 1 + w by
      simp [big_endian_length]; omega]
  by_cases h1 : n ≤ 15
  · rw [if_pos h1] at h ⊢
    have ht : (UInt8.ofNat (0x80 + n)).toNat = 0x80 + n := by rw [uint8_toNat_ofNat]; omega
    have hr2 : msg.remaining = UInt8.ofNat (0x80 + n) :: rest := h
    rw [decode_step hr2, switch_fixmap _ _ _ (by rw [ht]; omega) (by rw [ht]; omega), ht]
    simp
  rw [if_neg h1] at h ⊢
  by_cases h2 : n ≤ 65535
  · rw [if_pos h2] at h ⊢
    exact tagged 0xde 2 (Or.inl rfl) (by norm_num; omega) (fun _ _ => rfl) h
  rw [if_neg h2] at h ⊢
  exact tagged 0xdf 4 (Or.inr rfl) (by norm_num; omega) (fun _ _ => rfl) h
theorem table_set_append (t : List (LuaValue × LuaValue)) (k v : LuaValue)
    (hk : normalize_key k = k) (hv : is_nil v = false)
    (hfresh : ∀ e ∈ t, lua_rawequal e.1 k = false) : table_set t k v = t ++ [(k, v)] := by
  have hany : t.any (fun e => lua_rawequal e.1 k) = false := by
    rw [List.any_eq_false]
    intro e he
    simp [hfresh e he]
  unfold table_set
  rw [hk]
  cases v <;> first | (simp [hany]; done) | (simp [is_nil] at hv)

theorem normalize_plain (k : LuaValue) (h : is_plain k = true) : normalize_key k = k := by
  cases k <;> first | rfl | simp [is_plain] at h

theorem rawset_append (t : List (LuaValue × LuaValue)) (k v : LuaValue)
    (hp : is_plain k = true) (hkn : is_nil k = false) (hv : is_nil v = false)
    (hfresh : ∀ e ∈ t, lua_rawequal e.1 k = false) : lua_rawset t k v = .ok (t ++ [(k, v)]) := by
  have := table_set_append t k v (normalize_plain k hp) hv hfresh
  cases k <;> first
    | (simp [lua_rawset, this]; done)
    | (simp [is_nil] at hkn; done)
    | (simp [is_plain] at hp)

theorem rawseti_append (t : List (LuaValue × LuaValue)) (i : Int) (v : LuaValue)
    (hv : is_nil v = false) (hfresh : ∀ e ∈ t, ∃ j, e.1 = .integer j ∧ j < i) :
    lua_rawseti t i v = t ++ [(.integer i, v)] := by
  unfold lua_rawseti
  apply table_set_append _ _ _ rfl hv
  intro e he
  obtain ⟨j, hj, hlt⟩ := hfresh e he
  rw [hj]
  simp [lua_rawequal]
  omega

theorem all_values_local (p : LuaValue → Bool) (v : LuaValue) (h : all_values p v = true) :
    p v = true := by
  cases v <;> simp only [all_values, Bool.and_eq_true] at h <;> first | exact h | exact h.1

theorem count_flag_keys (es : List (LuaValue × LuaValue)) : ∀ (index : Int),
    (count_table_loop es index true).2 = true → 0 ≤ index → index + es.length ≤ 2 ^ 31 →
    (∀ e ∈ es, lua_isinteger e.1 = true) → keys_from es index := by
  induction es with
  | nil => intro index _ _ _ _; trivial
  | cons e es ih =>
    intro index hf h0 hl hint
    obtain ⟨k, v⟩ := e
    simp only [count_table_loop] at hf
    have hk : lua_tointeger k = index := by
      by_contra hne
      have : (true && (lua_tointeger k != index)) = true := by simpa using hne
      rw [if_pos this, count_loop_nil_flag] at hf
      cases hf
    have hki := hint (k, v) (by simp)
    have hkey : k = .integer index := by
      cases k <;> simp [lua_isinteger] at hki
      simpa [lua_tointeger] using hk
    have hf2 : (count_table_loop es (C.to_int32 (index + 1)) true).2 = true := by
      have : (true && (lua_tointeger k != index)) = false := by simp [hk]
      rw [this] at hf
      simpa using hf
    refine ⟨hkey, ?_⟩
    cases es with
    | nil => trivial
    | cons e2 es2 =>
      simp only [List.length_cons] at hl
      have e32 : C.to_int32 (index + 1) = index + 1 := by
        unfold C.to_int32
        push_cast at hl
        omega
      rw [e32] at hf2
      exact ih (index + 1) hf2 (by omega) (by simp only [List.length_cons]; push_cast at hl ⊢; omega)
        (fun e he => hint e (by simp [he]))
theorem integer_bytes_pos (i : Int) : 0 < (integer_bytes i).length := by
  rw [integer_bytes_eq]
  repeat' split
  all_goals simp

theorem string_bytes_pos (s : List UInt8) : 0 < (string_bytes s).length := by
  rw [string_bytes_eq]
  repeat' split
  all_goals simp

theorem array_header_pos (n : Nat) : 0 < (array_header n).length := by
  unfold array_header
  repeat' split
  all_goals simp

theorem map_header_pos (n : Nat) : 0 < (map_header n).length := by
  unfold map_header
  repeat' split
  all_goals simp

theorem fuel_succ {fuel n : Nat} (h : n ≤ fuel) (hn : 0 < n) : ∃ f, fuel = f + 1 :=
  ⟨fuel - 1, by omega⟩

theorem table_local (es : List (LuaValue × LuaValue))
    (h : round_trip_local (.table es) = true) :
    es.length < 2 ^ 31 ∧ (∀ e ∈ es, is_nil e.1 = false ∧ is_nil e.2 = false) ∧
    es.Pairwise (fun a b => lua_rawequal a.1 b.1 = false) ∧
    (count_table es < 0 ∨ ∀ e ∈ es, lua_isinteger e.1 = true) := by
  simp only [round_trip_local, is_plain, lua_invariant, within_limits, array_keys_exact,
    Bool.and_eq_true, Bool.or_eq_true, decide_eq_true_eq, List.all_eq_true, Bool.true_and,
    Bool.not_eq_true'] at h
  exact ⟨h.1.2, h.1.1.1, h.1.1.2, h.2⟩

mutual
theorem round_trip_value : ∀ (v : LuaValue), all_values round_trip_local v = true →
    ∃ bs, encoding v = .ok bs ∧ 0 < bs.length ∧
      ∀ (fuel : Nat) (msg : msg_t) (post : List UInt8), msg.remaining = bs ++ post →
        bs.length ≤ fuel → msg_decode fuel msg = .ok (v, msg.advance bs.length)
  | .nil, _ => ⟨[0xc0], rfl, by simp, fun fuel msg post h hf => by
      obtain ⟨f, rfl⟩ := fuel_succ hf (by simp)
      rw [decode_step h]; rfl⟩
  | .boolean true, _ => ⟨[0xc3], rfl, by simp, fun fuel msg post h hf => by
      obtain ⟨f, rfl⟩ := fuel_succ hf (by simp)
      rw [decode_step h]; rfl⟩
  | .boolean false, _ => ⟨[0xc2], rfl, by simp, fun fuel msg post h hf => by
      obtain ⟨f, rfl⟩ := fuel_succ hf (by simp)
      rw [decode_step h]; rfl⟩
  | .integer i, hg => by
    have hr : -2 ^ 63 ≤ i ∧ i < 2 ^ 63 := by
      simpa [all_values, round_trip_local, is_plain, lua_invariant, within_limits,
        array_keys_exact] using hg
    refine ⟨integer_bytes i, rfl, integer_bytes_pos i, fun fuel msg post h hf => ?_⟩
    obtain ⟨f, rfl⟩ := fuel_succ hf (integer_bytes_pos i)
    exact decode_integer_bytes i hr.1 hr.2 f msg post h
  | .float _, hg => by
    simp [all_values, round_trip_local, is_plain] at hg
  | .other _, hg => by
    simp [all_values, round_trip_local, is_plain] at hg
  | .string s, hg => by
    have hr : s.length < 2 ^ 32 := by
      simpa [all_values, round_trip_local, is_plain, lua_invariant, within_limits,
        array_keys_exact] using hg
    refine ⟨string_bytes s, rfl, string_bytes_pos s, fun fuel msg post h hf => ?_⟩
    obtain ⟨f, rfl⟩ := fuel_succ hf (string_bytes_pos s)
    exact decode_string_bytes s hr f msg post h
  | .table es, hg => by
    simp only [all_values, Bool.and_eq_true] at hg
    obtain ⟨hloc, hall⟩ := hg
    obtain ⟨hn, hnn, hpw, hak⟩ := table_local es hloc
    by_cases hc : count_table es ≥ 0
    · obtain ⟨bs, hbs, hdec⟩ := round_trip_values es hall
      have hcount : count_table es = es.length ∧ (count_table_loop es 1 true).2 = true := by
        rcases count_table_abs es hn with h1 | ⟨h1, _, h3⟩
        · exact h1
        · omega
      have hkeys : keys_from es 1 :=
        count_flag_keys es 1 hcount.2 (by omega) (by omega) (by
          rcases hak with h1 | h1
          · omega
          · exact h1)
      refine ⟨array_header es.length ++ bs, ?_, by simp [array_header_pos],
        fun fuel msg post h hf => ?_⟩
      · simp only [encoding, if_pos hc, hbs]
        rw [hcount.1, table_header_array _ hn]
      · obtain ⟨f, rfl⟩ := fuel_succ hf (by simp [array_header_pos])
        rw [List.append_assoc] at h
        rw [decode_array_header es.length hn f msg _ h]
        unfold decode_array
        rw [Int.toNat_ofNat]
        have hrem : (msg.advance (array_header es.length).length).remaining = bs ++ post := by
          rw [remaining_advance, h, List.drop_left]
        have hpos := array_header_pos es.length
        rw [hdec f _ post 1 [] hrem (by simp at hf; omega) hkeys (fun e he => (hnn e he).2)
          (by simp), advance_advance]
        simp
    · obtain ⟨bs, hbs, hdec⟩ := round_trip_pairs es hall
      have hcount : count_table es = -(es.length : Int) ∧ 0 < es.length := by
        rcases count_table_abs es hn with ⟨h1, _⟩ | ⟨h1, _, h3⟩
        · omega
        · exact ⟨h1, h3⟩
      refine ⟨map_header es.length ++ bs, ?_, by simp [map_header_pos],
        fun fuel msg post h hf => ?_⟩
      · simp only [encoding, if_neg hc, hbs]
        rw [hcount.1, table_header_map _ hcount.2 hn]
      · obtain ⟨f, rfl⟩ := fuel_succ hf (by simp [map_header_pos])
        rw [List.append_assoc] at h
        rw [decode_map_header es.length hn f msg _ h]
        unfold decode_map
        rw [Int.toNat_ofNat]
        have hrem : (msg.advance (map_header es.length).length).remaining = bs ++ post := by
          rw [remaining_advance, h, List.drop_left]
        have hpos := map_header_pos es.length
        rw [hdec f _ post [] hrem (by simp at hf; omega) hnn (by simpa using hpw),
          advance_advance]
        simp
theorem round_trip_values : ∀ (es : List (LuaValue × LuaValue)),
    all_entries round_trip_local es = true →
    ∃ bs, encoding_values es = .ok bs ∧
      ∀ (fuel : Nat) (msg : msg_t) (post : List UInt8) (i : Int)
        (t : List (LuaValue × LuaValue)), msg.remaining = bs ++ post → bs.length ≤ fuel →
        keys_from es i → (∀ e ∈ es, is_nil e.2 = false) →
        (∀ e ∈ t, ∃ j, e.1 = .integer j ∧ j < i) →
        decode_array_loop (msg_decode fuel) es.length i t msg =
          .ok (.table (t ++ es), msg.advance bs.length)
  | [], _ => ⟨[], rfl, fun fuel msg post i t _ _ _ _ _ => by
      simp [decode_array_loop, advance_zero]⟩
  | (k, v) :: rest, hg => by
    simp only [all_entries, Bool.and_eq_true] at hg
    obtain ⟨⟨_, hv⟩, hrest⟩ := hg
    obtain ⟨b, hb, _, hdv⟩ := round_trip_value v hv
    obtain ⟨bs, hbs, hdr⟩ := round_trip_values rest hrest
    refine ⟨b ++ bs, by simp only [encoding_values, hb, hbs], ?_⟩
    intro fuel msg post i t h hf hkeys hnn ht
    obtain ⟨hk, hkr⟩ := hkeys
    subst hk
    rw [List.append_assoc] at h
    simp only [List.length_cons, decode_array_loop]
    rw [hdv fuel msg _ h (by simp at hf; omega)]
    simp only []
    rw [rawseti_append t i v (hnn _ (List.mem_cons_self _ _)) ht]
    have hrem : (msg.advance b.length).remaining = bs ++ post := by
      rw [remaining_advance, h, List.drop_left]
    rw [hdr fuel _ post (i + 1) _ hrem (by simp at hf; omega) hkr
      (fun e he => hnn e (by simp [he])) (by
        intro e he
        rcases List.mem_append.1 he with h1 | h1
        · obtain ⟨j, hj, hlt⟩ := ht e h1
          exact ⟨j, hj, by omega⟩
        · simp at h1
          exact ⟨i, by rw [h1], by omega⟩), advance_advance]
    simp
theorem round_trip_pairs : ∀ (es : List (LuaValue × LuaValue)),
    all_entries round_trip_local es = true →
    ∃ bs, encoding_pairs es = .ok bs ∧
      ∀ (fuel : Nat) (msg : msg_t) (post : List UInt8) (t : List (LuaValue × LuaValue)),
        msg.remaining = bs ++ post → bs.length ≤ fuel →
        (∀ e ∈ es, is_nil e.1 = false ∧ is_nil e.2 = false) →
        (t ++ es).Pairwise (fun a b => lua_rawequal a.1 b.1 = false) →
        decode_map_loop (msg_decode fuel) es.length t msg =
          .ok (.table (t ++ es), msg.advance bs.length)
  | [], _ => ⟨[], rfl, fun fuel msg post t _ _ _ _ => by
      simp [decode_map_loop, advance_zero]⟩
  | (k, v) :: rest, hg => by
    simp only [all_entries, Bool.and_eq_true] at hg
    obtain ⟨⟨hk, hv⟩, hrest⟩ := hg
    obtain ⟨bk, hbk, _, hdk⟩ := round_trip_value k hk
    obtain ⟨bv, hbv, _, hdv⟩ := round_trip_value v hv
    obtain ⟨bs, hbs, hdr⟩ := round_trip_pairs rest hrest
    refine ⟨bk ++ bv ++ bs, by simp only [encoding_pairs, hbk, hbv, hbs], ?_⟩
    intro fuel msg post t h hf hnn hpw
    have hkp : is_plain k = true := by
      have := all_values_local _ _ hk
      simp only [round_trip_local, Bool.and_eq_true] at this
      exact this.1.1.1
    have h1 : msg.remaining = bk ++ (bv ++ (bs ++ post)) := by rw [h]; simp
    simp only [List.length_cons, decode_map_loop]
    rw [hdk fuel msg _ h1 (by simp at hf; omega)]
    simp only []
    have hrem1 : (msg.advance bk.length).remaining = bv ++ (bs ++ post) := by
      rw [remaining_advance, h1, List.drop_left]
    rw [hdv fuel _ _ hrem1 (by simp at hf; omega)]
    simp only []
    have hfresh : ∀ e ∈ t, lua_rawequal e.1 k = false := by
      intro e he
      have := List.pairwise_append.1 hpw
      exact this.2.2 e he (k, v) (by simp)
    rw [rawset_append t k v hkp (hnn _ (List.mem_cons_self _ _)).1
      (hnn _ (List.mem_cons_self _ _)).2 hfresh]
    simp only []
    have hrem2 : ((msg.advance bk.length).advance bv.length).remaining = bs ++ post := by
      rw [remaining_advance, hrem1, List.drop_left]
    rw [hdr fuel _ post _ hrem2 (by simp at hf; omega) (fun e he => hnn e (by simp [he]))
      (by simpa using hpw), advance_advance, advance_advance]
    simp [Nat.add_assoc]
end
mutual
theorem all_values_and (p q : LuaValue → Bool) : ∀ (v : LuaValue),
    all_values (fun x => p x && q x) v = (all_values p v && all_values q v)
  | .nil => rfl
  | .boolean _ => rfl
  | .integer _ => rfl
  | .float _ => rfl
  | .string _ => rfl
  | .other _ => rfl
  | .table es => by
    simp only [all_values, all_entries_and p q es]
    cases p (.table es) <;> cases q (.table es) <;> cases all_entries p es <;>
      cases all_entries q es <;> rfl
theorem all_entries_and (p q : LuaValue → Bool) : ∀ (es : List (LuaValue × LuaValue)),
    all_entries (fun x => p x && q x) es = (all_entries p es && all_entries q es)
  | [] => rfl
  | (k, v) :: rest => by
    simp only [all_entries, all_values_and p q k, all_values_and p q v, all_entries_and p q rest]
    cases all_values p k <;> cases all_values q k <;> cases all_values p v <;>
      cases all_values q v <;> cases all_entries p rest <;> cases all_entries q rest <;> rfl
end

theorem switch_cases_strict (decode : msg_t → Except MsgError (LuaValue × msg_t)) (b : UInt8)
    (msg : msg_t) :
    (∃ v, msg_decode_switch decode b msg = .ok (v, msg)) ∨
    (∃ w, msg_decode_switch decode b msg = msg_decode_str msg w) ∨
    (∃ w, msg_decode_switch decode b msg = msg_decode_float msg w) ∨
    (∃ w conv, msg_decode_switch decode b msg = msg_decode_int msg w conv) ∨
    (∃ n, msg_decode_switch decode b msg = msg_read_str msg n) ∨
    (is_container_code b ∧ ∃ items, msg_decode_switch decode b msg = decode_array decode msg items) ∨
    (is_container_code b ∧ ∃ items, msg_decode_switch decode b msg = decode_map decode msg items) ∨
    (is_container_code b ∧ ∃ w, msg_decode_switch decode b msg = msg_decode_array decode msg w) ∨
    (is_container_code b ∧ ∃ w, msg_decode_switch decode b msg = msg_decode_map decode msg w) ∨
    (b ∈ unsupported_codes ∧ msg_decode_switch decode b msg = .error (.invalid_code b)) := by
  unfold msg_decode_switch
  simp only []
  by_cases h0 : b.toNat = 0xc0
  · rw [if_pos h0]; exact Or.inl ⟨_, rfl⟩
  rw [if_neg h0]
  by_cases h1 : b.toNat = 0xc2
  · rw [if_pos h1]; exact Or.inl ⟨_, rfl⟩
  rw [if_neg h1]
  by_cases h2 : b.toNat = 0xc3
  · rw [if_pos h2]; exact Or.inl ⟨_, rfl⟩
  rw [if_neg h2]
  by_cases h3 : b.toNat = 0xc4 ∨ b.toNat = 0xd9
  · rw [if_pos h3]; exact Or.inr (Or.inl ⟨_, rfl⟩)
  rw [if_neg h3]
  by_cases h4 : b.toNat = 0xc5 ∨ b.toNat = 0xda
  · rw [if_pos h4]; exact Or.inr (Or.inl ⟨_, rfl⟩)
  rw [if_neg h4]
  by_cases h5 : b.toNat = 0xc6 ∨ b.toNat = 0xdb
  · rw [if_pos h5]; exact Or.inr (Or.inl ⟨_, rfl⟩)
  rw [if_neg h5]
  by_cases h6 : b.toNat = 0xca
  · rw [if_pos h6]; exact Or.inr (Or.inr (Or.inl ⟨_, rfl⟩))
  rw [if_neg h6]
  by_cases h7 : b.toNat = 0xcb
  · rw [if_pos h7]; exact Or.inr (Or.inr (Or.inl ⟨_, rfl⟩))
  rw [if_neg h7]
  by_cases h8 : b.toNat = 0xcc
  · rw [if_pos h8]; exact Or.inr (Or.inr (Or.inr (Or.inl ⟨_, _, rfl⟩)))
  rw [if_neg h8]
  by_cases h9 : b.toNat = 0xcd
  · rw [if_pos h9]; exact Or.inr (Or.inr (Or.inr (Or.inl ⟨_, _, rfl⟩)))
  rw [if_neg h9]
  by_cases h10 : b.toNat = 0xce
  · rw [if_pos h10]; exact Or.inr (Or.inr (Or.inr (Or.inl ⟨_, _, rfl⟩)))
  rw [if_neg h10]
  by_cases h11 : b.toNat = 0xcf
  · rw [if_pos h11]; exact Or.inr (Or.inr (Or.inr (Or.inl ⟨_, _, rfl⟩)))
  rw [if_neg h11]
  by_cases h12 : b.toNat = 0xd0
  · rw [if_pos h12]; exact Or.inr (Or.inr (Or.inr (Or.inl ⟨_, _, rfl⟩)))
  rw [if_neg h12]
  by_cases h13 : b.toNat = 0xd1
  · rw [if_pos h13]; exact Or.inr (Or.inr (Or.inr (Or.inl ⟨_, _, rfl⟩)))
  rw [if_neg h13]
  by_cases h14 : b.toNat = 0xd2
  · rw [if_pos h14]; exact Or.inr (Or.inr (Or.inr (Or.inl ⟨_, _, rfl⟩)))
  rw [if_neg h14]
  by_cases h15 : b.toNat = 0xd3
  · rw [if_pos h15]; exact Or.inr (Or.inr (Or.inr (Or.inl ⟨_, _, rfl⟩)))
  rw [if_neg h15]
  by_cases h16 : b.toNat = 0xdc
  · rw [if_pos h16]
    exact Or.inr (Or.inr (Or.inr (Or.inr (Or.inr (Or.inr (Or.inr (Or.inl ⟨by unfold is_container_code; omega, _, rfl⟩)))))))
  rw [if_neg h16]
  by_cases h17 : b.toNat = 0xdd
  · rw [if_pos h17]
    exact Or.inr (Or.inr (Or.inr (Or.inr (Or.inr (Or.inr (Or.inr (Or.inl ⟨by unfold is_container_code; omega, _, rfl⟩)))))))
  rw [if_neg h17]
  by_cases h18 : b.toNat = 0xde
  · rw [if_pos h18]
    exact Or.inr (Or.inr (Or.inr (Or.inr (Or.inr (Or.inr (Or.inr (Or.inr (Or.inl ⟨by unfold is_container_code; omega, _, rfl⟩))))))))
  rw [if_neg h18]
  by_cases h19 : b.toNat = 0xdf
  · rw [if_pos h19]
    exact Or.inr (Or.inr (Or.inr (Or.inr (Or.inr (Or.inr (Or.inr (Or.inr (Or.inl ⟨by unfold is_container_code; omega, _, rfl⟩))))))))
  rw [if_neg h19]
  by_cases h20 : b.toNat ≤ 0x7f
  · rw [if_pos h20]; exact Or.inl ⟨_, rfl⟩
  rw [if_neg h20]
  by_cases h21 : b.toNat ≤ 0x8f
  · rw [if_pos h21]
    exact Or.inr (Or.inr (Or.inr (Or.inr (Or.inr (Or.inr (Or.inl
      ⟨by unfold is_container_code; omega, _, rfl⟩))))))
  rw [if_neg h21]
  by_cases h22 : b.toNat ≤ 0x9f
  · rw [if_pos h22]
    exact Or.inr (Or.inr (Or.inr (Or.inr (Or.inr (Or.inl
      ⟨by unfold is_container_code; omega, _, rfl⟩)))))
  rw [if_neg h22]
  by_cases h23 : b.toNat ≤ 0xbf
  · rw [if_pos h23]; exact Or.inr (Or.inr (Or.inr (Or.inr (Or.inl ⟨_, rfl⟩))))
  rw [if_neg h23]
  by_cases h24 : b.toNat ≥ 0xe0
  · rw [if_pos h24]; exact Or.inl ⟨_, rfl⟩
  rw [if_neg h24]
  refine Or.inr (Or.inr (Or.inr (Or.inr (Or.inr (Or.inr (Or.inr (Or.inr (Or.inr ⟨?_, rfl⟩))))))))
  have hb : b.toNat = 0xc1 ∨ b.toNat = 0xc7 ∨ b.toNat = 0xc8 ∨ b.toNat = 0xc9 ∨ b.toNat = 0xd4 ∨
      b.toNat = 0xd5 ∨ b.toNat = 0xd6 ∨ b.toNat = 0xd7 ∨ b.toNat = 0xd8 := by omega
  rcases hb with hb | hb | hb | hb | hb | hb | hb | hb | hb <;>
    rw [uint8_eq_of_toNat_eq (a := b) (show b.toNat = (UInt8.ofNat b.toNat).toNat by
      rw [uint8_ofNat_toNat]), hb] <;> decide

theorem rawset_error {t : List (LuaValue × LuaValue)} {k v : LuaValue} {e : LuaError}
    (h : lua_rawset t k v = .error e) : e = .index_is_nil ∨ e = .index_is_nan := by
  cases k with
  | nil => simp only [lua_rawset] at h; injection h with h; exact Or.inl h.symm
  | float bits =>
    simp only [lua_rawset] at h
    split at h
    · injection h with h; exact Or.inr h.symm
    · cases h
  | boolean b => cases h
  | integer i => cases h
  | string s => cases h
  | table es => cases h
  | other o => cases h

theorem array_loop_error {decode : msg_t → Except MsgError (LuaValue × msg_t)}
    {P : MsgError → Prop} (hd : ∀ m e, decode m = .error e → P e) (r : Nat) :
    ∀ (i : Int) (t : List (LuaValue × LuaValue)) (msg : msg_t) (e : MsgError),
    decode_array_loop decode r i t msg = .error e → P e := by
  induction r with
  | zero => intro i t msg e h; cases h
  | succ r ih =>
    intro i t msg e h
    simp only [decode_array_loop] at h
    cases h1 : decode msg with
    | error e1 => rw [h1] at h; injection h with h; rw [← h]; exact hd _ _ h1
    | ok q =>
      obtain ⟨v, m1⟩ := q
      rw [h1] at h
      exact ih _ _ _ _ h

theorem map_loop_error {decode : msg_t → Except MsgError (LuaValue × msg_t)}
    {P : MsgError → Prop} (hd : ∀ m e, decode m = .error e → P e)
    (hnil : P (.lua .index_is_nil)) (hnan : P (.lua .index_is_nan)) (r : Nat) :
    ∀ (t : List (LuaValue × LuaValue)) (msg : msg_t) (e : MsgError),
    decode_map_loop decode r t msg = .error e → P e := by
  induction r with
  | zero => intro t msg e h; cases h
  | succ r ih =>
    intro t msg e h
    simp only [decode_map_loop] at h
    cases h1 : decode msg with
    | error e1 => rw [h1] at h; injection h with h; rw [← h]; exact hd _ _ h1
    | ok q =>
      obtain ⟨k, m1⟩ := q
      rw [h1] at h
      simp only [] at h
      cases h2 : decode m1 with
      | error e2 => rw [h2] at h; injection h with h; rw [← h]; exact hd _ _ h2
      | ok q2 =>
        obtain ⟨v, m2⟩ := q2
        rw [h2] at h
        simp only [] at h
        cases h3 : lua_rawset t k v with
        | error e3 =>
          rw [h3] at h
          injection h with h
          rw [← h]
          rcases rawset_error h3 with rfl | rfl
          · exact hnil
          · exact hnan
        | ok t2 =>
          rw [h3] at h
          exact ih _ _ _ h

theorem switch_error {decode : msg_t → Except MsgError (LuaValue × msg_t)}
    {P : MsgError → Prop} (hd : ∀ m e, decode m = .error e → P e)
    (hnil : P (.lua .index_is_nil)) (hnan : P (.lua .index_is_nan)) {b : UInt8} {msg : msg_t}
    {e : MsgError} (h : msg_decode_switch decode b msg = .error e) :
    e = .more_bytes ∨ (is_container_code b ∧ P e) ∨
      (b ∈ unsupported_codes ∧ e = .invalid_code b) := by
  rcases switch_cases_strict decode b msg with ⟨v0, e0⟩ | ⟨w, e0⟩ | ⟨w, e0⟩ | ⟨w, conv, e0⟩ |
    ⟨n, e0⟩ | ⟨hc, items, e0⟩ | ⟨hc, items, e0⟩ | ⟨hc, w, e0⟩ | ⟨hc, w, e0⟩ | ⟨hu, e0⟩ <;>
    rw [e0] at h
  · cases h
  · exact Or.inl (decode_str_error h)
  · exact Or.inl (decode_float_error h)
  · exact Or.inl (decode_int_error h)
  · exact Or.inl (read_str_error h)
  · exact Or.inr (Or.inl ⟨hc, array_loop_error hd _ _ _ _ _ h⟩)
  · exact Or.inr (Or.inl ⟨hc, map_loop_error hd hnil hnan _ _ _ _ h⟩)
  · unfold msg_decode_array at h
    cases h1 : msg_read_int msg w with
    | error e1 => rw [h1] at h; injection h with h; rw [← h]; exact Or.inl (read_int_error h1)
    | ok q =>
      obtain ⟨len, m1⟩ := q
      rw [h1] at h
      exact Or.inr (Or.inl ⟨hc, array_loop_error hd _ _ _ _ _ h⟩)
  · unfold msg_decode_map at h
    cases h1 : msg_read_int msg w with
    | error e1 => rw [h1] at h; injection h with h; rw [← h]; exact Or.inl (read_int_error h1)
    | ok q =>
      obtain ⟨len, m1⟩ := q
      rw [h1] at h
      exact Or.inr (Or.inl ⟨hc, map_loop_error hd hnil hnan _ _ _ _ h⟩)
  · injection h with h
    exact Or.inr (Or.inr ⟨hu, h.symm⟩)

/-- Every error of `msg_decode` is the truncated-input error, the error of a
value inside a container, a code that is not supported, or the end of the fuel. -/
theorem decode_error_kind (fuel : Nat) : ∀ (msg : msg_t) (e : MsgError),
    msg_decode fuel msg = .error e → e = .more_bytes ∨ NestedError e ∨ e = .out_of_fuel := by
  induction fuel with
  | zero => intro msg e h; injection h with h; exact Or.inr (Or.inr h.symm)
  | succ fuel ih =>
    intro msg e h
    simp only [msg_decode] at h
    cases h1 : msg_read msg with
    | error e1 => rw [h1] at h; injection h with h; rw [← h]; exact Or.inl (read_error h1)
    | ok q =>
      obtain ⟨b, m1⟩ := q
      rw [h1] at h
      simp only [] at h
      rcases switch_error ih (Or.inr (Or.inl (Or.inr (Or.inl rfl))))
        (Or.inr (Or.inl (Or.inr (Or.inr rfl)))) h with h2 | ⟨_, h2⟩ | ⟨hu, h2⟩
      · exact Or.inl h2
      · exact h2
      · exact Or.inr (Or.inl (Or.inl ⟨b, hu, h2⟩))

theorem continuation_count_le (b : UInt8) : continuation_count b ≤ utf8_table b := by
  unfold continuation_count utf8_table
  split_ifs <;> omega

/-- A lead byte with too few bytes after it is rejected. -/
theorem valid_utf8_short (fuel : Nat) (b : UInt8) (cs : List UInt8)
    (h : cs.length < continuation_count b) : valid_utf8_loop fuel (b :: cs) = false := by
  cases fuel with
  | zero => rfl
  | succ fuel =>
    have h1 := continuation_count_le b
    simp only [valid_utf8_loop]
    rw [if_pos (Or.inr (by omega))]

theorem units_cons_inv {b : UInt8} {l : List UInt8} (h : Utf8Units (b :: l)) :
    (b.toNat ≤ 0x7f ∧ Utf8Units l) ∨
    (0xc2 ≤ b.toNat ∧ b.toNat ≤ 0xdf ∧ ∃ c1 r, l = c1 :: r ∧ Utf8Units r) ∨
    (0xe0 ≤ b.toNat ∧ b.toNat ≤ 0xef ∧ ∃ c1 c2 r, l = c1 :: c2 :: r ∧ Utf8Units r) ∨
    (0xf0 ≤ b.toNat ∧ b.toNat ≤ 0xf4 ∧ ∃ c1 c2 c3 r, l = c1 :: c2 :: c3 :: r ∧ Utf8Units r) := by
  generalize e : b :: l = x at h
  cases h with
  | nil => cases e
  | one b1 r g1 h2 =>
    injection e with e1 e2; subst e1; subst e2
    exact Or.inl ⟨g1, h2⟩
  | two b1 c1 r g1 g2 _ h2 =>
    injection e with e1 e2; subst e1; subst e2
    exact Or.inr (Or.inl ⟨g1, g2, c1, r, rfl, h2⟩)
  | three b1 c1 c2 r g1 g2 _ _ h2 =>
    injection e with e1 e2; subst e1; subst e2
    exact Or.inr (Or.inr (Or.inl ⟨g1, g2, c1, c2, r, rfl, h2⟩))
  | four b1 c1 c2 c3 r g1 g2 _ _ _ h2 =>
    injection e with e1 e2; subst e1; subst e2
    exact Or.inr (Or.inr (Or.inr ⟨g1, g2, c1, c2, c3, r, rfl, h2⟩))

/-- The units at the start of a concatenation of units can be taken away. -/
theorem units_cancel {pre : List UInt8} (hu : Utf8Units pre) :
    ∀ (tail : List UInt8), Utf8Units (pre ++ tail) → Utf8Units tail := by
  induction hu with
  | nil => intro tail h; exact h
  | one b rest h1 _ ih =>
    intro tail h
    rcases units_cons_inv h with ⟨_, h2⟩ | ⟨g, _⟩ | ⟨g, _⟩ | ⟨g, _⟩
    · exact ih tail h2
    all_goals omega
  | two b c1 rest h1 h2 k1 _ ih =>
    intro tail h
    rcases units_cons_inv h with ⟨g, _⟩ | ⟨_, _, x1, r, e, h2⟩ | ⟨g, _⟩ | ⟨g, _⟩
    · omega
    · injection e with e1 e2
      subst e2
      exact ih tail h2
    all_goals omega
  | three b c1 c2 rest h1 h2 k1 k2 _ ih =>
    intro tail h
    rcases units_cons_inv h with ⟨g, _⟩ | ⟨_, g, _⟩ | ⟨_, _, x1, x2, r, e, h2⟩ | ⟨g, _⟩
    · omega
    · omega
    · injection e with e1 e2
      injection e2 with e2 e3
      subst e3
      exact ih tail h2
    · omega
  | four b c1 c2 c3 rest h1 h2 k1 k2 k3 _ ih =>
    intro tail h
    rcases units_cons_inv h with ⟨g, _⟩ | ⟨_, g, _⟩ | ⟨_, g, _⟩ | ⟨_, _, x1, x2, x3, r, e, h2⟩
    · omega
    · omega
    · omega
    · injection e with e1 e2
      injection e2 with e2 e3
      injection e3 with e3 e4
      subst e4
      exact ih tail h2

theorem units_cut_short {pre : List UInt8} (hu : Utf8Units pre) (b : UInt8) (cs : List UInt8)
    (h : cs.length < continuation_count b) : valid_utf8 (pre ++ b :: cs) = false := by
  cases hv : valid_utf8 (pre ++ b :: cs) with
  | false => rfl
  | true =>
    have h1 := units_cancel hu _ ((valid_utf8_iff_units _).1 hv)
    have h2 := (valid_utf8_iff_units _).2 h1
    unfold valid_utf8 at h2
    rw [valid_utf8_short _ b cs h] at h2
    cases h2

/-- Claim C23.  `valid_utf8 s` is true if and only if `s` is a concatenation of
units, a unit being a byte `00 .. 7f`, or a lead byte `c2 .. df` with one
continuation byte `80 .. bf`, or a lead byte `e0 .. ef` with two, or a lead byte
`f0 .. f4` with three; and a string that ends inside a unit, after some units
and a lead byte with fewer continuation bytes than it asks for, is not valid. -/
theorem utf8_reference_definition (s : List UInt8) :
    (valid_utf8 s = true ↔ Utf8Units s) ∧
    (∀ (pre : List UInt8) (b : UInt8) (cs : List UInt8), s = pre ++ b :: cs → Utf8Units pre →
      cs.length < continuation_count b → valid_utf8 s = false) :=
  ⟨valid_utf8_iff_units s, fun _ b cs e hu h => e ▸ units_cut_short hu b cs h⟩

/-! ### The starting position of `f_decode` -/

theorem loop_error_kind (fuel : Nat) : ∀ (remaining : Nat) (msg : msg_t)
    (values : List LuaValue) (e : MsgError),
    f_decode_loop fuel remaining msg values = .error e → ∃ m, msg_decode fuel m = .error e := by
  intro remaining
  induction remaining with
  | zero => intro msg values e h; cases h
  | succ n ih =>
    intro msg values e h
    rw [loop_succ] at h
    by_cases hp : msg.position < msg.input.length
    · rw [if_pos hp] at h
      cases hd : msg_decode fuel msg with
      | error e1 =>
        rw [hd] at h
        injection h with h
        exact ⟨msg, by rw [hd, h]⟩
      | ok q =>
        obtain ⟨v, m1⟩ := q
        rw [hd] at h
        exact ih m1 _ e h
    · rw [if_neg hp] at h
      cases h

theorem f_decode_rejected (b : List UInt8) (s k : Int) (hs : -2 ^ 63 ≤ s ∧ s < 2 ^ 63)
    (hb : b.length < 2 ^ 63) (h : ¬ (1 ≤ s ∧ s ≤ b.length)) :
    f_decode b s k = .error (.lua .invalid_starting_position) := by
  unfold f_decode
  simp only []
  rw [if_pos]
  unfold C.to_uint64
  omega

theorem f_decode_accepted (b : List UInt8) (s k : Int) (hb : b.length < 2 ^ 63)
    (h : 1 ≤ s ∧ s ≤ b.length) :
    f_decode b s k =
      match f_decode_loop (b.length + 1) (C.to_int32 k).toNat
        { position := (s - 1).toNat, input := b, buffer := [], table := [] } [] with
      | .error e => .error e
      | .ok (values, msg) => .ok (values, (msg.position : Int) + 1) := by
  have e1 : C.to_uint64 s = s.toNat := by unfold C.to_uint64; omega
  have e2 : s.toNat - 1 = (s - 1).toNat := by omega
  unfold f_decode
  simp only []
  rw [if_neg (by rw [e1]; omega), e1, e2]

/-- Claim C26.  `f_decode` looks at the input only from a starting position `s`
with `1 ≤ s ≤ length(b)`: with every other `s` it fails with the argument error
of the starting position, and with such an `s` its result is the result of the
decoding loop from the byte `s - 1` on, which is never that argument error.  So
every call on the empty input is rejected, also on the output of `f_encode`
without values, which is empty, and so is a call at the length of the input
plus one.  The position is a `lua_Integer`, and so is the length of a Lua
string plus one. -/
theorem start_offset_validation (b : List UInt8) (s k : Int) (hs : -2 ^ 63 ≤ s ∧ s < 2 ^ 63)
    (hb : b.length + 1 < 2 ^ 63) :
    (¬ (1 ≤ s ∧ s ≤ b.length) → f_decode b s k = .error (.lua .invalid_starting_position)) ∧
    (1 ≤ s ∧ s ≤ b.length →
      f_decode b s k =
        (match f_decode_loop (b.length + 1) (C.to_int32 k).toNat
          { position := (s - 1).toNat, input := b, buffer := [], table := [] } [] with
        | .error e => .error e
        | .ok (values, msg) => .ok (values, (msg.position : Int) + 1)) ∧
      f_decode b s k ≠ .error (.lua .invalid_starting_position)) ∧
    (b = [] → f_decode b s k = .error (.lua .invalid_starting_position)) ∧
    f_encode [] = .ok [] ∧
    f_decode [] s k = .error (.lua .invalid_starting_position) ∧
    f_decode b (b.length + 1) k = .error (.lua .invalid_starting_position) := by
  refine ⟨f_decode_rejected b s k hs (by omega), fun h => ⟨f_decode_accepted b s k (by omega) h, ?_⟩, ?_, rfl,
    f_decode_rejected [] s k hs (by simp) (by intro h0; have h1 := h0.2; simp at h1; omega),
    f_decode_rejected b ((b.length : Int) + 1) k (by omega) (by omega) (by omega)⟩
  · rw [f_decode_accepted b s k (by omega) h]
    intro he
    cases hl : f_decode_loop (b.length + 1) (C.to_int32 k).toNat
        { position := (s - 1).toNat, input := b, buffer := [], table := [] } [] with
    | ok q => rw [hl] at he; cases he
    | error e =>
      rw [hl] at he
      injection he with he
      obtain ⟨m, hm⟩ := loop_error_kind _ _ _ _ _ hl
      rw [he] at hm
      rcases decode_error_kind _ _ _ hm with h1 | h1 | h1
      · cases h1
      · rcases h1 with ⟨c, _, h2⟩ | h2 | h2 <;> cases h2
      · cases h1
  · intro hb0
    subst hb0
    exact f_decode_rejected [] s k hs (by simp) (by intro h0; have h1 := h0.2; simp at h1; omega)

/-- The one-byte input `c0` is decoded from position 1 and rejected from
position 2; the empty input is rejected from position 1. -/
theorem start_offset_validation_witness :
    (¬ (1 ≤ (1 : Int) ∧ (1 : Int) ≤ ([0xc0] : List UInt8).length) →
      f_decode [0xc0] 1 1 = .error (.lua .invalid_starting_position)) ∧
    (1 ≤ (1 : Int) ∧ (1 : Int) ≤ ([0xc0] : List UInt8).length →
      f_decode [0xc0] 1 1 =
        (match f_decode_loop (([0xc0] : List UInt8).length + 1) (C.to_int32 1).toNat
          { position := ((1 : Int) - 1).toNat, input := [0xc0], buffer := [], table := [] } [] with
        | .error e => .error e
        | .ok (values, msg) => .ok (values, (msg.position : Int) + 1)) ∧
      f_decode [0xc0] 1 1 ≠ .error (.lua .invalid_starting_position)) ∧
    (([0xc0] : List UInt8) = [] →
      f_decode [0xc0] 1 1 = .error (.lua .invalid_starting_position)) ∧
    f_encode [] = .ok [] ∧
    f_decode [] 1 1 = .error (.lua .invalid_starting_position) ∧
    f_decode [0xc0] ((([0xc0] : List UInt8).length : Int) + 1) 1 =
      .error (.lua .invalid_starting_position) :=
  start_offset_validation [0xc0] 1 1 (by decide) (by decide)

/-! ### The chunks of the writer -/

theorem msg_chunks_write (msg : msg_t) (b : UInt8) (h : ChunksFull msg) :
    ChunksFull (msg_write msg b) := by
  obtain ⟨h1, h2, h3⟩ := h
  unfold msg_write
  simp only []
  by_cases hp : msg.position ≥ 1024 * 16
  · rw [if_pos hp]
    unfold msg_flush
    rw [if_pos (by omega)]
    refine ⟨?_, by simp, by simp⟩
    intro chunk hc
    simp only [List.mem_append, List.mem_singleton] at hc
    rcases hc with hc | hc
    · exact h1 chunk hc
    · rw [hc, List.length_take]
      omega
  · rw [if_neg hp]
    refine ⟨h1, by simp only []; omega, ?_⟩
    simp only [List.length_append, List.length_take, List.length_singleton]
    omega

theorem msg_chunks_write_str (str : List UInt8) : ∀ (msg : msg_t), ChunksFull msg →
    ChunksFull (msg_write_str msg str) := by
  induction str with
  | nil => intro msg h; exact h
  | cons b str ih => intro msg h; exact ih _ (msg_chunks_write msg b h)

/-! ### The decoder on a truncated input -/

theorem cut_weaken {α : Type} {c s : Nat} {r : msg_t → Except MsgError (α × msg_t)}
    (h : CutTo c r r 0) : CutTo c r r s :=
  fun msg x m' _ hr => h msg x m' (Nat.zero_le _) hr

theorem float_bytes_eq (bits : Nat) : float_bytes bits =
    if Float754.f64_eq bits (Float754.f32_to_f64 (Float754.f64_to_f32 bits)) then
      0xca :: Float754.to_memory 4 (Float754.f64_to_f32 bits)
    else 0xcb :: Float754.to_memory 8 bits := by
  unfold float_bytes msg_encode_float
  simp only [write_str_one, ← write_str_append]
  repeat' split
  all_goals simp only [contents_write_init, List.singleton_append]

theorem to_memory_length (w : Nat) : ∀ (x : Nat), (Float754.to_memory w x).length = w := by
  induction w with
  | zero => intro x; rfl
  | succ w ih => intro x; simp [Float754.to_memory, ih]

theorem of_memory_to_memory (w : Nat) : ∀ (x : Nat),
    Float754.of_memory (Float754.to_memory w x) = x % 256 ^ w := by
  induction w with
  | zero => intro x; simp [Float754.to_memory, Float754.of_memory, Nat.mod_one]
  | succ w ih =>
    intro x
    simp only [Float754.to_memory, Float754.of_memory, ih, uint8_toNat_ofNat]
    rw [Nat.pow_succ, Nat.mul_comm (256 ^ w) 256, Nat.mod_mul, Nat.mod_mod]

theorem f32_to_f64_mod (x : Nat) : Float754.f32_to_f64 (x % 2 ^ 32) = Float754.f32_to_f64 x := by
  have h1 : Float754.sign_of 8 23 (x % 2 ^ 32) = Float754.sign_of 8 23 x := by
    unfold Float754.sign_of
    congr 1
    norm_num
    omega
  have h2 : Float754.exp_of 8 23 (x % 2 ^ 32) = Float754.exp_of 8 23 x := by
    unfold Float754.exp_of
    norm_num
    omega
  have h3 : Float754.frac_of 23 (x % 2 ^ 32) = Float754.frac_of 23 x := by
    unfold Float754.frac_of
    norm_num
  unfold Float754.f32_to_f64 Float754.is_nan Float754.is_inf Float754.magnitude
  simp only [h1, h2, h3]

theorem is_nan_mod (x : Nat) :
    Float754.is_nan 11 52 (x % 2 ^ 64) = Float754.is_nan 11 52 x := by
  have h2 : Float754.exp_of 11 52 (x % 2 ^ 64) = Float754.exp_of 11 52 x := by
    unfold Float754.exp_of
    norm_num
    omega
  have h3 : Float754.frac_of 52 (x % 2 ^ 64) = Float754.frac_of 52 x := by
    unfold Float754.frac_of
    norm_num
  unfold Float754.is_nan
  rw [h2, h3]

theorem f64_eq_not_nan {a b : Nat} (h : Float754.f64_eq a b = true) :
    Float754.is_nan 11 52 b = false := by
  unfold Float754.f64_eq at h
  by_cases hn : Float754.is_nan 11 52 a = true ∨ Float754.is_nan 11 52 b = true
  · rw [if_pos hn] at h; cases h
  · cases hb : Float754.is_nan 11 52 b with
    | false => rfl
    | true => exact absurd (Or.inr hb) hn

theorem decode_float_bytes (bits fuel : Nat) (msg : msg_t) (post : List UInt8)
    (h : msg.remaining = float_bytes bits ++ post) :
    ∃ bits1, msg_decode (fuel + 1) msg =
        .ok (.float bits1, msg.advance (float_bytes bits).length) ∧
      (Float754.is_nan 11 52 bits = false → Float754.is_nan 11 52 bits1 = false) := by
  rw [float_bytes_eq] at h ⊢
  by_cases hq : Float754.f64_eq bits (Float754.f32_to_f64 (Float754.f64_to_f32 bits)) = true
  · rw [if_pos hq] at h ⊢
    have hr : msg.remaining = 0xca :: (Float754.to_memory 4 (Float754.f64_to_f32 bits) ++ post) := h
    have h1 := read_bin_append (Float754.to_memory 4 (Float754.f64_to_f32 bits)) (msg.advance 1)
      post (remaining_cons_advance hr)
    rw [to_memory_length] at h1
    refine ⟨Float754.f32_to_f64 (Float754.of_memory
      (Float754.to_memory 4 (Float754.f64_to_f32 bits))), ?_, fun _ => ?_⟩
    · rw [decode_step hr, show ∀ d m, msg_decode_switch d 0xca m = msg_decode_float m 4 from
        fun _ _ => rfl]
      unfold msg_decode_float
      rw [h1]
      simp only [List.length_cons, to_memory_length, advance_advance]
      rfl
    · rw [of_memory_to_memory, show (256 : Nat) ^ 4 = 2 ^ 32 by norm_num, f32_to_f64_mod]
      exact f64_eq_not_nan hq
  · rw [if_neg hq] at h ⊢
    have hr : msg.remaining = 0xcb :: (Float754.to_memory 8 bits ++ post) := h
    have h1 := read_bin_append (Float754.to_memory 8 bits) (msg.advance 1)
      post (remaining_cons_advance hr)
    rw [to_memory_length] at h1
    refine ⟨Float754.of_memory (Float754.to_memory 8 bits), ?_, fun hn => ?_⟩
    · rw [decode_step hr, show ∀ d m, msg_decode_switch d 0xcb m = msg_decode_float m 8 from
        fun _ _ => rfl]
      unfold msg_decode_float
      rw [h1]
      simp only [List.length_cons, to_memory_length, advance_advance]
      rfl
    · rw [of_memory_to_memory, show (256 : Nat) ^ 8 = 2 ^ 64 by norm_num, is_nan_mod]
      exact hn

theorem float_bytes_pos (bits : Nat) : 0 < (float_bytes bits).length := by
  rw [float_bytes_eq]
  split <;> simp

theorem rawset_ok (t : List (LuaValue × LuaValue)) (k v : LuaValue) (h1 : is_nil k = false)
    (h2 : is_nan_float k = false) : ∃ t1, lua_rawset t k v = .ok t1 := by
  cases k with
  | nil => cases h1
  | float bits =>
    have h3 : Float754.is_nan 11 52 bits = false := h2
    exact ⟨_, by simp only [lua_rawset, h3]; rfl⟩
  | boolean b => exact ⟨_, rfl⟩
  | integer i => exact ⟨_, rfl⟩
  | string s => exact ⟨_, rfl⟩
  | table es => exact ⟨_, rfl⟩
  | other o => exact ⟨_, rfl⟩

theorem table_truncation_local (es : List (LuaValue × LuaValue))
    (h : truncation_local (.table es) = true) :
    es.length < 2 ^ 31 ∧ (∀ e ∈ es, is_nil e.1 = false ∧ is_nan_float e.1 = false) := by
  simp only [truncation_local, is_encodable, lua_invariant, keys_not_nan, within_limits,
    Bool.and_eq_true, decide_eq_true_eq, List.all_eq_true, Bool.true_and,
    Bool.not_eq_true'] at h
  exact ⟨h.2, fun e he => ⟨(h.1.1.1 e he).1, h.1.2 e he⟩⟩

mutual
theorem decodes_value : ∀ (v : LuaValue), all_values truncation_local v = true →
    ∃ bs, encoding v = .ok bs ∧ 0 < bs.length ∧
      ∀ (fuel : Nat) (msg : msg_t) (post : List UInt8), msg.remaining = bs ++ post →
        bs.length ≤ fuel → ∃ v1, msg_decode fuel msg = .ok (v1, msg.advance bs.length) ∧
          (is_nil v = false → is_nil v1 = false) ∧
          (is_nan_float v = false → is_nan_float v1 = false)
  | .nil, _ => ⟨[0xc0], rfl, by simp, fun fuel msg post h hf => by
      obtain ⟨f, rfl⟩ := fuel_succ hf (by simp)
      exact ⟨.nil, by rw [decode_step h]; rfl, fun h => h, fun _ => rfl⟩⟩
  | .boolean true, _ => ⟨[0xc3], rfl, by simp, fun fuel msg post h hf => by
      obtain ⟨f, rfl⟩ := fuel_succ hf (by simp)
      exact ⟨.boolean true, by rw [decode_step h]; rfl, fun _ => rfl, fun _ => rfl⟩⟩
  | .boolean false, _ => ⟨[0xc2], rfl, by simp, fun fuel msg post h hf => by
      obtain ⟨f, rfl⟩ := fuel_succ hf (by simp)
      exact ⟨.boolean false, by rw [decode_step h]; rfl, fun _ => rfl, fun _ => rfl⟩⟩
  | .integer i, hg => by
    have hr : -2 ^ 63 ≤ i ∧ i < 2 ^ 63 := by
      simpa [all_values, truncation_local, is_encodable, lua_invariant, keys_not_nan,
        within_limits] using hg
    refine ⟨integer_bytes i, rfl, integer_bytes_pos i, fun fuel msg post h hf => ?_⟩
    obtain ⟨f, rfl⟩ := fuel_succ hf (integer_bytes_pos i)
    exact ⟨.integer i, decode_integer_bytes i hr.1 hr.2 f msg post h, fun _ => rfl, fun _ => rfl⟩
  | .float bits, _ => by
    refine ⟨float_bytes bits, rfl, float_bytes_pos bits, fun fuel msg post h hf => ?_⟩
    obtain ⟨f, rfl⟩ := fuel_succ hf (float_bytes_pos bits)
    obtain ⟨bits1, h1, h2⟩ := decode_float_bytes bits f msg post h
    exact ⟨.float bits1, h1, fun _ => rfl, fun hn => h2 hn⟩
  | .other _, hg => by
    simp [all_values, truncation_local, is_encodable] at hg
  | .string s, hg => by
    have hr : s.length < 2 ^ 32 := by
      simpa [all_values, truncation_local, is_encodable, lua_invariant, keys_not_nan,
        within_limits] using hg
    refine ⟨string_bytes s, rfl, string_bytes_pos s, fun fuel msg post h hf => ?_⟩
    obtain ⟨f, rfl⟩ := fuel_succ hf (string_bytes_pos s)
    exact ⟨.string s, decode_string_bytes s hr f msg post h, fun _ => rfl, fun _ => rfl⟩
  | .table es, hg => by
    simp only [all_values, Bool.and_eq_true] at hg
    obtain ⟨hloc, hall⟩ := hg
    obtain ⟨hn, hkeys⟩ := table_truncation_local es hloc
    by_cases hc : count_table es ≥ 0
    · obtain ⟨bs, hbs, hdec⟩ := decodes_values es hall
      have hcount : count_table es = es.length := by
        rcases count_table_abs es hn with h1 | ⟨h1, _, h3⟩
        · exact h1.1
        · omega
      refine ⟨array_header es.length ++ bs, ?_, by simp [array_header_pos],
        fun fuel msg post h hf => ?_⟩
      · simp only [encoding, if_pos hc, hbs]
        rw [hcount, table_header_array _ hn]
      · obtain ⟨f, rfl⟩ := fuel_succ hf (by simp [array_header_pos])
        rw [List.append_assoc] at h
        have hrem : (msg.advance (array_header es.length).length).remaining = bs ++ post := by
          rw [remaining_advance, h, List.drop_left]
        have hpos := array_header_pos es.length
        obtain ⟨t1, ht1⟩ := hdec f _ post 1 [] hrem (by simp at hf; omega)
        refine ⟨.table t1, ?_, fun _ => rfl, fun _ => rfl⟩
        rw [decode_array_header es.length hn f msg _ h]
        unfold decode_array
        rw [Int.toNat_ofNat, ht1, advance_advance]
        simp
    · obtain ⟨bs, hbs, hdec⟩ := decodes_pairs es hall
      have hcount : count_table es = -(es.length : Int) ∧ 0 < es.length := by
        rcases count_table_abs es hn with ⟨h1, _⟩ | ⟨h1, _, h3⟩
        · omega
        · exact ⟨h1, h3⟩
      refine ⟨map_header es.length ++ bs, ?_, by simp [map_header_pos],
        fun fuel msg post h hf => ?_⟩
      · simp only [encoding, if_neg hc, hbs]
        rw [hcount.1, table_header_map _ hcount.2 hn]
      · obtain ⟨f, rfl⟩ := fuel_succ hf (by simp [map_header_pos])
        rw [List.append_assoc] at h
        have hrem : (msg.advance (map_header es.length).length).remaining = bs ++ post := by
          rw [remaining_advance, h, List.drop_left]
        have hpos := map_header_pos es.length
        obtain ⟨t1, ht1⟩ := hdec f _ post [] hrem (by simp at hf; omega) hkeys
        refine ⟨.table t1, ?_, fun _ => rfl, fun _ => rfl⟩
        rw [decode_map_header es.length hn f msg _ h]
        unfold decode_map
        rw [Int.toNat_ofNat, ht1, advance_advance]
        simp
theorem decodes_values : ∀ (es : List (LuaValue × LuaValue)),
    all_entries truncation_local es = true →
    ∃ bs, encoding_values es = .ok bs ∧
      ∀ (fuel : Nat) (msg : msg_t) (post : List UInt8) (i : Int)
        (t : List (LuaValue × LuaValue)), msg.remaining = bs ++ post → bs.length ≤ fuel →
        ∃ t1, decode_array_loop (msg_decode fuel) es.length i t msg =
          .ok (.table t1, msg.advance bs.length)
  | [], _ => ⟨[], rfl, fun fuel msg post i t _ _ => ⟨t, by
      simp [decode_array_loop, advance_zero]⟩⟩
  | (k, v) :: rest, hg => by
    simp only [all_entries, Bool.and_eq_true] at hg
    obtain ⟨⟨_, hv⟩, hrest⟩ := hg
    obtain ⟨b, hb, _, hdv⟩ := decodes_value v hv
    obtain ⟨bs, hbs, hdr⟩ := decodes_values rest hrest
    refine ⟨b ++ bs, by simp only [encoding_values, hb, hbs], ?_⟩
    intro fuel msg post i t h hf
    rw [List.append_assoc] at h
    obtain ⟨v1, hv1, _⟩ := hdv fuel msg _ h (by simp at hf; omega)
    have hrem : (msg.advance b.length).remaining = bs ++ post := by
      rw [remaining_advance, h, List.drop_left]
    obtain ⟨t1, ht1⟩ := hdr fuel _ post (i + 1) (lua_rawseti t i v1) hrem (by simp at hf; omega)
    refine ⟨t1, ?_⟩
    simp only [List.length_cons, decode_array_loop]
    rw [hv1]
    simp only []
    rw [ht1, advance_advance]
    simp
theorem decodes_pairs : ∀ (es : List (LuaValue × LuaValue)),
    all_entries truncation_local es = true →
    ∃ bs, encoding_pairs es = .ok bs ∧
      ∀ (fuel : Nat) (msg : msg_t) (post : List UInt8) (t : List (LuaValue × LuaValue)),
        msg.remaining = bs ++ post → bs.length ≤ fuel →
        (∀ e ∈ es, is_nil e.1 = false ∧ is_nan_float e.1 = false) →
        ∃ t1, decode_map_loop (msg_decode fuel) es.length t msg =
          .ok (.table t1, msg.advance bs.length)
  | [], _ => ⟨[], rfl, fun fuel msg post t _ _ _ => ⟨t, by
      simp [decode_map_loop, advance_zero]⟩⟩
  | (k, v) :: rest, hg => by
    simp only [all_entries, Bool.and_eq_true] at hg
    obtain ⟨⟨hk, hv⟩, hrest⟩ := hg
    obtain ⟨bk, hbk, _, hdk⟩ := decodes_value k hk
    obtain ⟨bv, hbv, _, hdv⟩ := decodes_value v hv
    obtain ⟨bs, hbs, hdr⟩ := decodes_pairs rest hrest
    refine ⟨bk ++ bv ++ bs, by simp only [encoding_pairs, hbk, hbv, hbs], ?_⟩
    intro fuel msg post t h hf hkeys
    have h1 : msg.remaining = bk ++ (bv ++ (bs ++ post)) := by rw [h]; simp
    obtain ⟨k1, hk1, hn1, hn2⟩ := hdk fuel msg _ h1 (by simp at hf; omega)
    have hrem1 : (msg.advance bk.length).remaining = bv ++ (bs ++ post) := by
      rw [remaining_advance, h1, List.drop_left]
    obtain ⟨v1, hv1, _⟩ := hdv fuel _ _ hrem1 (by simp at hf; omega)
    have hkv := hkeys (k, v) (List.mem_cons_self _ _)
    obtain ⟨t2, ht2⟩ := rawset_ok t k1 v1 (hn1 hkv.1) (hn2 hkv.2)
    have hrem2 : ((msg.advance bk.length).advance bv.length).remaining = bs ++ post := by
      rw [remaining_advance, hrem1, List.drop_left]
    obtain ⟨t1, ht1⟩ := hdr fuel _ post t2 hrem2 (by simp at hf; omega)
      (fun e he => hkeys e (by simp [he]))
    refine ⟨t1, ?_⟩
    simp only [List.length_cons, decode_map_loop]
    rw [hk1]
    simp only []
    rw [hv1]
    simp only []
    rw [ht2]
    simp only []
    rw [ht1, advance_advance, advance_advance]
    simp [Nat.add_assoc]
end

end Msgpack

namespace Json

open Lua

theorem json_contents_flush (json : json_t) : (json_flush json).contents = json.contents := by
  unfold json_flush json_t.contents json_t.chunks
  split
  · simp
  · rfl

theorem json_contents_write (json : json_t) (ch : UInt8) :
    (json_write json ch).contents = json.contents ++ [ch] := by
  have key : ∀ j : json_t, (json_t.mk (j.output.take j.position ++ [ch]) (j.position + 1)
      j.table j.index).contents = j.contents ++ [ch] := by
    intro j
    simp only [json_t.contents, json_t.chunks]
    rw [List.take_of_length_le (by simp)]
    simp
  unfold json_write
  simp only []
  split
  · rw [key, json_contents_flush]
  · rw [key]

theorem contents_write_all (str : List UInt8) (json : json_t) :
    (json_write_all json str).contents = json.contents ++ str := by
  induction str generalizing json with
  | nil => simp [json_write_all]
  | cons b str ih => simp [json_write_all, ih, json_contents_write]

theorem write_all_append (a b : List UInt8) (json : json_t) :
    json_write_all json (a ++ b) = json_write_all (json_write_all json a) b := by
  induction a generalizing json with
  | nil => rfl
  | cons x a ih => simp [json_write_all, ih]

theorem write_all_one (json : json_t) (ch : UInt8) :
    json_write json ch = json_write_all json [ch] := rfl

theorem write_str_all (str : List UInt8) (json : json_t) :
    json_write_str json str = json_write_all json (c_string str) := by
  induction str generalizing json with
  | nil => rfl
  | cons ch str ih =>
    unfold json_write_str c_string
    by_cases h : ch = 0
    · simp [h, json_write_all]
    · rw [if_neg h, List.takeWhile_cons_of_pos (by simpa using h)]
      simp only [json_write_all]
      exact ih _

theorem flush_chunks (json : json_t) : (json_flush json).chunks.flatten = json.contents := by
  rw [← json_contents_flush json]
  unfold json_flush json_t.contents
  split <;> simp_all

/-- The chunks stored at the keys `1 .. n` are read back in the order they were
stored in. -/
theorem numbered_lookup : ∀ (table : List (Int × List UInt8)), Numbered table →
    (List.range table.length).map (fun (i : Nat) => (lua_rawgeti table ((i : Int) + 1)).getD []) =
      table.reverse.map Prod.snd
  | [], _ => rfl
  | (key, chunk) :: table, h => by
    obtain ⟨hk, ht⟩ := h
    rw [List.length_cons, List.range_succ, List.map_append, List.reverse_cons, List.map_append,
      ← numbered_lookup table ht]
    congr 1
    · apply List.map_congr_left
      intro i hi
      rw [List.mem_range] at hi
      have hne : ((i : Int) + 1 == key) = false := by
        rw [hk]
        simp only [beq_eq_false_iff_ne, ne_eq]
        omega
      simp only [lua_rawgeti, List.lookup_cons, hne]
    · simp [lua_rawgeti, List.lookup_cons, hk]

/-- While the counter has not overflowed, the output loop of `f_encode` adds
the chunks in the order they were flushed in. -/
theorem output_counted (json : json_t) (h : Counted json) : f_encode_output json =
    json.chunks.flatten := by
  obtain ⟨hn, hi⟩ := h
  unfold f_encode_output json_t.chunks
  rw [hi, show ((json.table.length : Int) + 1 - 1).toNat = json.table.length by omega,
    numbered_lookup json.table hn]

theorem contents_length (json : json_t) (h : ChunksFull json) :
    json.contents.length = 8 * json.table.length + json.position := by
  obtain ⟨h1, _, h3⟩ := h
  have hsum : ∀ (l : List (List UInt8)), (∀ c ∈ l, c.length = 8) → l.flatten.length = 8 * l.length := by
    intro l
    induction l with
    | nil => intro _; rfl
    | cons c l ih =>
      intro hl
      rw [List.flatten_cons, List.length_append, hl c (List.mem_cons_self _ _),
        ih (fun x hx => hl x (List.mem_cons_of_mem _ hx)), List.length_cons]
      omega
  unfold json_t.contents
  rw [List.length_append, hsum _ h1, List.length_take, Nat.min_eq_left h3]
  simp [json_t.chunks]

theorem chunks_write (json : json_t) (ch : UInt8) (h : ChunksFull json) :
    ChunksFull (json_write json ch) := by
  obtain ⟨h1, h2, h3⟩ := h
  unfold json_write
  simp only []
  by_cases hp : json.position ≥ 8
  · rw [if_pos hp]
    unfold json_flush
    rw [if_pos (by omega)]
    refine ⟨?_, by simp, by simp⟩
    intro chunk hc
    simp only [json_t.chunks, List.reverse_cons, List.map_append, List.map_cons, List.map_nil,
      List.mem_append, List.mem_singleton] at hc
    rcases hc with hc | hc
    · exact h1 chunk hc
    · rw [hc, List.length_take]
      omega
  · rw [if_neg hp]
    refine ⟨h1, by simp only []; omega, ?_⟩
    simp only [List.length_append, List.length_take, List.length_singleton]
    omega

theorem chunks_write_all (str : List UInt8) : ∀ (json : json_t), ChunksFull json →
    ChunksFull (json_write_all json str) := by
  induction str with
  | nil => intro json h; exact h
  | cons b str ih => intro json h; exact ih _ (chunks_write json b h)

theorem chunks_init : ChunksFull json_init :=
  ⟨by simp [json_init, json_t.chunks], by simp [json_init], by simp [json_init]⟩

theorem counted_init : Counted json_init := ⟨trivial, rfl⟩

/-- The `int` conversion of a chunk index below `2^31` is the index. -/
theorem index_in_range (n : Nat) (h : n < 2 ^ 31) : C.to_int32 (n : Int) = n := by
  unfold C.to_int32
  omega

/-- A flush that stores a chunk at an index below `2^31 - 1` keeps the
counter. -/
theorem counted_flush (json : json_t) (h : Counted json)
    (hn : json.position = 0 ∨ json.table.length + 2 < 2 ^ 31) : Counted (json_flush json) := by
  obtain ⟨h1, h2⟩ := h
  unfold json_flush
  split
  · rename_i hp
    have hl : json.table.length + 2 < 2 ^ 31 := by omega
    refine ⟨⟨h2, h1⟩, ?_⟩
    simp only [List.length_cons]
    rw [h2]
    have := index_in_range (json.table.length + 2) hl
    push_cast at this ⊢
    rw [show (json.table.length : Int) + 1 + 1 = (json.table.length : Int) + 2 by ring]
    exact this
  · exact ⟨h1, h2⟩

/-- A write keeps the counter as long as the characters written are at most
`text_limit + 8`. -/
theorem counted_write (json : json_t) (ch : UInt8) (hc : ChunksFull json) (h : Counted json)
    (hl : json.contents.length + 1 ≤ text_limit + 8) : Counted (json_write json ch) := by
  have hlen := contents_length json hc
  obtain ⟨_, h2, _⟩ := hc
  unfold text_limit at hl
  unfold json_write
  simp only []
  by_cases hp : json.position ≥ 8
  · rw [if_pos hp]
    have := counted_flush json h (Or.inr (by omega))
    exact ⟨this.1, this.2⟩
  · rw [if_neg hp]
    exact ⟨h.1, h.2⟩

theorem counted_write_all (str : List UInt8) : ∀ (json : json_t), ChunksFull json →
    Counted json → json.contents.length + str.length ≤ text_limit + 8 →
    Counted (json_write_all json str) := by
  induction str with
  | nil => intro json _ h _; exact h
  | cons b str ih =>
    intro json hc h hl
    rw [List.length_cons] at hl
    exact ih _ (chunks_write json b hc) (counted_write json b hc h (by omega)) (by
      rw [json_contents_write, List.length_append, List.length_singleton]
      omega)

/-- The result `f_encode` assembles after the last flush is what was written,
for at most `text_limit` characters. -/
theorem output_flush_small (json : json_t) (hc : ChunksFull json) (h : Counted json)
    (hl : json.contents.length ≤ text_limit) :
    f_encode_output (json_flush json) = json.contents := by
  have hlen := contents_length json hc
  unfold text_limit at hl
  rw [output_counted _ (counted_flush json h (by omega)), flush_chunks]

/-- The last flush after `text_limit + 1` to `text_limit + 7` characters stores
the chunk at the index `2^31 - 1`, and the counter overflows to `-2^31`. -/
theorem index_flush_overflow (json : json_t) (hc : ChunksFull json) (h : Counted json)
    (h1 : text_limit < json.contents.length) (h2 : json.contents.length < text_limit + 8) :
    (json_flush json).index = -2 ^ 31 := by
  have hlen := contents_length json hc
  obtain ⟨_, hp, _⟩ := hc
  unfold text_limit at h1 h2
  have hn : json.table.length = 2 ^ 31 - 2 := by omega
  have hpos : json.position > 0 := by omega
  unfold json_flush
  rw [if_pos hpos]
  simp only []
  rw [h.2, hn]
  rfl

/-- The result `f_encode` assembles after the last flush is empty when between
`text_limit + 1` and `text_limit + 7` characters were written: the counter has
overflowed and the output loop has no turn. -/
theorem output_flush_overflow (json : json_t) (hc : ChunksFull json) (h : Counted json)
    (h1 : text_limit < json.contents.length) (h2 : json.contents.length < text_limit + 8) :
    f_encode_output (json_flush json) = [] := by
  unfold f_encode_output
  rw [index_flush_overflow json hc h h1 h2]
  rfl

theorem encode_string_loop_eq (str : List UInt8) (json : json_t) :
    encode_string_loop json str = json_write_all json ((c_string str).flatMap escape_sequence) := by
  induction str generalizing json with
  | nil => rfl
  | cons ch str ih =>
    unfold encode_string_loop c_string
    by_cases h : ch = 0
    · simp [h, json_write_all]
    · rw [if_neg h, List.takeWhile_cons_of_pos (by simpa using h), List.flatMap_cons,
        write_all_append, ih]
      congr 1
      unfold escape_sequence
      repeat' split
      all_goals rfl

theorem encode_string_eq_text (s : List UInt8) (json : json_t) :
    encode_string json s = json_write_all json (string_text s) := by
  unfold encode_string string_text
  rw [encode_string_loop_eq, write_all_one, write_all_one, ← write_all_append,
    ← write_all_append, List.append_assoc]

theorem encode_number_eq_text (v : LuaValue) (json : json_t) :
    encode_number json v = json_write_all json (number_text v) := by
  unfold encode_number number_text
  split <;> rw [write_str_all]

mutual
theorem encode_value_eq : ∀ (v : LuaValue) (json : json_t),
    encode_value v json = write_text json (text v)
  | .nil, json => rfl
  | .boolean true, json => rfl
  | .boolean false, json => rfl
  | .integer i, json => by simp [encode_value, text, write_text, encode_number_eq_text]
  | .float bits, json => by simp [encode_value, text, write_text, encode_number_eq_text]
  | .string s, json => by simp [encode_value, text, write_text, encode_string_eq_text]
  | .other t, json => rfl
  | .table entries, json => by
    unfold encode_value text
    split
    · rw [encode_array_loop_eq entries]
      cases text_values entries false <;>
        simp only [write_text, write_all_one, ← write_all_append, List.append_assoc]
    · rw [encode_object_loop_eq entries]
      cases text_pairs entries false <;>
        simp only [write_text, write_all_one, ← write_all_append, List.append_assoc]
theorem encode_array_loop_eq : ∀ (es : List (LuaValue × LuaValue)) (more : Bool) (json : json_t),
    encode_array_loop es more json = write_text json (text_values es more)
  | [], _, json => rfl
  | (k, v) :: rest, more, json => by
    unfold encode_array_loop text_values
    rw [encode_value_eq v]
    cases text v with
    | error e => rfl
    | ok b =>
      simp only [write_text]
      rw [encode_array_loop_eq rest]
      cases text_values rest true with
      | error e => rfl
      | ok ts =>
            cases more <;>
              simp only [write_text, write_all_one, ← write_all_append, List.append_assoc,
                if_true, Bool.false_eq_true, if_false, List.nil_append]
theorem encode_object_loop_eq : ∀ (es : List (LuaValue × LuaValue)) (more : Bool) (json : json_t),
    encode_object_loop es more json = write_text json (text_pairs es more)
  | [], _, json => rfl
  | (k, v) :: rest, more, json => by
    unfold encode_object_loop text_pairs
    split
    · rw [encode_value_eq k]
      cases text k with
      | error e => rfl
      | ok bk =>
        simp only [write_text]
        rw [encode_value_eq v]
        cases text v with
        | error e => rfl
        | ok bv =>
          simp only [write_text]
          rw [encode_object_loop_eq rest]
          cases text_pairs rest true with
          | error e => rfl
          | ok ts =>
            cases more <;>
              simp only [write_text, write_all_one, ← write_all_append, List.append_assoc,
                if_true, Bool.false_eq_true, if_false, List.nil_append]
    · rfl
end

/-- What `json.encode` returns: the result assembled from the chunks of the text
of its first argument. -/
theorem f_encode_chunks (v : LuaValue) (rest : List LuaValue) : f_encode (v :: rest) =
    match text v with
    | .error e => .error e
    | .ok t => .ok (f_encode_output (json_flush (json_write_all json_init t))) := by
  unfold f_encode
  simp only []
  rw [encode_value_eq]
  cases text v with
  | error e => rfl
  | ok t => rfl

/-- What `json.encode` returns is the text of its first argument, when that has
at most `text_limit` characters. -/
theorem f_encode_text (v : LuaValue) (rest : List LuaValue) (t : List UInt8)
    (ht : text v = .ok t) (hl : t.length ≤ text_limit) : f_encode (v :: rest) = .ok t := by
  unfold f_encode
  simp only []
  rw [encode_value_eq, ht]
  simp only [write_text]
  rw [output_flush_small _ (chunks_write_all t _ chunks_init)
    (counted_write_all t _ chunks_init counted_init (by
      rw [show json_init.contents = [] from rfl]
      simp only [List.length_nil]
      omega)) (by
      rw [contents_write_all]
      simpa [show json_init.contents = [] from rfl] using hl), contents_write_all]
  rfl

/-- The writer after `text_limit + 1` to `text_limit + 7` characters, from the
initial state: the counter overflows in the last flush, and the result
`f_encode` assembles is empty. -/
theorem write_all_overflow (bytes : List UInt8) (h1 : text_limit < bytes.length)
    (h2 : bytes.length < text_limit + 8) :
    (json_flush (json_write_all json_init bytes)).index = -2 ^ 31 ∧
    f_encode_output (json_flush (json_write_all json_init bytes)) = [] := by
  have hlen : (json_write_all json_init bytes).contents.length = bytes.length := by
    rw [contents_write_all]
    rfl
  have hc := chunks_write_all bytes _ chunks_init
  have hi := counted_write_all bytes _ chunks_init counted_init (by
      rw [show json_init.contents = [] from rfl]
      simp only [List.length_nil]
      omega)
  exact ⟨index_flush_overflow _ hc hi (by rw [hlen]; exact h1) (by rw [hlen]; exact h2),
    output_flush_overflow _ hc hi (by rw [hlen]; exact h1) (by rw [hlen]; exact h2)⟩

/-- What `json.encode` returns is the empty string when the text of its first
argument has `text_limit + 1` to `text_limit + 7` characters. -/
theorem f_encode_overflow (v : LuaValue) (rest : List LuaValue) (t : List UInt8)
    (ht : text v = .ok t) (h1 : text_limit < t.length) (h2 : t.length < text_limit + 8) :
    f_encode (v :: rest) = .ok [] := by
  rw [f_encode_chunks, ht]
  simp only []
  rw [(write_all_overflow t h1 h2).2]

/-- The text of a string of letters `a`. -/
theorem string_text_plain (n : Nat) :
    string_text (List.replicate n 97) = 34 :: (List.replicate n 97 ++ [34]) := by
  have h1 : ∀ n : Nat, c_string (List.replicate n 97) = List.replicate n 97 := by
    intro n
    unfold c_string
    rw [List.takeWhile_eq_self_iff]
    intro x hx
    rw [List.eq_of_mem_replicate hx]
    rfl
  have h2 : ∀ n : Nat, (List.replicate n (97 : UInt8)).flatMap escape_sequence =
      List.replicate n 97 := by
    intro n
    induction n with
    | zero => rfl
    | succ n ih =>
      rw [List.replicate_succ, List.flatMap_cons, ih]
      rfl
  unfold string_text
  rw [h1, h2]
  rfl

theorem string_domain_plain (n : Nat) :
    (List.replicate n (97 : UInt8)).all (fun ch => ch != 0) = true := by
  rw [List.all_eq_true]
  intro x hx
  rw [List.eq_of_mem_replicate hx]
  rfl

/-- The call `json.encode` on a string of `text_limit - 1` letters `a`, whose
text has `text_limit + 1` characters, returns the empty string. -/
theorem string_overflow (n : Nat) (hn : n + 1 = text_limit) :
    f_encode [.string (List.replicate n 97)] = .ok [] := by
  refine f_encode_overflow _ [] (string_text (List.replicate n 97)) rfl ?_ ?_
  · rw [string_text_plain]
    simp only [List.length_cons, List.length_append, List.length_replicate, List.length_nil]
    omega
  · rw [string_text_plain]
    simp only [List.length_cons, List.length_append, List.length_replicate, List.length_nil]
    omega

/-- The failures `json.encode` reports are those of the text of its first
argument. -/
theorem f_encode_error (v : LuaValue) (rest : List LuaValue) (e : JsonError) :
    f_encode (v :: rest) = .error e ↔ text v = .error e := by
  unfold f_encode
  simp only []
  rw [encode_value_eq]
  cases text v with
  | error e1 =>
    exact ⟨fun h => (by injection h with h; rw [h]), fun h => (by injection h with h; rw [h]; rfl)⟩
  | ok t => exact ⟨fun h => (by cases h), fun h => (by cases h)⟩

/-- The call `json.encode` returns a string whenever its first argument has a
text. -/
theorem f_encode_ok (v : LuaValue) (rest : List LuaValue) (t : List UInt8)
    (ht : text v = .ok t) : ∃ r, f_encode (v :: rest) = .ok r := by
  unfold f_encode
  simp only []
  rw [encode_value_eq, ht]
  exact ⟨_, rfl⟩

/-- Claim C16, amended.  For every byte string `s` whose text, quotes and
escapes included, has at most `8 * (2^31 - 2)` characters, `json.encode(s)` is a
double quote, then, for each byte of `s` before its first zero byte, in order,
the two-character escape of a backslash, a double quote, a backspace, a form
feed, a newline, a carriage return or a tab, and the byte itself for each of the
248 other non-zero bytes, then a closing double quote.  A string without a zero
byte is written whole. -/
theorem text_string_encoding (s : List UInt8)
    (hl : ([34] ++ (c_string s).flatMap escape_sequence ++ [34]).length ≤ text_limit) :
    f_encode [.string s] = .ok ([34] ++ (c_string s).flatMap escape_sequence ++ [34]) ∧
    (0 ∉ s → c_string s = s) ∧
    escape_sequence 92 = [92, 92] ∧ escape_sequence 34 = [92, 34] ∧
    escape_sequence 8 = [92, 98] ∧ escape_sequence 12 = [92, 102] ∧
    escape_sequence 10 = [92, 110] ∧ escape_sequence 13 = [92, 114] ∧
    escape_sequence 9 = [92, 116] ∧
    ∀ b : UInt8, b ∉ [(92 : UInt8), 34, 8, 12, 10, 13, 9] → escape_sequence b = [b] := by
  refine ⟨f_encode_text (.string s) [] _ rfl hl, fun h => ?_, rfl, rfl, rfl, rfl, rfl, rfl, rfl,
    fun b hb => ?_⟩
  · unfold c_string
    rw [List.takeWhile_eq_self_iff]
    intro x hx
    have : x ≠ 0 := fun h0 => h (h0 ▸ hx)
    simpa using this
  · simp only [List.mem_cons, List.mem_singleton, List.not_mem_nil, or_false, not_or] at hb
    obtain ⟨h1, h2, h3, h4, h5, h6, h7⟩ := hb
    unfold escape_sequence
    rw [if_neg h1, if_neg h2, if_neg h3, if_neg h4, if_neg h5, if_neg h6, if_neg h7]

/-- The string of an `a`, a double quote and a newline is written with the two
escapes, between double quotes. -/
theorem text_string_encoding_witness :
    f_encode [.string [97, 34, 10]] = .ok [34, 97, 92, 34, 92, 110, 34] :=
  (text_string_encoding [97, 34, 10] (by decide)).1

/-- The string `a`, NUL, `b` is written as the text of the string `a`: the zero
byte and what follows it are not copied.  The string of `8 * (2^31 - 2) - 1`
letters `a`, whose text has one character more than `8 * (2^31 - 2)`, is
written as the empty string: the counter of the chunks overflows. -/
theorem text_string_counterexample :
    (f_encode [.string [97, 0, 98]] = .ok [34, 97, 34] ∧
      f_encode [.string [97, 0, 98]] ≠
        .ok ([34] ++ [(97 : UInt8), 0, 98].flatMap escape_sequence ++ [34])) ∧
    (f_encode [.string (List.replicate (text_limit - 1) 97)] = .ok [] ∧
      f_encode [.string (List.replicate (text_limit - 1) 97)] ≠
        .ok ([34] ++ (List.replicate (text_limit - 1) (97 : UInt8)).flatMap escape_sequence ++
          [34])) := by
  have hs := string_overflow (text_limit - 1) (by unfold text_limit; omega)
  refine ⟨⟨rfl, ?_⟩, hs, ?_⟩
  · rw [show f_encode [.string [97, 0, 98]] = .ok [34, 97, 34] from rfl]
    intro h
    injection h with h
    exact absurd h (by decide)
  · rw [hs]
    intro h
    injection h with h
    cases h

/-- Claim C18, evaluated on the code.  An input that starts with `-` is a
number for `decode_value`, but the loop of `decode_number` has no case for `-`
and copies nothing, so `json.decode` fails with the error `number expected`;
so it does on `-5`.  The literal `12` is decoded to the float 12. -/
theorem negative_literal_rejected :
    f_decode [45, 53] = .error .number_expected ∧
    (∀ rest : List UInt8, f_decode (45 :: rest) = .error .number_expected) ∧
    f_decode [49, 50] = .ok (.float 0x4028000000000000) := by
  refine ⟨rfl, fun rest => rfl, ?_⟩
  have h : cast_num 12 = 0x4028000000000000 := by
    simp [cast_num, f64_of_ratio, Float754.round_nearest_even, Float754.floor_log2,
      Float754.pack, Nat.log2]
  rw [← h]
  rfl
theorem string_loop_cons (c : UInt8) (rest buffer : List UInt8) (h0 : c ≠ 0) (h1 : c ≠ 34)
    (h2 : c ≠ 92) : decode_string_loop (c :: rest) buffer = decode_string_loop rest (buffer ++ [c]) := by
  conv_lhs => unfold decode_string_loop
  rw [if_neg h0, if_neg h1, if_neg h2]

theorem string_loop_plain (pre rest : List UInt8) (h : ∀ x ∈ pre, x ≠ 0 ∧ x ≠ 34 ∧ x ≠ 92) :
    ∀ buffer, decode_string_loop (pre ++ rest) buffer = decode_string_loop rest (buffer ++ pre) := by
  induction pre with
  | nil => intro buffer; simp
  | cons c pre ih =>
    intro buffer
    obtain ⟨h0, h1, h2⟩ := h c (by simp)
    rw [List.cons_append, string_loop_cons _ _ _ h0 h1 h2, ih (fun x hx => h x (by simp [hx]))]
    simp

theorem string_loop_escape (c : UInt8) (rest buffer : List UInt8) :
    decode_string_loop (92 :: c :: rest) buffer =
      match decode_string_escape c with
      | some b => decode_string_loop rest (buffer ++ [b])
      | none => .error (.invalid_escape c) := by
  conv_lhs => unfold decode_string_loop
  rw [if_neg (by decide), if_neg (by decide), if_pos rfl]

theorem decode_value_quote (fuel : Nat) (rest : List UInt8) :
    decode_value (fuel + 1) (34 :: rest) =
      match decode_string_loop rest [] with
      | .error e => .error e
      | .ok (buffer, input) =>
        match parse_token input [34] with
        | .error e => .error e
        | .ok input => .ok (.string buffer, input) := rfl

/-- Claim C20.  Inside a string literal a backslash followed by one of the
eight characters `"`, `\`, `/`, `b`, `f`, `n`, `r`, `t` contributes the single
byte it denotes (34, 92, 47, 8, 12, 10, 13, 9) and the loop goes on after it; a
backslash followed by any other character `c` fails with the invalid-escape
error naming `c`, and a backslash at the end of the input fails with the
invalid-escape error naming the NUL that ends the input.  So does
`json.decode` on a literal whose characters before the backslash are plain. -/
theorem string_escapes_decode :
    (decode_string_escape 34 = some 34 ∧ decode_string_escape 92 = some 92 ∧
      decode_string_escape 47 = some 47 ∧ decode_string_escape 98 = some 8 ∧
      decode_string_escape 102 = some 12 ∧ decode_string_escape 110 = some 10 ∧
      decode_string_escape 114 = some 13 ∧ decode_string_escape 116 = some 9) ∧
    (∀ c : UInt8, c ∉ [(34 : UInt8), 92, 47, 98, 102, 110, 114, 116] →
      decode_string_escape c = none) ∧
    (∀ (c b : UInt8) (rest buffer : List UInt8), decode_string_escape c = some b →
      decode_string_loop (92 :: c :: rest) buffer = decode_string_loop rest (buffer ++ [b])) ∧
    (∀ (c : UInt8) (rest buffer : List UInt8), decode_string_escape c = none →
      decode_string_loop (92 :: c :: rest) buffer = .error (.invalid_escape c)) ∧
    (∀ buffer : List UInt8, decode_string_loop [92] buffer = .error (.invalid_escape 0)) ∧
    (∀ (pre : List UInt8) (c b : UInt8), (∀ x ∈ pre, x ≠ 0 ∧ x ≠ 34 ∧ x ≠ 92) →
      decode_string_escape c = some b →
      f_decode ([34] ++ pre ++ [92, c, 34]) = .ok (.string (pre ++ [b]))) ∧
    (∀ (pre : List UInt8) (c : UInt8) (rest : List UInt8),
      (∀ x ∈ pre, x ≠ 0 ∧ x ≠ 34 ∧ x ≠ 92) → decode_string_escape c = none →
      f_decode ([34] ++ pre ++ 92 :: c :: rest) = .error (.invalid_escape c)) ∧
    (∀ pre : List UInt8, (∀ x ∈ pre, x ≠ 0 ∧ x ≠ 34 ∧ x ≠ 92) →
      f_decode ([34] ++ pre ++ [92]) = .error (.invalid_escape 0)) := by
  refine ⟨⟨rfl, rfl, rfl, rfl, rfl, rfl, rfl, rfl⟩, fun c hc => ?_, fun c b rest buffer h => ?_,
    fun c rest buffer h => ?_, fun buffer => rfl, fun pre c b hp h => ?_,
    fun pre c rest hp h => ?_, fun pre hp => ?_⟩
  · simp only [List.mem_cons, List.mem_singleton, List.not_mem_nil, or_false, not_or] at hc
    obtain ⟨h1, h2, h3, h4, h5, h6, h7, h8⟩ := hc
    unfold decode_string_escape
    rw [if_neg h1, if_neg h2, if_neg h3, if_neg h4, if_neg h5, if_neg h6, if_neg h7, if_neg h8]
  · rw [string_loop_escape, h]
  · rw [string_loop_escape, h]
  · unfold f_decode
    rw [List.append_assoc, List.singleton_append, decode_value_quote, string_loop_plain _ _ hp,
      string_loop_escape, h]
    simp only [List.nil_append]
    rfl
  · unfold f_decode
    rw [List.append_assoc, List.singleton_append, decode_value_quote, string_loop_plain _ _ hp,
      string_loop_escape, h]
  · unfold f_decode
    rw [List.append_assoc, List.singleton_append, decode_value_quote, string_loop_plain _ _ hp]
    rfl
theorem whitespace_length (x : List UInt8) : (parse_whitespace x).length ≤ x.length := by
  induction x with
  | nil => simp [parse_whitespace]
  | cons c x ih =>
    unfold parse_whitespace
    split
    · simp; omega
    · simp

theorem match_token_length : ∀ (tok x : List UInt8), match_token tok x = true →
    tok.length ≤ x.length
  | [], _, _ => by simp
  | _ :: _, [], h => by simp [match_token] at h
  | t :: tok, c :: x, h => by
    unfold match_token at h
    split at h
    · cases h
    · simp only [List.length_cons]
      have := match_token_length tok x h
      omega

theorem token_length {x tok r : List UInt8} (h : parse_token x tok = .ok r) :
    r.length + tok.length ≤ x.length := by
  unfold parse_token at h
  split at h
  · rename_i hm
    injection h with h
    subst h
    have h1 := match_token_length _ _ hm
    have h2 := whitespace_length x
    simp only [List.length_drop]
    omega
  · cases h

theorem number_loop_length : ∀ (room : Nat) (x : List UInt8),
    (decode_number_loop room x).1.length + (decode_number_loop room x).2.length = x.length
  | 0, x => by simp [decode_number_loop]
  | _ + 1, [] => by simp [decode_number_loop]
  | room + 1, c :: x => by
    unfold decode_number_loop
    split
    · simp only [List.length_cons]
      have := number_loop_length room x
      omega
    · simp

theorem number_shorter {x r : List UInt8} {v : LuaValue} (h : decode_number x = .ok (v, r)) :
    r.length < x.length := by
  unfold decode_number at h
  have h1 := number_loop_length 256 (parse_whitespace x)
  have h2 := whitespace_length x
  cases hb : (decode_number_loop 256 (parse_whitespace x)).1 with
  | nil =>
    rw [hb] at h
    cases h
  | cons c b =>
    rw [hb] at h1
    split at h
    · cases h
    · injection h with h
      injection h with _ h
      subst h
      simp only [List.length_cons] at h1
      omega

theorem string_loop_length : ∀ (x buffer : List UInt8) (b r : List UInt8),
    decode_string_loop x buffer = .ok (b, r) → r.length ≤ x.length
  | [], buffer, b, r, h => by
    simp only [decode_string_loop] at h
    injection h with h
    injection h with _ h
    subst h
    simp
  | [c], buffer, b, r, h => by
    unfold decode_string_loop at h
    split at h
    · injection h with h; injection h with _ h; subst h; simp
    · split at h
      · injection h with h; injection h with _ h; subst h; simp
      · split at h
        · cases h
        · have := string_loop_length [] _ b r h
          simp only [List.length_cons, List.length_nil] at this ⊢
          omega
  | c :: d :: x, buffer, b, r, h => by
    unfold decode_string_loop at h
    split at h
    · injection h with h; injection h with _ h; subst h; simp
    · split at h
      · injection h with h; injection h with _ h; subst h; simp
      · split at h
        · simp only [] at h
          split at h
          · have := string_loop_length x _ b r h
            simp only [List.length_cons]
            omega
          · cases h
        · have := string_loop_length (d :: x) _ b r h
          simp only [List.length_cons] at this ⊢
          omega

theorem string_shorter {x r : List UInt8} {v : LuaValue} (h : decode_string x = .ok (v, r)) :
    r.length + 2 ≤ x.length := by
  unfold decode_string at h
  cases h1 : parse_token x [34] with
  | error e => rw [h1] at h; cases h
  | ok x1 =>
    rw [h1] at h
    simp only [] at h
    cases h2 : decode_string_loop x1 [] with
    | error e => rw [h2] at h; cases h
    | ok p =>
      obtain ⟨b, x2⟩ := p
      rw [h2] at h
      simp only [] at h
      cases h3 : parse_token x2 [34] with
      | error e => rw [h3] at h; cases h
      | ok x3 =>
        rw [h3] at h
        injection h with h
        injection h with _ h
        subst h
        have l1 := token_length h1
        have l2 := string_loop_length _ _ _ _ h2
        have l3 := token_length h3
        simp only [List.length_cons, List.length_nil] at l1 l3
        omega
theorem array_loop_length {dec : List UInt8 → Except JsonError (LuaValue × List UInt8)}
    (hd : Shorter dec) (n : Nat) : ∀ (i : Int) (t : List (LuaValue × LuaValue))
    (x : List UInt8) (t' : List (LuaValue × LuaValue)) (r : List UInt8),
    decode_array_loop dec n i t x = .ok (t', r) → r.length ≤ x.length := by
  induction n with
  | zero => intro i t x t' r h; cases h
  | succ n ih =>
    intro i t x t' r h
    unfold decode_array_loop at h
    split at h
    · injection h with h; injection h with _ h; subst h; exact Nat.le_refl _
    · cases h1 : dec x with
      | error e => rw [h1] at h; cases h
      | ok p =>
        obtain ⟨v, x1⟩ := p
        rw [h1] at h
        simp only [] at h
        have l1 := hd _ _ _ h1
        have l2 := whitespace_length x1
        split at h
        · injection h with h; injection h with _ h; subst h; omega
        · cases h2 : parse_token (parse_whitespace x1) [44] with
          | error e => rw [h2] at h; cases h
          | ok x2 =>
            rw [h2] at h
            have l3 := token_length h2
            have l4 := ih _ _ _ _ _ h
            omega

theorem object_loop_length {dec : List UInt8 → Except JsonError (LuaValue × List UInt8)}
    (hd : Shorter dec) (n : Nat) : ∀ (t : List (LuaValue × LuaValue))
    (x : List UInt8) (t' : List (LuaValue × LuaValue)) (r : List UInt8),
    decode_object_loop dec n t x = .ok (t', r) → r.length ≤ x.length := by
  induction n with
  | zero => intro t x t' r h; cases h
  | succ n ih =>
    intro t x t' r h
    unfold decode_object_loop at h
    split at h
    · injection h with h; injection h with _ h; subst h; exact Nat.le_refl _
    · cases h0 : decode_string x with
      | error e => rw [h0] at h; cases h
      | ok p0 =>
        obtain ⟨k, x0⟩ := p0
        rw [h0] at h
        simp only [] at h
        have l0 := string_shorter h0
        cases hc : parse_token x0 [58] with
        | error e => rw [hc] at h; cases h
        | ok xc =>
          rw [hc] at h
          simp only [] at h
          have lc := token_length hc
          cases h1 : dec xc with
          | error e => rw [h1] at h; cases h
          | ok p =>
            obtain ⟨v, x1⟩ := p
            rw [h1] at h
            simp only [] at h
            have l1 := hd _ _ _ h1
            have l2 := whitespace_length x1
            cases hs : lua_rawset t k v with
            | error e => rw [hs] at h; cases h
            | ok t2 =>
              rw [hs] at h
              simp only [] at h
              split at h
              · injection h with h; injection h with _ h; subst h; omega
              · cases h2 : parse_token (parse_whitespace x1) [44] with
                | error e => rw [h2] at h; cases h
                | ok x2 =>
                  rw [h2] at h
                  have l3 := token_length h2
                  have l4 := ih _ _ _ _ h
                  omega

theorem array_shorter {dec : List UInt8 → Except JsonError (LuaValue × List UInt8)}
    (hd : Shorter dec) {n : Nat} {x r : List UInt8} {v : LuaValue}
    (h : decode_array dec n x = .ok (v, r)) : r.length < x.length := by
  unfold decode_array at h
  cases h1 : parse_token x [91] with
  | error e => rw [h1] at h; cases h
  | ok x1 =>
    rw [h1] at h
    simp only [] at h
    have l1 := token_length h1
    have l2 := whitespace_length x1
    simp only [List.length_cons, List.length_nil] at l1
    split at h
    · cases h2 : parse_token (parse_whitespace x1) [93] with
      | error e => rw [h2] at h; cases h
      | ok x2 =>
        rw [h2] at h
        injection h with h; injection h with _ h; subst h
        have l3 := token_length h2
        omega
    · cases h2 : decode_array_loop dec n 1 [] (parse_whitespace x1) with
      | error e => rw [h2] at h; cases h
      | ok p =>
        obtain ⟨t, x2⟩ := p
        rw [h2] at h
        simp only [] at h
        have l3 := array_loop_length hd _ _ _ _ _ _ h2
        cases h3 : parse_token x2 [93] with
        | error e => rw [h3] at h; cases h
        | ok x3 =>
          rw [h3] at h
          injection h with h; injection h with _ h; subst h
          have l4 := token_length h3
          omega

theorem object_shorter {dec : List UInt8 → Except JsonError (LuaValue × List UInt8)}
    (hd : Shorter dec) {n : Nat} {x r : List UInt8} {v : LuaValue}
    (h : decode_object dec n x = .ok (v, r)) : r.length < x.length := by
  unfold decode_object at h
  cases h1 : parse_token x [123] with
  | error e => rw [h1] at h; cases h
  | ok x1 =>
    rw [h1] at h
    simp only [] at h
    have l1 := token_length h1
    have l2 := whitespace_length x1
    simp only [List.length_cons, List.length_nil] at l1
    split at h
    · cases h2 : parse_token (parse_whitespace x1) [125] with
      | error e => rw [h2] at h; cases h
      | ok x2 =>
        rw [h2] at h
        injection h with h; injection h with _ h; subst h
        have l3 := token_length h2
        omega
    · cases h2 : decode_object_loop dec n [] (parse_whitespace x1) with
      | error e => rw [h2] at h; cases h
      | ok p =>
        obtain ⟨t, x2⟩ := p
        rw [h2] at h
        simp only [] at h
        have l3 := object_loop_length hd _ _ _ _ _ h2
        cases h3 : parse_token x2 [125] with
        | error e => rw [h3] at h; cases h
        | ok x3 =>
          rw [h3] at h
          injection h with h; injection h with _ h; subst h
          have l4 := token_length h3
          omega

theorem token_value_shorter {x tok r : List UInt8} {v w : LuaValue} (ht : 0 < tok.length)
    (h : (match parse_token x tok with
      | .error e => (.error e : Except JsonError (LuaValue × List UInt8))
      | .ok input => .ok (w, input)) = .ok (v, r)) : r.length < x.length := by
  cases h1 : parse_token x tok with
  | error e => rw [h1] at h; cases h
  | ok x1 =>
    rw [h1] at h
    injection h with h; injection h with _ h; subst h
    have := token_length h1
    omega

/-- The cases of the `switch` of `decode_value`. -/
theorem value_switch_cases (dec : List UInt8 → Except JsonError (LuaValue × List UInt8))
    (n : Nat) (c : UInt8) (x : List UInt8) :
    (∃ tok w, 0 < tok.length ∧ decode_value_switch dec n c x =
      match parse_token x tok with
      | .error e => .error e
      | .ok input => .ok (w, input)) ∨
    decode_value_switch dec n c x = decode_number x ∨
    decode_value_switch dec n c x = decode_string x ∨
    decode_value_switch dec n c x = decode_array dec n x ∨
    decode_value_switch dec n c x = decode_object dec n x ∨
    decode_value_switch dec n c x = .error (.invalid_character c) := by
  unfold decode_value_switch
  by_cases h1 : c = 110
  · rw [if_pos h1]; exact Or.inl ⟨_, _, by simp, rfl⟩
  rw [if_neg h1]
  by_cases h2 : c = 102
  · rw [if_pos h2]; exact Or.inl ⟨_, _, by simp, rfl⟩
  rw [if_neg h2]
  by_cases h3 : c = 116
  · rw [if_pos h3]; exact Or.inl ⟨_, _, by simp, rfl⟩
  rw [if_neg h3]
  by_cases h4 : lisdigit c = true ∨ c = 45
  · rw [if_pos h4]; exact Or.inr (Or.inl rfl)
  rw [if_neg h4]
  by_cases h5 : c = 34
  · rw [if_pos h5]; exact Or.inr (Or.inr (Or.inl rfl))
  rw [if_neg h5]
  by_cases h6 : c = 91
  · rw [if_pos h6]; exact Or.inr (Or.inr (Or.inr (Or.inl rfl)))
  rw [if_neg h6]
  by_cases h7 : c = 123
  · rw [if_pos h7]; exact Or.inr (Or.inr (Or.inr (Or.inr (Or.inl rfl))))
  rw [if_neg h7]
  exact Or.inr (Or.inr (Or.inr (Or.inr (Or.inr rfl))))

theorem switch_shorter {dec : List UInt8 → Except JsonError (LuaValue × List UInt8)}
    (hd : Shorter dec) {n : Nat} {c : UInt8} {x r : List UInt8} {v : LuaValue}
    (h : decode_value_switch dec n c x = .ok (v, r)) : r.length < x.length := by
  rcases value_switch_cases dec n c x with ⟨tok, w, ht, e⟩ | e | e | e | e | e <;> rw [e] at h
  · exact token_value_shorter ht h
  · exact number_shorter h
  · have := string_shorter h; omega
  · exact array_shorter hd h
  · exact object_shorter hd h
  · cases h

theorem value_shorter (fuel : Nat) : Shorter (decode_value fuel) := by
  induction fuel with
  | zero => intro x v r h; cases h
  | succ fuel ih =>
    intro x v r h
    unfold decode_value at h
    have := switch_shorter ih h
    have := whitespace_length x
    omega
theorem error_ne {α : Type} {e1 e2 : JsonError} {r : Except JsonError α}
    (h : Except.error e1 = r) (hr : r ≠ .error e2) : e1 ≠ e2 := by
  intro he
  rw [he] at h
  exact hr h.symm

theorem ok_ne_error {α : Type} (a : α) (e : JsonError) :
    (Except.ok a : Except JsonError α) ≠ .error e := by
  intro h; cases h

theorem array_loop_stable {d1 d2 : List UInt8 → Except JsonError (LuaValue × List UInt8)}
    (he : Extends d1 d2) (n1 : Nat) : ∀ (n2 : Nat) (i : Int) (t : List (LuaValue × LuaValue))
    (x : List UInt8) (r : Except JsonError (List (LuaValue × LuaValue) × List UInt8)),
    n1 ≤ n2 → decode_array_loop d1 n1 i t x = r → r ≠ .error .out_of_fuel →
    decode_array_loop d2 n2 i t x = r := by
  induction n1 with
  | zero => intro n2 i t x r _ h hr; exact absurd h.symm hr
  | succ n1 ih =>
    intro n2 i t x r hle h hr
    obtain ⟨m, rfl⟩ : ∃ m, n2 = m + 1 := ⟨n2 - 1, by omega⟩
    unfold decode_array_loop at h ⊢
    by_cases hp : peek x = 0
    · rw [if_pos hp] at h ⊢; exact h
    · rw [if_neg hp] at h ⊢
      cases h1 : d1 x with
      | error e =>
        rw [h1] at h
        simp only [] at h
        rw [he x _ h1 (fun h2 => by injection h2 with h2; rw [h2] at h; exact hr h.symm)]
        exact h
      | ok p =>
        obtain ⟨v, x1⟩ := p
        rw [h1] at h
        rw [he x _ h1 (ok_ne_error _ _)]
        simp only [] at h ⊢
        by_cases hq : peek (parse_whitespace x1) = 93
        · rw [if_pos hq] at h ⊢; exact h
        · rw [if_neg hq] at h ⊢
          cases h2 : parse_token (parse_whitespace x1) [44] with
          | error e => rw [h2] at h; exact h
          | ok x2 =>
            rw [h2] at h
            exact ih m _ _ _ _ (by omega) h hr

theorem object_loop_stable {d1 d2 : List UInt8 → Except JsonError (LuaValue × List UInt8)}
    (he : Extends d1 d2) (n1 : Nat) : ∀ (n2 : Nat) (t : List (LuaValue × LuaValue))
    (x : List UInt8) (r : Except JsonError (List (LuaValue × LuaValue) × List UInt8)),
    n1 ≤ n2 → decode_object_loop d1 n1 t x = r → r ≠ .error .out_of_fuel →
    decode_object_loop d2 n2 t x = r := by
  induction n1 with
  | zero => intro n2 t x r _ h hr; exact absurd h.symm hr
  | succ n1 ih =>
    intro n2 t x r hle h hr
    obtain ⟨m, rfl⟩ : ∃ m, n2 = m + 1 := ⟨n2 - 1, by omega⟩
    unfold decode_object_loop at h ⊢
    by_cases hp : peek x = 0
    · rw [if_pos hp] at h ⊢; exact h
    · rw [if_neg hp] at h ⊢
      cases h0 : decode_string x with
      | error e => rw [h0] at h; exact h
      | ok p0 =>
        obtain ⟨k, x0⟩ := p0
        rw [h0] at h
        simp only [] at h ⊢
        cases hc : parse_token x0 [58] with
        | error e => rw [hc] at h; exact h
        | ok xc =>
          rw [hc] at h
          simp only [] at h ⊢
          cases h1 : d1 xc with
          | error e =>
            rw [h1] at h
            simp only [] at h
            rw [he xc _ h1 (fun h2 => by injection h2 with h2; rw [h2] at h; exact hr h.symm)]
            exact h
          | ok p =>
            obtain ⟨v, x1⟩ := p
            rw [h1] at h
            rw [he xc _ h1 (ok_ne_error _ _)]
            simp only [] at h ⊢
            cases hs : lua_rawset t k v with
            | error e => rw [hs] at h; exact h
            | ok t2 =>
              rw [hs] at h
              simp only [] at h ⊢
              by_cases hq : peek (parse_whitespace x1) = 125
              · rw [if_pos hq] at h ⊢; exact h
              · rw [if_neg hq] at h ⊢
                cases h2 : parse_token (parse_whitespace x1) [44] with
                | error e => rw [h2] at h; exact h
                | ok x2 =>
                  rw [h2] at h
                  exact ih m _ _ _ (by omega) h hr

theorem array_stable {d1 d2 : List UInt8 → Except JsonError (LuaValue × List UInt8)}
    (he : Extends d1 d2) {n1 n2 : Nat} (hle : n1 ≤ n2) {x : List UInt8}
    {r : Except JsonError (LuaValue × List UInt8)} (h : decode_array d1 n1 x = r)
    (hr : r ≠ .error .out_of_fuel) : decode_array d2 n2 x = r := by
  unfold decode_array at h ⊢
  cases h1 : parse_token x [91] with
  | error e => rw [h1] at h; exact h
  | ok x1 =>
    rw [h1] at h
    simp only [] at h ⊢
    by_cases hq : peek (parse_whitespace x1) = 93
    · rw [if_pos hq] at h ⊢; exact h
    · rw [if_neg hq] at h ⊢
      cases h2 : decode_array_loop d1 n1 1 [] (parse_whitespace x1) with
      | error e =>
        rw [h2] at h
        simp only [] at h
        rw [array_loop_stable he n1 n2 _ _ _ _ hle h2
          (fun h3 => by injection h3 with h3; rw [h3] at h; exact hr h.symm)]
        exact h
      | ok p =>
        rw [h2] at h
        rw [array_loop_stable he n1 n2 _ _ _ _ hle h2 (ok_ne_error _ _)]
        exact h

theorem object_stable {d1 d2 : List UInt8 → Except JsonError (LuaValue × List UInt8)}
    (he : Extends d1 d2) {n1 n2 : Nat} (hle : n1 ≤ n2) {x : List UInt8}
    {r : Except JsonError (LuaValue × List UInt8)} (h : decode_object d1 n1 x = r)
    (hr : r ≠ .error .out_of_fuel) : decode_object d2 n2 x = r := by
  unfold decode_object at h ⊢
  cases h1 : parse_token x [123] with
  | error e => rw [h1] at h; exact h
  | ok x1 =>
    rw [h1] at h
    simp only [] at h ⊢
    by_cases hq : peek (parse_whitespace x1) = 125
    · rw [if_pos hq] at h ⊢; exact h
    · rw [if_neg hq] at h ⊢
      cases h2 : decode_object_loop d1 n1 [] (parse_whitespace x1) with
      | error e =>
        rw [h2] at h
        simp only [] at h
        rw [object_loop_stable he n1 n2 _ _ _ hle h2
          (fun h3 => by injection h3 with h3; rw [h3] at h; exact hr h.symm)]
        exact h
      | ok p =>
        rw [h2] at h
        rw [object_loop_stable he n1 n2 _ _ _ hle h2 (ok_ne_error _ _)]
        exact h

theorem switch_stable {d1 d2 : List UInt8 → Except JsonError (LuaValue × List UInt8)}
    (he : Extends d1 d2) {n1 n2 : Nat} (hle : n1 ≤ n2) {c : UInt8} {x : List UInt8}
    {r : Except JsonError (LuaValue × List UInt8)} (h : decode_value_switch d1 n1 c x = r)
    (hr : r ≠ .error .out_of_fuel) : decode_value_switch d2 n2 c x = r := by
  unfold decode_value_switch at h ⊢
  by_cases h1 : c = 110
  · rw [if_pos h1] at h ⊢; exact h
  rw [if_neg h1] at h ⊢
  by_cases h2 : c = 102
  · rw [if_pos h2] at h ⊢; exact h
  rw [if_neg h2] at h ⊢
  by_cases h3 : c = 116
  · rw [if_pos h3] at h ⊢; exact h
  rw [if_neg h3] at h ⊢
  by_cases h4 : lisdigit c = true ∨ c = 45
  · rw [if_pos h4] at h ⊢; exact h
  rw [if_neg h4] at h ⊢
  by_cases h5 : c = 34
  · rw [if_pos h5] at h ⊢; exact h
  rw [if_neg h5] at h ⊢
  by_cases h6 : c = 91
  · rw [if_pos h6] at h ⊢; exact array_stable he hle h hr
  rw [if_neg h6] at h ⊢
  by_cases h7 : c = 123
  · rw [if_pos h7] at h ⊢; exact object_stable he hle h hr
  rw [if_neg h7] at h ⊢
  exact h

/-- A result of `decode_value` other than the end of the fuel stays the same
with more fuel. -/
theorem value_stable (f1 : Nat) : ∀ (f2 : Nat), f1 ≤ f2 →
    Extends (decode_value f1) (decode_value f2) := by
  induction f1 with
  | zero => intro f2 _ x r h hr; exact absurd h.symm hr
  | succ f1 ih =>
    intro f2 hle x r h hr
    obtain ⟨m, rfl⟩ : ∃ m, f2 = m + 1 := ⟨f2 - 1, by omega⟩
    unfold decode_value at h ⊢
    exact switch_stable (ih m (by omega)) (by omega) h hr
theorem token_error {x tok : List UInt8} {e : JsonError} (h : parse_token x tok = .error e) :
    e = .expected_token tok := by
  unfold parse_token at h
  split at h
  · cases h
  · injection h with h; exact h.symm

theorem number_error {x : List UInt8} {e : JsonError} (h : decode_number x = .error e) :
    e = .number_expected := by
  unfold decode_number at h
  split at h
  · injection h with h; exact h.symm
  · cases h

theorem string_loop_error : ∀ (x buffer : List UInt8) (e : JsonError),
    decode_string_loop x buffer = .error e → ∃ c, e = .invalid_escape c
  | [], buffer, e, h => by simp only [decode_string_loop] at h; cases h
  | [c], buffer, e, h => by
    unfold decode_string_loop at h
    split at h
    · cases h
    · split at h
      · cases h
      · split at h
        · injection h with h; exact ⟨_, h.symm⟩
        · exact string_loop_error [] _ e h
  | c :: d :: x, buffer, e, h => by
    unfold decode_string_loop at h
    split at h
    · cases h
    · split at h
      · cases h
      · split at h
        · simp only [] at h
          split at h
          · exact string_loop_error x _ e h
          · injection h with h; exact ⟨_, h.symm⟩
        · exact string_loop_error (d :: x) _ e h

theorem string_error {x : List UInt8} {e : JsonError} (h : decode_string x = .error e) :
    e = .expected_token [34] ∨ ∃ c, e = .invalid_escape c := by
  unfold decode_string at h
  cases h1 : parse_token x [34] with
  | error e1 => rw [h1] at h; injection h with h; rw [← h]; exact Or.inl (token_error h1)
  | ok x1 =>
    rw [h1] at h
    simp only [] at h
    cases h2 : decode_string_loop x1 [] with
    | error e2 =>
      rw [h2] at h; injection h with h; rw [← h]; exact Or.inr (string_loop_error _ _ _ h2)
    | ok p =>
      obtain ⟨b, x2⟩ := p
      rw [h2] at h
      simp only [] at h
      cases h3 : parse_token x2 [34] with
      | error e3 => rw [h3] at h; injection h with h; rw [← h]; exact Or.inl (token_error h3)
      | ok x3 => rw [h3] at h; cases h

theorem string_fueled {x : List UInt8} : decode_string x ≠ .error .out_of_fuel := by
  intro h
  rcases string_error h with h1 | ⟨c, h1⟩ <;> cases h1

theorem token_fueled {α : Type} {x tok : List UInt8} {f : List UInt8 → Except JsonError α}
    (hf : ∀ y, f y ≠ .error .out_of_fuel) :
    (match parse_token x tok with
      | .error e => (.error e : Except JsonError α)
      | .ok input => f input) ≠ .error .out_of_fuel := by
  cases h1 : parse_token x tok with
  | error e => intro h; injection h with h; rw [h] at h1; cases token_error h1
  | ok x1 => exact hf x1

theorem array_loop_fueled {dec : List UInt8 → Except JsonError (LuaValue × List UInt8)}
    (hd : Shorter dec) (n : Nat) : ∀ (i : Int) (t : List (LuaValue × LuaValue))
    (x : List UInt8), x.length < n → (∀ y, y.length ≤ x.length → dec y ≠ .error .out_of_fuel) →
    decode_array_loop dec n i t x ≠ .error .out_of_fuel := by
  induction n with
  | zero => intro i t x hx; omega
  | succ n ih =>
    intro i t x hx hf
    unfold decode_array_loop
    split
    · exact ok_ne_error _ _
    · cases h1 : dec x with
      | error e =>
        intro h
        injection h with h
        rw [h] at h1
        exact hf x (Nat.le_refl _) h1
      | ok p =>
        obtain ⟨v, x1⟩ := p
        simp only []
        have l1 := hd _ _ _ h1
        have l2 := whitespace_length x1
        split
        · exact ok_ne_error _ _
        · cases h2 : parse_token (parse_whitespace x1) [44] with
          | error e => intro h; injection h with h; rw [h] at h2; cases token_error h2
          | ok x2 =>
            have l3 := token_length h2
            exact ih _ _ _ (by omega) (fun y hy => hf y (by omega))

theorem object_loop_fueled {dec : List UInt8 → Except JsonError (LuaValue × List UInt8)}
    (hd : Shorter dec) (n : Nat) : ∀ (t : List (LuaValue × LuaValue))
    (x : List UInt8), x.length < n → (∀ y, y.length ≤ x.length → dec y ≠ .error .out_of_fuel) →
    decode_object_loop dec n t x ≠ .error .out_of_fuel := by
  induction n with
  | zero => intro t x hx; omega
  | succ n ih =>
    intro t x hx hf
    unfold decode_object_loop
    split
    · exact ok_ne_error _ _
    · cases h0 : decode_string x with
      | error e => intro h; injection h with h; rw [h] at h0; exact string_fueled h0
      | ok p0 =>
        obtain ⟨k, x0⟩ := p0
        simp only []
        have l0 := string_shorter h0
        cases hc : parse_token x0 [58] with
        | error e => intro h; injection h with h; rw [h] at hc; cases token_error hc
        | ok xc =>
          simp only []
          have lc := token_length hc
          cases h1 : dec xc with
          | error e =>
            intro h
            injection h with h
            rw [h] at h1
            exact hf xc (by omega) h1
          | ok p =>
            obtain ⟨v, x1⟩ := p
            simp only []
            have l1 := hd _ _ _ h1
            have l2 := whitespace_length x1
            cases hs : lua_rawset t k v with
            | error e => intro h; cases h
            | ok t2 =>
              simp only []
              split
              · exact ok_ne_error _ _
              · cases h2 : parse_token (parse_whitespace x1) [44] with
                | error e => intro h; injection h with h; rw [h] at h2; cases token_error h2
                | ok x2 =>
                  have l3 := token_length h2
                  exact ih _ _ (by omega) (fun y hy => hf y (by omega))

theorem array_fueled {dec : List UInt8 → Except JsonError (LuaValue × List UInt8)}
    (hd : Shorter dec) {n : Nat} {x : List UInt8} (hx : x.length ≤ n)
    (hf : ∀ y, y.length < x.length → dec y ≠ .error .out_of_fuel) :
    decode_array dec n x ≠ .error .out_of_fuel := by
  unfold decode_array
  cases h1 : parse_token x [91] with
  | error e => intro h; injection h with h; rw [h] at h1; cases token_error h1
  | ok x1 =>
    simp only []
    have l1 := token_length h1
    have l2 := whitespace_length x1
    simp only [List.length_cons, List.length_nil] at l1
    split
    · exact token_fueled (fun y => ok_ne_error _ _)
    · cases h2 : decode_array_loop dec n 1 [] (parse_whitespace x1) with
      | error e =>
        intro h
        injection h with h
        rw [h] at h2
        exact array_loop_fueled hd n _ _ _ (by omega) (fun y hy => hf y (by omega)) h2
      | ok p =>
        obtain ⟨t, x2⟩ := p
        exact token_fueled (fun y => ok_ne_error _ _)

theorem object_fueled {dec : List UInt8 → Except JsonError (LuaValue × List UInt8)}
    (hd : Shorter dec) {n : Nat} {x : List UInt8} (hx : x.length ≤ n)
    (hf : ∀ y, y.length < x.length → dec y ≠ .error .out_of_fuel) :
    decode_object dec n x ≠ .error .out_of_fuel := by
  unfold decode_object
  cases h1 : parse_token x [123] with
  | error e => intro h; injection h with h; rw [h] at h1; cases token_error h1
  | ok x1 =>
    simp only []
    have l1 := token_length h1
    have l2 := whitespace_length x1
    simp only [List.length_cons, List.length_nil] at l1
    split
    · exact token_fueled (fun y => ok_ne_error _ _)
    · cases h2 : decode_object_loop dec n [] (parse_whitespace x1) with
      | error e =>
        intro h
        injection h with h
        rw [h] at h2
        exact object_loop_fueled hd n _ _ (by omega) (fun y hy => hf y (by omega)) h2
      | ok p =>
        obtain ⟨t, x2⟩ := p
        exact token_fueled (fun y => ok_ne_error _ _)

theorem switch_fueled {dec : List UInt8 → Except JsonError (LuaValue × List UInt8)}
    (hd : Shorter dec) {n : Nat} {c : UInt8} {x : List UInt8} (hx : x.length ≤ n)
    (hf : ∀ y, y.length < x.length → dec y ≠ .error .out_of_fuel) :
    decode_value_switch dec n c x ≠ .error .out_of_fuel := by
  rcases value_switch_cases dec n c x with ⟨tok, w, ht, e⟩ | e | e | e | e | e <;> rw [e]
  · exact token_fueled (fun y => ok_ne_error _ _)
  · intro h; cases number_error h
  · exact string_fueled
  · exact array_fueled hd hx hf
  · exact object_fueled hd hx hf
  · intro h; cases h

/-- With more fuel than the input has characters, `decode_value` does not run
out of fuel. -/
theorem value_fueled (fuel : Nat) : ∀ (x : List UInt8), x.length < fuel →
    decode_value fuel x ≠ .error .out_of_fuel := by
  induction fuel with
  | zero => intro x hx; omega
  | succ fuel ih =>
    intro x hx
    unfold decode_value
    have := whitespace_length x
    exact switch_fueled (value_shorter fuel) (by omega) (fun y hy => ih y (by omega))

/-- With more fuel than the input has characters, `decode_value` gives what it
gives with the fuel of `f_decode`. -/
theorem decode_fuel {fuel : Nat} {x : List UInt8} (h : x.length < fuel) :
    decode_value fuel x = decode x :=
  value_stable (x.length + 1) fuel (by omega) x _ rfl (value_fueled _ _ (by omega))
theorem whitespace_idem (x : List UInt8) : parse_whitespace (parse_whitespace x) = parse_whitespace x := by
  induction x with
  | nil => rfl
  | cons c x ih =>
    by_cases h : c ≠ 0 ∧ isspace c = true
    · rw [show parse_whitespace (c :: x) = parse_whitespace x by
        simp only [parse_whitespace]; rw [if_pos h]]
      exact ih
    · have e : parse_whitespace (c :: x) = c :: x := by
        simp only [parse_whitespace]; rw [if_neg h]
      rw [e, e]

theorem whitespace_all (ws : List UInt8) (h : ∀ c ∈ ws, isspace c = true) :
    parse_whitespace ws = [] := by
  induction ws with
  | nil => rfl
  | cons c ws ih =>
    have hc := h c (by simp)
    have h0 : c ≠ 0 := by
      intro h0
      rw [h0] at hc
      exact absurd hc (by decide)
    simp only [parse_whitespace]
    rw [if_pos ⟨h0, hc⟩]
    exact ih (fun x hx => h x (by simp [hx]))

theorem value_whitespace (fuel : Nat) (x : List UInt8) :
    decode_value fuel (parse_whitespace x) = decode_value fuel x := by
  cases fuel with
  | zero => rfl
  | succ f => simp only [decode_value, whitespace_idem]

theorem whitespace_peek (x : List UInt8) (h : peek x = 0) : parse_whitespace x = x := by
  cases x with
  | nil => rfl
  | cons c x =>
    have hc : c = 0 := h
    simp only [parse_whitespace]
    rw [if_neg (by simp [hc])]

theorem value_start {fuel : Nat} {x : List UInt8} {v : LuaValue} {r : List UInt8}
    (h : decode_value fuel x = .ok (v, r)) :
    peek (parse_whitespace x) ≠ 0 ∧ peek (parse_whitespace x) ≠ 93 ∧
      peek (parse_whitespace x) ≠ 125 ∧ peek (parse_whitespace x) ≠ 44 := by
  cases fuel with
  | zero => cases h
  | succ f =>
    unfold decode_value at h
    refine ⟨fun hc => ?_, fun hc => ?_, fun hc => ?_, fun hc => ?_⟩ <;>
      rw [hc] at h <;> cases h

theorem match_token_peek {t : UInt8} {tok x : List UInt8} (h : match_token (t :: tok) x = true) :
    peek x = t := by
  cases x with
  | nil => simp [match_token] at h
  | cons c x =>
    unfold match_token at h
    split at h
    · cases h
    · rename_i hc
      simpa [peek] using hc

theorem token_mismatch {t : UInt8} {tok x : List UInt8} (h : peek (parse_whitespace x) ≠ t) :
    parse_token x (t :: tok) = .error (.expected_token (t :: tok)) := by
  unfold parse_token
  rw [if_neg (fun hm => h (match_token_peek hm))]

theorem token_comma (tail : List UInt8) : parse_token (44 :: tail) [44] = .ok tail := rfl

theorem value_list_loop {x : List UInt8} (hv : ValueList x) :
    ∀ (n : Nat) (i : Int) (t : List (LuaValue × LuaValue))
      (dec : List UInt8 → Except JsonError (LuaValue × List UInt8)),
      (∀ y, y.length ≤ x.length → dec y = decode y) → x.length < n →
      decode_array_loop dec n i t x = .error (.expected_token [44]) := by
  induction hv with
  | last x v rest hdec hpeek =>
    intro n i t dec hd hn
    obtain ⟨m, rfl⟩ : ∃ m, n = m + 1 := ⟨n - 1, by omega⟩
    have hs := value_start hdec
    have hp : peek x ≠ 0 := fun h0 => hs.1 (by rw [whitespace_peek x h0]; exact h0)
    unfold decode_array_loop
    rw [if_neg hp, hd x (Nat.le_refl _), hdec]
    simp only []
    rw [if_neg (by rw [hpeek]; decide), token_mismatch (by rw [whitespace_idem, hpeek]; decide)]
  | more x v rest tail hdec hws hvl ih =>
    intro n i t dec hd hn
    obtain ⟨m, rfl⟩ : ∃ m, n = m + 1 := ⟨n - 1, by omega⟩
    have hs := value_start hdec
    have hp : peek x ≠ 0 := fun h0 => hs.1 (by rw [whitespace_peek x h0]; exact h0)
    have l1 := value_shorter _ _ _ _ hdec
    have l2 := whitespace_length rest
    rw [hws] at l2
    simp only [List.length_cons] at l2
    unfold decode_array_loop
    rw [if_neg hp, hd x (Nat.le_refl _), hdec]
    simp only []
    rw [hws, if_neg (show ¬ peek (44 :: tail) = 93 from fun h =>
      absurd (show (44 : UInt8) = 93 from h) (by decide)), token_comma]
    simp only []
    exact ih m _ _ dec (fun y hy => hd y (by omega)) (by omega)

theorem value_list_whitespace {x : List UInt8} (hv : ValueList x) :
    ValueList (parse_whitespace x) := by
  have key : decode (parse_whitespace x) = decode x := by
    unfold decode
    have l := whitespace_length x
    have h1 := value_fueled ((parse_whitespace x).length + 1) (parse_whitespace x) (by omega)
    rw [value_whitespace] at h1 ⊢
    exact (value_stable _ _ (by omega) x _ rfl h1).symm
  cases hv with
  | last _ v rest hdec hpeek => exact ValueList.last _ v rest (by rw [key]; exact hdec) hpeek
  | more _ v rest tail hdec hws hvl =>
    exact ValueList.more _ v rest tail (by rw [key]; exact hdec) hws hvl

theorem decode_open_bracket (fuel : Nat) (x : List UInt8) :
    decode_value (fuel + 1) (91 :: x) =
      if peek (parse_whitespace x) = 93 then
        match parse_token (parse_whitespace x) [93] with
        | .error e => .error e
        | .ok input => .ok (.table [], input)
      else
        match decode_array_loop (decode_value fuel) fuel 1 [] (parse_whitespace x) with
        | .error e => .error e
        | .ok (table, input) =>
          match parse_token input [93] with
          | .error e => .error e
          | .ok input => .ok (.table table, input) := rfl

theorem decode_open_brace (fuel : Nat) (x : List UInt8) :
    decode_value (fuel + 1) (123 :: x) =
      if peek (parse_whitespace x) = 125 then
        match parse_token (parse_whitespace x) [125] with
        | .error e => .error e
        | .ok input => .ok (.table [], input)
      else
        match decode_object_loop (decode_value fuel) fuel [] (parse_whitespace x) with
        | .error e => .error e
        | .ok (table, input) =>
          match parse_token input [125] with
          | .error e => .error e
          | .ok input => .ok (.table table, input) := rfl

/-- Claim C19.  An input that consists of an opening brace followed only by
white space fails with the error that the token of the closing brace was
expected, and an input that consists of `[` followed by one or more values the
decoder accepts, with commas between them, and then ends, fails with the error
that the token `,` was expected; neither returns a value.  So do the inputs of
the single opening brace and `[1,2`. -/
theorem decode_error_locality :
    (∀ ws : List UInt8, (∀ c ∈ ws, isspace c = true) →
      f_decode (123 :: ws) = .error (.expected_token [125])) ∧
    (∀ input : List UInt8, ValueList input →
      f_decode (91 :: input) = .error (.expected_token [44])) ∧
    f_decode [123] = .error (.expected_token [125]) ∧
    f_decode [91, 49, 44, 50] = .error (.expected_token [44]) := by
  refine ⟨fun ws hws => ?_, fun input hv => ?_, rfl, rfl⟩
  · unfold f_decode
    rw [List.length_cons, decode_open_brace, whitespace_all ws hws]
    rfl
  · have hw := value_list_whitespace hv
    have hstart : peek (parse_whitespace input) ≠ 93 := by
      cases hv with
      | last _ v rest hdec hpeek => exact (value_start hdec).2.1
      | more _ v rest tail hdec hws hvl => exact (value_start hdec).2.1
    have l := whitespace_length input
    unfold f_decode
    rw [List.length_cons, decode_open_bracket, if_neg hstart,
      value_list_loop hw _ _ _ _ (fun y hy => decode_fuel (by omega)) (by omega)]

/-- The input `1,2` is a list of values, so that `[1,2` fails as stated. -/
theorem decode_error_locality_witness :
    ValueList [49, 44, 50] ∧ f_decode (91 :: [49, 44, 50]) = .error (.expected_token [44]) :=
  have h : ValueList [49, 44, 50] :=
    ValueList.more _ (.float (cast_num 1)) [44, 50] [50] rfl rfl
      (ValueList.last _ (.float (cast_num 2)) [] rfl rfl)
  ⟨h, decode_error_locality.2.1 _ h⟩
open Msgpack (all_values all_entries lua_invariant is_nil is_plain)

mutual
theorem text_result : ∀ (v : LuaValue), all_values is_supported v = true →
    (non_string_key_inside v = true → text v = .error .non_string_key) ∧
    (non_string_key_inside v = false → ∃ t, text v = .ok t)
  | .nil, _ => ⟨fun h => by simp [non_string_key_inside] at h, fun _ => ⟨_, rfl⟩⟩
  | .boolean b, _ => ⟨fun h => by simp [non_string_key_inside] at h, fun _ => ⟨_, rfl⟩⟩
  | .integer i, _ => ⟨fun h => by simp [non_string_key_inside] at h, fun _ => ⟨_, rfl⟩⟩
  | .float bits, _ => ⟨fun h => by simp [non_string_key_inside] at h, fun _ => ⟨_, rfl⟩⟩
  | .string s, _ => ⟨fun h => by simp [non_string_key_inside] at h, fun _ => ⟨_, rfl⟩⟩
  | .other t, hs => by simp [all_values, is_supported] at hs
  | .table es, hs => by
    simp only [all_values, Bool.and_eq_true] at hs
    have hv := text_values_result es false hs.2
    have hp := text_pairs_result es false hs.2
    unfold text
    cases ha : valid_array es with
    | true =>
      simp only [non_string_key_inside, ha, Bool.not_true, Bool.false_and, Bool.false_or,
        if_true]
      refine ⟨fun h => by rw [hv.1 h], fun h => ?_⟩
      obtain ⟨t, ht⟩ := hv.2 h
      exact ⟨_, by rw [ht]⟩
    | false =>
      simp only [non_string_key_inside, ha, Bool.not_false, Bool.true_and, Bool.false_eq_true,
        if_false]
      refine ⟨fun h => by rw [hp.1 h], fun h => ?_⟩
      obtain ⟨t, ht⟩ := hp.2 h
      exact ⟨_, by rw [ht]⟩
theorem text_values_result : ∀ (es : List (LuaValue × LuaValue)) (more : Bool),
    all_entries is_supported es = true →
    (any_value_inside es = true → text_values es more = .error .non_string_key) ∧
    (any_value_inside es = false → ∃ t, text_values es more = .ok t)
  | [], _, _ => ⟨fun h => by simp [any_value_inside] at h, fun _ => ⟨_, rfl⟩⟩
  | (k, v) :: rest, more, hs => by
    simp only [all_entries, Bool.and_eq_true] at hs
    have hv := text_result v hs.1.2
    have hr := text_values_result rest true hs.2
    unfold text_values
    simp only [any_value_inside, Bool.or_eq_true, Bool.or_eq_false_iff]
    refine ⟨fun h => ?_, fun h => ?_⟩
    · cases hb : non_string_key_inside v with
      | true => rw [hv.1 hb]
      | false =>
        obtain ⟨t, ht⟩ := hv.2 hb
        rw [ht]
        simp only []
        rw [hr.1 (h.elim (fun h1 => by rw [hb] at h1; cases h1) id)]
    · obtain ⟨t, ht⟩ := hv.2 h.1
      obtain ⟨ts, hts⟩ := hr.2 h.2
      exact ⟨_, by rw [ht, hts]⟩
theorem text_pairs_result : ∀ (es : List (LuaValue × LuaValue)) (more : Bool),
    all_entries is_supported es = true →
    ((es.any (fun e => !is_string e.1) || any_value_inside es) = true →
      text_pairs es more = .error .non_string_key) ∧
    ((es.any (fun e => !is_string e.1) || any_value_inside es) = false →
      ∃ t, text_pairs es more = .ok t)
  | [], _, _ => ⟨fun h => by simp [any_value_inside] at h, fun _ => ⟨_, rfl⟩⟩
  | (k, v) :: rest, more, hs => by
    simp only [all_entries, Bool.and_eq_true] at hs
    have hv := text_result v hs.1.2
    have hr := text_pairs_result rest true hs.2
    unfold text_pairs
    cases hk : is_string k with
    | false => exact ⟨fun _ => rfl, fun h => by simp [hk] at h⟩
    | true =>
      obtain ⟨s, rfl⟩ : ∃ s, k = .string s := by
        cases k <;> simp [is_string] at hk
        exact ⟨_, rfl⟩
      simp only [List.any_cons, hk, Bool.not_true, Bool.false_or, any_value_inside, if_true]
      have htk : text (.string s) = .ok (string_text s) := rfl
      rw [htk]
      simp only []
      refine ⟨fun h => ?_, fun h => ?_⟩
      · cases hb : non_string_key_inside v with
        | true => rw [hv.1 hb]
        | false =>
          obtain ⟨t, ht⟩ := hv.2 hb
          rw [ht]
          simp only []
          rw [hr.1 (by
            simp only [Bool.or_eq_true] at h ⊢
            rcases h with h | h | h
            · exact Or.inl h
            · rw [hb] at h; cases h
            · exact Or.inr h)]
      · simp only [Bool.or_eq_false_iff] at h
        obtain ⟨t, ht⟩ := hv.2 h.2.1
        obtain ⟨ts, hts⟩ := hr.2 (by simp only [Bool.or_eq_false_iff]; exact ⟨h.1, h.2.2⟩)
        exact ⟨_, by rw [ht, hts]⟩
end

/-- Claim C17.  For a value built from the kinds the codec supports,
`json.encode` fails with the error of the non-string key if and only if the
value itself, or the value of an entry inside it at any depth, is a table that
`valid_array` does not take for an array and that has a key which is not a
string; otherwise it succeeds and returns a text. -/
theorem invalid_key_error (v : LuaValue) (h : all_values is_supported v = true) :
    (f_encode [v] = .error .non_string_key ↔ non_string_key_inside v = true) ∧
    (non_string_key_inside v = false → ∃ t, f_encode [v] = .ok t) := by
  have hr := text_result v h
  refine ⟨⟨fun he => ?_, fun hb => (f_encode_error v [] _).2 (hr.1 hb)⟩, fun hb => ?_⟩
  · cases hb : non_string_key_inside v with
    | true => rfl
    | false =>
      obtain ⟨t, ht⟩ := hr.2 hb
      rw [(f_encode_error v [] _).1 he] at ht
      cases ht
  · obtain ⟨t, ht⟩ := hr.2 hb
    exact f_encode_ok v [] t ht

/-- The table with the single entry `[2] = true` is not an array and its key is
not a string: encoding it fails. -/
theorem invalid_key_error_witness :
    (f_encode [.table [(.integer 2, .boolean true)]] = .error .non_string_key ↔
      non_string_key_inside (.table [(.integer 2, .boolean true)]) = true) ∧
    (non_string_key_inside (.table [(.integer 2, .boolean true)]) = false →
      ∃ t, f_encode [.table [(.integer 2, .boolean true)]] = .ok t) :=
  invalid_key_error (.table [(.integer 2, .boolean true)]) rfl

open Msgpack (count_table count_table_loop keys_from sequence_of_true)

theorem valid_array_flag (es : List (LuaValue × LuaValue)) : ∀ (index : Int),
    valid_array_loop es index = (count_table_loop es index true).2 := by
  induction es with
  | nil => intro index; rfl
  | cons e es ih =>
    intro index
    obtain ⟨k, v⟩ := e
    simp only [valid_array_loop, count_table_loop, Bool.true_and]
    by_cases h : (lua_tointeger k != index) = true
    · rw [if_pos h, if_pos h, Msgpack.count_loop_nil_flag]
    · rw [if_neg h, if_neg h]
      exact ih _

theorem tointeger_stored (k : LuaValue) (index : Int) (hi : index ≠ 0)
    (hs : ∀ s, k = .string s → luaO_str2num s = none) (hn : normalize_key k = k)
    (h : lua_tointeger k = index) : k = .integer index := by
  cases k with
  | integer i => simp only [lua_tointeger] at h; rw [h]
  | float bits =>
    simp only [normalize_key] at hn
    cases hf : luaV_flttointns bits with
    | none => simp only [lua_tointeger, hf, Option.getD_none] at h; exact absurd h.symm hi
    | some i => rw [hf] at hn; cases hn
  | string s =>
    simp only [lua_tointeger, hs s rfl] at h
    exact absurd h.symm hi
  | nil => exact absurd h.symm hi
  | boolean b => exact absurd h.symm hi
  | table es => exact absurd h.symm hi
  | other t => exact absurd h.symm hi

theorem flag_keys_stored (es : List (LuaValue × LuaValue)) : ∀ (index : Int),
    0 < index → index + es.length ≤ 2 ^ 31 →
    (∀ e ∈ es, ∀ s, e.1 = .string s → luaO_str2num s = none) →
    (∀ e ∈ es, normalize_key e.1 = e.1) →
    ((count_table_loop es index true).2 = true ↔ keys_from es index) := by
  induction es with
  | nil => intro index _ _ _ _; simp [count_table_loop, keys_from]
  | cons e es ih =>
    intro index h0 hl hs hn
    obtain ⟨k, v⟩ := e
    simp only [List.length_cons] at hl
    push_cast at hl
    simp only [count_table_loop, Bool.true_and, keys_from]
    by_cases h : (lua_tointeger k != index) = true
    · rw [if_pos h, Msgpack.count_loop_nil_flag]
      constructor
      · intro hf; cases hf
      · intro hk
        rw [hk.1] at h
        simp [lua_tointeger] at h
    · rw [if_neg h]
      have hk : k = .integer index :=
        tointeger_stored k index (by omega) (hs (k, v) (by simp)) (hn (k, v) (by simp))
          (by simpa using h)
      by_cases hes : es = []
      · subst hes
        simp [count_table_loop, keys_from, hk]
      · have hpos : 0 < es.length := List.length_pos.2 hes
        have e32 : C.to_int32 (index + 1) = index + 1 := by unfold C.to_int32; omega
        rw [e32, ih (index + 1) (by omega) (by omega) (fun e he => hs e (by simp [he]))
          (fun e he => hn e (by simp [he]))]
        exact ⟨fun h2 => ⟨hk, h2⟩, fun h2 => h2.2⟩

/-- Claim C13, amended.  For a table of fewer than `2^31` entries, whose keys
are as Lua stores them (a float key has no integer value) and none of whose
string keys reads as a number: `count_table` returns the number `n` of entries
and `valid_array` returns true when, for every position `i`, the key number `i`
of the enumeration is the integer `i`; otherwise `count_table` returns `-n`
and `valid_array` returns false. -/
theorem shape_classifier (es : List (LuaValue × LuaValue)) (hn : es.length < 2 ^ 31)
    (hstored : ∀ e ∈ es, normalize_key e.1 = e.1)
    (hstr : ∀ e ∈ es, ∀ s, e.1 = .string s → luaO_str2num s = none) :
    (keys_from es 1 → count_table es = es.length ∧ valid_array es = true) ∧
    (¬ keys_from es 1 → count_table es = -(es.length : Int) ∧ 0 < es.length ∧
      valid_array es = false) := by
  have hflag := flag_keys_stored es 1 (by omega) (by omega) hstr hstored
  have hva : valid_array es = (count_table_loop es 1 true).2 := valid_array_flag es 1
  refine ⟨fun hk => ?_, fun hk => ?_⟩
  · have hf := hflag.2 hk
    rcases Msgpack.count_table_abs es hn with ⟨h1, _⟩ | ⟨_, h2, _⟩
    · exact ⟨h1, by rw [hva, hf]⟩
    · rw [hf] at h2; cases h2
  · have hf : (count_table_loop es 1 true).2 = false := by
      cases h : (count_table_loop es 1 true).2 with
      | true => exact absurd (hflag.1 h) hk
      | false => rfl
    rcases Msgpack.count_table_abs es hn with ⟨_, h2⟩ | ⟨h1, _, h3⟩
    · rw [hf] at h2; cases h2
    · exact ⟨h1, h3, by rw [hva, hf]⟩

/-- The table `{1, 2, 3}` is an array of 3. -/
theorem shape_classifier_witness :
    (keys_from [(.integer 1, .integer 1), (.integer 2, .integer 2), (.integer 3, .integer 3)] 1 →
      count_table [(.integer 1, .integer 1), (.integer 2, .integer 2), (.integer 3, .integer 3)] =
        ([(LuaValue.integer 1, LuaValue.integer 1), (.integer 2, .integer 2),
          (.integer 3, .integer 3)].length : Int) ∧
      valid_array [(.integer 1, .integer 1), (.integer 2, .integer 2),
        (.integer 3, .integer 3)] = true) ∧
    (¬ keys_from [(.integer 1, .integer 1), (.integer 2, .integer 2), (.integer 3, .integer 3)] 1 →
      count_table [(.integer 1, .integer 1), (.integer 2, .integer 2), (.integer 3, .integer 3)] =
        -([(LuaValue.integer 1, LuaValue.integer 1), (.integer 2, .integer 2),
          (.integer 3, .integer 3)].length : Int) ∧
      0 < [(LuaValue.integer 1, LuaValue.integer 1), (.integer 2, .integer 2),
        (.integer 3, .integer 3)].length ∧
      valid_array [(.integer 1, .integer 1), (.integer 2, .integer 2),
        (.integer 3, .integer 3)] = false) :=
  shape_classifier _ (by decide) (by
    intro e he
    simp only [List.mem_cons, List.mem_singleton, List.not_mem_nil, or_false] at he
    rcases he with rfl | rfl | rfl <;> rfl) (by
    intro e he s hs
    simp only [List.mem_cons, List.mem_singleton, List.not_mem_nil, or_false] at he
    rcases he with rfl | rfl | rfl <;> cases hs)

theorem keys_from_append (a b : List (LuaValue × LuaValue)) : ∀ (i : Int),
    keys_from a i → keys_from b (i + a.length) → keys_from (a ++ b) i := by
  induction a with
  | nil => intro i _ hb; simpa using hb
  | cons e a ih =>
    intro i ha hb
    obtain ⟨k, v⟩ := e
    obtain ⟨hk, hr⟩ := ha
    refine ⟨hk, ih (i + 1) hr ?_⟩
    simp only [List.length_cons] at hb
    push_cast at hb
    rw [show i + 1 + (a.length : Int) = i + ((a.length : Int) + 1) by ring]
    exact hb

theorem sequence_keys (n : Nat) : keys_from (sequence_of_true n) 1 := by
  induction n with
  | zero => trivial
  | succ n ih =>
    rw [Msgpack.sequence_succ]
    apply keys_from_append _ _ _ ih
    rw [Msgpack.sequence_length]
    exact ⟨by rw [Int.add_comm], trivial⟩

theorem flag_overflow (init : List (LuaValue × LuaValue)) (v : LuaValue)
    (hl : init.length = 2147483647) :
    (count_table_loop (init ++ [(.integer 2147483648, v)]) 1 true).2 = false := by
  have hidx : (count_table_loop init 1 true).1 = -2147483648 := by
    rw [Msgpack.count_loop_index_exact init 1 true (by unfold C.to_int32; omega), hl]
    unfold C.to_int32
    norm_num
  rw [Msgpack.count_loop_append, hidx]
  cases (count_table_loop init 1 true).2 <;> rfl

theorem valid_array_big : valid_array (sequence_of_true (2147483647 + 1)) = false := by
  rw [valid_array, valid_array_flag, Msgpack.sequence_succ]
  exact flag_overflow _ _ (Msgpack.sequence_length _)

/-- The table with the single entry `["1"] = true` is taken for an array of 1,
although its key is a string.  The table of the `2^31` entries `[i] = true` is
not taken for an array, although all its keys are the integers of their
positions. -/
theorem shape_classifier_counterexample :
    (¬ keys_from [(.string [49], .boolean true)] 1 ∧
      count_table [(.string [49], .boolean true)] = 1 ∧
      valid_array [(.string [49], .boolean true)] = true) ∧
    ((sequence_of_true (2 ^ 31)).length = 2 ^ 31 ∧ keys_from (sequence_of_true (2 ^ 31)) 1 ∧
      count_table (sequence_of_true (2 ^ 31)) = -2147483648 ∧
      valid_array (sequence_of_true (2 ^ 31)) = false) := by
  have h31 : (2 : Nat) ^ 31 = 2147483647 + 1 := by norm_num
  have hk : ¬ keys_from [(.string [49], .boolean true)] 1 := fun h => by cases h.1
  have h1 : count_table [(.string [49], .boolean true)] = 1 := rfl
  have h2 : valid_array [(.string [49], .boolean true)] = true := rfl
  refine ⟨⟨hk, h1, h2⟩, ?_⟩
  generalize (2 : Nat) ^ 31 = n at h31 ⊢
  refine ⟨Msgpack.sequence_length n, sequence_keys n, ?_, ?_⟩
  · rw [h31]; exact Msgpack.count_table_big
  · rw [h31]; exact valid_array_big

/-- Claim C14.  The empty table is written as an array by both codecs:
`json.encode` returns the two characters `[]` and `msgpack.encode` returns the
single byte `90`. -/
theorem empty_container_is_array :
    f_encode [.table []] = .ok [91, 93] ∧ Msgpack.f_encode [.table []] = .ok [0x90] :=
  ⟨rfl, rfl⟩
theorem array_loop_step (dec : List UInt8 → Except JsonError (LuaValue × List UInt8)) (n : Nat)
    (i : Int) (t : List (LuaValue × LuaValue)) (x : List UInt8) :
    decode_array_loop dec (n + 1) i t x =
      if peek x = 0 then .ok (t, x)
      else
        match dec x with
        | .error e => .error e
        | .ok (v, x1) => array_continue dec n (C.to_int32 (i + 1)) (lua_rawseti t i v) x1 := by
  unfold decode_array_loop array_continue
  split
  · rfl
  · cases dec x with
    | error e => rfl
    | ok p => obtain ⟨v, x1⟩ := p; rfl

theorem object_loop_step (dec : List UInt8 → Except JsonError (LuaValue × List UInt8)) (n : Nat)
    (t : List (LuaValue × LuaValue)) (x : List UInt8) :
    decode_object_loop dec (n + 1) t x =
      if peek x = 0 then .ok (t, x)
      else
        match decode_string x with
        | .error e => .error e
        | .ok (key, x0) =>
          match parse_token x0 [58] with
          | .error e => .error e
          | .ok xc =>
            match dec xc with
            | .error e => .error e
            | .ok (v, x1) =>
              match lua_rawset t key v with
              | .error e => .error (.lua e)
              | .ok t => object_continue dec n t x1 := by
  unfold decode_object_loop object_continue
  rfl

theorem whitespace_cons (c : UInt8) (rest : List UInt8) (h : isspace c = false) :
    parse_whitespace (c :: rest) = c :: rest := by
  simp [parse_whitespace, h]

theorem starts_whitespace {t : List UInt8} (h : Starts t) (rest : List UInt8) :
    parse_whitespace (t ++ rest) = t ++ rest := by
  obtain ⟨c, t', rfl, _, hs, _⟩ := h
  exact whitespace_cons c _ hs

theorem starts_peek {t : List UInt8} (h : Starts t) (rest : List UInt8) :
    peek (t ++ rest) ≠ 0 ∧ peek (t ++ rest) ≠ 93 ∧ peek (t ++ rest) ≠ 125 := by
  obtain ⟨c, t', rfl, h0, _, h1, h2, _⟩ := h
  exact ⟨h0, h1, h2⟩

theorem starts_length {t : List UInt8} (h : Starts t) : 0 < t.length := by
  obtain ⟨c, t', rfl, _⟩ := h
  simp

theorem escape_decode (c : UInt8) (h0 : c ≠ 0) (rest buffer : List UInt8) :
    decode_string_loop (escape_sequence c ++ rest) buffer =
      decode_string_loop rest (buffer ++ [c]) := by
  unfold escape_sequence
  by_cases h1 : c = 92
  · subst h1; rw [if_pos rfl]; exact string_loop_escape _ _ _
  rw [if_neg h1]
  by_cases h2 : c = 34
  · subst h2; rw [if_pos rfl]; exact string_loop_escape _ _ _
  rw [if_neg h2]
  by_cases h3 : c = 8
  · subst h3; rw [if_pos rfl]; exact string_loop_escape _ _ _
  rw [if_neg h3]
  by_cases h4 : c = 12
  · subst h4; rw [if_pos rfl]; exact string_loop_escape _ _ _
  rw [if_neg h4]
  by_cases h5 : c = 10
  · subst h5; rw [if_pos rfl]; exact string_loop_escape _ _ _
  rw [if_neg h5]
  by_cases h6 : c = 13
  · subst h6; rw [if_pos rfl]; exact string_loop_escape _ _ _
  rw [if_neg h6]
  by_cases h7 : c = 9
  · subst h7; rw [if_pos rfl]; exact string_loop_escape _ _ _
  rw [if_neg h7]
  exact string_loop_cons c rest buffer h0 h2 h1

theorem escaped_decode (s : List UInt8) (h : ∀ c ∈ s, c ≠ 0) : ∀ (rest buffer : List UInt8),
    decode_string_loop (s.flatMap escape_sequence ++ rest) buffer =
      decode_string_loop rest (buffer ++ s) := by
  induction s with
  | nil => intro rest buffer; simp
  | cons c s ih =>
    intro rest buffer
    rw [List.flatMap_cons, List.append_assoc, escape_decode c (h c (by simp)),
      ih (fun x hx => h x (by simp [hx]))]
    simp

theorem c_string_self (s : List UInt8) (h : ∀ c ∈ s, c ≠ 0) : c_string s = s := by
  unfold c_string
  rw [List.takeWhile_eq_self_iff]
  intro x hx
  simpa using h x hx

/-- Decoding the text of a string without a zero byte gives the string back. -/
theorem string_loop_quote (rest buffer : List UInt8) :
    decode_string_loop (34 :: rest) buffer = .ok (buffer, 34 :: rest) := by
  conv_lhs => unfold decode_string_loop
  rw [if_neg (by decide), if_pos rfl]

theorem string_text_decode (s : List UInt8) (h : ∀ c ∈ s, c ≠ 0) (rest : List UInt8) :
    decode_string (string_text s ++ rest) = .ok (.string s, rest) := by
  have e : string_text s ++ rest = 34 :: (s.flatMap escape_sequence ++ 34 :: rest) := by
    simp [string_text, c_string_self s h]
  unfold decode_string
  rw [e, show parse_token (34 :: (s.flatMap escape_sequence ++ 34 :: rest)) [34] =
    .ok (s.flatMap escape_sequence ++ 34 :: rest) from rfl]
  simp only []
  rw [escaped_decode s h, string_loop_quote]
  rfl
theorem is_sequence_keys (es : List (LuaValue × LuaValue)) : ∀ (i : Int),
    is_sequence es i = true → keys_from es i := by
  induction es with
  | nil => intro i _; trivial
  | cons e r ih =>
    intro i h
    obtain ⟨k, v⟩ := e
    simp only [is_sequence, Bool.and_eq_true, beq_iff_eq] at h
    obtain ⟨⟨h1, h2⟩, h3⟩ := h
    cases k <;> simp only [lua_isinteger, Bool.false_eq_true] at h1
    simp only [lua_tointeger] at h2
    subst h2
    exact ⟨rfl, ih _ h3⟩

theorem valid_array_keys (es : List (LuaValue × LuaValue)) : ∀ (i : Int),
    keys_from es i → 0 < i → i + es.length ≤ 2 ^ 31 → valid_array_loop es i = true := by
  induction es with
  | nil => intro i _ _ _; rfl
  | cons e r ih =>
    intro i hk h0 hl
    obtain ⟨k, v⟩ := e
    obtain ⟨rfl, hr⟩ := hk
    simp only [valid_array_loop, lua_tointeger, bne_self_eq_false, Bool.false_eq_true, if_false]
    cases r with
    | nil => rfl
    | cons e2 r2 =>
      simp only [List.length_cons] at hl
      push_cast at hl
      have e32 : C.to_int32 (i + 1) = i + 1 := by unfold C.to_int32; omega
      rw [e32]
      exact ih (i + 1) hr (by omega) (by simp only [List.length_cons]; push_cast; omega)

theorem table_domain (es : List (LuaValue × LuaValue)) (h : text_domain (.table es) = true) :
    values_domain es = true ∧
    ((is_sequence es 1 = true ∧ es.length < 2 ^ 31) ∨
      (valid_array es = false ∧ (∀ e ∈ es, is_text_key e.1 = true) ∧
        es.Pairwise (fun a b => lua_rawequal a.1 b.1 = false))) := by
  simp only [text_domain, Bool.and_eq_true, Bool.or_eq_true, decide_eq_true_eq,
    Bool.not_eq_true', List.all_eq_true] at h
  refine ⟨h.2, ?_⟩
  rcases h.1 with h1 | h1
  · exact Or.inl h1
  · exact Or.inr ⟨h1.1.1, h1.1.2, h1.2⟩

theorem text_key_string {k : LuaValue} (h : is_text_key k = true) :
    ∃ s, k = .string s ∧ ∀ c ∈ s, c ≠ 0 := by
  cases k <;> simp only [is_text_key, Bool.false_eq_true] at h
  rename_i s
  refine ⟨s, rfl, fun c hc => ?_⟩
  have := List.all_eq_true.1 h c hc
  simpa using this

theorem string_text_starts (s : List UInt8) : Starts (string_text s) :=
  ⟨34, (c_string s).flatMap escape_sequence ++ [34], by simp [string_text], by decide, by decide,
    by decide, by decide, by decide⟩

theorem array_continue_close (dec : List UInt8 → Except JsonError (LuaValue × List UInt8))
    (n : Nat) (i : Int) (t : List (LuaValue × LuaValue)) (rest : List UInt8) :
    array_continue dec n i t (93 :: rest) = .ok (t, 93 :: rest) := rfl

theorem array_continue_comma (dec : List UInt8 → Except JsonError (LuaValue × List UInt8))
    (n : Nat) (i : Int) (t : List (LuaValue × LuaValue)) (rest : List UInt8) :
    array_continue dec n i t (44 :: rest) = decode_array_loop dec n i t rest := rfl

theorem object_continue_close (dec : List UInt8 → Except JsonError (LuaValue × List UInt8))
    (n : Nat) (t : List (LuaValue × LuaValue)) (rest : List UInt8) :
    object_continue dec n t (125 :: rest) = .ok (t, 125 :: rest) := rfl

theorem object_continue_comma (dec : List UInt8 → Except JsonError (LuaValue × List UInt8))
    (n : Nat) (t : List (LuaValue × LuaValue)) (rest : List UInt8) :
    object_continue dec n t (44 :: rest) = decode_object_loop dec n t rest := rfl

theorem token_colon (rest : List UInt8) : parse_token (58 :: rest) [58] = .ok rest := rfl

theorem token_bracket (rest : List UInt8) : parse_token (93 :: rest) [93] = .ok rest := rfl

theorem token_brace (rest : List UInt8) : parse_token (125 :: rest) [125] = .ok rest := rfl
theorem values_domain_cons {k v : LuaValue} {r : List (LuaValue × LuaValue)}
    (h : values_domain ((k, v) :: r) = true) :
    is_nil v = false ∧ text_domain v = true ∧ values_domain r = true := by
  simp only [values_domain, Bool.and_eq_true, Bool.not_eq_true'] at h
  exact ⟨h.1.1, h.1.2, h.2⟩

theorem to_int32_two : C.to_int32 (1 + 1) = 2 := by decide

mutual
theorem text_round_value : ∀ (v : LuaValue), text_domain v = true →
    ∃ t, text v = .ok t ∧ Starts t ∧
      ∀ (fuel : Nat) (rest : List UInt8), t.length ≤ fuel →
        decode_value fuel (t ++ rest) = .ok (v, rest)
  | .nil, _ => ⟨_, rfl, ⟨110, _, rfl, by decide, by decide, by decide, by decide, by decide⟩,
      fun fuel rest hf => by
        obtain ⟨f, rfl⟩ : ∃ f, fuel = f + 1 := ⟨fuel - 1, by simp at hf; omega⟩
        rfl⟩
  | .boolean true, _ =>
    ⟨_, rfl, ⟨116, _, rfl, by decide, by decide, by decide, by decide, by decide⟩,
      fun fuel rest hf => by
        obtain ⟨f, rfl⟩ : ∃ f, fuel = f + 1 := ⟨fuel - 1, by simp at hf; omega⟩
        rfl⟩
  | .boolean false, _ =>
    ⟨_, rfl, ⟨102, _, rfl, by decide, by decide, by decide, by decide, by decide⟩,
      fun fuel rest hf => by
        obtain ⟨f, rfl⟩ : ∃ f, fuel = f + 1 := ⟨fuel - 1, by simp at hf; omega⟩
        rfl⟩
  | .integer _, h => by simp [text_domain] at h
  | .float _, h => by simp [text_domain] at h
  | .other _, h => by simp [text_domain] at h
  | .string s, h => by
    have hs : ∀ c ∈ s, c ≠ 0 := by simpa [text_domain] using h
    refine ⟨string_text s, rfl, string_text_starts s, fun fuel rest hf => ?_⟩
    have hl := starts_length (string_text_starts s)
    obtain ⟨f, rfl⟩ : ∃ f, fuel = f + 1 := ⟨fuel - 1, by omega⟩
    have e : string_text s ++ rest =
        34 :: ((c_string s).flatMap escape_sequence ++ 34 :: rest) := by
      simp [string_text]
    have hd := string_text_decode s hs rest
    rw [e] at hd ⊢
    exact hd
  | .table [], _ =>
    ⟨[91, 93], rfl, ⟨91, _, rfl, by decide, by decide, by decide, by decide, by decide⟩,
      fun fuel rest hf => by
        obtain ⟨f, rfl⟩ : ∃ f, fuel = f + 1 := ⟨fuel - 1, by simp at hf; omega⟩
        rfl⟩
  | .table ((k, v) :: r), h => by
    obtain ⟨hvd, hshape⟩ := table_domain _ h
    obtain ⟨hnil, hdv, hdr⟩ := values_domain_cons hvd
    obtain ⟨t, ht, hst, hdecv⟩ := text_round_value v hdv
    have htl := starts_length hst
    rcases hshape with ⟨hseq, hlen⟩ | ⟨hva, hkeys, hpw⟩
    · have hk := is_sequence_keys _ 1 hseq
      have hva : valid_array ((k, v) :: r) = true :=
        valid_array_keys _ 1 hk (by omega) (by omega)
      obtain ⟨hk1, hkr⟩ := hk
      subst hk1
      obtain ⟨tr, htr, hltr, hdecr⟩ := text_round_values r hdr
      refine ⟨[91] ++ (t ++ tr) ++ [93], by simp [text, hva, text_values, ht, htr],
        ⟨91, _, rfl, by decide, by decide, by decide, by decide, by decide⟩,
        fun fuel rest hf => ?_⟩
      simp only [List.length_append, List.length_cons, List.length_nil] at hf hlen
      obtain ⟨f, rfl⟩ : ∃ f, fuel = f + 2 := ⟨fuel - 2, by omega⟩
      have e : [91] ++ (t ++ tr) ++ [93] ++ rest = 91 :: (t ++ (tr ++ 93 :: rest)) := by simp
      rw [e, decode_open_bracket, starts_whitespace hst, if_neg (starts_peek hst _).2.1,
        array_loop_step, if_neg (starts_peek hst _).1, hdecv (f + 1) _ (by omega)]
      simp only []
      rw [to_int32_two, Msgpack.rawseti_append [] 1 v hnil (by simp),
        hdecr (f + 1) f rest 2 _ (by omega) (by omega) (fun hr => ⟨by omega, by
          have := List.length_pos.2 hr
          push_cast at hlen ⊢
          omega, hkr, by
          intro e he
          simp only [List.nil_append, List.mem_singleton] at he
          exact ⟨1, by rw [he], by omega⟩⟩)]
      simp only []
      rw [token_bracket]
      rfl
    · obtain ⟨s, hks, hs0⟩ := text_key_string (hkeys (k, v) (by simp))
      subst hks
      obtain ⟨tr, htr, hltr, hdecr⟩ := text_round_pairs r hdr
        (fun e he => hkeys e (by simp [he]))
      refine ⟨[123] ++ (string_text s ++ [58] ++ t ++ tr) ++ [125], by
          simp [text, hva, text_pairs, is_string, ht, htr],
        ⟨123, _, rfl, by decide, by decide, by decide, by decide, by decide⟩,
        fun fuel rest hf => ?_⟩
      have hsl := starts_length (string_text_starts s)
      simp only [List.length_append, List.length_cons, List.length_nil] at hf
      obtain ⟨f, rfl⟩ : ∃ f, fuel = f + 2 := ⟨fuel - 2, by omega⟩
      have e : [123] ++ (string_text s ++ [58] ++ t ++ tr) ++ [125] ++ rest =
          123 :: (string_text s ++ (58 :: (t ++ (tr ++ 125 :: rest)))) := by simp
      rw [e, decode_open_brace, starts_whitespace (string_text_starts s),
        if_neg (starts_peek (string_text_starts s) _).2.2, object_loop_step,
        if_neg (starts_peek (string_text_starts s) _).1, string_text_decode s hs0]
      simp only []
      rw [token_colon]
      simp only []
      rw [hdecv (f + 1) _ (by omega)]
      simp only []
      rw [Msgpack.rawset_append [] (.string s) v rfl rfl hnil (by simp)]
      simp only []
      rw [hdecr (f + 1) f rest _ (by omega) (by omega) (by simpa using hpw)]
      simp only []
      rw [token_brace]
      rfl
theorem text_round_values : ∀ (es : List (LuaValue × LuaValue)), values_domain es = true →
    ∃ ts, text_values es true = .ok ts ∧ es.length ≤ ts.length ∧
      ∀ (fuel n : Nat) (rest : List UInt8) (i : Int) (tbl : List (LuaValue × LuaValue)),
        ts.length ≤ fuel → es.length ≤ n →
        (es ≠ [] → 0 < i ∧ i + es.length ≤ 2 ^ 31 ∧ keys_from es i ∧
          ∀ e ∈ tbl, ∃ j, e.1 = .integer j ∧ j < i) →
        array_continue (decode_value fuel) n i tbl (ts ++ 93 :: rest) =
          .ok (tbl ++ es, 93 :: rest)
  | [], _ => ⟨[], rfl, Nat.le_refl _, fun fuel n rest i tbl _ _ _ => by
      simp only [List.nil_append, List.append_nil]
      exact array_continue_close _ _ _ _ _⟩
  | (k, v) :: r, h => by
    obtain ⟨hnil, hdv, hdr⟩ := values_domain_cons h
    obtain ⟨t, ht, hst, hdecv⟩ := text_round_value v hdv
    obtain ⟨tr, htr, hltr, hdecr⟩ := text_round_values r hdr
    have htl := starts_length hst
    refine ⟨[44] ++ t ++ tr, by simp [text_values, ht, htr], by
      simp only [List.length_append, List.length_cons, List.length_nil]; omega, ?_⟩
    intro fuel n rest i tbl hf hn hi
    obtain ⟨h0, hl, ⟨hk1, hkr⟩, hfresh⟩ := hi (by simp)
    subst hk1
    simp only [List.length_append, List.length_cons, List.length_nil] at hf hn hl
    obtain ⟨m, rfl⟩ : ∃ m, n = m + 1 := ⟨n - 1, by omega⟩
    have e : [44] ++ t ++ tr ++ 93 :: rest = 44 :: (t ++ (tr ++ 93 :: rest)) := by simp
    rw [e, array_continue_comma, array_loop_step, if_neg (starts_peek hst _).1,
      hdecv fuel _ (by omega)]
    simp only []
    rw [Msgpack.rawseti_append tbl _ v hnil hfresh,
      hdecr fuel m rest _ _ (by omega) (by omega) (fun hr => by
        have hp := List.length_pos.2 hr
        push_cast at hl
        have e32 : C.to_int32 (i + 1) = i + 1 := by unfold C.to_int32; omega
        rw [e32]
        refine ⟨by omega, by omega, hkr, ?_⟩
        intro e he
        rcases List.mem_append.1 he with h1 | h1
        · obtain ⟨j, hj, hlt⟩ := hfresh e h1
          exact ⟨j, hj, by omega⟩
        · simp only [List.mem_singleton] at h1
          exact ⟨i, by rw [h1], by omega⟩)]
    simp
theorem text_round_pairs : ∀ (es : List (LuaValue × LuaValue)), values_domain es = true →
    (∀ e ∈ es, is_text_key e.1 = true) →
    ∃ ts, text_pairs es true = .ok ts ∧ es.length ≤ ts.length ∧
      ∀ (fuel n : Nat) (rest : List UInt8) (tbl : List (LuaValue × LuaValue)),
        ts.length ≤ fuel → es.length ≤ n →
        (tbl ++ es).Pairwise (fun a b => lua_rawequal a.1 b.1 = false) →
        object_continue (decode_value fuel) n tbl (ts ++ 125 :: rest) =
          .ok (tbl ++ es, 125 :: rest)
  | [], _, _ => ⟨[], rfl, Nat.le_refl _, fun fuel n rest tbl _ _ _ => by
      simp only [List.nil_append, List.append_nil]
      exact object_continue_close _ _ _ _⟩
  | (k, v) :: r, h, hkeys => by
    obtain ⟨hnil, hdv, hdr⟩ := values_domain_cons h
    obtain ⟨t, ht, hst, hdecv⟩ := text_round_value v hdv
    obtain ⟨tr, htr, hltr, hdecr⟩ := text_round_pairs r hdr (fun e he => hkeys e (by simp [he]))
    obtain ⟨s, hks, hs0⟩ := text_key_string (hkeys (k, v) (by simp))
    subst hks
    have htl := starts_length hst
    have hsl := starts_length (string_text_starts s)
    refine ⟨[44] ++ string_text s ++ [58] ++ t ++ tr, by
      simp [text_pairs, is_string, text, ht, htr], by
      simp only [List.length_append, List.length_cons, List.length_nil]; omega, ?_⟩
    intro fuel n rest tbl hf hn hpw
    simp only [List.length_append, List.length_cons, List.length_nil] at hf hn
    obtain ⟨m, rfl⟩ : ∃ m, n = m + 1 := ⟨n - 1, by omega⟩
    have e : [44] ++ string_text s ++ [58] ++ t ++ tr ++ 125 :: rest =
        44 :: (string_text s ++ (58 :: (t ++ (tr ++ 125 :: rest)))) := by simp
    have hfresh : ∀ e ∈ tbl, lua_rawequal e.1 (.string s) = false := by
      intro e he
      exact (List.pairwise_append.1 hpw).2.2 e he (.string s, v) (by simp)
    rw [e, object_continue_comma, object_loop_step,
      if_neg (starts_peek (string_text_starts s) _).1, string_text_decode s hs0]
    simp only []
    rw [token_colon]
    simp only []
    rw [hdecv fuel _ (by omega)]
    simp only []
    rw [Msgpack.rawset_append tbl (.string s) v rfl rfl hnil hfresh]
    simp only []
    rw [hdecr fuel m rest _ (by omega) (by omega) (by simpa using hpw)]
    simp
end
/-- Claim C15, amended.  For every value built only from nil, booleans, strings
without a zero byte, arrays of fewer than `2^31` elements and maps with string
keys that `valid_array` does not take for arrays (the values inside arrays and
maps being of the same kinds and not nil, the keys of a map distinct), whose
text has at most `8 * (2^31 - 2)` characters, `json.encode` succeeds and
`json.decode` of its result succeeds and returns the value. -/
theorem text_round_trip (v : LuaValue) (h : text_domain v = true)
    (hl : ∃ t, text v = .ok t ∧ t.length ≤ text_limit) :
    ∃ t, f_encode [v] = .ok t ∧ f_decode t = .ok v := by
  obtain ⟨t, ht, _, hdec⟩ := text_round_value v h
  obtain ⟨t1, ht1, hl⟩ := hl
  rw [ht] at ht1
  injection ht1 with ht1
  subst ht1
  refine ⟨t, f_encode_text v [] t ht hl, ?_⟩
  unfold f_decode
  have := hdec (t.length + 1) [] (by omega)
  rw [List.append_nil] at this
  rw [this]

/-- A map with an array, a string with an escape, a boolean and an empty table
inside survives the round trip. -/
theorem text_round_trip_witness :
    ∃ t, f_encode [.table [(.string [97], .table [(.integer 1, .boolean true),
        (.integer 2, .string [34, 10, 120])]), (.string [98], .table [])]] = .ok t ∧
      f_decode t = .ok (.table [(.string [97], .table [(.integer 1, .boolean true),
        (.integer 2, .string [34, 10, 120])]), (.string [98], .table [])]) :=
  text_round_trip _ (by decide) ⟨_, rfl, by decide⟩

theorem sequence_head (n : Nat) :
    ∃ tail, sequence_of_true (n + 1) = (.integer 1, .boolean true) :: tail := by
  unfold sequence_of_true
  rw [List.range_succ_eq_map]
  exact ⟨_, rfl⟩

theorem text_big_sequence :
    f_encode [.table (sequence_of_true (2147483647 + 1))] = .error .non_string_key := by
  rw [f_encode_error]
  have hva := valid_array_big
  obtain ⟨tail, ht⟩ := sequence_head 2147483647
  rw [ht] at hva ⊢
  unfold text
  rw [hva]
  rfl

/-- The round trip fails for the map with the single key `"1"` (it is written
as the array `[true]` and comes back with the integer key 1), for a string with
a zero byte (it is cut at the zero byte), for the array of `2^31` elements
(it is not written at all) and for the string of `8 * (2^31 - 2) - 1` letters
`a` (its text has one character more than `8 * (2^31 - 2)`, the counter of the
chunks overflows and the empty string is returned, which is not decoded). -/
theorem text_round_trip_counterexample :
    (f_encode [.table [(.string [49], .boolean true)]] = .ok [91, 116, 114, 117, 101, 93] ∧
      f_decode [91, 116, 114, 117, 101, 93] = .ok (.table [(.integer 1, .boolean true)]) ∧
      f_decode [91, 116, 114, 117, 101, 93] ≠ .ok (.table [(.string [49], .boolean true)])) ∧
    (f_encode [.string [97, 0, 98]] = .ok [34, 97, 34] ∧
      f_decode [34, 97, 34] = .ok (.string [97]) ∧
      f_decode [34, 97, 34] ≠ .ok (.string [97, 0, 98])) ∧
    ((sequence_of_true (2 ^ 31)).length = 2 ^ 31 ∧ keys_from (sequence_of_true (2 ^ 31)) 1 ∧
      f_encode [.table (sequence_of_true (2 ^ 31))] = .error .non_string_key) ∧
    (text_domain (.string (List.replicate (text_limit - 1) 97)) = true ∧
      f_encode [.string (List.replicate (text_limit - 1) 97)] = .ok [] ∧
      f_decode [] = .error (.invalid_character 0)) := by
  have h31 : (2 : Nat) ^ 31 = 2147483647 + 1 := by norm_num
  refine ⟨⟨rfl, rfl, ?_⟩, ⟨rfl, rfl, ?_⟩, ?_,
    string_domain_plain _, string_overflow (text_limit - 1) (by unfold text_limit; omega), rfl⟩
  · rw [show f_decode [91, 116, 114, 117, 101, 93] =
      .ok (.table [(.integer 1, .boolean true)]) from rfl]
    simp
  · rw [show f_decode [34, 97, 34] = .ok (.string [97]) from rfl]
    simp
  · generalize (2 : Nat) ^ 31 = n at h31 ⊢
    refine ⟨Msgpack.sequence_length n, sequence_keys n, ?_⟩
    rw [h31]
    exact text_big_sequence

/-! ### Termination of the decoder -/

/-- An iteration of the loop of `decode_array` ends the loop, with a result
that does not depend on the fuel, or goes on with a shorter input. -/
theorem array_iteration {dec : List UInt8 → Except JsonError (LuaValue × List UInt8)}
    (hd : Shorter dec) (i : Int) (t : List (LuaValue × LuaValue)) (x : List UInt8) :
    (∃ r, ∀ n, decode_array_loop dec (n + 1) i t x = r) ∨
    (∃ i1 t1 x1, x1.length < x.length ∧
      ∀ n, decode_array_loop dec (n + 1) i t x = decode_array_loop dec n i1 t1 x1) := by
  by_cases h0 : peek x = 0
  · exact Or.inl ⟨.ok (t, x), fun n => by unfold decode_array_loop; rw [if_pos h0]⟩
  · cases h1 : dec x with
    | error e =>
      exact Or.inl ⟨.error e, fun n => by unfold decode_array_loop; rw [if_neg h0, h1]⟩
    | ok p =>
      obtain ⟨v, x1⟩ := p
      have l1 := hd _ _ _ h1
      have l2 := whitespace_length x1
      by_cases h2 : peek (parse_whitespace x1) = 93
      · exact Or.inl ⟨.ok (lua_rawseti t i v, parse_whitespace x1), fun n => by
          unfold decode_array_loop; rw [if_neg h0, h1]; simp only []; rw [if_pos h2]⟩
      · cases h3 : parse_token (parse_whitespace x1) [44] with
        | error e =>
          exact Or.inl ⟨.error e, fun n => by
            unfold decode_array_loop; rw [if_neg h0, h1]; simp only []; rw [if_neg h2, h3]⟩
        | ok x2 =>
          have l3 := token_length h3
          exact Or.inr ⟨C.to_int32 (i + 1), lua_rawseti t i v, x2, by omega, fun n => by
            conv_lhs => unfold decode_array_loop
            rw [if_neg h0, h1]; simp only []; rw [if_neg h2, h3]⟩

/-- An iteration of the loop of `decode_object` ends the loop, with a result
that does not depend on the fuel, or goes on with a shorter input. -/
theorem object_iteration {dec : List UInt8 → Except JsonError (LuaValue × List UInt8)}
    (hd : Shorter dec) (t : List (LuaValue × LuaValue)) (x : List UInt8) :
    (∃ r, ∀ n, decode_object_loop dec (n + 1) t x = r) ∨
    (∃ t1 x1, x1.length < x.length ∧
      ∀ n, decode_object_loop dec (n + 1) t x = decode_object_loop dec n t1 x1) := by
  by_cases h0 : peek x = 0
  · exact Or.inl ⟨.ok (t, x), fun n => by unfold decode_object_loop; rw [if_pos h0]⟩
  · cases hs : decode_string x with
    | error e =>
      exact Or.inl ⟨.error e, fun n => by unfold decode_object_loop; rw [if_neg h0, hs]⟩
    | ok p0 =>
      obtain ⟨k, x0⟩ := p0
      have l0 := string_shorter hs
      cases hc : parse_token x0 [58] with
      | error e =>
        exact Or.inl ⟨.error e, fun n => by
          unfold decode_object_loop; rw [if_neg h0, hs]; simp only []; rw [hc]⟩
      | ok xc =>
        have lc := token_length hc
        cases h1 : dec xc with
        | error e =>
          exact Or.inl ⟨.error e, fun n => by
            unfold decode_object_loop; rw [if_neg h0, hs]; simp only []; rw [hc]
            simp only []; rw [h1]⟩
        | ok p =>
          obtain ⟨v, x1⟩ := p
          have l1 := hd _ _ _ h1
          have l2 := whitespace_length x1
          cases hr : lua_rawset t k v with
          | error e =>
            exact Or.inl ⟨.error (.lua e), fun n => by
              unfold decode_object_loop; rw [if_neg h0, hs]; simp only []; rw [hc]
              simp only []; rw [h1]; simp only []; rw [hr]⟩
          | ok t1 =>
            by_cases h2 : peek (parse_whitespace x1) = 125
            · exact Or.inl ⟨.ok (t1, parse_whitespace x1), fun n => by
                unfold decode_object_loop; rw [if_neg h0, hs]; simp only []; rw [hc]
                simp only []; rw [h1]; simp only []; rw [hr]; simp only []; rw [if_pos h2]⟩
            · cases h3 : parse_token (parse_whitespace x1) [44] with
              | error e =>
                exact Or.inl ⟨.error e, fun n => by
                  unfold decode_object_loop; rw [if_neg h0, hs]; simp only []; rw [hc]
                  simp only []; rw [h1]; simp only []; rw [hr]; simp only []
                  rw [if_neg h2, h3]⟩
              | ok x2 =>
                have l3 := token_length h3
                exact Or.inr ⟨t1, x2, by omega, fun n => by
                  conv_lhs => unfold decode_object_loop
                  rw [if_neg h0, hs]; simp only []; rw [hc]
                  simp only []; rw [h1]; simp only []; rw [hr]; simp only []
                  rw [if_neg h2, h3]⟩

/-- An iteration of the loop of `decode_string` ends the loop, fails, or goes on
with a shorter input. -/
theorem string_iteration (c : UInt8) (rest buffer : List UInt8) :
    decode_string_loop (c :: rest) buffer = .ok (buffer, c :: rest) ∨
    (∃ e, decode_string_loop (c :: rest) buffer = .error e) ∨
    (∃ rest1 buffer1, rest1.length < (c :: rest).length ∧
      decode_string_loop (c :: rest) buffer = decode_string_loop rest1 buffer1) := by
  by_cases h0 : c = 0
  · left; conv_lhs => unfold decode_string_loop
    rw [if_pos h0]
  by_cases h1 : c = 34
  · left; conv_lhs => unfold decode_string_loop
    rw [if_neg h0, if_pos h1]
  by_cases h2 : c = 92
  · subst h2
    cases rest with
    | nil => right; left; exact ⟨_, rfl⟩
    | cons d rest =>
      rw [string_loop_escape]
      cases decode_string_escape d with
      | none => right; left; exact ⟨_, rfl⟩
      | some b => right; right; exact ⟨rest, buffer ++ [b], by simp only [List.length_cons]; omega, rfl⟩
  · right; right
    exact ⟨rest, buffer ++ [c], by simp, string_loop_cons c rest buffer h0 h1 h2⟩

theorem f_decode_fueled (input : List UInt8) :
    (∃ v, f_decode input = .ok v) ∨ (∃ e, f_decode input = .error e ∧ e ≠ .out_of_fuel) := by
  unfold f_decode
  cases h : decode_value (input.length + 1) input with
  | ok p => exact Or.inl ⟨p.1, rfl⟩
  | error e =>
    refine Or.inr ⟨e, rfl, ?_⟩
    intro he
    rw [he] at h
    exact value_fueled _ _ (Nat.lt_succ_self _) h

/-- Claim C28.  On every input `f_decode` returns a value or an error of the
library, never the end of the fuel of the embedding, and `decode_value` returns
the same with any fuel above the length of the input.  The reason is the
progress of the decoder: a call of `decode_value` that succeeds leaves fewer
characters than it was given, and an iteration of the loops of `decode_array`,
of `decode_object` and of `decode_string` ends the loop or goes on with fewer
characters. -/
theorem decoder_terminates (input : List UInt8) :
    ((∃ v, f_decode input = .ok v) ∨ (∃ e, f_decode input = .error e ∧ e ≠ .out_of_fuel)) ∧
    (∀ fuel, input.length < fuel →
      decode_value fuel input = decode_value (input.length + 1) input) ∧
    (∀ fuel v rest, decode_value fuel input = .ok (v, rest) → rest.length < input.length) ∧
    (∀ fuel i t,
      (∃ r, ∀ n, decode_array_loop (decode_value fuel) (n + 1) i t input = r) ∨
      (∃ i1 t1 x1, x1.length < input.length ∧
        ∀ n, decode_array_loop (decode_value fuel) (n + 1) i t input =
          decode_array_loop (decode_value fuel) n i1 t1 x1)) ∧
    (∀ fuel t,
      (∃ r, ∀ n, decode_object_loop (decode_value fuel) (n + 1) t input = r) ∨
      (∃ t1 x1, x1.length < input.length ∧
        ∀ n, decode_object_loop (decode_value fuel) (n + 1) t input =
          decode_object_loop (decode_value fuel) n t1 x1)) ∧
    (∀ buffer, decode_string_loop input buffer = .ok (buffer, input) ∨
      (∃ e, decode_string_loop input buffer = .error e) ∨
      (∃ rest1 buffer1, rest1.length < input.length ∧
        decode_string_loop input buffer = decode_string_loop rest1 buffer1)) := by
  refine ⟨f_decode_fueled input, fun fuel h => decode_fuel h,
    fun fuel v rest h => value_shorter fuel _ _ _ h,
    fun fuel i t => array_iteration (value_shorter fuel) i t input,
    fun fuel t => object_iteration (value_shorter fuel) t input, ?_⟩
  intro buffer
  cases input with
  | nil => left; rfl
  | cons c rest => exact string_iteration c rest buffer

/-! ### Strings without a closing quote -/

theorem whitespace_prefix (ws : List UInt8) (h : ∀ c ∈ ws, isspace c = true) (rest : List UInt8) :
    parse_whitespace (ws ++ rest) = parse_whitespace rest := by
  induction ws with
  | nil => rfl
  | cons c ws ih =>
    have hc := h c (by simp)
    have h0 : c ≠ 0 := by
      intro h0
      rw [h0] at hc
      exact absurd hc (by decide)
    rw [List.cons_append]
    conv_lhs => unfold parse_whitespace
    rw [if_pos ⟨h0, hc⟩]
    exact ih (fun x hx => h x (by simp [hx]))

/-- The loop of `decode_string` on characters without a closing quote: it stops
at the end of the C string, or it fails at a backslash. -/
theorem unterminated_loop {body : List UInt8} (hb : Unterminated body) :
    ∀ (buffer : List UInt8),
    (∃ b r, decode_string_loop body buffer = .ok (b, r) ∧ peek r = 0) ∨
    (∃ c, decode_string_escape c = none ∧
      decode_string_loop body buffer = .error (.invalid_escape c)) := by
  induction hb with
  | nil => intro buffer; exact Or.inl ⟨buffer, [], rfl, rfl⟩
  | backslash => intro buffer; exact Or.inr ⟨0, rfl, rfl⟩
  | plain c rest h1 h2 _ ih =>
    intro buffer
    by_cases h0 : c = 0
    · left
      refine ⟨buffer, c :: rest, ?_, h0⟩
      conv_lhs => unfold decode_string_loop
      rw [if_pos h0]
    · rw [string_loop_cons c rest buffer h0 h1 h2]
      exact ih _
  | escaped c rest _ ih =>
    intro buffer
    rw [string_loop_escape]
    cases he : decode_string_escape c with
    | none => exact Or.inr ⟨c, he, rfl⟩
    | some b => exact ih _

theorem unterminated_rejected (ws body : List UInt8) (hw : ∀ c ∈ ws, isspace c = true)
    (hb : Unterminated body) :
    f_decode (ws ++ 34 :: body) = .error (.expected_token [34]) ∨
    ∃ c, decode_string_escape c = none ∧
      f_decode (ws ++ 34 :: body) = .error (.invalid_escape c) := by
  have e : decode_value ((ws ++ 34 :: body).length + 1) (ws ++ 34 :: body) =
      decode_value ((ws ++ 34 :: body).length + 1) (34 :: body) := by
    rw [← value_whitespace, whitespace_prefix ws hw, whitespace_cons 34 body (by decide)]
  unfold f_decode
  rw [e, decode_value_quote]
  rcases unterminated_loop hb [] with ⟨b, r, h1, h2⟩ | ⟨c, h1, h2⟩
  · left
    rw [h1]
    simp only []
    rw [token_mismatch (by rw [whitespace_peek r h2, h2]; decide)]
  · right
    refine ⟨c, h1, ?_⟩
    rw [h2]

/-- Claim C27, with the errors as the code gives them.  An input whose first
character after white space is a double quote, with no closing quote after it,
makes `f_decode` fail: with the error of the expected token `"`, or with the
error of an invalid escape, which names the character after a backslash when
that is none of the eight escape characters, the NUL at the end of the input
included.  It never returns a string. -/
theorem unterminated_string_rejected (ws body : List UInt8)
    (hw : ∀ c ∈ ws, isspace c = true) (hb : Unterminated body) :
    (f_decode (ws ++ 34 :: body) = .error (.expected_token [34]) ∨
      ∃ c, decode_string_escape c = none ∧
        f_decode (ws ++ 34 :: body) = .error (.invalid_escape c)) ∧
    (∀ v, f_decode (ws ++ 34 :: body) ≠ .ok v) := by
  have h := unterminated_rejected ws body hw hb
  refine ⟨h, fun v hv => ?_⟩
  rcases h with h | ⟨c, _, h⟩ <;> rw [h] at hv <;> cases hv

/-- The input of a space, a quote and the two characters `ab` is rejected. -/
theorem unterminated_string_rejected_witness :
    (∀ c ∈ ([32] : List UInt8), isspace c = true) ∧ Unterminated [97, 98] ∧
    ((f_decode ([32] ++ 34 :: [97, 98]) = .error (.expected_token [34]) ∨
      ∃ c, decode_string_escape c = none ∧
        f_decode ([32] ++ 34 :: [97, 98]) = .error (.invalid_escape c)) ∧
    (∀ v, f_decode ([32] ++ 34 :: [97, 98]) ≠ .ok v)) :=
  have hw : ∀ c ∈ ([32] : List UInt8), isspace c = true := by decide
  have hb : Unterminated [97, 98] :=
    .plain 97 _ (by decide) (by decide) (.plain 98 _ (by decide) (by decide) .nil)
  ⟨hw, hb, unterminated_string_rejected [32] [97, 98] hw hb⟩

/-- The input of a quote, a backslash and the letter `u` has no closing quote
and does not end right after a backslash; the error is the invalid escape of
`u`, not the expected token. -/
theorem unterminated_string_counterexample :
    Unterminated [92, 117] ∧ ([34, 92, 117] : List UInt8).getLast? = some 117 ∧
    f_decode [34, 92, 117] = .error (.invalid_escape 117) :=
  ⟨.escaped 117 [] .nil, rfl, rfl⟩

/-! ### What follows the value -/

theorem peek_append {x : List UInt8} (t : List UInt8) (h : x ≠ []) : peek (x ++ t) = peek x := by
  cases x with
  | nil => exact absurd rfl h
  | cons c x => rfl

theorem peek_ne_nil {x : List UInt8} (h : peek x ≠ 0) : x ≠ [] := by
  intro hx
  rw [hx] at h
  exact h rfl

theorem whitespace_append : ∀ (x t : List UInt8), parse_whitespace x ≠ [] →
    parse_whitespace (x ++ t) = parse_whitespace x ++ t
  | [], _, h => absurd rfl h
  | c :: x, t, h => by
    by_cases hc : c ≠ 0 ∧ isspace c = true
    · have e1 : parse_whitespace (c :: x) = parse_whitespace x := by
        conv_lhs => unfold parse_whitespace
        rw [if_pos hc]
      have e2 : parse_whitespace (c :: x ++ t) = parse_whitespace (x ++ t) := by
        rw [List.cons_append]
        conv_lhs => unfold parse_whitespace
        rw [if_pos hc]
      rw [e1] at h ⊢
      rw [e2]
      exact whitespace_append x t h
    · have e1 : parse_whitespace (c :: x) = c :: x := by
        conv_lhs => unfold parse_whitespace
        rw [if_neg hc]
      have e2 : parse_whitespace (c :: x ++ t) = c :: x ++ t := by
        rw [List.cons_append]
        conv_lhs => unfold parse_whitespace
        rw [if_neg hc]
      rw [e1, e2]

theorem match_token_append : ∀ (tok x t : List UInt8), match_token tok x = true →
    match_token tok (x ++ t) = true
  | [], _, _, _ => by simp [match_token]
  | _ :: _, [], _, h => by simp [match_token] at h
  | a :: tok, c :: x, t, h => by
    rw [List.cons_append]
    unfold match_token at h ⊢
    by_cases hc : c ≠ a
    · rw [if_pos hc] at h; cases h
    · rw [if_neg hc] at h ⊢
      exact match_token_append tok x t h

theorem match_token_ne_nil {a : UInt8} {tok x : List UInt8} (h : match_token (a :: tok) x = true) :
    x ≠ [] := by
  intro hx
  rw [hx] at h
  simp [match_token] at h

theorem token_append {x r : List UInt8} {a : UInt8} {tok : List UInt8} (t : List UInt8)
    (h : parse_token x (a :: tok) = .ok r) : parse_token (x ++ t) (a :: tok) = .ok (r ++ t) := by
  unfold parse_token at h ⊢
  by_cases hm : match_token (a :: tok) (parse_whitespace x) = true
  · rw [if_pos hm] at h
    injection h with h
    rw [whitespace_append x t (match_token_ne_nil hm),
      if_pos (match_token_append _ _ t hm), ← h,
      List.drop_append_of_le_length (match_token_length _ _ hm)]
  · rw [if_neg hm] at h
    cases h

theorem token_ne_nil {x r : List UInt8} {a : UInt8} {tok : List UInt8}
    (h : parse_token x (a :: tok) = .ok r) : parse_whitespace x ≠ [] := by
  unfold parse_token at h
  by_cases hm : match_token (a :: tok) (parse_whitespace x) = true
  · exact match_token_ne_nil hm
  · rw [if_neg hm] at h
    cases h

theorem whitespace_ne_nil {x : List UInt8} (h : parse_whitespace x ≠ []) : x ≠ [] := by
  intro hx
  rw [hx] at h
  exact h rfl

theorem number_loop_append (t : List UInt8) : ∀ (room : Nat) (x : List UInt8),
    (decode_number_loop room x).2 ≠ [] →
    decode_number_loop room (x ++ t) =
      ((decode_number_loop room x).1, (decode_number_loop room x).2 ++ t)
  | 0, x, _ => by simp [decode_number_loop]
  | _ + 1, [], h => by simp [decode_number_loop] at h
  | room + 1, c :: x, h => by
    have el : decode_number_loop (room + 1) (c :: (x ++ t)) =
        if c ≠ 0 ∧ is_number_char c = true then
          (c :: (decode_number_loop room (x ++ t)).1, (decode_number_loop room (x ++ t)).2)
        else ([], c :: (x ++ t)) := by
      conv_lhs => unfold decode_number_loop
    have er : decode_number_loop (room + 1) (c :: x) =
        if c ≠ 0 ∧ is_number_char c = true then
          (c :: (decode_number_loop room x).1, (decode_number_loop room x).2)
        else ([], c :: x) := by
      conv_lhs => unfold decode_number_loop
    rw [er] at h
    rw [List.cons_append, el, er]
    by_cases hc : c ≠ 0 ∧ is_number_char c = true
    · rw [if_pos hc] at h ⊢
      rw [if_pos hc]
      simp only [] at h ⊢
      rw [number_loop_append t room x h]
    · rw [if_neg hc, if_neg hc]
      rfl

theorem number_append {x r : List UInt8} {v : LuaValue} (t : List UInt8)
    (h : decode_number x = .ok (v, r)) (hr : r ≠ []) :
    decode_number (x ++ t) = .ok (v, r ++ t) := by
  unfold decode_number at h ⊢
  have hr2 : (decode_number_loop 256 (parse_whitespace x)).2 ≠ [] := by
    intro h0
    split at h
    · cases h
    · injection h with h
      injection h with _ h
      exact hr (h ▸ h0)
  have hw : parse_whitespace x ≠ [] := by
    intro h0
    rw [h0] at hr2
    exact hr2 rfl
  rw [whitespace_append x t hw, number_loop_append t 256 _ hr2]
  simp only []
  split at h
  · cases h
  · injection h with h
    injection h with h1 h2
    rw [← h1, ← h2]

theorem string_loop_append (t : List UInt8) : ∀ (x buffer b r : List UInt8),
    decode_string_loop x buffer = .ok (b, r) → r ≠ [] →
    decode_string_loop (x ++ t) buffer = .ok (b, r ++ t)
  | [], buffer, b, r, h, hr => by
    simp only [decode_string_loop] at h
    injection h with h
    injection h with _ h
    exact absurd h.symm hr
  | [c], buffer, b, r, h, hr => by
    by_cases h0 : c = 0
    · rw [List.singleton_append]
      conv_lhs => unfold decode_string_loop
      unfold decode_string_loop at h
      rw [if_pos h0] at h ⊢
      injection h with h
      injection h with h1 h2
      rw [← h1, ← h2]
      rfl
    by_cases h1 : c = 34
    · rw [List.singleton_append]
      conv_lhs => unfold decode_string_loop
      unfold decode_string_loop at h
      rw [if_neg h0, if_pos h1] at h ⊢
      injection h with h
      injection h with h1 h2
      rw [← h1, ← h2]
      rfl
    by_cases h2 : c = 92
    · subst h2
      cases h
    · rw [string_loop_cons c [] buffer h0 h1 h2] at h
      exact absurd (by
        simp only [decode_string_loop] at h
        injection h with h
        injection h with _ h
        exact h.symm) hr
  | c :: d :: x, buffer, b, r, h, hr => by
    by_cases h0 : c = 0
    · rw [List.cons_append]
      conv_lhs => unfold decode_string_loop
      unfold decode_string_loop at h
      rw [if_pos h0] at h ⊢
      injection h with h
      injection h with h1 h2
      rw [← h1, ← h2]
      rfl
    by_cases h1 : c = 34
    · rw [List.cons_append]
      conv_lhs => unfold decode_string_loop
      unfold decode_string_loop at h
      rw [if_neg h0, if_pos h1] at h ⊢
      injection h with h
      injection h with h1 h2
      rw [← h1, ← h2]
      rfl
    by_cases h2 : c = 92
    · subst h2
      rw [string_loop_escape] at h
      rw [List.cons_append, List.cons_append, string_loop_escape]
      cases he : decode_string_escape d with
      | none => rw [he] at h; cases h
      | some e =>
        rw [he] at h
        exact string_loop_append t x _ b r h hr
    · rw [string_loop_cons c _ buffer h0 h1 h2] at h
      rw [List.cons_append, string_loop_cons c _ buffer h0 h1 h2]
      exact string_loop_append t (d :: x) _ b r h hr

theorem string_append {x r : List UInt8} {v : LuaValue} (t : List UInt8)
    (h : decode_string x = .ok (v, r)) : decode_string (x ++ t) = .ok (v, r ++ t) := by
  unfold decode_string at h ⊢
  cases h1 : parse_token x [34] with
  | error e => rw [h1] at h; cases h
  | ok x1 =>
    rw [h1] at h
    rw [token_append t h1]
    simp only [] at h ⊢
    cases h2 : decode_string_loop x1 [] with
    | error e => rw [h2] at h; cases h
    | ok p =>
      obtain ⟨b, x2⟩ := p
      rw [h2] at h
      simp only [] at h
      cases h3 : parse_token x2 [34] with
      | error e => rw [h3] at h; cases h
      | ok x3 =>
        rw [h3] at h
        rw [string_loop_append t x1 [] b x2 h2 (whitespace_ne_nil (token_ne_nil h3))]
        simp only []
        rw [token_append t h3]
        injection h with h
        injection h with h4 h5
        rw [← h4, ← h5]

theorem array_loop_append {dec : List UInt8 → Except JsonError (LuaValue × List UInt8)}
    {t : List UInt8} (hd : Appends t dec) (n : Nat) : ∀ (i : Int)
    (tbl : List (LuaValue × LuaValue)) (x : List UInt8) (tbl1 : List (LuaValue × LuaValue))
    (r : List UInt8), decode_array_loop dec n i tbl x = .ok (tbl1, r) → r ≠ [] →
    decode_array_loop dec n i tbl (x ++ t) = .ok (tbl1, r ++ t) := by
  induction n with
  | zero => intro i tbl x tbl1 r h; cases h
  | succ n ih =>
    intro i tbl x tbl1 r h hr
    unfold decode_array_loop at h ⊢
    by_cases hp : peek x = 0
    · rw [if_pos hp] at h
      injection h with h
      injection h with h1 h2
      subst h1; subst h2
      rw [if_pos (by rw [peek_append t hr]; exact hp)]
    · rw [if_neg hp] at h
      rw [if_neg (by rw [peek_append t (peek_ne_nil hp)]; exact hp)]
      cases h1 : dec x with
      | error e => rw [h1] at h; cases h
      | ok p =>
        obtain ⟨v, x1⟩ := p
        rw [h1] at h
        simp only [] at h
        by_cases hq : peek (parse_whitespace x1) = 93
        · have hw : parse_whitespace x1 ≠ [] :=
            peek_ne_nil (by rw [hq]; decide)
          rw [hd x v x1 h1 (Or.inl (whitespace_ne_nil hw))]
          simp only []
          rw [whitespace_append x1 t hw, peek_append t hw]
          rw [if_pos hq] at h ⊢
          injection h with h
          injection h with h2 h3
          rw [← h2, ← h3]
        · rw [if_neg hq] at h
          cases h2 : parse_token (parse_whitespace x1) [44] with
          | error e => rw [h2] at h; cases h
          | ok x2 =>
            rw [h2] at h
            have hw : parse_whitespace x1 ≠ [] := by
              have := token_ne_nil h2
              rw [whitespace_idem] at this
              exact this
            rw [hd x v x1 h1 (Or.inl (whitespace_ne_nil hw))]
            simp only []
            rw [whitespace_append x1 t hw, peek_append t hw, if_neg hq, token_append t h2]
            exact ih _ _ _ _ _ h hr

theorem array_append {dec : List UInt8 → Except JsonError (LuaValue × List UInt8)}
    {t : List UInt8} (hd : Appends t dec) {n : Nat} {x r : List UInt8} {v : LuaValue}
    (h : decode_array dec n x = .ok (v, r)) : decode_array dec n (x ++ t) = .ok (v, r ++ t) := by
  unfold decode_array at h ⊢
  cases h1 : parse_token x [91] with
  | error e => rw [h1] at h; cases h
  | ok x1 =>
    rw [h1] at h
    rw [token_append t h1]
    simp only [] at h ⊢
    by_cases hq : peek (parse_whitespace x1) = 93
    · have hw : parse_whitespace x1 ≠ [] := peek_ne_nil (by rw [hq]; decide)
      rw [whitespace_append x1 t hw, peek_append t hw]
      rw [if_pos hq] at h ⊢
      cases h2 : parse_token (parse_whitespace x1) [93] with
      | error e => rw [h2] at h; cases h
      | ok x2 =>
        rw [h2] at h
        rw [token_append t h2]
        injection h with h
        injection h with h3 h4
        rw [← h3, ← h4]
    · rw [if_neg hq] at h
      cases h2 : decode_array_loop dec n 1 [] (parse_whitespace x1) with
      | error e => rw [h2] at h; cases h
      | ok p =>
        obtain ⟨tbl, x2⟩ := p
        rw [h2] at h
        simp only [] at h
        cases h3 : parse_token x2 [93] with
        | error e => rw [h3] at h; cases h
        | ok x3 =>
          rw [h3] at h
          have hx2 : x2 ≠ [] := whitespace_ne_nil (token_ne_nil h3)
          have hw : parse_whitespace x1 ≠ [] := by
            intro h0
            rw [h0] at h2
            cases n with
            | zero => cases h2
            | succ n =>
              unfold decode_array_loop at h2
              rw [if_pos (show peek ([] : List UInt8) = 0 from rfl)] at h2
              injection h2 with h2
              injection h2 with _ h2
              exact hx2 h2.symm
          rw [whitespace_append x1 t hw, peek_append t hw, if_neg hq,
            array_loop_append hd n _ _ _ _ _ h2 hx2]
          simp only []
          rw [token_append t h3]
          injection h with h
          injection h with h4 h5
          rw [← h4, ← h5]

theorem object_loop_append {dec : List UInt8 → Except JsonError (LuaValue × List UInt8)}
    {t : List UInt8} (hd : Appends t dec) (n : Nat) : ∀ (tbl : List (LuaValue × LuaValue))
    (x : List UInt8) (tbl1 : List (LuaValue × LuaValue)) (r : List UInt8),
    decode_object_loop dec n tbl x = .ok (tbl1, r) → r ≠ [] →
    decode_object_loop dec n tbl (x ++ t) = .ok (tbl1, r ++ t) := by
  induction n with
  | zero => intro tbl x tbl1 r h; cases h
  | succ n ih =>
    intro tbl x tbl1 r h hr
    unfold decode_object_loop at h ⊢
    by_cases hp : peek x = 0
    · rw [if_pos hp] at h
      injection h with h
      injection h with h1 h2
      subst h1; subst h2
      rw [if_pos (by rw [peek_append t hr]; exact hp)]
    · rw [if_neg hp] at h
      rw [if_neg (by rw [peek_append t (peek_ne_nil hp)]; exact hp)]
      cases h0 : decode_string x with
      | error e => rw [h0] at h; cases h
      | ok p0 =>
        obtain ⟨k, x0⟩ := p0
        rw [h0] at h
        rw [string_append t h0]
        simp only [] at h ⊢
        cases hc : parse_token x0 [58] with
        | error e => rw [hc] at h; cases h
        | ok xc =>
          rw [hc] at h
          rw [token_append t hc]
          simp only [] at h ⊢
          cases h1 : dec xc with
          | error e => rw [h1] at h; cases h
          | ok p =>
            obtain ⟨v, x1⟩ := p
            rw [h1] at h
            simp only [] at h
            cases hs : lua_rawset tbl k v with
            | error e => rw [hs] at h; cases h
            | ok tbl2 =>
              rw [hs] at h
              simp only [] at h
              by_cases hq : peek (parse_whitespace x1) = 125
              · have hw : parse_whitespace x1 ≠ [] := peek_ne_nil (by rw [hq]; decide)
                rw [hd xc v x1 h1 (Or.inl (whitespace_ne_nil hw))]
                simp only []
                rw [hs]
                simp only []
                rw [whitespace_append x1 t hw, peek_append t hw]
                rw [if_pos hq] at h ⊢
                injection h with h
                injection h with h2 h3
                rw [← h2, ← h3]
              · rw [if_neg hq] at h
                cases h2 : parse_token (parse_whitespace x1) [44] with
                | error e => rw [h2] at h; cases h
                | ok x2 =>
                  rw [h2] at h
                  have hw : parse_whitespace x1 ≠ [] := by
                    have := token_ne_nil h2
                    rw [whitespace_idem] at this
                    exact this
                  rw [hd xc v x1 h1 (Or.inl (whitespace_ne_nil hw))]
                  simp only []
                  rw [hs]
                  simp only []
                  rw [whitespace_append x1 t hw, peek_append t hw, if_neg hq,
                    token_append t h2]
                  exact ih _ _ _ _ h hr

theorem object_append {dec : List UInt8 → Except JsonError (LuaValue × List UInt8)}
    {t : List UInt8} (hd : Appends t dec) {n : Nat} {x r : List UInt8} {v : LuaValue}
    (h : decode_object dec n x = .ok (v, r)) :
    decode_object dec n (x ++ t) = .ok (v, r ++ t) := by
  unfold decode_object at h ⊢
  cases h1 : parse_token x [123] with
  | error e => rw [h1] at h; cases h
  | ok x1 =>
    rw [h1] at h
    rw [token_append t h1]
    simp only [] at h ⊢
    by_cases hq : peek (parse_whitespace x1) = 125
    · have hw : parse_whitespace x1 ≠ [] := peek_ne_nil (by rw [hq]; decide)
      rw [whitespace_append x1 t hw, peek_append t hw]
      rw [if_pos hq] at h ⊢
      cases h2 : parse_token (parse_whitespace x1) [125] with
      | error e => rw [h2] at h; cases h
      | ok x2 =>
        rw [h2] at h
        rw [token_append t h2]
        injection h with h
        injection h with h3 h4
        rw [← h3, ← h4]
    · rw [if_neg hq] at h
      cases h2 : decode_object_loop dec n [] (parse_whitespace x1) with
      | error e => rw [h2] at h; cases h
      | ok p =>
        obtain ⟨tbl, x2⟩ := p
        rw [h2] at h
        simp only [] at h
        cases h3 : parse_token x2 [125] with
        | error e => rw [h3] at h; cases h
        | ok x3 =>
          rw [h3] at h
          have hx2 : x2 ≠ [] := whitespace_ne_nil (token_ne_nil h3)
          have hw : parse_whitespace x1 ≠ [] := by
            intro h0
            rw [h0] at h2
            cases n with
            | zero => cases h2
            | succ n =>
              unfold decode_object_loop at h2
              rw [if_pos (show peek ([] : List UInt8) = 0 from rfl)] at h2
              injection h2 with h2
              injection h2 with _ h2
              exact hx2 h2.symm
          rw [whitespace_append x1 t hw, peek_append t hw, if_neg hq,
            object_loop_append hd n _ _ _ _ h2 hx2]
          simp only []
          rw [token_append t h3]
          injection h with h
          injection h with h4 h5
          rw [← h4, ← h5]

theorem token_value_append {x r : List UInt8} {a : UInt8} {tok : List UInt8} {w v : LuaValue}
    (t : List UInt8)
    (h : (match parse_token x (a :: tok) with
      | .error e => (.error e : Except JsonError (LuaValue × List UInt8))
      | .ok input => .ok (w, input)) = .ok (v, r)) :
    (match parse_token (x ++ t) (a :: tok) with
      | .error e => (.error e : Except JsonError (LuaValue × List UInt8))
      | .ok input => .ok (w, input)) = .ok (v, r ++ t) := by
  cases h1 : parse_token x (a :: tok) with
  | error e => rw [h1] at h; cases h
  | ok x1 =>
    rw [h1] at h
    rw [token_append t h1]
    injection h with h
    injection h with h2 h3
    rw [← h2, ← h3]

theorem switch_append {dec : List UInt8 → Except JsonError (LuaValue × List UInt8)}
    {t : List UInt8} (hd : Appends t dec) {n : Nat} {c : UInt8} {x r : List UInt8} {v : LuaValue}
    (h : decode_value_switch dec n c x = .ok (v, r))
    (hv : r ≠ [] ∨ ∀ bits, v ≠ .float bits) :
    decode_value_switch dec n c (x ++ t) = .ok (v, r ++ t) := by
  unfold decode_value_switch at h ⊢
  by_cases h1 : c = 110
  · rw [if_pos h1] at h ⊢; exact token_value_append t h
  rw [if_neg h1] at h ⊢
  by_cases h2 : c = 102
  · rw [if_pos h2] at h ⊢; exact token_value_append t h
  rw [if_neg h2] at h ⊢
  by_cases h3 : c = 116
  · rw [if_pos h3] at h ⊢; exact token_value_append t h
  rw [if_neg h3] at h ⊢
  by_cases h4 : lisdigit c = true ∨ c = 45
  · rw [if_pos h4] at h ⊢
    refine number_append t h ?_
    rcases hv with hv | hv
    · exact hv
    · unfold decode_number at h
      split at h
      · cases h
      · injection h with h
        injection h with h5 _
        exact absurd h5.symm (hv _)
  rw [if_neg h4] at h ⊢
  by_cases h5 : c = 34
  · rw [if_pos h5] at h ⊢; exact string_append t h
  rw [if_neg h5] at h ⊢
  by_cases h6 : c = 91
  · rw [if_pos h6] at h ⊢; exact array_append hd h
  rw [if_neg h6] at h ⊢
  by_cases h7 : c = 123
  · rw [if_pos h7] at h ⊢; exact object_append hd h
  rw [if_neg h7] at h
  cases h

/-- What `decode_value` gives stays the same when more input is put after the
input, if the value did not end at the end of the input as a number does. -/
theorem value_append (t : List UInt8) (fuel : Nat) : Appends t (decode_value fuel) := by
  induction fuel with
  | zero => intro x v r h; cases h
  | succ fuel ih =>
    intro x v r h hv
    have hs := (value_start h).1
    have hw : parse_whitespace x ≠ [] := peek_ne_nil hs
    unfold decode_value at h ⊢
    rw [whitespace_append x t hw, peek_append t hw]
    exact switch_append ih h hv

theorem f_decode_append {s : List UInt8} {v : LuaValue} (h : f_decode s = .ok v)
    (hv : ∀ bits, v ≠ .float bits) (t : List UInt8) : f_decode (s ++ t) = .ok v := by
  unfold f_decode at h ⊢
  cases h1 : decode_value (s.length + 1) s with
  | error e => rw [h1] at h; cases h
  | ok p =>
    obtain ⟨w, r⟩ := p
    rw [h1] at h
    injection h with h
    subst h
    have h2 := value_append t _ s w r h1 (Or.inr hv)
    rw [value_stable (s.length + 1) ((s ++ t).length + 1) (by simp) _ _ h2 (ok_ne_error _ _)]

/-- Claim C21.  When `f_decode` succeeds on `s` with the value `v` and `v` is
not a number, it succeeds with the same value on `s` followed by any `t`. -/
theorem trailing_input_ignored (s : List UInt8) (v : LuaValue) (h : f_decode s = .ok v)
    (hv : ∀ bits, v ≠ .float bits) (t : List UInt8) : f_decode (s ++ t) = .ok v :=
  f_decode_append h hv t

/-- The text of the string `a` gives the same value when a double quote and the
letter `b` follow it. -/
theorem trailing_input_ignored_witness :
    f_decode [34, 97, 34] = .ok (.string [97]) ∧
    (∀ bits, LuaValue.string [97] ≠ .float bits) ∧
    f_decode ([34, 97, 34] ++ [34, 98]) = .ok (.string [97]) :=
  have hv : ∀ bits, LuaValue.string [97] ≠ .float bits := fun bits h => by cases h
  ⟨rfl, hv, trailing_input_ignored [34, 97, 34] (.string [97]) rfl hv [34, 98]⟩

/-! ### The chunked writers -/

/-- Bytes written so far through the writer of the binary codec: the full
chunks and the filled part of the buffer. -/
theorem msg_contents_length (msg : Msgpack.msg_t) (h : Msgpack.ChunksFull msg) :
    msg.contents.length = 16384 * msg.table.length + msg.position := by
  obtain ⟨h1, _, h3⟩ := h
  have hsum : ∀ (l : List (List UInt8)), (∀ c ∈ l, c.length = 1024 * 16) →
      l.flatten.length = 16384 * l.length := by
    intro l
    induction l with
    | nil => intro _; rfl
    | cons c l ih =>
      intro hl
      rw [List.flatten_cons, List.length_append, hl c (List.mem_cons_self _ _),
        ih (fun x hx => hl x (List.mem_cons_of_mem _ hx)), List.length_cons]
      omega
  unfold Msgpack.msg_t.contents
  rw [List.length_append, hsum _ h1, List.length_take, Nat.min_eq_left h3]

/-- The number of chunks after the last flush of the writer of the binary
codec. -/
theorem msg_flush_count (msg : Msgpack.msg_t) (h : Msgpack.ChunksFull msg)
    (hl : msg.contents.length ≤ 16384 * (2 ^ 31 - 3)) :
    (Msgpack.msg_flush msg).table.length + 1 < 2 ^ 31 - 1 := by
  have hlen := msg_contents_length msg h
  unfold Msgpack.msg_flush
  split
  · simp only [List.length_append, List.length_singleton]
    omega
  · omega

/-- Claim C24, amended.  For every sequence of at most `8 * (2^31 - 2)` bytes
written through the writer of the text codec (chunks of 8 bytes) and every
sequence of at most `16384 * (2^31 - 3)` bytes written through the writer of the
binary codec (chunks of 16384 bytes), from the initial state, the result that
`f_encode` assembles after the last flush is exactly the written sequence;
before that flush every chunk in the table is full and the buffer holds the
rest.  Within these lengths the counter `index` of the chunks stays in the
range of an `int`: after the last flush it is the number of chunks plus one,
and in the binary codec, whose output loop runs up to `index` itself, it is
below `2^31 - 1`. -/
theorem chunked_writer_is_append (text_bytes binary_bytes : List UInt8)
    (ht : text_bytes.length ≤ text_limit) (hb : binary_bytes.length ≤ 16384 * (2 ^ 31 - 3)) :
    f_encode_output (json_flush (json_write_all json_init text_bytes)) = text_bytes ∧
    (∀ chunk ∈ (json_write_all json_init text_bytes).chunks, chunk.length = 8) ∧
    (json_write_all json_init text_bytes).position ≤ 8 ∧
    Msgpack.f_encode_output
      (Msgpack.msg_flush (Msgpack.msg_write_str Msgpack.msg_init binary_bytes)) =
        binary_bytes ∧
    (∀ chunk ∈ (Msgpack.msg_write_str Msgpack.msg_init binary_bytes).table,
      chunk.length = 16384) ∧
    (Msgpack.msg_write_str Msgpack.msg_init binary_bytes).position ≤ 16384 ∧
    (json_flush (json_write_all json_init text_bytes)).index =
      ((json_flush (json_write_all json_init text_bytes)).chunks.length : Int) + 1 ∧
    (Msgpack.msg_flush (Msgpack.msg_write_str Msgpack.msg_init binary_bytes)).table.length + 1 <
      2 ^ 31 - 1 := by
  have hj : ChunksFull (json_write_all json_init text_bytes) :=
    chunks_write_all text_bytes json_init chunks_init
  have hc : Counted (json_write_all json_init text_bytes) :=
    counted_write_all text_bytes json_init chunks_init counted_init (by
      rw [show json_init.contents = [] from rfl]
      simp only [List.length_nil]
      omega)
  have hm : Msgpack.ChunksFull (Msgpack.msg_write_str Msgpack.msg_init binary_bytes) :=
    Msgpack.msg_chunks_write_str binary_bytes Msgpack.msg_init
      ⟨by simp [Msgpack.msg_init], by simp [Msgpack.msg_init], by simp [Msgpack.msg_init]⟩
  have hlen := contents_length _ hj
  rw [contents_write_all, show json_init.contents = [] from rfl, List.nil_append] at hlen
  refine ⟨?_, hj.1, hj.2.1, ?_, hm.1, hm.2.1, ?_, ?_⟩
  · rw [output_flush_small _ hj hc (by rw [contents_write_all]; exact ht), contents_write_all]
    rfl
  · rw [Msgpack.output_flush, Msgpack.contents_write_init]
  · have := (counted_flush _ hc (by unfold text_limit at ht; omega)).2
    rw [this]
    simp [json_t.chunks]
  · exact msg_flush_count _ hm (by rw [Msgpack.contents_write_init]; exact hb)

/-- Seventeen bytes through the writer of the text codec, two full chunks and
one byte, and three bytes through the writer of the binary codec, are
assembled as they were written. -/
theorem chunked_writer_is_append_witness :
    f_encode_output (json_flush (json_write_all json_init
        [1, 2, 3, 4, 5, 6, 7, 8, 9, 10, 11, 12, 13, 14, 15, 16, 17])) =
      [1, 2, 3, 4, 5, 6, 7, 8, 9, 10, 11, 12, 13, 14, 15, 16, 17] ∧
    Msgpack.f_encode_output
      (Msgpack.msg_flush (Msgpack.msg_write_str Msgpack.msg_init [1, 2, 3])) = [1, 2, 3] :=
  ⟨(chunked_writer_is_append [1, 2, 3, 4, 5, 6, 7, 8, 9, 10, 11, 12, 13, 14, 15, 16, 17]
      [1, 2, 3] (by decide) (by decide)).1,
    (chunked_writer_is_append [1, 2, 3, 4, 5, 6, 7, 8, 9, 10, 11, 12, 13, 14, 15, 16, 17]
      [1, 2, 3] (by decide) (by decide)).2.2.2.1⟩

/-- After `8 * (2^31 - 2) + 1` letters `a` written through the writer of the
text codec, the last flush stores the chunk at the index `2^31 - 1`, the `int`
counter overflows to `-2^31`, and the output loop of `f_encode` adds no chunk:
the result is empty, not the written sequence. -/
theorem chunked_writer_counterexample :
    (List.replicate (text_limit + 1) (97 : UInt8)).length = 8 * (2 ^ 31 - 2) + 1 ∧
    (json_flush (json_write_all json_init (List.replicate (text_limit + 1) 97))).index =
      -2 ^ 31 ∧
    f_encode_output (json_flush (json_write_all json_init (List.replicate (text_limit + 1) 97))) =
      [] ∧
    f_encode_output (json_flush (json_write_all json_init (List.replicate (text_limit + 1) 97))) ≠
      List.replicate (text_limit + 1) 97 := by
  have hlen : (List.replicate (text_limit + 1) (97 : UInt8)).length = text_limit + 1 :=
    List.length_replicate _ _
  have he := write_all_overflow (List.replicate (text_limit + 1) 97) (by rw [hlen]; omega)
    (by rw [hlen]; omega)
  refine ⟨hlen, he.1, he.2, ?_⟩
  · rw [he.2, List.replicate_succ]
    exact fun h => by cases h

/-! ### The two classifiers -/

theorem classifiers_below_limit (es : List (LuaValue × LuaValue)) (hn : es.length < 2 ^ 31) :
    (valid_array es = true ↔ 0 ≤ count_table es) ∧ (count_table es).natAbs = es.length := by
  unfold valid_array
  rw [valid_array_flag]
  rcases Msgpack.count_table_abs es hn with ⟨h1, h2⟩ | ⟨h1, h2, h3⟩
  · rw [h1, h2]
    exact ⟨⟨fun _ => (by omega), fun _ => rfl⟩, by omega⟩
  · rw [h1, h2]
    exact ⟨⟨fun h => (by cases h), fun h => (by omega)⟩, by omega⟩

/-- A table of `2^31 + 1` entries whose first key is not an integer: the text
codec does not take it for an array, and `count_table` returns `2^31 - 1`. -/
theorem classifiers_mixed_big (v : LuaValue) (rest : List (LuaValue × LuaValue))
    (hl : rest.length = 2147483648) :
    valid_array ((.boolean true, v) :: rest) = false ∧
    count_table ((.boolean true, v) :: rest) = 2147483647 := by
  have hv : valid_array ((.boolean true, v) :: rest) = false := rfl
  refine ⟨hv, ?_⟩
  rw [Msgpack.count_table_eq, ← valid_array_flag]
  unfold valid_array at hv
  rw [hv]
  simp only [List.length_cons, hl]
  rfl

/-- Claim C25, for a table of fewer than `2^31` entries.  `valid_array` of the
text codec returns true if and only if `count_table` of the binary codec returns
a non-negative number, and the absolute value of that number is the number of
entries. -/
theorem classifiers_agree (es : List (LuaValue × LuaValue)) (hn : es.length < 2 ^ 31) :
    (valid_array es = true ↔ 0 ≤ count_table es) ∧ (count_table es).natAbs = es.length :=
  classifiers_below_limit es hn

/-- A table of two entries that is a map for both classifiers. -/
theorem classifiers_agree_witness :
    ([(LuaValue.string [97], LuaValue.boolean true),
      (LuaValue.integer 1, LuaValue.boolean false)].length < 2 ^ 31) ∧
    ((valid_array [(.string [97], .boolean true), (.integer 1, .boolean false)] = true ↔
      0 ≤ count_table [(.string [97], .boolean true), (.integer 1, .boolean false)]) ∧
    (count_table [(.string [97], .boolean true), (.integer 1, .boolean false)]).natAbs =
      [(LuaValue.string [97], LuaValue.boolean true),
        (LuaValue.integer 1, LuaValue.boolean false)].length) :=
  ⟨by decide, classifiers_agree _ (by decide)⟩

/-- With `2^31 + 1` entries, the first of them with a key that is not an
integer, the classifiers disagree: `valid_array` returns false and `count_table`
returns the non-negative number `2^31 - 1`, which is not the number of
entries. -/
theorem classifiers_agree_counterexample :
    ((LuaValue.boolean true, LuaValue.boolean true) :: sequence_of_true (2 ^ 31)).length =
      2 ^ 31 + 1 ∧
    valid_array ((.boolean true, .boolean true) :: sequence_of_true (2 ^ 31)) = false ∧
    count_table ((.boolean true, .boolean true) :: sequence_of_true (2 ^ 31)) = 2147483647 := by
  have h31 : (2 : Nat) ^ 31 = 2147483648 := by norm_num
  have hl := Msgpack.sequence_length (2 ^ 31)
  generalize (2 : Nat) ^ 31 = n at h31 hl ⊢
  obtain ⟨h1, h2⟩ := classifiers_mixed_big (.boolean true) (sequence_of_true n) (hl.trans h31)
  refine ⟨?_, h1, h2⟩
  rw [List.length_cons, hl]

end Json

namespace Base64

open Lua

/-! ### The bits of `value` -/

theorem and_63 (x : Nat) : x &&& 63 = x % 64 := by
  rw [show (63 : Nat) = 2 ^ 6 - 1 from rfl, Nat.and_pow_two_sub_one_eq_mod]

theorem and_255 (x : Nat) : x &&& 255 = x % 256 := by
  rw [show (255 : Nat) = 2 ^ 8 - 1 from rfl, Nat.and_pow_two_sub_one_eq_mod]

theorem or_byte (v : Nat) (d : UInt8) : (v <<< 8) ||| d.toNat = v * 256 + d.toNat := by
  rw [Nat.shiftLeft_eq, Nat.mul_comm,
    ← Nat.mul_add_lt_is_or (show d.toNat < 2 ^ 8 from UInt8.toNat_lt_size d)]

theorem or_code (v d : Nat) (hd : d < 64) : (v <<< 6) ||| d = v * 64 + d := by
  rw [Nat.shiftLeft_eq, Nat.mul_comm, ← Nat.mul_add_lt_is_or (show d < 2 ^ 6 from hd)]

/-- Under the mask `& 63` the arithmetic shift of the `int` by at most 26 bits
shows the bits of the pattern. -/
theorem shift_low6 (w n : Nat) (hn : n = 0 ∨ n = 2 ∨ n = 4 ∨ n = 6) :
    shift_right w n &&& 63 = w / 2 ^ n % 64 := by
  rw [and_63]
  unfold shift_right C.to_uint32 C.to_int32
  rcases hn with h | h | h | h <;> subst h <;> omega

/-- Under the mask `& 255` the arithmetic shift of the `int` by at most 24 bits
shows the bits of the pattern. -/
theorem shift_low8 (w n : Nat) (hn : n = 0 ∨ n = 2 ∨ n = 4) :
    shift_right w n &&& 255 = w / 2 ^ n % 256 := by
  rw [and_255]
  unfold shift_right C.to_uint32 C.to_int32
  rcases hn with h | h | h <;> subst h <;> omega

/-! ### The encoder by groups of three bytes -/

theorem encode_step0 (d : UInt8) (data : List UInt8) (v w : Nat) (buf : List UInt8) :
    encode_loop (d :: data) ⟨v, 0, buf, w⟩ =
      encode_loop data ⟨((v <<< 8) ||| d.toNat) % 2 ^ 32, 2,
        buf ++ [digit (shift_right (((v <<< 8) ||| d.toNat) % 2 ^ 32) 2 &&& 63)], w + 1⟩ := by
  conv_lhs => unfold encode_loop
  simp only [Nat.zero_add, Nat.reduceAdd, Nat.reduceDiv, encode_emit]
  rfl

theorem encode_step2 (d : UInt8) (data : List UInt8) (v w : Nat) (buf : List UInt8) :
    encode_loop (d :: data) ⟨v, 2, buf, w⟩ =
      encode_loop data ⟨((v <<< 8) ||| d.toNat) % 2 ^ 32, 4,
        buf ++ [digit (shift_right (((v <<< 8) ||| d.toNat) % 2 ^ 32) 4 &&& 63)], w + 1⟩ := by
  conv_lhs => unfold encode_loop
  simp only [Nat.zero_add, Nat.reduceAdd, Nat.reduceDiv, encode_emit]
  rfl

theorem encode_step4 (d : UInt8) (data : List UInt8) (v w : Nat) (buf : List UInt8) :
    encode_loop (d :: data) ⟨v, 4, buf, w⟩ =
      encode_loop data ⟨((v <<< 8) ||| d.toNat) % 2 ^ 32, 0,
        buf ++ [digit (shift_right (((v <<< 8) ||| d.toNat) % 2 ^ 32) 6 &&& 63)] ++
          [digit (shift_right (((v <<< 8) ||| d.toNat) % 2 ^ 32) 0 &&& 63)], w + 1 + 1⟩ := by
  conv_lhs => unfold encode_loop
  simp only [Nat.zero_add, Nat.reduceAdd, Nat.reduceDiv, encode_emit]
  rfl

theorem encode_nil (s : encode_t) : encode_loop [] s = s := rfl

theorem digit_one (v : Nat) (a : UInt8) :
    shift_right ((v <<< 8 ||| a.toNat) % 2 ^ 32) 2 &&& 63 = a.toNat / 4 := by
  have ha : a.toNat < 256 := UInt8.toNat_lt_size a
  rw [or_byte, shift_low6 _ 2 (Or.inr (Or.inl rfl))]
  omega

theorem digit_two (v : Nat) (a b : UInt8) :
    shift_right ((((v <<< 8 ||| a.toNat) % 2 ^ 32) <<< 8 ||| b.toNat) % 2 ^ 32) 4 &&& 63 =
      a.toNat % 4 * 16 + b.toNat / 16 := by
  have ha : a.toNat < 256 := UInt8.toNat_lt_size a
  have hb : b.toNat < 256 := UInt8.toNat_lt_size b
  rw [or_byte, or_byte, shift_low6 _ 4 (Or.inr (Or.inr (Or.inl rfl)))]
  omega

theorem digit_three (v : Nat) (b c : UInt8) :
    shift_right ((((v <<< 8 ||| b.toNat) % 2 ^ 32) <<< 8 ||| c.toNat) % 2 ^ 32) 6 &&& 63 =
      b.toNat % 16 * 4 + c.toNat / 64 := by
  have hb : b.toNat < 256 := UInt8.toNat_lt_size b
  have hc : c.toNat < 256 := UInt8.toNat_lt_size c
  rw [or_byte, or_byte, shift_low6 _ 6 (Or.inr (Or.inr (Or.inr rfl)))]
  omega

theorem digit_four (v : Nat) (c : UInt8) :
    shift_right ((v <<< 8 ||| c.toNat) % 2 ^ 32) 0 &&& 63 = c.toNat % 64 := by
  have hc : c.toNat < 256 := UInt8.toNat_lt_size c
  rw [or_byte, shift_low6 _ 0 (Or.inl rfl)]
  omega

theorem digit_rest_one (v : Nat) (a : UInt8) :
    shift_right ((((v <<< 8 ||| a.toNat) % 2 ^ 32) <<< 8) % 2 ^ 32) 4 &&& 63 =
      a.toNat % 4 * 16 := by
  have ha : a.toNat < 256 := UInt8.toNat_lt_size a
  rw [or_byte, Nat.shiftLeft_eq, shift_low6 _ 4 (Or.inr (Or.inr (Or.inl rfl)))]
  omega

theorem digit_rest_two (v : Nat) (b : UInt8) :
    shift_right ((((v <<< 8 ||| b.toNat) % 2 ^ 32) <<< 8) % 2 ^ 32) 6 &&& 63 =
      b.toNat % 16 * 4 := by
  have hb : b.toNat < 256 := UInt8.toNat_lt_size b
  rw [or_byte, Nat.shiftLeft_eq, shift_low6 _ 6 (Or.inr (Or.inr (Or.inr rfl)))]
  omega

theorem encode_three (a b c : UInt8) (rest : List UInt8) (v w : Nat) (buf : List UInt8) :
    ∃ v3, encode_loop (a :: b :: c :: rest) ⟨v, 0, buf, w⟩ =
      encode_loop rest ⟨v3, 0, buf ++ [digit (a.toNat / 4),
        digit (a.toNat % 4 * 16 + b.toNat / 16), digit (b.toNat % 16 * 4 + c.toNat / 64),
        digit (c.toNat % 64)], w + 4⟩ := by
  refine ⟨(((((v <<< 8 ||| a.toNat) % 2 ^ 32) <<< 8 ||| b.toNat) % 2 ^ 32) <<< 8 ||| c.toNat) %
    2 ^ 32, ?_⟩
  rw [encode_step0, encode_step2, encode_step4, digit_one, digit_two, digit_three, digit_four]
  simp only [List.append_assoc, List.singleton_append, List.cons_append, List.nil_append]

theorem encode_rest_two (v w : Nat) (buf : List UInt8) :
    encode_rest ⟨v, 2, buf, w⟩ = ⟨(v <<< 8) % 2 ^ 32, 10,
      buf ++ [digit (shift_right ((v <<< 8) % 2 ^ 32) 4 &&& 63)], w + 1⟩ := rfl

theorem encode_rest_four (v w : Nat) (buf : List UInt8) :
    encode_rest ⟨v, 4, buf, w⟩ = ⟨(v <<< 8) % 2 ^ 32, 12,
      buf ++ [digit (shift_right ((v <<< 8) % 2 ^ 32) 6 &&& 63)], w + 1⟩ := rfl

theorem pad_none (s : encode_t) (h : s.written % 4 = 0) : encode_pad 3 s = s := by
  unfold encode_pad
  rw [if_neg (by omega)]

theorem pad_one (s : encode_t) (h : s.written % 4 = 3) :
    (encode_pad 3 s).buffer = s.buffer ++ [61] := by
  unfold encode_pad
  rw [if_pos (by omega)]
  unfold encode_pad
  rw [if_neg (by simp only []; omega)]

theorem pad_two (s : encode_t) (h : s.written % 4 = 2) :
    (encode_pad 3 s).buffer = s.buffer ++ [61, 61] := by
  unfold encode_pad
  rw [if_pos (by omega)]
  unfold encode_pad
  rw [if_pos (by simp only []; omega)]
  unfold encode_pad
  rw [if_neg (by simp only []; omega)]
  simp

/-- The encoder on any state between two groups: the groups of the bytes
that are left are added to the buffer. -/
theorem encode_groups : ∀ (data : List UInt8) (v w : Nat) (buf : List UInt8), w % 4 = 0 →
    (encode_pad 3 (encode_rest (encode_loop data ⟨v, 0, buf, w⟩))).buffer = buf ++ groups data
  | [], v, w, buf, hw => by
    rw [encode_nil, show encode_rest ⟨v, 0, buf, w⟩ = ⟨v, 0, buf, w⟩ from rfl, pad_none _ hw]
    simp [groups]
  | [a], v, w, buf, hw => by
    rw [encode_step0, encode_nil, encode_rest_two, pad_two _ (by simp only []; omega),
      digit_one, digit_rest_one]
    simp [groups]
  | [a, b], v, w, buf, hw => by
    rw [encode_step0, encode_step2, encode_nil, encode_rest_four,
      pad_one _ (by simp only []; omega), digit_one, digit_two, digit_rest_two]
    simp [groups]
  | a :: b :: c :: rest, v, w, buf, hw => by
    obtain ⟨v3, h⟩ := encode_three a b c rest v w buf
    rw [h, encode_groups rest v3 (w + 4) _ (by omega)]
    simp [groups]

theorem f_encode_groups (s : List UInt8) : f_encode s = groups s := by
  unfold f_encode
  rw [encode_groups s 0 0 [] rfl]
  rfl

/-! ### The decoder on the groups -/

theorem digit_lt (x : Nat) (hx : x < 64) : decode_table.getD (digit x).toNat 65 = x := by
  revert x
  decide

theorem decode_digit_step (x : Nat) (hx : x < 64) (data : List UInt8) (v bits : Nat)
    (buf : List UInt8) :
    decode_loop (digit x :: data) v bits buf =
      decode_loop data (((v <<< 6) ||| x) % 2 ^ 32)
        (decode_emit (((v <<< 6) ||| x) % 2 ^ 32) ((bits + 6) / 8) (bits + 6) buf).1
        (decode_emit (((v <<< 6) ||| x) % 2 ^ 32) ((bits + 6) / 8) (bits + 6) buf).2 := by
  conv_lhs => unfold decode_loop
  simp only []
  rw [digit_lt x hx, if_pos hx]

theorem decode_pad (data : List UInt8) (v bits : Nat) (buf : List UInt8) (hb : bits < 8) :
    decode_loop (61 :: data) v bits buf = .ok buf := by
  conv_lhs => unfold decode_loop
  simp only []
  rw [show decode_table.getD (61 : UInt8).toNat 65 = 64 from rfl, if_neg (by decide), if_pos rfl,
    Nat.div_eq_of_lt hb]
  rfl

theorem byte_one (v x1 x2 : Nat) (a : UInt8) (h1 : x1 = a.toNat / 4) (h2 : x2 / 16 = a.toNat % 4)
    (hx : x2 < 64) :
    UInt8.ofNat (shift_right ((((v <<< 6 ||| x1) % 2 ^ 32) <<< 6 ||| x2) % 2 ^ 32) 4 &&& 255) =
      a := by
  have ha : a.toNat < 256 := UInt8.toNat_lt_size a
  rw [or_code v x1 (by omega), or_code _ x2 hx, shift_low8 _ 4 (Or.inr (Or.inr rfl))]
  rw [show ((v * 64 + x1) % 2 ^ 32 * 64 + x2) % 2 ^ 32 / 2 ^ 4 % 256 = a.toNat by omega]
  exact Msgpack.uint8_ofNat_toNat a

theorem byte_two (v x2 x3 : Nat) (b : UInt8) (h2 : x2 % 16 = b.toNat / 16) (hx2 : x2 < 64)
    (h3 : x3 / 4 = b.toNat % 16) (hx3 : x3 < 64) :
    UInt8.ofNat (shift_right ((((v <<< 6 ||| x2) % 2 ^ 32) <<< 6 ||| x3) % 2 ^ 32) 2 &&& 255) =
      b := by
  have hb : b.toNat < 256 := UInt8.toNat_lt_size b
  rw [or_code v x2 hx2, or_code _ x3 hx3, shift_low8 _ 2 (Or.inr (Or.inl rfl))]
  rw [show ((v * 64 + x2) % 2 ^ 32 * 64 + x3) % 2 ^ 32 / 2 ^ 2 % 256 = b.toNat by omega]
  exact Msgpack.uint8_ofNat_toNat b

theorem byte_three (v x3 x4 : Nat) (c : UInt8) (h3 : x3 % 4 = c.toNat / 64) (hx3 : x3 < 64)
    (h4 : x4 = c.toNat % 64) :
    UInt8.ofNat (shift_right ((((v <<< 6 ||| x3) % 2 ^ 32) <<< 6 ||| x4) % 2 ^ 32) 0 &&& 255) =
      c := by
  have hc : c.toNat < 256 := UInt8.toNat_lt_size c
  rw [or_code v x3 hx3, or_code _ x4 (by omega), shift_low8 _ 0 (Or.inl rfl)]
  rw [show ((v * 64 + x3) % 2 ^ 32 * 64 + x4) % 2 ^ 32 / 2 ^ 0 % 256 = c.toNat by omega]
  exact Msgpack.uint8_ofNat_toNat c

theorem decode_two (x1 x2 : Nat) (h1 : x1 < 64) (h2 : x2 < 64) (data : List UInt8) (v : Nat)
    (buf : List UInt8) :
    decode_loop (digit x1 :: digit x2 :: data) v 0 buf =
      decode_loop data ((((v <<< 6 ||| x1) % 2 ^ 32) <<< 6 ||| x2) % 2 ^ 32) 4
        (buf ++ [UInt8.ofNat
          (shift_right ((((v <<< 6 ||| x1) % 2 ^ 32) <<< 6 ||| x2) % 2 ^ 32) 4 &&& 255)]) := by
  rw [decode_digit_step x1 h1, decode_digit_step x2 h2]
  simp only [Nat.zero_add, Nat.reduceAdd, Nat.reduceDiv, Nat.reduceSub, decode_emit]

theorem decode_third (x3 : Nat) (h3 : x3 < 64) (data : List UInt8) (v : Nat) (buf : List UInt8) :
    decode_loop (digit x3 :: data) v 4 buf =
      decode_loop data ((v <<< 6 ||| x3) % 2 ^ 32) 2
        (buf ++ [UInt8.ofNat (shift_right ((v <<< 6 ||| x3) % 2 ^ 32) 2 &&& 255)]) := by
  rw [decode_digit_step x3 h3]
  simp only [Nat.zero_add, Nat.reduceAdd, Nat.reduceDiv, Nat.reduceSub, decode_emit]

theorem decode_fourth (x4 : Nat) (h4 : x4 < 64) (data : List UInt8) (v : Nat)
    (buf : List UInt8) :
    decode_loop (digit x4 :: data) v 2 buf =
      decode_loop data ((v <<< 6 ||| x4) % 2 ^ 32) 0
        (buf ++ [UInt8.ofNat (shift_right ((v <<< 6 ||| x4) % 2 ^ 32) 0 &&& 255)]) := by
  rw [decode_digit_step x4 h4]
  simp only [Nat.zero_add, Nat.reduceAdd, Nat.reduceDiv, Nat.reduceSub, decode_emit]

/-- The decoder on the groups of a byte string, from any state between two
groups: the bytes are added to the buffer. -/
theorem decode_groups : ∀ (s : List UInt8) (v : Nat) (buf : List UInt8),
    decode_loop (groups s) v 0 buf = .ok (buf ++ s)
  | [], v, buf => by
    rw [List.append_nil]
    rfl
  | [a], v, buf => by
    have ha : a.toNat < 256 := UInt8.toNat_lt_size a
    rw [show groups [a] = digit (a.toNat / 4) :: digit (a.toNat % 4 * 16) :: 61 :: [61] from rfl,
      decode_two _ _ (by omega) (by omega), decode_pad _ _ _ _ (by decide),
      byte_one v _ _ a rfl (by omega) (by omega)]
  | [a, b], v, buf => by
    have ha : a.toNat < 256 := UInt8.toNat_lt_size a
    have hb : b.toNat < 256 := UInt8.toNat_lt_size b
    rw [show groups [a, b] = digit (a.toNat / 4) :: digit (a.toNat % 4 * 16 + b.toNat / 16) ::
        digit (b.toNat % 16 * 4) :: [61] from rfl,
      decode_two _ _ (by omega) (by omega), decode_third _ (by omega),
      decode_pad _ _ _ _ (by decide), byte_one v _ _ a rfl (by omega) (by omega),
      byte_two _ _ _ b (by omega) (by omega) (by omega) (by omega)]
    simp
  | a :: b :: c :: rest, v, buf => by
    have ha : a.toNat < 256 := UInt8.toNat_lt_size a
    have hb : b.toNat < 256 := UInt8.toNat_lt_size b
    have hc : c.toNat < 256 := UInt8.toNat_lt_size c
    rw [show groups (a :: b :: c :: rest) = digit (a.toNat / 4) ::
        digit (a.toNat % 4 * 16 + b.toNat / 16) :: digit (b.toNat % 16 * 4 + c.toNat / 64) ::
        digit (c.toNat % 64) :: groups rest from rfl,
      decode_two _ _ (by omega) (by omega), decode_third _ (by omega),
      decode_fourth _ (by omega), decode_groups rest,
      byte_one v _ _ a rfl (by omega) (by omega),
      byte_two _ _ _ b (by omega) (by omega) (by omega) (by omega),
      byte_three _ _ _ c (by omega) (by omega) rfl]
    simp

/-! ### The shape of the encoded text -/

theorem groups_length : ∀ (s : List UInt8), (groups s).length = 4 * ((s.length + 2) / 3)
  | [] => by simp [groups]
  | [_] => by simp [groups]
  | [_, _] => by simp [groups]
  | a :: b :: c :: rest => by
    rw [show groups (a :: b :: c :: rest) = digit (a.toNat / 4) ::
        digit (a.toNat % 4 * 16 + b.toNat / 16) :: digit (b.toNat % 16 * 4 + c.toNat / 64) ::
        digit (c.toNat % 64) :: groups rest from rfl]
    simp only [List.length_cons, groups_length rest]
    omega

theorem digit_mem (x : Nat) (hx : x < 64) : digit x ∈ encode_table := by
  revert x
  decide

theorem groups_padding : ∀ (s : List UInt8), ∃ body,
    groups s = body ++ List.replicate ((3 - s.length % 3) % 3) 61 ∧ ∀ c ∈ body, c ∈ encode_table
  | [] => ⟨[], rfl, by simp⟩
  | [a] => by
    have ha : a.toNat < 256 := UInt8.toNat_lt_size a
    refine ⟨[digit (a.toNat / 4), digit (a.toNat % 4 * 16)], rfl, ?_⟩
    intro c hc
    simp only [List.mem_cons, List.mem_singleton, List.not_mem_nil, or_false] at hc
    rcases hc with rfl | rfl <;> exact digit_mem _ (by omega)
  | [a, b] => by
    have ha : a.toNat < 256 := UInt8.toNat_lt_size a
    have hb : b.toNat < 256 := UInt8.toNat_lt_size b
    refine ⟨[digit (a.toNat / 4), digit (a.toNat % 4 * 16 + b.toNat / 16),
      digit (b.toNat % 16 * 4)], rfl, ?_⟩
    intro c hc
    simp only [List.mem_cons, List.mem_singleton, List.not_mem_nil, or_false] at hc
    rcases hc with rfl | rfl | rfl <;> exact digit_mem _ (by omega)
  | a :: b :: c :: rest => by
    have ha : a.toNat < 256 := UInt8.toNat_lt_size a
    have hb : b.toNat < 256 := UInt8.toNat_lt_size b
    have hc : c.toNat < 256 := UInt8.toNat_lt_size c
    obtain ⟨body, h1, h2⟩ := groups_padding rest
    refine ⟨digit (a.toNat / 4) :: digit (a.toNat % 4 * 16 + b.toNat / 16) ::
      digit (b.toNat % 16 * 4 + c.toNat / 64) :: digit (c.toNat % 64) :: body, ?_, ?_⟩
    · rw [show groups (a :: b :: c :: rest) = digit (a.toNat / 4) ::
          digit (a.toNat % 4 * 16 + b.toNat / 16) :: digit (b.toNat % 16 * 4 + c.toNat / 64) ::
          digit (c.toNat % 64) :: groups rest from rfl, h1]
      have e : (3 - (a :: b :: c :: rest).length % 3) % 3 = (3 - rest.length % 3) % 3 := by
        simp only [List.length_cons]
        omega
      rw [e]
      rfl
    · intro x hx
      simp only [List.mem_cons] at hx
      rcases hx with rfl | rfl | rfl | rfl | hx
      · exact digit_mem _ (by omega)
      · exact digit_mem _ (by omega)
      · exact digit_mem _ (by omega)
      · exact digit_mem _ (by omega)
      · exact h2 x hx

/-- Claim C29.  For every byte string `s`, `f_decode` of `f_encode s` succeeds
and gives `s`; the encoded text has `4 * ceil(length(s) / 3)` characters, and it
consists of characters of the alphabet of 64 followed by exactly
`(3 - length(s) mod 3) mod 3` padding characters `=`, which is not in the
alphabet. -/
theorem base64_round_trip (s : List UInt8) :
    f_decode (f_encode s) = .ok s ∧
    (f_encode s).length = 4 * ((s.length + 2) / 3) ∧
    encode_table.length = 64 ∧ (61 : UInt8) ∉ encode_table ∧
    ∃ body, f_encode s = body ++ List.replicate ((3 - s.length % 3) % 3) 61 ∧
      ∀ c ∈ body, c ∈ encode_table := by
  rw [f_encode_groups]
  refine ⟨?_, groups_length s, rfl, by decide, groups_padding s⟩
  unfold f_decode
  rw [decode_groups s 0 [], List.nil_append]

end Base64
